import Mathlib

/-!
# HRX archives: a shallow embedding of `go-corelibs/hrx`

The development follows the Go sources file by file:

* `hrx-utils.go`    : `newBoundary`, `checkPathComponents`, `checkPathCharacter`
* `hrx-scanner.go`  : `parseHeaderLine` and the line records of the scanner
* `hrx-entry.go`    : `entry`, its predicates, `parseHRX`, `entry.String`
* `hrx-archive-parse.go`, `hrx-archive-finalize.go` : `parseReader`, `finalize`
* `hrx-archive.go`  : `archive`, `SetBoundary`, `Set`, `Get`, `Delete`, `String`

Conventions of the embedding.

* A Go `string` is its sequence of bytes, `GoString = List Nat` (each byte is a
  number below 256).  Runes are code points, also `Nat`.
* A Go `int` is an `Int`.  A caller can pass any `int` to `SetBoundary`, so the
  sums `boundary + 1` and `size + 1` of the widths wrap as they do on a 64-bit
  platform (`wrapInt`); line numbers and the counts of the scanner are bounded
  by the length of the text and stay far below `2^63`.
* A Go `error` is `Option GoError`, `none` being `nil`.
* A `*entry` is an address; the `store` of an archive maps the addresses to
  the records, so the ordered list `entries` and the map `lookup` alias the
  same records as in Go.  `fresh` is the next address `newEntry` hands out.
* The mutex and the reporter callback have no effect on the archive state and
  are left out.
-/

namespace Hrx

/-- A Go string: the list of its bytes. -/
abbrev GoString := List Nat

/-- The bytes of a Lean string literal whose characters are all ASCII
(used to write the inputs of the examples). -/
def ascii (s : String) : GoString := s.toList.map Char.toNat

/-- The result of an `int` operation of Go on a 64-bit platform: the
mathematical result `x`, wrapped into the range from `-2^63` to `2^63 - 1`. -/
def wrapInt (x : Int) : Int := (x + 2 ^ 63) % 2 ^ 64 - 2 ^ 63

/-! ## Go standard library: `strings`, `unicode/utf8`, `path/filepath` -/

/-- Go `strings.HasSuffix`. -/
def HasSuffix (s suffix : GoString) : Bool :=
  decide (suffix.length ≤ s.length) && (s.drop (s.length - suffix.length) == suffix)

/-- Go `strings.TrimSuffix`. -/
def TrimSuffix (s suffix : GoString) : GoString :=
  if HasSuffix s suffix then s.take (s.length - suffix.length) else s

/-- Whether `sub` begins the string `s`. -/
def startsWith : GoString → GoString → Bool
  | _, [] => true
  | [], _ :: _ => false
  | c :: cs, d :: ds => c == d && startsWith cs ds

/-- Go `strings.Contains`. -/
def Contains : GoString → GoString → Bool
  | [], sub => sub.isEmpty
  | c :: cs, sub => startsWith (c :: cs) sub || Contains cs sub

/-- Go `strings.Split(s, "/")`: the segments between the bytes `'/'`; the
empty string splits into one empty segment. -/
def splitSlash : GoString → List GoString
  | [] => [[]]
  | c :: cs =>
    if c = 47 then [] :: splitSlash cs
    else
      match splitSlash cs with
      | [] => [[c]]
      | seg :: segs => (c :: seg) :: segs

/-- A continuation byte of UTF-8 within the bounds `lo ≤ b ≤ hi`. -/
def inRange (lo hi b : Nat) : Bool := decide (lo ≤ b) && decide (b ≤ hi)

/-- Go `utf8.DecodeRuneInString`: the first rune of a non-empty string and the
number of bytes it takes; an invalid or truncated encoding decodes as
`(0xFFFD, 1)`. -/
def decodeRune : GoString → Nat × Nat
  | [] => (0xFFFD, 0)
  | b0 :: rest =>
    if b0 < 0x80 then (b0, 1)
    else if inRange 0xC2 0xDF b0 then
      match rest with
      | b1 :: _ =>
        if inRange 0x80 0xBF b1 then ((b0 - 0xC0) * 64 + (b1 - 0x80), 2) else (0xFFFD, 1)
      | _ => (0xFFFD, 1)
    else if inRange 0xE0 0xEF b0 then
      match rest with
      | b1 :: b2 :: _ =>
        let lo := if b0 = 0xE0 then 0xA0 else 0x80
        let hi := if b0 = 0xED then 0x9F else 0xBF
        if inRange lo hi b1 && inRange 0x80 0xBF b2 then
          ((b0 - 0xE0) * 4096 + (b1 - 0x80) * 64 + (b2 - 0x80), 3)
        else (0xFFFD, 1)
      | _ => (0xFFFD, 1)
    else if inRange 0xF0 0xF4 b0 then
      match rest with
      | b1 :: b2 :: b3 :: _ =>
        let lo := if b0 = 0xF0 then 0x90 else 0x80
        let hi := if b0 = 0xF4 then 0x8F else 0xBF
        if inRange lo hi b1 && inRange 0x80 0xBF b2 && inRange 0x80 0xBF b3 then
          ((b0 - 0xF0) * 262144 + (b1 - 0x80) * 4096 + (b2 - 0x80) * 64 + (b3 - 0x80), 4)
        else (0xFFFD, 1)
      | _ => (0xFFFD, 1)
    else (0xFFFD, 1)

/-- The loop of the conversion `[]rune(s)`, bounded by the number of bytes. -/
def runesAux : Nat → GoString → List Nat
  | 0, _ => []
  | n + 1, s =>
    match s with
    | [] => []
    | _ :: _ => (decodeRune s).1 :: runesAux n (s.drop (decodeRune s).2)

/-- Go `[]rune(s)`. -/
def runes (s : GoString) : List Nat := runesAux s.length s

/-- The loop of `utf8.ValidString`, bounded by the number of bytes. -/
def validAux : Nat → GoString → Bool
  | 0, s => s.isEmpty
  | n + 1, s =>
    match s with
    | [] => true
    | _ :: _ =>
      if decodeRune s = (0xFFFD, 1) then false else validAux n (s.drop (decodeRune s).2)

/-- Go `utf8.ValidString`. -/
def ValidString (s : GoString) : Bool := validAux s.length s

/-- Go `string(r)` for a rune `r`: its UTF-8 encoding, the encoding of U+FFFD
for a surrogate or a value above `0x10FFFF`. -/
def encodeRune (r : Nat) : GoString :=
  if r < 0x80 then [r]
  else if r < 0x800 then [0xC0 + r / 64, 0x80 + r % 64]
  else if inRange 0xD800 0xDFFF r || decide (0x10FFFF < r) then [0xEF, 0xBF, 0xBD]
  else if r < 0x10000 then [0xE0 + r / 4096, 0x80 + r / 64 % 64, 0x80 + r % 64]
  else [0xF0 + r / 262144, 0x80 + r / 4096 % 64, 0x80 + r / 64 % 64, 0x80 + r % 64]

/-- Go `unicode.IsSpace`. -/
def isSpace (r : Nat) : Bool :=
  inRange 0x09 0x0D r || r == 0x20 || r == 0x85 || r == 0xA0 || r == 0x1680 ||
  inRange 0x2000 0x200A r || r == 0x2028 || r == 0x2029 || r == 0x202F ||
  r == 0x205F || r == 0x3000

/-- The test `strings.TrimSpace(s) == ""`: every rune of `s` is white space. -/
def isBlank (s : GoString) : Bool := (runes s).all isSpace

/-- The string without its trailing bytes `'/'`. -/
def stripSlashes (s : GoString) : GoString :=
  (s.reverse.dropWhile (fun b => b == 47)).reverse

/-- Go `filepath.Base` (with `'/'` as the separator). -/
def filepathBase (path : GoString) : GoString :=
  if path = [] then [46]
  else
    match (splitSlash (stripSlashes path)).getLast? with
    | some (c :: cs) => c :: cs
    | _ => [47]

/-! ## `hrx-error.go` -/

/-- The package-level error values (`errors.New`), and `indexOutOfRange` for a
run-time panic on a slice index. -/
inductive Sentinel
  | ErrDstIsFile
  | ErrMalformedInput
  | ErrSequentialComments
  | ErrBadFileEntry
  | ErrDirectoryHasContents
  | ErrDuplicatePath
  | ErrFileAsParentDir
  | ErrNotFound
  | ErrEmptyArchive
  | ErrNotAnArchive
  | ErrBadArchiveHeader
  | ErrBadBoundary
  | ErrNoSpaceBeforePath
  | ErrInvalidUnicode
  | ErrStartsWithDirSep
  | ErrInvalidCharRange
  | ErrContainsColon
  | ErrEscapeCharacter
  | ErrContainsRelPath
  | indexOutOfRange
  deriving DecidableEq, Repr

/-- A non-nil Go `error` of this package: one of the package-level values, or
an `*Error` with its fields `File`, `Base`, `Wrap`, `Line`. -/
inductive GoError
  | plain (e : Sentinel)
  | Error (File : GoString) (Base : Option Sentinel) (Wrap : Option Sentinel) (Line : Int)
  deriving DecidableEq, Repr

/-- Go `newError`. -/
def newError (file : GoString) (line : Int) (wrap base : Option Sentinel) : GoError :=
  GoError.Error file base wrap line

/-! ## `hrx-utils.go` -/

/-- Go `newBoundary`. -/
def newBoundary (size : Int) (pathname : GoString) : GoString :=
  if size > 0 then
    let boundary := [60] ++ List.replicate size.toNat 61 ++ [62]
    let boundary := if pathname ≠ [] then boundary ++ ([32] ++ pathname) else boundary
    boundary ++ [10]
  else []

/-- Go `checkPathComponents`. -/
def checkPathComponents (pathname : GoString) : Option Sentinel :=
  match pathname with
  | [] => none
  | c :: _ =>
    if c = 47 then some Sentinel.ErrStartsWithDirSep
    else if Contains pathname [47, 47] then some Sentinel.ErrContainsRelPath
    else if (splitSlash pathname).any (fun name => name == [46] || name == [46, 46]) then
      some Sentinel.ErrContainsRelPath
    else none

/-- Go `checkPathCharacter`. -/
def checkPathCharacter (r : Nat) : Option Sentinel :=
  if r ≤ 0x1F || r == 0x7F then some Sentinel.ErrInvalidCharRange
  else if r = 58 then some Sentinel.ErrContainsColon
  else if r = 92 then some Sentinel.ErrEscapeCharacter
  else none

/-! ## `hrx-scanner.go` -/

/-- The results of `parseHeaderLine`, with the line itself: a `scannedLine`. -/
structure scannedLine where
  header : Bool
  boundary : Int
  pathname : GoString
  content : GoString
  err : Option Sentinel
  deriving DecidableEq, Repr

/-- The `for i := 1; i < len(runes); i++` loop of `parseHeaderLine`: `rs` are
the runes from index `i` on, `size` is the byte length of the line. -/
def headerLoop (size : Nat) :
    Nat → List Nat → Int → GoString → Bool → Int × GoString × Bool × Option Sentinel
  | _, [], boundary, pathname, header => (boundary, pathname, header, none)
  | i, r :: rest, boundary, pathname, header =>
    if header then
      match checkPathCharacter r with
      | some e => (boundary, pathname, header, some e)
      | none => headerLoop size (i + 1) rest boundary (pathname ++ encodeRune r) header
    else if r = 61 then
      headerLoop size (i + 1) rest (boundary + 1) pathname header
    else if r = 62 then
      if i + 1 < size then
        match rest with
        | [] => (boundary, pathname, true, some Sentinel.indexOutOfRange)
        | r1 :: rest1 =>
          if r1 = 32 then headerLoop size (i + 2) rest1 boundary pathname true
          else (boundary, pathname, true, some Sentinel.ErrNoSpaceBeforePath)
      else headerLoop size (i + 1) rest boundary pathname true
    else (boundary, pathname, header, none)

/-- Go `Scanner.parseHeaderLine`. -/
def parseHeaderLine (content : GoString) : Int × GoString × Bool × Option Sentinel :=
  let content := if HasSuffix content [10] then TrimSuffix content [10] else content
  match runes content with
  | [] => (0, [], false, none)
  | r0 :: rest =>
    if content.length > 0 && r0 == 60 then headerLoop content.length 1 rest 0 [] false
    else (0, [], false, none)

/-- The record the scanner keeps for a line (`Scanner.Scan`). -/
def scanLine (content : GoString) : scannedLine :=
  let r := parseHeaderLine content
  { header := r.2.2.1, boundary := r.1, pathname := r.2.1, content := content, err := r.2.2.2 }

/-- Modelled from the spec: the line reader `scanners.LineScanner` is an
external package; it yields the lines of the text in order, each with its
trailing newline preserved, the text after the last newline (when there is
any) being the last line. -/
def splitLines : GoString → List GoString
  | [] => []
  | c :: cs =>
    if c = 10 then [10] :: splitLines cs
    else
      match splitLines cs with
      | [] => [[c]]
      | l :: ls => (c :: l) :: ls

/-! ## `hrx-entry.go` -/

/-- Go `entry`: absent (`nil`) strings are `none`. -/
structure entry where
  hrx : Bool
  line : Int
  boundary : Int
  pathname : Option GoString
  body : Option GoString
  comment : Option GoString
  err : Option Sentinel
  deriving DecidableEq, Repr

/-- The zero value of `entry`. -/
instance : Inhabited entry :=
  ⟨{ hrx := false, line := 0, boundary := 0, pathname := none, body := none,
     comment := none, err := none }⟩

/-- Go `newEntry`. -/
def newEntry (line boundary : Int) (pathname body : GoString) (err : Option Sentinel) : entry :=
  { hrx := HasSuffix pathname (ascii ".hrx")
    line := line
    boundary := boundary
    pathname := if pathname ≠ [] then some pathname else none
    body := if body ≠ [] then some body else none
    comment := none
    err := err }

/-- Go `entry.IsComment`. -/
def entry.IsComment (e : entry) : Bool :=
  match e.pathname with
  | none => true
  | some p => p.isEmpty

/-- Go `entry.IsFile`. -/
def entry.IsFile (e : entry) : Bool :=
  match e.pathname with
  | none => false
  | some p => if p ≠ [] then !HasSuffix p [47] else false

/-- Go `entry.IsDir`. -/
def entry.IsDir (e : entry) : Bool :=
  match e.pathname with
  | none => false
  | some p => if p ≠ [] then HasSuffix p [47] else false

/-- Go `entry.IsHRX`. -/
def entry.IsHRX (e : entry) : Bool :=
  match e.pathname with
  | none => false
  | some p => if !e.IsComment then HasSuffix p (ascii ".hrx") else false

/-- Go `entry.GetPathname`. -/
def entry.GetPathname (e : entry) : GoString := e.pathname.getD []

/-- Go `entry.GetBody`. -/
def entry.GetBody (e : entry) : GoString := e.body.getD []

/-- Go `entry.GetComment`. -/
def entry.GetComment (e : entry) : GoString := e.comment.getD []

/-- Go `entry.Size`. -/
def entry.Size (e : entry) : Int × Bool :=
  if e.IsComment || e.IsFile then
    (match e.body with
      | some b => (b.length : Int)
      | none => 0, true)
  else (0, false)

/-- Go `entry.String`. -/
def entry.String (e : entry) : GoString :=
  let data : GoString := []
  let data :=
    match e.comment with
    | some c =>
      let data := data ++ newBoundary e.boundary []
      let data := data ++ c
      if !HasSuffix data [10] then data ++ [10] else data
    | none => data
  let data :=
    match e.pathname with
    | some p => data ++ newBoundary e.boundary p
    | none => data
  match e.body with
  | some b => data ++ b
  | none => data

/-- Go `entry.AppendBody`. -/
def entry.AppendBody (e : entry) (content : GoString) : entry :=
  match e.body with
  | none => { e with body := some content }
  | some b => { e with body := some (b ++ content) }

/-! ## `hrx-archive.go`: the archive record -/

/-- Go `archive`.  An element of `entries` and a value of `lookup` is an
address (a `*entry`); `store` gives the record at each address and `fresh` is
the first address not handed out yet. -/
structure archive where
  srcPath : GoString
  filename : GoString
  boundary : Int
  entries : List Nat
  lookup : GoString → Option Nat
  comment : Option GoString
  lastLine : Int
  store : Nat → entry
  fresh : Nat

/-- The record at an address (`*p`). -/
def archive.deref (a : archive) (p : Nat) : entry := a.store p

/-- Writing a record through an address (`*p = e`). -/
def archive.assign (a : archive) (p : Nat) (e : entry) : archive :=
  { a with store := fun q => if q = p then e else a.store q }

/-- The statements `a.entries = append(a.entries, this)` and
`a.lookup[key] = this` for a record `this` that is not in the archive yet: it
is stored at the fresh address. -/
def archive.push (a : archive) (key : GoString) (this : entry) : archive :=
  { a with
    store := fun q => if q = a.fresh then this else a.store q
    fresh := a.fresh + 1
    entries := a.entries ++ [a.fresh]
    lookup := fun k => if k = key then some a.fresh else a.lookup k }

/-- The entries in order, as records (`for _, item := range a.entries`). -/
def archive.items (a : archive) : List entry := a.entries.map a.deref

/-- Go `newArchive`. -/
def newArchive (filename comment : GoString) : archive :=
  { srcPath := filename
    filename := filepathBase filename
    boundary := 0
    entries := []
    lookup := fun _ => none
    comment := if comment ≠ [] then some comment else none
    lastLine := 0
    store := fun _ => default
    fresh := 0 }

/-- Go `archive.error`. -/
def archive.error (a : archive) (line : Int) (wrap base : Option Sentinel) : GoError :=
  newError a.filename line wrap base

/-- Go `archive.GetBoundary`. -/
def archive.GetBoundary (a : archive) : Int := a.boundary

/-- Go `archive.SetComment`. -/
def archive.SetComment (a : archive) (comment : GoString) : archive :=
  { a with comment := some comment }

/-- Go `archive.GetComment`. -/
def archive.GetComment (a : archive) : GoString × Bool :=
  match a.comment with
  | some c => (c, true)
  | none => ([], false)

/-- Go `archive.DeleteComment`. -/
def archive.DeleteComment (a : archive) : archive := { a with comment := none }

/-- Go `archive.Len`. -/
def archive.Len (a : archive) : Int := a.entries.length

/-- Go `archive.List` (named apart from the type of lists). -/
def archive.ListPathnames (a : archive) : List GoString :=
  (a.items.filter (fun item => item.GetPathname ≠ [])).map entry.GetPathname

/-- Go `archive.Entry`: the address found, `none` for the `nil` interface. -/
def archive.Entry (a : archive) (pathname : GoString) : Option entry :=
  match a.lookup pathname with
  | some p => some (a.deref p)
  | none =>
    match a.lookup (pathname ++ [47]) with
    | some p => some (a.deref p)
    | none => none

/-- Go `archive.Get`. -/
def archive.Get (a : archive) (path : GoString) : GoString × GoString × Bool :=
  match a.lookup path with
  | some p =>
    match (a.deref p).body with
    | some body => (body, (a.deref p).GetComment, true)
    | none => ([], [], false)
  | none => ([], [], false)

/-- The loop of `archive.String` over the entries from index `idx` on. -/
def stringLoop (a : archive) (last : Int) : Int → List entry → GoString → GoString
  | _, [], data => data
  | idx, item :: rest, data =>
    let data := data ++ item.String
    let data :=
      if item.IsFile && item.GetBody ≠ [] then
        if idx < last then data ++ [10]
        else if a.comment ≠ none then data ++ [10]
        else data
      else data
    stringLoop a last (idx + 1) rest data

/-- Go `archive.String`. -/
def archive.String (a : archive) : GoString :=
  let last : Int := (a.entries.length : Int) - 1
  let data := stringLoop a last 0 a.items []
  match a.comment with
  | some c => data ++ (newBoundary a.boundary [] ++ c)
  | none => data

/-- The `for _, item := range a.entries` loop of `archive.WriteFile`. -/
def writeFileLoop : List entry → GoString → GoString
  | [], contents => contents
  | item :: rest, contents => writeFileLoop rest (contents ++ item.String)

/-- Go `archive.WriteFile`: the text it assembles in `contents` and hands to
`fh.WriteString` once the destination is open.  The file system (the
permissions, `os.OpenFile`, the error of the write) is left out. -/
def archive.WriteFile (a : archive) : GoString :=
  let contents := writeFileLoop a.items []
  match a.comment with
  | some c => contents ++ (newBoundary a.boundary [] ++ c)
  | none => contents

/-! ## `hrx-archive-parse.go` -/

/-- The variables of the loop of `archive.parseReader`: the fields `boundary`
and `lastLine` of the archive, its `entries` (the raw records, which get their
addresses when `finalize` keeps them) and the local `this`. -/
structure parseState where
  boundary : Int
  lastLine : Int
  raw : List entry
  this : Option entry
  deriving DecidableEq

/-- Go `archive.parseReaderGetBoundaryCheck`. -/
def parseReaderGetBoundaryCheck (st : parseState) (line : Int) (header : Bool) : Bool :=
  st.boundary == 0 && st.this.isNone && line == 1 && header

/-- Go `archive.parseReaderPeekTrimNLCheck`. -/
def parseReaderPeekTrimNLCheck (st : parseState) (this : entry) (nextBoundary : Int)
    (nextIsHeader : Bool) : Bool :=
  this.IsFile && nextIsHeader && nextBoundary == st.boundary

/-- The body of the loop of `archive.parseReader` after the boundary check, for
the line `content` with number `line` and scan results `sl`; `peek` is the line
`s.Peek()` returns, when there is one.  The result is the state after the line
(`continue` or the end of the body) or the error returned. -/
def parseLine (filename : GoString) (line : Int) (sl : scannedLine) (content : GoString)
    (peek : Option GoString) (st : parseState) : Except GoError parseState :=
  match st.this with
  | none =>
    if !sl.header then
      .error (newError filename line (some .ErrBadArchiveHeader) (some .ErrMalformedInput))
    else
      match checkPathComponents sl.pathname with
      | some eee => .error (newError filename line (some eee) (some .ErrBadFileEntry))
      | none => .ok { st with this := some (newEntry line sl.boundary sl.pathname [] sl.err) }
  | some this =>
    if sl.header && (!this.hrx || sl.boundary == st.boundary) then
      let next := newEntry line sl.boundary sl.pathname [] sl.err
      let next := if next.IsFile || next.IsComment then { next with body := some [] } else next
      .ok { st with raw := st.raw ++ [this], this := some next }
    else
      let this := this.AppendBody content
      let this :=
        match peek with
        | none => this
        | some peek =>
          if parseReaderPeekTrimNLCheck st this (scanLine peek).boundary (scanLine peek).header
          then { this with body := this.body.map (fun b => TrimSuffix b [10]) }
          else this
      .ok { st with this := some this }

/-- The body of the loop of `archive.parseReader`: `a.lastLine = line`, the
boundary check, then `parseLine`. -/
def parseStep (filename : GoString) (line : Int) (content : GoString)
    (peek : Option GoString) (st : parseState) : Except GoError parseState :=
  let sl := scanLine content
  let st := { st with lastLine := line }
  let st :=
    if parseReaderGetBoundaryCheck st line sl.header then { st with boundary := sl.boundary }
    else st
  parseLine filename line sl content peek st

/-- The `for s := NewScanner(reader); s.Scan();` loop of `archive.parseReader`:
`line` is the number of the line `content` at the head of the list, and the
line after it is what `s.Peek()` returns. -/
def parseLoop (filename : GoString) :
    Int → List GoString → parseState → Except GoError parseState
  | _, [], st => .ok st
  | line, content :: rest, st =>
    match parseStep filename line content rest.head? st with
    | .error e => .error e
    | .ok st => parseLoop filename (line + 1) rest st

/-! ## `hrx-archive-finalize.go` -/

/-- The loop over `strings.Split(item.GetPathname(), "/")` in `finalize`:
`true` when a cumulative name is the pathname of a file already kept. -/
def ancestorLoop (a : archive) : List GoString → GoString → Bool
  | [], _ => false
  | name :: names, build =>
    let build := if build ≠ [] then build ++ [47] else build
    let build := build ++ name
    match a.lookup build with
    | some vi => if (a.deref vi).IsFile then true else ancestorLoop a names build
    | none => ancestorLoop a names build

/-- The `for idx, item := range a.entries` loop of `finalize`, at the raw
record `item` followed by the raw records `rest` (`idx == last` when `rest` is
empty, and `a.entries[idx+1]` is the head of `rest`).  A record that is kept
gets its address when it is put in `keep` and in `lookup`. -/
def finalizeLoop : entry → List entry → archive → Except GoError archive
  | item, rest, a =>
    if item.err ≠ none then
      .error (a.error item.line item.err (some .ErrMalformedInput))
    else if item.boundary = 0 then
      .error (a.error item.line (some .ErrBadBoundary) (some .ErrMalformedInput))
    else if item.IsComment then
      match rest with
      | [] => .ok { a with comment := item.body }
      | next :: rest1 =>
        if next.IsComment then .error (a.error next.line none (some .ErrSequentialComments))
        else finalizeLoop { next with comment := item.body } rest1 a
    else if item.IsDir && (match item.body with
        | some b => decide (b.length > 1)
        | none => false) then
      .error (a.error item.line none (some .ErrDirectoryHasContents))
    else if (a.lookup item.GetPathname).isSome then
      .error (a.error item.line none (some .ErrDuplicatePath))
    else if ancestorLoop a (splitSlash item.GetPathname) [] then
      .error (a.error item.line none (some .ErrFileAsParentDir))
    else
      let a := a.push item.GetPathname item
      match rest with
      | [] => .ok a
      | next :: rest1 => finalizeLoop next rest1 a

/-- Go `archive.finalize`, on the raw records gathered by `parseReader`;
reading `a.entries[0]` of an empty list panics. -/
def archive.finalize (a : archive) (raw : List entry) : Except GoError archive :=
  match raw with
  | [] => .error (.plain .indexOutOfRange)
  | item :: rest => finalizeLoop item rest { a with boundary := item.boundary }

/-- Go `archive.parseReader`, for the archive `a` just made by `newArchive`
(the only archives it is called on) and the lines of the reader. -/
def archive.parseReader (a : archive) (lines : List GoString) : Except GoError archive :=
  match parseLoop a.filename 1 lines
      { boundary := a.boundary, lastLine := a.lastLine, raw := [], this := none } with
  | .error e => .error e
  | .ok st =>
    let raw :=
      match st.this with
      | some this => st.raw ++ [this]
      | none => st.raw
    archive.finalize { a with boundary := st.boundary, lastLine := st.lastLine } raw

/-- Go `archive.parseString`. -/
def archive.parseString (a : archive) (input : GoString) : Except GoError archive :=
  if isBlank input then .error (a.error 0 (some .ErrEmptyArchive) (some .ErrMalformedInput))
  else a.parseReader (splitLines input)

/-- Go `parseData` (and the exported `ParseData`). -/
def parseData (filename data : GoString) : Except GoError archive :=
  (newArchive filename []).parseString data

/-- Go `entry.parseHRX`. -/
def entry.parseHRX (e : entry) : Except GoError archive :=
  match e.pathname with
  | some pathname =>
    if e.hrx then
      match e.body with
      | some (c :: cs) => parseData pathname (c :: cs)
      | _ => .ok { newArchive pathname e.GetComment with boundary := wrapInt (e.boundary + 1) }
    else .error (.plain .ErrNotAnArchive)
  | none => .error (.plain .ErrNotAnArchive)

/-! ## `hrx-archive.go`: the operations -/

/-- Go `New` (`DefaultBoundary = 5`). -/
def New (filename comment : GoString) : archive :=
  { newArchive filename comment with boundary := 5 }

/-- Go `archive.ParseHRX`. -/
def archive.ParseHRX (a : archive) (path : GoString) : Except GoError archive :=
  match a.lookup path with
  | some item => (a.deref item).parseHRX
  | none => .error (.plain .ErrNotFound)

/-- The `for _, item := range a.entries` loop of `archive.SetBoundary`, over
the addresses still to visit.  `recur` stands for the call `ia.SetBoundary` on
the nested archive.  The result is `none` when a nested call does not come
back, and otherwise the error of the loop with the archive as the loop left
it. -/
def setBoundaryLoop (recur : archive → Int → Option (Option GoError × archive)) (size : Int) :
    List Nat → archive → Option (Option GoError × archive)
  | [], a => some (none, a)
  | item :: rest, a =>
    let a := a.assign item { a.deref item with boundary := size }
    match (a.deref item).parseHRX with
    | .error err => some (some err, a)
    | .ok ia =>
      match recur ia (wrapInt (size + 1)) with
      | none => none
      | some (some err, _) => some (some err, a)
      | some (none, ia) =>
        let updated := ia.String
        let a := a.assign item { a.deref item with body := some updated }
        setBoundaryLoop recur size rest a

/-- Go `archive.SetBoundary`, with a bound on the depth of the calls on nested
archives: `none` when the bound is reached. -/
def archive.SetBoundaryDepth : Nat → archive → Int → Option (Option GoError × archive)
  | 0, _, _ => none
  | depth + 1, a, size =>
    if size ≤ 0 then some (some (.plain .ErrBadBoundary), a)
    else
      match setBoundaryLoop (archive.SetBoundaryDepth depth) size a.entries a with
      | none => none
      | some (some err, a) => some (some err, a)
      | some (none, a) => some (none, { a with boundary := size })

/-- The total length of the bodies of a list of records. -/
def bodySum (l : List entry) : Nat := (l.map (fun e => e.GetBody.length)).sum

/-- A bound on the nesting depth of an archive: a nested archive is parsed
from the body of an entry and the bodies it holds are shorter in total than
that body (`parseData_bodySum`, `setBoundary_total`). -/
def archive.depthBound (a : archive) : Nat := bodySum a.items + 2

/-- Go `archive.SetBoundary`: the error returned and the archive after the
call (`none` when the calls on nested archives exceed `depthBound`). -/
def archive.SetBoundary (a : archive) (size : Int) : Option (Option GoError × archive) :=
  archive.SetBoundaryDepth a.depthBound a size

/-- The end of `archive.Set`: `this.comment = &comment` for a comment that is
not empty, `this.comment = nil` otherwise. -/
def archive.setEntryComment (a : archive) (this : Nat) (comment : GoString) : archive :=
  if comment ≠ [] then a.assign this { a.deref this with comment := some comment }
  else a.assign this { a.deref this with comment := none }

/-- Go `archive.Set`: the error returned and the archive after the call
(`none` when the nested `SetBoundary` does not come back). -/
def archive.Set (a : archive) (pathname body comment : GoString) :
    Option (Option GoError × archive) :=
  if body ≠ [] && !ValidString body then
    some (some (a.error (a.lastLine + 1) (some .ErrInvalidUnicode) (some .ErrMalformedInput)), a)
  else if comment ≠ [] && !ValidString comment then
    some (some (a.error (a.lastLine + 1) (some .ErrInvalidUnicode) (some .ErrMalformedInput)), a)
  else
    match a.lookup pathname with
    | none =>
      let a := { a with lastLine := a.lastLine + 1 }
      let this := newEntry a.lastLine a.boundary pathname body none
      match this.parseHRX with
      | .ok ia =>
        match ia.SetBoundary (wrapInt (a.boundary + 1)) with
        | none => none
        | some (some _, _) => some (none, a)
        | some (none, ia) =>
          let a := { a with lastLine := a.lastLine + ia.lastLine }
          some (none, (a.push pathname this).setEntryComment a.fresh comment)
      | .error _ => some (none, (a.push pathname this).setEntryComment a.fresh comment)
    | some this =>
      let a := a.assign this { a.deref this with body := some body }
      some (none, a.setEntryComment this comment)

/-- The `for idx, item := range a.entries` loop of `archive.Delete`, at the
addresses still to visit (`idx+1 < len(a.entries)` when an address follows,
which is `a.entries[idx+1]`): the archive with the line numbers rewritten, the
list kept and the decrement. -/
def deleteLoop (thisPathname : GoString) :
    List Nat → archive → List Nat → Int → archive × List Nat × Int
  | [], a, list, decrement => (a, list, decrement)
  | item :: rest, a, list, decrement =>
    if (a.deref item).GetPathname = thisPathname then
      match rest with
      | next :: _ =>
        deleteLoop thisPathname rest a list ((a.deref next).line - (a.deref item).line)
      | [] => deleteLoop thisPathname rest a list decrement
    else
      let a :=
        if decrement > 0 then
          a.assign item { a.deref item with line := (a.deref item).line - decrement }
        else a
      deleteLoop thisPathname rest a (list ++ [item]) decrement

/-- Go `archive.Delete`. -/
def archive.Delete (a : archive) (path : GoString) : archive :=
  match a.lookup path with
  | some this =>
    let r := deleteLoop (a.deref this).GetPathname a.entries a [] (-1)
    let a := { r.1 with entries := r.2.1 }
    let a := if r.2.2 > 0 then { a with lastLine := a.lastLine - r.2.2 } else a
    { a with lookup := fun k => if k = path then none else a.lookup k }
  | none => a

/-! ## Observations, the state invariant and the reachable archives -/

/-- The error of a call that returns an archive or an error. -/
def errorOf (r : Except GoError archive) : Option GoError :=
  match r with
  | .ok _ => none
  | .error e => some e

/-- The line numbers of the entries, in entry order. -/
def archive.lines (a : archive) : List Int := a.entries.map (fun p => (a.deref p).line)

/-- The state invariant of an archive: the addresses of the entry list are
distinct and were handed out, `lookup` holds exactly the pathnames of the
entries, each for the address of its entry, and the line numbers are at least
1, increase along the entry list and stay within the line counter. -/
structure archive.Inv (a : archive) : Prop where
  nodup : a.entries.Nodup
  lookup_iff : ∀ k p, a.lookup k = some p ↔ p ∈ a.entries ∧ (a.deref p).GetPathname = k
  lines_sorted : a.lines.Pairwise (fun x y => x < y)
  lines_le : ∀ p ∈ a.entries, (a.deref p).line ≤ a.lastLine
  fresh_gt : ∀ p ∈ a.entries, p < a.fresh
  lines_pos : ∀ p ∈ a.entries, 1 ≤ (a.deref p).line
  lastLine_nonneg : 0 ≤ a.lastLine

/-- The decrement `Delete` computes at the entry it removes: the line of the
entry that follows it minus its own line, and the initial `-1` when no entry
follows. -/
def deleteDecrement (a : archive) (this : Nat) (post : List Nat) (dec : Int) : Int :=
  match post with
  | next :: _ => (a.deref next).line - (a.deref this).line
  | [] => dec

/-- The archive after a call of `SetBoundary` or `Set`: the archive returned,
and the archive before the call when the call does not come back. -/
def archive.after (a : archive) (r : Option (Option GoError × archive)) : archive :=
  match r with
  | some (_, b) => b
  | none => a

/-- What `SetBoundary` leaves alone: the entry list, `lookup`, the line
counter, the fresh address, the archive comment, and in every record the line
number, the pathname, the `hrx` flag, the comment and the scan error. -/
structure archive.sameKeys (b a : archive) : Prop where
  entries : b.entries = a.entries
  lookup : b.lookup = a.lookup
  lastLine : b.lastLine = a.lastLine
  fresh : b.fresh = a.fresh
  comment : b.comment = a.comment
  filename : b.filename = a.filename
  line : ∀ q, (b.deref q).line = (a.deref q).line
  pathname : ∀ q, (b.deref q).pathname = (a.deref q).pathname
  hrx : ∀ q, (b.deref q).hrx = (a.deref q).hrx
  entryComment : ∀ q, (b.deref q).comment = (a.deref q).comment

/-- The records of the parse so far: those appended to `a.entries`, then
`this`. -/
def parseState.records (st : parseState) : List entry := st.raw ++ st.this.toList

/-- The line numbers of the records of the parse are at least 1, increase, and
stay within the line counter. -/
structure parseState.Ordered (st : parseState) : Prop where
  sorted : (st.records.map entry.line).Pairwise (fun x y => x < y)
  bounds : ∀ e ∈ st.records, 1 ≤ e.line ∧ e.line ≤ st.lastLine
  nonneg : 0 ≤ st.lastLine

/-- The archives a caller of the package can hold: those of `New`, of
`ParseData`, of `ParseReader` and `ParseFile` (on the lines read) and of
`ParseHRX`, and those after `SetBoundary`, `Set`, `Delete`, `SetComment` and
`DeleteComment` on such an archive. -/
inductive archive.Reachable : archive → Prop
  | new (filename comment : GoString) : Reachable (New filename comment)
  | parseData (filename data : GoString) (a : archive) :
      parseData filename data = .ok a → Reachable a
  | parseReader (filename : GoString) (lines : List GoString) (a : archive) :
      (newArchive filename []).parseReader lines = .ok a → Reachable a
  | parseHRX (e : entry) (a : archive) : e.parseHRX = .ok a → Reachable a
  | setBoundary (a b : archive) (size : Int) (e : Option GoError) :
      Reachable a → a.SetBoundary size = some (e, b) → Reachable b
  | set (a b : archive) (pathname body comment : GoString) (e : Option GoError) :
      Reachable a → a.Set pathname body comment = some (e, b) → Reachable b
  | delete (a : archive) (path : GoString) : Reachable a → Reachable (a.Delete path)
  | setComment (a : archive) (comment : GoString) : Reachable a → Reachable (a.SetComment comment)
  | deleteComment (a : archive) : Reachable a → Reachable a.DeleteComment

/-- The archive of the test "Set, Get, Delete Entries": `New("entries.hrx", "")`
after `Set("file", "contents", "comment")` and
`Set("dir/file", "subdir file", "")`. -/
def twoFiles : archive :=
  let a := New (ascii "entries.hrx") []
  let a := a.after (a.Set (ascii "file") (ascii "contents") (ascii "comment"))
  a.after (a.Set (ascii "dir/file") (ascii "subdir file") [])

/-! ## Observations on the records of a parse -/

/-- The test of `finalize` on a directory: `item.IsDir()` with a body of more
than one byte. -/
def entry.dirHasContents (item : entry) : Bool :=
  item.IsDir && (match item.body with
    | some b => decide (b.length > 1)
    | none => false)

/-- Whether the last of the records `item :: rest` is a comment. -/
def lastIsComment : entry → List entry → Bool
  | item, [] => item.IsComment
  | _, next :: rest => lastIsComment next rest

/-- Whether the last of the records is a comment. -/
def lastRecordIsComment : List entry → Bool
  | [] => false
  | item :: rest => lastIsComment item rest

/-- The state of the loop of `parseReader` when it starts, on the archive
`newArchive` makes. -/
def parseState.init : parseState := { boundary := 0, lastLine := 0, raw := [], this := none }

/-- The archive `finalize` is called on when the loop of `parseReader` has
left the state `st`. -/
def parseState.archive (st : parseState) (filename : GoString) : archive :=
  { newArchive filename [] with boundary := st.boundary, lastLine := st.lastLine }

/-- The state in which `parseString` reaches `finalize` on the input `x`:
`none` when the input is blank or the loop of `parseReader` returns an
error. -/
def scanRecords (filename x : GoString) : Option parseState :=
  if isBlank x then none
  else
    match parseLoop (filepathBase filename) 1 (splitLines x) parseState.init with
    | .ok st => some st
    | .error _ => none

/-- The records before a record are valid: `finalize` returns no error on them
(there may be none). -/
def prefixValid (a : archive) (pre : List entry) : Prop :=
  pre = [] ∨ errorOf (a.finalize pre) = none

/-- Validity of the records before a record can be computed. -/
instance (a : archive) (pre : List entry) : Decidable (prefixValid a pre) :=
  inferInstanceAs (Decidable (_ ∨ _))

/-- The boundary width of the archive in the text `x`: the width of its first
line. -/
def archiveWidth (x : GoString) : Int :=
  match splitLines x with
  | [] => 0
  | l :: _ => (scanLine l).boundary

/-- Comment attachment as the specification words it, on the records in
order: a comment-only record followed by a record that is not a comment is
dropped and its body becomes the comment of that record; a comment-only record
that is the last record is dropped; every other record is kept as it is. -/
def attachComments : List entry → List entry
  | [] => []
  | [r] => if r.IsComment then [] else [r]
  | c :: n :: rest =>
    if c.IsComment then
      if n.IsComment then attachComments (n :: rest)
      else { n with comment := c.body } :: attachComments rest
    else c :: attachComments (n :: rest)

/-- The archive comment as the specification words it: the body of a
comment-only record that is the last record. -/
def lastComment : List entry → Option GoString
  | [] => none
  | [r] => if r.IsComment then r.body else none
  | _ :: n :: rest => lastComment (n :: rest)

/-- The part of the state invariant that does not depend on line numbers:
`lookup` holds exactly the pathnames of the entries, each for the address of
its entry, and the addresses of the entries were handed out. -/
structure archive.Keyed (a : archive) : Prop where
  lookup_iff : ∀ k p, a.lookup k = some p ↔ p ∈ a.entries ∧ (a.deref p).GetPathname = k
  fresh_gt : ∀ p ∈ a.entries, p < a.fresh

/-- The segments of a pathname joined by `'/'` again. -/
def joinSlash : List GoString → GoString
  | [] => []
  | [n] => n
  | n :: m :: ns => n ++ 47 :: joinSlash (m :: ns)

/-- The file `r` is above `d`: the pathname of `r`, followed by `'/'`, begins
the pathname of `d`. -/
def entry.isAbove (r d : entry) : Bool :=
  r.IsFile && startsWith d.GetPathname (r.GetPathname ++ [47])

/-- The path-prefix invariant: no entry has a file entry of the list above
it. -/
def pathPrefixFree (items : List entry) : Bool :=
  items.all (fun d => items.all (fun r => !r.isAbove d))

/-- The part of the path-prefix invariant `finalize` checks: no entry whose
pathname does not begin with `'/'` has a file entry above it that precedes it
in the list. -/
def noFileBefore (items : List entry) : Prop :=
  items.Pairwise (fun r d => d.GetPathname.head? ≠ some 47 → r.isAbove d = false)

/-! ## Observations on serialisation, classification and the boundary widths -/

/-- The boundary line of width `w` without a pathname, `<`, `w` times `=`,
`>` and a newline. -/
def boundaryLine (w : Int) : GoString := [60] ++ List.replicate w.toNat 61 ++ [62, 10]

/-- The header line of width `w` for the pathname `p`: `<`, `w` times `=`,
`>`, a space, `p` and a newline. -/
def headerLine (w : Int) (p : GoString) : GoString :=
  [60] ++ List.replicate w.toNat 61 ++ [62, 32] ++ p ++ [10]

/-- The text of an entry as the specification words it: when a comment `c` is
attached, the boundary line followed by `c` and by one newline exactly when
`c` does not end with a newline; then, when a pathname is present, its header
line; then the body. -/
def entryTextSpec (e : entry) : GoString :=
  (match e.comment with
    | some c => boundaryLine e.boundary ++ c ++ (if HasSuffix c [10] then [] else [10])
    | none => []) ++
  (match e.pathname with
    | some p => headerLine e.boundary p
    | none => []) ++
  (match e.body with
    | some b => b
    | none => [])

/-- The text of an archive as the specification words it: the texts of the
entries in order, one newline after each file entry with a body that is not
empty when another entry follows or the archive has a comment; then, when the
archive has a comment, the boundary line of the archive and the comment. -/
def archiveTextSpec (a : archive) : GoString :=
  (a.items.enum.map (fun ie =>
    ie.2.String ++
      (if ie.2.IsFile && decide (ie.2.GetBody ≠ []) &&
          (decide (ie.1 + 1 < a.items.length) || a.comment.isSome)
        then [10] else []))).flatten ++
  (match a.comment with
    | some c => boundaryLine a.boundary ++ c
    | none => [])

/-- The boundary widths of an archive are positive: its own and those of its
entries. -/
structure archive.Wide (a : archive) : Prop where
  boundary : 1 ≤ a.boundary
  entries : ∀ p ∈ a.entries, 1 ≤ (a.deref p).boundary

/-- The archives a caller obtains through the package: those of `New`, of
`ParseData`, of `ParseReader` and `ParseFile` (on the lines read), those
`ParseHRX` returns for a pathname or an entry of such an archive, the entry
being of a width below the largest `int` when its body is empty, and those
after `SetBoundary`, `Set`, `Delete`, `SetComment` and `DeleteComment` on such
an archive. -/
inductive archive.Built : archive → Prop
  | new (filename comment : GoString) : Built (New filename comment)
  | parseData (filename data : GoString) (a : archive) :
      parseData filename data = .ok a → Built a
  | parseReader (filename : GoString) (lines : List GoString) (a : archive) :
      (newArchive filename []).parseReader lines = .ok a → Built a
  | parseHRX (a b : archive) (path : GoString) :
      Built a → a.ParseHRX path = .ok b →
      (∀ e, a.Entry path = some e → e.GetBody = [] → e.boundary < 2 ^ 63 - 1) → Built b
  | entryParseHRX (a b : archive) (pathname : GoString) (e : entry) :
      Built a → a.Entry pathname = some e → e.parseHRX = .ok b →
      (e.GetBody = [] → e.boundary < 2 ^ 63 - 1) → Built b
  | setBoundary (a b : archive) (size : Int) (e : Option GoError) :
      Built a → a.SetBoundary size = some (e, b) → Built b
  | set (a b : archive) (pathname body comment : GoString) (e : Option GoError) :
      Built a → a.Set pathname body comment = some (e, b) → Built b
  | delete (a : archive) (path : GoString) : Built a → Built (a.Delete path)
  | setComment (a : archive) (comment : GoString) : Built a → Built (a.SetComment comment)
  | deleteComment (a : archive) : Built a → Built a.DeleteComment

/-! ## Observations on the lines of a parse -/

/-- The number of bytes `'='` that follow the opening `'<'` of a line
directly, one trailing newline of the line removed; 0 when the line does not
start with `'<'`. -/
def leadingEquals (line : GoString) : Nat :=
  match TrimSuffix line [10] with
  | [] => 0
  | c :: t => if c = 60 then (t.takeWhile (fun b => b == 61)).length else 0

/-- The state of the loop of `parseReader` on the lines `lines` after its first
`n` passes (after all of them when there are fewer lines), or the error one of
these passes returns; `s.Peek()` sees the lines that follow. -/
def parseLoopUpTo (filename : GoString) :
    Nat → Int → List GoString → parseState → Except GoError parseState
  | 0, _, _, st => .ok st
  | _ + 1, _, [], st => .ok st
  | n + 1, line, content :: rest, st =>
    match parseStep filename line content rest.head? st with
    | .error e => .error e
    | .ok st => parseLoopUpTo filename n (line + 1) rest st

/-- The raw lines of the numbers `lo + 1` to `hi`, joined. -/
def linesBetween (lines : List GoString) (lo hi : Int) : GoString :=
  ((lines.drop lo.toNat).take (hi - lo).toNat).flatten

/-- The text `s`, with one trailing newline removed when `c` holds. -/
def trimNewlineIf (c : Bool) (s : GoString) : GoString :=
  if c then TrimSuffix s [10] else s

/-- The body of the record `r`, followed by the record `r2`, as the
specification words it for the lines `lines` of an archive of width `w`: the
raw lines between the two headers, joined, with one trailing newline removed
when `r` is a file and the header of `r2` has the width of the archive. -/
def bodyBetween (lines : List GoString) (w : Int) (r r2 : entry) : Prop :=
  r.GetBody = trimNewlineIf (r.IsFile && r2.boundary == w)
    (linesBetween lines r.line (r2.line - 1))

/-- Whether the line `s.Peek()` returns is a header of the width `w`. -/
def peekIsHeaderOf (w : Int) (peek : Option GoString) : Bool :=
  match peek with
  | some p => (scanLine p).header && (scanLine p).boundary == w
  | none => false

/-- The record a header line opens after the first record (`newEntry`, then a
present, empty body for a file or a comment), in `parseReader`. -/
def openEntry (line : Int) (sl : scannedLine) : entry :=
  let next := newEntry line sl.boundary sl.pathname [] sl.err
  if next.IsFile || next.IsComment then { next with body := some [] } else next

/-- The current record of `parseReader` after the line `content` is appended to
its body (`AppendBody`, then the newline trimmed when `s.Peek()` calls for
it). -/
def appendLine (st : parseState) (this : entry) (content : GoString)
    (peek : Option GoString) : entry :=
  let this := this.AppendBody content
  match peek with
  | none => this
  | some peek =>
    if parseReaderPeekTrimNLCheck st this (scanLine peek).boundary (scanLine peek).header
    then { this with body := this.body.map (fun b => TrimSuffix b [10]) }
    else this

/-- The `hrx` flag of a record is the one `newEntry` computes from the
pathname. -/
def entry.flagged (e : entry) : Prop := e.hrx = HasSuffix e.GetPathname (ascii ".hrx")

/-- The error stands for a run-time panic on a slice index. -/
def GoError.isPanic : GoError → Bool
  | .plain e => e == Sentinel.indexOutOfRange
  | .Error _ base wrap _ =>
    base == some Sentinel.indexOutOfRange || wrap == some Sentinel.indexOutOfRange

/-- What `SetBoundary(size)` finds on its way through the entries at the
addresses given, read on the archive before the call: every entry the loop
visits has the width `size` already, and for each whose nested archive is
renumbered (`ParseHRX` and the nested `SetBoundary` succeed) the text written
back is the body the entry holds.  The loop stops, as `SetBoundary` does, at
the first entry on which `ParseHRX` or the nested `SetBoundary` fails. -/
def archive.cascadeStable (a : archive) (size : Int) : List Nat → Bool
  | [] => true
  | item :: rest =>
    decide ((a.deref item).boundary = size) &&
      match (a.deref item).parseHRX with
      | .error _ => true
      | .ok ia =>
        match ia.SetBoundary (wrapInt (size + 1)) with
        | some (none, ib) =>
          decide ((a.deref item).body = some ib.String) && a.cascadeStable size rest
        | _ => true

/-! ## Lemmas -/

/-- `List()` depends only on the entry order and on the pathnames of the
records. -/
theorem listPathnames_congr (a b : archive) (hentries : b.entries = a.entries)
    (hpath : ∀ q, (b.deref q).GetPathname = (a.deref q).GetPathname) :
    b.ListPathnames = a.ListPathnames := by
  unfold archive.ListPathnames archive.items
  rw [hentries]
  induction a.entries with
  | nil => rfl
  | cons q qs ih =>
    simp only [List.map_cons, List.filter_cons, hpath q]
    split
    · simp only [List.map_cons, hpath q, ih]
    · exact ih

/-- The loop of `Delete` over addresses none of which has the pathname looked
for: all are kept, and each record visited has its line number decreased when
the decrement is positive. -/
theorem deleteLoop_rest (tp : GoString) (dec : Int) :
    ∀ (l : List Nat) (a : archive) (list : List Nat),
      (∀ q ∈ l, (a.deref q).GetPathname ≠ tp) → l.Nodup →
      ∃ b : archive, deleteLoop tp l a list dec = (b, list ++ l, dec) ∧
        b = { a with store := b.store } ∧
        ∀ q, b.deref q =
          if q ∈ l ∧ 0 < dec then { a.deref q with line := (a.deref q).line - dec }
          else a.deref q := by
  intro l
  induction l with
  | nil =>
    intro a list _ _
    exact ⟨a, by simp [deleteLoop], rfl, by simp⟩
  | cons x xs ih =>
    intro a list hne hnd
    have hx : (a.deref x).GetPathname ≠ tp := hne x (List.mem_cons_self _ _)
    obtain ⟨hxn, hnd1⟩ := List.nodup_cons.mp hnd
    by_cases hdec : 0 < dec
    · have hne1 : ∀ q ∈ xs,
          ((a.assign x { a.deref x with line := (a.deref x).line - dec }).deref q).GetPathname
            ≠ tp := by
        intro q hq
        have hqx : q ≠ x := fun h => hxn (h ▸ hq)
        simpa [archive.assign, archive.deref, hqx] using hne q (List.mem_cons_of_mem _ hq)
      obtain ⟨b, hb, hfr, hd⟩ := ih _ (list ++ [x]) hne1 hnd1
      refine ⟨b, ?_, ?_, ?_⟩
      · rw [deleteLoop.eq_def]
        simp only [if_neg hx, gt_iff_lt, hdec, if_true]
        rw [hb]; simp
      · rw [hfr]; rfl
      · intro q
        rw [hd q]
        by_cases hqx : q = x
        · subst hqx
          simp [hxn, hdec, archive.assign, archive.deref]
        · simp [hqx, hdec, archive.assign, archive.deref]
    · have hne1 : ∀ q ∈ xs, (a.deref q).GetPathname ≠ tp :=
        fun q hq => hne q (List.mem_cons_of_mem _ hq)
      obtain ⟨b, hb, hfr, hd⟩ := ih a (list ++ [x]) hne1 hnd1
      refine ⟨b, ?_, hfr, ?_⟩
      · rw [deleteLoop.eq_def]
        simp only [if_neg hx, gt_iff_lt, hdec, if_false]
        rw [hb]; simp
      · intro q
        rw [hd q]
        simp [hdec]

/-- The loop of `Delete` over an entry list in which exactly the address `this`
has the pathname looked for. -/
theorem deleteLoop_split (tp : GoString) (this : Nat) (post : List Nat) :
    ∀ (pre : List Nat) (a : archive) (list : List Nat) (dec : Int),
      ¬ 0 < dec → (a.deref this).GetPathname = tp →
      (∀ q ∈ pre ++ post, (a.deref q).GetPathname ≠ tp) → (pre ++ this :: post).Nodup →
      ∃ b : archive,
        deleteLoop tp (pre ++ this :: post) a list dec
          = (b, list ++ (pre ++ post), deleteDecrement a this post dec) ∧
        b = { a with store := b.store } ∧
        ∀ q, b.deref q =
          if q ∈ post ∧ 0 < deleteDecrement a this post dec then
            { a.deref q with line := (a.deref q).line - deleteDecrement a this post dec }
          else a.deref q := by
  intro pre
  induction pre with
  | nil =>
    intro a list dec hdec hthis hne hnd
    cases post with
    | nil =>
      refine ⟨a, ?_, rfl, by simp⟩
      rw [List.nil_append, deleteLoop.eq_def]
      simp only [if_pos hthis]
      rw [deleteLoop.eq_def]
      simp [deleteDecrement]
    | cons next r =>
      have hnd1 : (next :: r).Nodup := (List.nodup_cons.mp hnd).2
      obtain ⟨b, hb, hfr, hd⟩ :=
        deleteLoop_rest tp ((a.deref next).line - (a.deref this).line) (next :: r) a list
          (fun q hq => hne q (by simpa using hq)) hnd1
      refine ⟨b, ?_, hfr, ?_⟩
      · rw [List.nil_append, deleteLoop.eq_def]
        simp only [if_pos hthis]
        rw [hb]; simp [deleteDecrement]
      · intro q; rw [hd q]; simp [deleteDecrement]
  | cons x pre1 ih =>
    intro a list dec hdec hthis hne hnd
    have hx : (a.deref x).GetPathname ≠ tp := hne x (by simp)
    have hnd1 : (pre1 ++ this :: post).Nodup := (List.nodup_cons.mp hnd).2
    obtain ⟨b, hb, hfr, hd⟩ := ih a (list ++ [x]) dec hdec hthis
      (fun q hq => hne q (by
        rcases List.mem_append.mp hq with h | h
        · exact List.mem_append.mpr (Or.inl (List.mem_cons_of_mem _ h))
        · exact List.mem_append.mpr (Or.inr h))) hnd1
    refine ⟨b, ?_, hfr, hd⟩
    rw [List.cons_append, deleteLoop.eq_def]
    simp only [if_neg hx, gt_iff_lt, hdec, if_false]
    rw [hb]; simp

/-- `Delete` on an archive that satisfies the invariant: a pathname that is
not present changes nothing; for a present pathname, whose entry has the
address `this` and stands between the entries `pre` and `post`, the entry list
becomes `pre ++ post`, the pathname leaves `lookup`, the records of `pre` are
unchanged, and the line numbers of `post` and the line counter decrease by the
line of the entry that followed minus the line of the entry removed. -/
theorem delete_of_inv (a : archive) (path : GoString) (hinv : a.Inv) :
    (a.lookup path = none → a.Delete path = a) ∧
    ∀ (this : Nat) (pre post : List Nat),
      a.lookup path = some this → a.entries = pre ++ this :: post →
      (a.Delete path).entries = pre ++ post ∧
      this ∉ pre ++ post ∧
      (a.Delete path).lookup path = none ∧
      (∀ k, k ≠ path → (a.Delete path).lookup k = a.lookup k) ∧
      (∀ q, q ∉ post → (a.Delete path).deref q = a.deref q) ∧
      (post = [] →
        (a.Delete path).lastLine = a.lastLine ∧ ∀ q, (a.Delete path).deref q = a.deref q) ∧
      (∀ next rest, post = next :: rest →
        (a.Delete path).lastLine
          = a.lastLine - ((a.deref next).line - (a.deref this).line) ∧
        ∀ q ∈ post, (a.Delete path).deref q
          = { a.deref q with
              line := (a.deref q).line - ((a.deref next).line - (a.deref this).line) }) ∧
      (a.Delete path).boundary = a.boundary ∧ (a.Delete path).comment = a.comment ∧
      (a.Delete path).fresh = a.fresh := by
  refine ⟨fun h => by unfold archive.Delete; rw [h], ?_⟩
  intro this pre post hl hs
  obtain ⟨_, hpn⟩ := (hinv.lookup_iff path this).mp hl
  have hnd := hinv.nodup
  rw [hs] at hnd
  have hnotin : this ∉ pre ++ post := by
    have h1 := List.nodup_middle.mp hnd
    exact (List.nodup_cons.mp h1).1
  have hne : ∀ q ∈ pre ++ post, (a.deref q).GetPathname ≠ (a.deref this).GetPathname := by
    intro q hq heq
    have hqe : q ∈ a.entries := by
      rw [hs]
      rcases List.mem_append.mp hq with h | h
      · exact List.mem_append.mpr (Or.inl h)
      · exact List.mem_append.mpr (Or.inr (List.mem_cons_of_mem _ h))
    have hlq : a.lookup path = some q := (hinv.lookup_iff path q).mpr ⟨hqe, heq.trans hpn⟩
    rw [hl] at hlq
    exact hnotin (Option.some.inj hlq ▸ hq)
  obtain ⟨b, hb, hfr, hd⟩ :=
    deleteLoop_split (a.deref this).GetPathname this post pre a [] (-1) (by decide) rfl hne hnd
  have hpos : ∀ next rest, post = next :: rest →
      0 < (a.deref next).line - (a.deref this).line := by
    intro next rest hp
    have hsorted := hinv.lines_sorted
    unfold archive.lines at hsorted
    rw [hs, hp, List.map_append, List.map_cons, List.map_cons] at hsorted
    have h2 := (List.pairwise_append.mp hsorted).2.1
    have h3 := (List.pairwise_cons.mp h2).1 _ (List.mem_cons_self _ _)
    omega
  have hentries : (a.Delete path).entries = pre ++ post := by
    unfold archive.Delete
    rw [hl]
    simp only [hs, hb]
    split <;> simp
  have hlookup : (a.Delete path).lookup = fun k => if k = path then none else a.lookup k := by
    unfold archive.Delete
    rw [hl]
    simp only [hs, hb]
    rw [hfr]
    split <;> rfl
  have hstore : ∀ q, (a.Delete path).deref q = b.deref q := by
    intro q
    unfold archive.Delete
    rw [hl]
    simp only [hs, hb]
    split <;> rfl
  have hlast : (a.Delete path).lastLine
      = if deleteDecrement a this post (-1) > 0 then
          a.lastLine - deleteDecrement a this post (-1)
        else a.lastLine := by
    unfold archive.Delete
    rw [hl]
    simp only [hs, hb]
    rw [hfr]
    split <;> rfl
  have hbc : (a.Delete path).boundary = a.boundary ∧ (a.Delete path).comment = a.comment ∧
      (a.Delete path).fresh = a.fresh := by
    unfold archive.Delete
    rw [hl]
    simp only [hs, hb]
    rw [hfr]
    split <;> exact ⟨rfl, rfl, rfl⟩
  refine ⟨hentries, hnotin, ?_, ?_, ?_, ?_, ?_, hbc⟩
  · rw [hlookup]; simp
  · intro k hk; rw [hlookup]; simp [hk]
  · intro q hqp
    rw [hstore q, hd q]; simp [hqp]
  · intro hp
    subst hp
    refine ⟨?_, ?_⟩
    · rw [hlast]; simp [deleteDecrement]
    · intro q; rw [hstore q, hd q]; simp
  · intro next rest hp
    have hpos1 := hpos next rest hp
    subst hp
    refine ⟨?_, ?_⟩
    · rw [hlast]; simp [deleteDecrement, hpos1]
    · intro q hq
      rw [hstore q, hd q]
      simp only [deleteDecrement]
      rw [if_pos ⟨hq, hpos1⟩]

/-- The invariant only reads the entry list, `lookup`, the line counter, the
fresh address and the pathname and line number of each record. -/
theorem inv_congr (a b : archive) (hinv : a.Inv) (he : b.entries = a.entries)
    (hl : b.lookup = a.lookup) (hll : a.lastLine ≤ b.lastLine) (hf : a.fresh ≤ b.fresh)
    (hp : ∀ q, (b.deref q).GetPathname = (a.deref q).GetPathname)
    (hline : ∀ q, (b.deref q).line = (a.deref q).line) : b.Inv where
  nodup := he ▸ hinv.nodup
  lookup_iff := by
    intro k p
    rw [hl, he, hp]
    exact hinv.lookup_iff k p
  lines_sorted := by
    have h : b.lines = a.lines := by
      unfold archive.lines
      rw [he]
      exact List.map_congr_left (fun q _ => hline q)
    rw [h]
    exact hinv.lines_sorted
  lines_le := by
    intro p hpm
    rw [hline]
    exact le_trans (hinv.lines_le p (he ▸ hpm)) hll
  fresh_gt := by
    intro p hpm
    exact lt_of_lt_of_le (hinv.fresh_gt p (he ▸ hpm)) hf
  lines_pos := by
    intro p hpm
    rw [hline]
    exact hinv.lines_pos p (he ▸ hpm)
  lastLine_nonneg := le_trans hinv.lastLine_nonneg hll

/-- The archives of `newArchive` and of `New` satisfy the invariant. -/
theorem inv_newArchive (filename comment : GoString) : (newArchive filename comment).Inv where
  nodup := List.nodup_nil
  lookup_iff := by intro k p; simp [newArchive]
  lines_sorted := by simp [archive.lines, newArchive]
  lines_le := by intro p hp; simp [newArchive] at hp
  fresh_gt := by intro p hp; simp [newArchive] at hp
  lines_pos := by intro p hp; simp [newArchive] at hp
  lastLine_nonneg := by simp [newArchive]

/-- The pathname of the record `newEntry` makes is the pathname given. -/
theorem newEntry_GetPathname (line boundary : Int) (pathname body : GoString)
    (err : Option Sentinel) : (newEntry line boundary pathname body err).GetPathname = pathname := by
  unfold newEntry entry.GetPathname
  by_cases h : pathname = []
  · simp [h]
  · simp [h]

/-- Appending a record under a pathname that is not in `lookup`, with a line
number above those of the entries and within the line counter, keeps the
invariant. -/
theorem inv_push (a : archive) (key : GoString) (this : entry) (hinv : a.Inv)
    (hnone : a.lookup key = none) (hkey : this.GetPathname = key)
    (hlines : ∀ p ∈ a.entries, (a.deref p).line < this.line)
    (hle : this.line ≤ a.lastLine) (hpos : 1 ≤ this.line) : (a.push key this).Inv := by
  have hold : ∀ p ∈ a.entries, (a.push key this).deref p = a.deref p := by
    intro p hp
    have : p ≠ a.fresh := Nat.ne_of_lt (hinv.fresh_gt p hp)
    simp [archive.push, archive.deref, this]
  have hnew : (a.push key this).deref a.fresh = this := by
    simp [archive.push, archive.deref]
  have hfresh : a.fresh ∉ a.entries := fun h => Nat.lt_irrefl _ (hinv.fresh_gt _ h)
  constructor
  · show (a.entries ++ [a.fresh]).Nodup
    exact List.Nodup.append hinv.nodup (List.nodup_singleton _) (by simpa using hfresh)
  · intro k p
    show (if k = key then some a.fresh else a.lookup k) = some p
      ↔ p ∈ a.entries ++ [a.fresh] ∧ ((a.push key this).deref p).GetPathname = k
    by_cases hk : k = key
    · subst hk
      rw [if_pos rfl]
      constructor
      · intro h
        have hp : p = a.fresh := (Option.some.inj h).symm
        subst hp
        exact ⟨by simp, by rw [hnew, hkey]⟩
      · rintro ⟨hmem, hpath⟩
        rcases List.mem_append.mp hmem with h | h
        · rw [hold p h] at hpath
          have := (hinv.lookup_iff k p).mpr ⟨h, hpath⟩
          rw [hnone] at this
          exact absurd this (by simp)
        · rw [List.mem_singleton.mp h]
    · rw [if_neg hk]
      constructor
      · intro h
        obtain ⟨hmem, hpath⟩ := (hinv.lookup_iff k p).mp h
        exact ⟨List.mem_append.mpr (Or.inl hmem), by rw [hold p hmem]; exact hpath⟩
      · rintro ⟨hmem, hpath⟩
        rcases List.mem_append.mp hmem with h | h
        · rw [hold p h] at hpath
          exact (hinv.lookup_iff k p).mpr ⟨h, hpath⟩
        · rw [List.mem_singleton.mp h, hnew, hkey] at hpath
          exact absurd hpath.symm hk
  · have h : (a.push key this).lines = a.lines ++ [this.line] := by
      unfold archive.lines
      show List.map _ (a.entries ++ [a.fresh]) = _
      rw [List.map_append, List.map_singleton, hnew]
      congr 1
      exact List.map_congr_left (fun q hq => by rw [hold q hq])
    rw [h]
    refine List.pairwise_append.mpr ⟨hinv.lines_sorted, List.pairwise_singleton _ _, ?_⟩
    intro x hx y hy
    rw [List.mem_singleton.mp hy]
    unfold archive.lines at hx
    obtain ⟨p, hp, rfl⟩ := List.mem_map.mp hx
    exact hlines p hp
  · intro p hp
    rcases List.mem_append.mp (show p ∈ a.entries ++ [a.fresh] from hp) with h | h
    · rw [hold p h]; exact hinv.lines_le p h
    · rw [List.mem_singleton.mp h, hnew]; exact hle
  · intro p hp
    rcases List.mem_append.mp (show p ∈ a.entries ++ [a.fresh] from hp) with h | h
    · exact Nat.lt_succ_of_lt (hinv.fresh_gt p h)
    · rw [List.mem_singleton.mp h]; exact Nat.lt_succ_self _
  · intro p hp
    rcases List.mem_append.mp (show p ∈ a.entries ++ [a.fresh] from hp) with h | h
    · rw [hold p h]; exact hinv.lines_pos p h
    · rw [List.mem_singleton.mp h, hnew]; exact hpos
  · exact hinv.lastLine_nonneg

/-- An archive has its own keys. -/
theorem sameKeys_refl (a : archive) : a.sameKeys a :=
  ⟨rfl, rfl, rfl, rfl, rfl, rfl, fun _ => rfl, fun _ => rfl, fun _ => rfl, fun _ => rfl⟩

/-- Having the same keys is transitive. -/
theorem sameKeys_trans {c b a : archive} (h1 : c.sameKeys b) (h2 : b.sameKeys a) :
    c.sameKeys a :=
  ⟨h1.entries.trans h2.entries, h1.lookup.trans h2.lookup, h1.lastLine.trans h2.lastLine,
    h1.fresh.trans h2.fresh, h1.comment.trans h2.comment, h1.filename.trans h2.filename,
    fun q => (h1.line q).trans (h2.line q), fun q => (h1.pathname q).trans (h2.pathname q),
    fun q => (h1.hrx q).trans (h2.hrx q),
    fun q => (h1.entryComment q).trans (h2.entryComment q)⟩

/-- Writing a new width or a new body through an address leaves the keys. -/
theorem sameKeys_assign (a : archive) (p : Nat) (e : entry) (hline : e.line = (a.deref p).line)
    (hpath : e.pathname = (a.deref p).pathname) (hhrx : e.hrx = (a.deref p).hrx)
    (hcomment : e.comment = (a.deref p).comment) : (a.assign p e).sameKeys a := by
  refine ⟨rfl, rfl, rfl, rfl, rfl, rfl, ?_, ?_, ?_, ?_⟩ <;>
  · intro q
    by_cases hq : q = p
    · subst hq; simp [archive.assign, archive.deref, *]
    · simp [archive.assign, archive.deref, hq]

/-- The loop of `SetBoundary` leaves the keys, whatever the nested calls do. -/
theorem setBoundaryLoop_sameKeys (recur : archive → Int → Option (Option GoError × archive))
    (size : Int) : ∀ (l : List Nat) (a : archive) (e : Option GoError) (b : archive),
      setBoundaryLoop recur size l a = some (e, b) → b.sameKeys a := by
  intro l
  induction l with
  | nil =>
    intro a e b h
    simp only [setBoundaryLoop, Option.some.injEq, Prod.mk.injEq] at h
    rw [← h.2]
    exact sameKeys_refl a
  | cons item rest ih =>
    intro a e b h
    have h1 : (a.assign item { a.deref item with boundary := size }).sameKeys a :=
      sameKeys_assign a item _ rfl rfl rfl rfl
    rw [setBoundaryLoop] at h
    simp only at h
    split at h
    · simp only [Option.some.injEq, Prod.mk.injEq] at h
      rw [← h.2]; exact h1
    · split at h
      · exact absurd h (by simp)
      · simp only [Option.some.injEq, Prod.mk.injEq] at h
        rw [← h.2]; exact h1
      · exact sameKeys_trans (ih _ _ _ h)
          (sameKeys_trans (sameKeys_assign _ item _ rfl rfl rfl rfl) h1)

/-- `SetBoundary` leaves the keys of the archive. -/
theorem setBoundaryDepth_sameKeys (depth : Nat) (a : archive) (size : Int)
    (e : Option GoError) (b : archive) (h : archive.SetBoundaryDepth depth a size = some (e, b)) :
    b.sameKeys a := by
  cases depth with
  | zero => simp [archive.SetBoundaryDepth] at h
  | succ d =>
    rw [archive.SetBoundaryDepth] at h
    split at h
    · simp only [Option.some.injEq, Prod.mk.injEq] at h
      rw [← h.2]; exact sameKeys_refl a
    · split at h
      · exact absurd h (by simp)
      · rename_i heq
        simp only [Option.some.injEq, Prod.mk.injEq] at h
        rw [← h.2]
        exact setBoundaryLoop_sameKeys _ _ _ _ _ _ heq
      · rename_i heq
        simp only [Option.some.injEq, Prod.mk.injEq] at h
        rw [← h.2]
        have := setBoundaryLoop_sameKeys _ _ _ _ _ _ heq
        exact ⟨this.entries, this.lookup, this.lastLine, this.fresh, this.comment,
          this.filename, this.line, this.pathname, this.hrx, this.entryComment⟩

/-- The invariant goes along archives with the same keys. -/
theorem inv_sameKeys {b a : archive} (h : b.sameKeys a) (hinv : a.Inv) : b.Inv :=
  inv_congr a b hinv h.entries h.lookup (le_of_eq h.lastLine.symm) (le_of_eq h.fresh.symm)
    (fun q => by unfold entry.GetPathname; rw [h.pathname q]) h.line

/-- Appending a record leaves the records at the other addresses. -/
theorem push_deref_old (a : archive) (key : GoString) (this : entry) (p : Nat)
    (hp : p ≠ a.fresh) : (a.push key this).deref p = a.deref p := by
  simp [archive.push, archive.deref, hp]

/-- The record appended is at the fresh address. -/
theorem push_deref_fresh (a : archive) (key : GoString) (this : entry) :
    (a.push key this).deref a.fresh = this := by
  simp [archive.push, archive.deref]

/-- The loop of `finalize` establishes the invariant when the raw records come
with increasing line numbers within the line counter. -/
theorem finalizeLoop_inv : ∀ (rest : List entry) (item : entry) (a b : archive),
    finalizeLoop item rest a = .ok b → a.Inv →
    (∀ p ∈ a.entries, (a.deref p).line < item.line) →
    ((item :: rest).map entry.line).Pairwise (fun x y => x < y) →
    (∀ e ∈ item :: rest, 1 ≤ e.line ∧ e.line ≤ a.lastLine) → b.Inv := by
  intro rest
  induction rest with
  | nil =>
    intro item a b h hinv hlines _ hbounds
    rw [finalizeLoop.eq_def] at h
    simp only at h
    split at h
    · exact absurd h (by simp)
    · split at h
      · exact absurd h (by simp)
      · split at h
        · simp only [Except.ok.injEq] at h
          rw [← h]
          exact inv_congr a _ hinv rfl rfl (le_refl _) (le_refl _) (fun _ => rfl) (fun _ => rfl)
        · split at h
          · exact absurd h (by simp)
          · split at h
            · exact absurd h (by simp)
            · split at h
              · exact absurd h (by simp)
              · rename_i hdup _
                simp only [Except.ok.injEq] at h
                rw [← h]
                have hb := hbounds item (List.mem_cons_self _ _)
                exact inv_push a _ item hinv (by simpa using hdup) rfl hlines hb.2 hb.1
  | cons next rest1 ih =>
    intro item a b h hinv hlines hsorted hbounds
    have hlt : item.line < next.line := by
      simp only [List.map_cons, List.pairwise_cons] at hsorted
      exact hsorted.1 _ (List.mem_cons_self _ _)
    have hsorted1 : ((next :: rest1).map entry.line).Pairwise (fun x y => x < y) := by
      simp only [List.map_cons] at hsorted ⊢
      exact (List.pairwise_cons.mp hsorted).2
    have hbounds1 : ∀ e ∈ next :: rest1, 1 ≤ e.line ∧ e.line ≤ a.lastLine :=
      fun e he => hbounds e (List.mem_cons_of_mem _ he)
    rw [finalizeLoop.eq_def] at h
    simp only at h
    split at h
    · exact absurd h (by simp)
    · split at h
      · exact absurd h (by simp)
      · split at h
        · split at h
          · exact absurd h (by simp)
          · refine ih { next with comment := item.body } a b h hinv
              (fun p hp => lt_trans (hlines p hp) hlt) hsorted1 ?_
            intro e he
            rcases List.mem_cons.mp he with h1 | h1
            · rw [h1]; exact hbounds1 next (List.mem_cons_self _ _)
            · exact hbounds1 e (List.mem_cons_of_mem _ h1)
        · split at h
          · exact absurd h (by simp)
          · split at h
            · exact absurd h (by simp)
            · split at h
              · exact absurd h (by simp)
              · rename_i hdup _
                have hb := hbounds item (List.mem_cons_self _ _)
                have hinv1 := inv_push a _ item hinv (by simpa using hdup) rfl hlines hb.2 hb.1
                refine ih next _ b h hinv1 ?_ hsorted1 hbounds1
                intro p hp
                rcases List.mem_append.mp (show p ∈ a.entries ++ [a.fresh] from hp) with h1 | h1
                · rw [push_deref_old a _ _ p (Nat.ne_of_lt (hinv.fresh_gt p h1))]
                  exact lt_trans (hlines p h1) hlt
                · rw [List.mem_singleton.mp h1, push_deref_fresh]
                  exact hlt

/-- A state with the same line numbers and a line counter at least as large
is ordered. -/
theorem ordered_of_lines_eq (st st1 : parseState) (h : st.Ordered)
    (hl : st.lastLine ≤ st1.lastLine)
    (hr : st1.records.map entry.line = st.records.map entry.line) : st1.Ordered where
  sorted := hr ▸ h.sorted
  bounds := by
    intro e he
    have : e.line ∈ st.records.map entry.line := hr ▸ List.mem_map_of_mem _ he
    obtain ⟨e0, he0, hline⟩ := List.mem_map.mp this
    have := h.bounds e0 he0
    rw [hline] at this
    exact ⟨this.1, le_trans this.2 hl⟩
  nonneg := le_trans h.nonneg hl

/-- A record at a line above the line counter can be added at the end. -/
theorem ordered_snoc (st st1 : parseState) (e : entry) (h : st.Ordered)
    (hlt : st.lastLine < e.line) (hl : st1.lastLine = e.line)
    (hr : st1.records = st.records ++ [e]) : st1.Ordered where
  sorted := by
    rw [hr, List.map_append, List.map_singleton]
    refine List.pairwise_append.mpr ⟨h.sorted, List.pairwise_singleton _ _, ?_⟩
    intro x hx y hy
    rw [List.mem_singleton.mp hy]
    obtain ⟨e0, he0, rfl⟩ := List.mem_map.mp hx
    exact lt_of_le_of_lt (h.bounds e0 he0).2 hlt
  bounds := by
    intro e1 he1
    rw [hr] at he1
    have hn := h.nonneg
    rcases List.mem_append.mp he1 with h1 | h1
    · have := h.bounds e1 h1
      exact ⟨this.1, by rw [hl]; exact le_of_lt (lt_of_le_of_lt this.2 hlt)⟩
    · rw [List.mem_singleton.mp h1, hl]
      exact ⟨by omega, le_refl _⟩
  nonneg := by rw [hl]; have := h.nonneg; omega

/-- The line number of the record `newEntry` makes is the line given. -/
theorem newEntry_line (line boundary : Int) (pathname body : GoString)
    (err : Option Sentinel) : (newEntry line boundary pathname body err).line = line := rfl

/-- `AppendBody` keeps the line number. -/
theorem appendBody_line (e : entry) (content : GoString) :
    (e.AppendBody content).line = e.line := by
  unfold entry.AppendBody
  split <;> rfl

/-- The body of the loop after the boundary check keeps the records ordered,
and every record is at a line up to the line counter. -/
theorem parseLine_ordered (filename : GoString) (line : Int) (sl : scannedLine)
    (content : GoString) (peek : Option GoString) (st0 st st1 : parseState)
    (h : parseLine filename line sl content peek st = .ok st1) (hord : st0.Ordered)
    (hlt : st0.lastLine < line) (hraw : st.raw = st0.raw) (hthis : st.this = st0.this)
    (hlast : st.lastLine = line) : st1.Ordered ∧ st1.lastLine = line := by
  unfold parseLine at h
  split at h
  · rename_i hnone
    split at h
    · exact absurd h (by simp)
    · split at h
      · exact absurd h (by simp)
      · simp only [Except.ok.injEq] at h
        subst h
        refine ⟨ordered_snoc st0 _ (newEntry line sl.boundary sl.pathname [] sl.err) hord hlt
          hlast ?_, hlast⟩
        rw [hthis] at hnone
        simp [parseState.records, hraw, hnone]
  · rename_i this hsome
    rw [hthis] at hsome
    split at h
    · simp only [Except.ok.injEq] at h
      subst h
      have he : ∀ e : entry, e.line = line →
          (if (e.IsFile || e.IsComment) = true then { e with body := some [] } else e).line
            = line := by
        intro e h1
        split
        · exact h1
        · exact h1
      have he1 := he (newEntry line sl.boundary sl.pathname [] sl.err) rfl
      refine ⟨ordered_snoc st0 _
        (if ((newEntry line sl.boundary sl.pathname [] sl.err).IsFile ||
            (newEntry line sl.boundary sl.pathname [] sl.err).IsComment) = true then
            { newEntry line sl.boundary sl.pathname [] sl.err with body := some [] }
          else newEntry line sl.boundary sl.pathname [] sl.err) hord ?_ ?_ ?_, hlast⟩
      · rw [he1]; exact hlt
      · rw [he1]; exact hlast
      · simp [parseState.records, hraw, hsome]
    · simp only [Except.ok.injEq] at h
      subst h
      refine ⟨ordered_of_lines_eq st0 _ hord (by show st0.lastLine ≤ st.lastLine; omega) ?_, hlast⟩
      simp only [parseState.records, hraw, hsome, Option.toList, List.map_append, List.map_cons,
        List.map_nil]
      congr 2
      split
      · exact appendBody_line _ _
      · split
        · exact appendBody_line _ _
        · exact appendBody_line _ _

/-- The loop of `parseReader` keeps the records ordered. -/
theorem parseLoop_ordered (filename : GoString) :
    ∀ (lines : List GoString) (line : Int) (st st1 : parseState),
      parseLoop filename line lines st = .ok st1 → st.Ordered → st.lastLine < line →
      st1.Ordered := by
  intro lines
  induction lines with
  | nil =>
    intro line st st1 h hord _
    simp only [parseLoop, Except.ok.injEq] at h
    exact h ▸ hord
  | cons content rest ih =>
    intro line st st1 h hord hlt
    rw [parseLoop] at h
    split at h
    · exact absurd h (by simp)
    · rename_i st2 hstep
      unfold parseStep at hstep
      simp only at hstep
      have h2 : st2.Ordered ∧ st2.lastLine = line := by
        split at hstep
        · exact parseLine_ordered _ _ _ _ _ st _ _ hstep hord hlt rfl rfl rfl
        · exact parseLine_ordered _ _ _ _ _ st _ _ hstep hord hlt rfl rfl rfl
      exact ih (line + 1) st2 st1 h h2.1 (by rw [h2.2]; omega)

/-- The invariant does not read the boundary of the archive. -/
theorem inv_withBoundary (a : archive) (size : Int) (hinv : a.Inv) :
    ({ a with boundary := size } : archive).Inv :=
  inv_congr a _ hinv rfl rfl (le_refl _) (le_refl _) (fun _ => rfl) (fun _ => rfl)

/-- Every archive `finalize` returns satisfies the invariant, when the raw
records are ordered and the archive has no entry yet. -/
theorem finalize_inv (a b : archive) (raw : List entry) (h : a.finalize raw = .ok b)
    (hinv : a.Inv) (hempty : a.entries = [])
    (hsorted : (raw.map entry.line).Pairwise (fun x y => x < y))
    (hbounds : ∀ e ∈ raw, 1 ≤ e.line ∧ e.line ≤ a.lastLine) : b.Inv := by
  unfold archive.finalize at h
  split at h
  · exact absurd h (by simp)
  · rename_i item rest
    refine finalizeLoop_inv rest item _ b h ?_ ?_ hsorted hbounds
    · exact inv_congr a _ hinv rfl rfl (le_refl _) (le_refl _) (fun _ => rfl) (fun _ => rfl)
    · intro p hp
      rw [show ({ a with boundary := item.boundary } : archive).entries = a.entries from rfl,
        hempty] at hp
      exact absurd hp (List.not_mem_nil _)

/-- Every archive `parseReader` returns satisfies the invariant. -/
theorem parseReader_inv (filename : GoString) (lines : List GoString) (a : archive)
    (h : (newArchive filename []).parseReader lines = .ok a) : a.Inv := by
  unfold archive.parseReader at h
  split at h
  · exact absurd h (by simp)
  · rename_i st hloop
    have hord : st.Ordered := by
      refine parseLoop_ordered _ _ 1 _ st hloop ?_ (by simp [newArchive])
      exact ⟨by simp [parseState.records], by simp [parseState.records], by simp [newArchive]⟩
    have hrec : (match st.this with
        | some this => st.raw ++ [this]
        | none => st.raw) = st.records := by
      unfold parseState.records
      cases st.this <;> simp
    rw [hrec] at h
    refine finalize_inv _ a st.records h ?_ rfl hord.sorted hord.bounds
    exact inv_congr (newArchive filename []) _ (inv_newArchive _ _) rfl rfl hord.nonneg
      (le_refl _) (fun _ => rfl) (fun _ => rfl)

/-- Every archive `parseData` returns satisfies the invariant. -/
theorem parseData_inv (filename data : GoString) (a : archive)
    (h : parseData filename data = .ok a) : a.Inv := by
  unfold parseData archive.parseString at h
  split at h
  · exact absurd h (by simp)
  · exact parseReader_inv _ _ _ h

/-- Every archive `parseHRX` returns satisfies the invariant. -/
theorem parseHRX_inv (e : entry) (a : archive) (h : e.parseHRX = .ok a) : a.Inv := by
  unfold entry.parseHRX at h
  split at h
  · split at h
    · split at h
      · exact parseData_inv _ _ _ h
      · simp only [Except.ok.injEq] at h
        rw [← h]
        exact inv_withBoundary _ _ (inv_newArchive _ _)
    · exact absurd h (by simp)
  · exact absurd h (by simp)

/-- `SetBoundary` keeps the invariant. -/
theorem inv_SetBoundary (a b : archive) (size : Int) (e : Option GoError)
    (h : a.SetBoundary size = some (e, b)) (hinv : a.Inv) : b.Inv :=
  inv_sameKeys (setBoundaryDepth_sameKeys _ _ _ _ _ h) hinv

/-- Writing a record with the same pathname and line number through an address
keeps the invariant. -/
theorem inv_assign (a : archive) (p : Nat) (e : entry) (hinv : a.Inv)
    (hpath : e.GetPathname = (a.deref p).GetPathname) (hline : e.line = (a.deref p).line) :
    (a.assign p e).Inv := by
  refine inv_congr a _ hinv rfl rfl (le_refl _) (le_refl _) ?_ ?_
  · intro q
    by_cases hq : q = p
    · subst hq; simpa [archive.assign, archive.deref] using hpath
    · simp [archive.assign, archive.deref, hq]
  · intro q
    by_cases hq : q = p
    · subst hq; simpa [archive.assign, archive.deref] using hline
    · simp [archive.assign, archive.deref, hq]

/-- The end of `Set` keeps the invariant. -/
theorem inv_setEntryComment (a : archive) (this : Nat) (comment : GoString) (hinv : a.Inv) :
    (a.setEntryComment this comment).Inv := by
  unfold archive.setEntryComment
  split
  · exact inv_assign a this _ hinv rfl rfl
  · exact inv_assign a this _ hinv rfl rfl

/-- A larger line counter keeps the invariant. -/
theorem inv_withLastLine (a : archive) (n : Int) (hinv : a.Inv) (hn : a.lastLine ≤ n) :
    ({ a with lastLine := n } : archive).Inv :=
  inv_congr a _ hinv rfl rfl hn (le_refl _) (fun _ => rfl) (fun _ => rfl)

/-- The step of `Set` that appends the new record keeps the invariant. -/
theorem inv_set_push (a : archive) (pathname body comment : GoString) (n : Int)
    (hinv : a.Inv) (hnone : a.lookup pathname = none) (hn : a.lastLine + 1 ≤ n) :
    ((({ a with lastLine := n } : archive).push pathname
        (newEntry (a.lastLine + 1) a.boundary pathname body none)).setEntryComment
      a.fresh comment).Inv := by
  apply inv_setEntryComment
  have h1 : ({ a with lastLine := n } : archive).Inv :=
    inv_withLastLine a n hinv (by omega)
  refine inv_push _ pathname _ h1 hnone (newEntry_GetPathname _ _ _ _ _) ?_ hn ?_
  · intro p hp
    have := hinv.lines_le p hp
    show (a.deref p).line < a.lastLine + 1
    omega
  · have := hinv.lastLine_nonneg
    show 1 ≤ a.lastLine + 1
    omega

/-- `Set` keeps the invariant. -/
theorem inv_Set (a b : archive) (pathname body comment : GoString) (e : Option GoError)
    (h : a.Set pathname body comment = some (e, b)) (hinv : a.Inv) : b.Inv := by
  unfold archive.Set at h
  split at h
  · simp only [Option.some.injEq, Prod.mk.injEq] at h
    exact h.2 ▸ hinv
  · split at h
    · simp only [Option.some.injEq, Prod.mk.injEq] at h
      exact h.2 ▸ hinv
    · split at h
      · rename_i hnone
        simp only at h
        split at h
        · rename_i ia hparse
          split at h
          · exact absurd h (by simp)
          · simp only [Option.some.injEq, Prod.mk.injEq] at h
            rw [← h.2]
            exact inv_withLastLine a _ hinv (by omega)
          · rename_i ia1 hsb
            simp only [Option.some.injEq, Prod.mk.injEq] at h
            rw [← h.2]
            have hia : ia.Inv := parseHRX_inv _ _ hparse
            have hia1 : ia1.Inv := inv_SetBoundary _ _ _ _ hsb hia
            exact inv_set_push a pathname body comment _ hinv hnone
              (by have := hia1.lastLine_nonneg; omega)
        · simp only [Option.some.injEq, Prod.mk.injEq] at h
          rw [← h.2]
          exact inv_set_push a pathname body comment _ hinv hnone (le_refl _)
      · simp only [Option.some.injEq, Prod.mk.injEq] at h
        rw [← h.2]
        exact inv_setEntryComment _ _ _ (inv_assign a _ _ hinv rfl rfl)

/-- `Delete` keeps the invariant. -/
theorem inv_Delete (a : archive) (path : GoString) (hinv : a.Inv) : (a.Delete path).Inv := by
  obtain ⟨habsent, hpresent⟩ := delete_of_inv a path hinv
  cases hl : a.lookup path with
  | none => rw [habsent hl]; exact hinv
  | some this =>
    obtain ⟨hmem, hpn⟩ := (hinv.lookup_iff path this).mp hl
    obtain ⟨pre, post, hs⟩ := List.append_of_mem hmem
    obtain ⟨hent, hnotin, hlk, hlk2, hkeep, hnil, hcons, _, _, hfresh⟩ :=
      hpresent this pre post hl hs
    have hnd := hinv.nodup
    rw [hs] at hnd
    have hsub : ∀ q ∈ pre ++ post, q ∈ a.entries := by
      intro q hq
      rw [hs]
      rcases List.mem_append.mp hq with h | h
      · exact List.mem_append.mpr (Or.inl h)
      · exact List.mem_append.mpr (Or.inr (List.mem_cons_of_mem _ h))
    have hsorted := hinv.lines_sorted
    unfold archive.lines at hsorted
    rw [hs, List.map_append, List.map_cons] at hsorted
    obtain ⟨hs1, hs2, hs3⟩ := List.pairwise_append.mp hsorted
    obtain ⟨hs4, hs5⟩ := List.pairwise_cons.mp hs2
    have hpath : ∀ q, ((a.Delete path).deref q).GetPathname = (a.deref q).GetPathname := by
      intro q
      by_cases hq : q ∈ post
      · cases post with
        | nil => exact absurd hq (List.not_mem_nil _)
        | cons next rest => rw [(hcons next rest rfl).2 q hq]; rfl
      · rw [hkeep q hq]
    have hpreline : ∀ q ∈ pre, ((a.Delete path).deref q).line = (a.deref q).line := by
      intro q hq
      have hqp : q ∉ post := fun hqpost =>
        (List.nodup_append.mp hnd).2.2 hq (List.mem_cons_of_mem _ hqpost)
      rw [hkeep q hqp]
    have hthisline : 1 ≤ (a.deref this).line := hinv.lines_pos this hmem
    have hprelt : ∀ q ∈ pre, (a.deref q).line < (a.deref this).line := by
      intro q hq
      exact hs3 _ (List.mem_map_of_mem _ hq) _ (List.mem_cons_self _ _)
    constructor
    · rw [hent]
      exact (List.nodup_cons.mp (List.nodup_middle.mp hnd)).2
    · intro k p
      rw [hent, hpath]
      by_cases hk : k = path
      · subst hk
        rw [hlk]
        constructor
        · intro h; exact absurd h (by simp)
        · rintro ⟨hp, hpp⟩
          have := (hinv.lookup_iff k p).mpr ⟨hsub p hp, hpp⟩
          rw [hl] at this
          exact absurd (Option.some.inj this ▸ hp) hnotin
      · rw [hlk2 k hk]
        constructor
        · intro h
          obtain ⟨hp, hpp⟩ := (hinv.lookup_iff k p).mp h
          refine ⟨?_, hpp⟩
          rw [hs] at hp
          rcases List.mem_append.mp hp with h1 | h1
          · exact List.mem_append.mpr (Or.inl h1)
          · rcases List.mem_cons.mp h1 with h2 | h2
            · exact absurd (by rw [← hpp, h2, hpn]) hk
            · exact List.mem_append.mpr (Or.inr h2)
        · rintro ⟨hp, hpp⟩
          exact (hinv.lookup_iff k p).mpr ⟨hsub p hp, hpp⟩
    · unfold archive.lines
      rw [hent, List.map_append]
      cases post with
      | nil =>
        simp only [List.map_nil, List.append_nil]
        rw [List.map_congr_left (fun q hq => hpreline q hq)]
        exact hs1
      | cons next rest =>
        obtain ⟨_, hline⟩ := hcons next rest rfl
        have e1 : pre.map (fun p => ((a.Delete path).deref p).line)
            = pre.map (fun p => (a.deref p).line) := List.map_congr_left hpreline
        have e2 : (next :: rest).map (fun p => ((a.Delete path).deref p).line)
            = (next :: rest).map (fun p =>
                (a.deref p).line - ((a.deref next).line - (a.deref this).line)) :=
          List.map_congr_left (fun q hq => by rw [hline q hq])
        rw [e1, e2]
        refine List.pairwise_append.mpr ⟨hs1, ?_, ?_⟩
        · refine List.pairwise_map.mpr (List.Pairwise.imp ?_ (List.pairwise_map.mp hs5))
          intro x y hxy
          omega
        · intro x hx y hy
          obtain ⟨q, hq, rfl⟩ := List.mem_map.mp hy
          obtain ⟨p, hp, rfl⟩ := List.mem_map.mp hx
          have h1 := hprelt p hp
          have h2 : (a.deref next).line ≤ (a.deref q).line := by
            rcases List.mem_cons.mp hq with h3 | h3
            · rw [h3]
            · exact le_of_lt ((List.pairwise_cons.mp hs5).1 _ (List.mem_map_of_mem _ h3))
          show (a.deref p).line < (a.deref q).line - ((a.deref next).line - (a.deref this).line)
          omega
    · intro p hp
      rw [hent] at hp
      have hple := hinv.lines_le p (hsub p hp)
      cases post with
      | nil =>
        rw [(hnil rfl).1, (hnil rfl).2 p]
        exact hple
      | cons next rest =>
        obtain ⟨hlast, hline⟩ := hcons next rest rfl
        have hnext := hinv.lines_le next (hsub next (List.mem_append.mpr (Or.inr (List.mem_cons_self _ _))))
        rw [hlast]
        rcases List.mem_append.mp hp with h1 | h1
        · rw [hpreline p h1]
          have := hprelt p h1
          omega
        · rw [hline p h1]
          show (a.deref p).line - _ ≤ _
          omega
    · intro p hp
      rw [hfresh]
      rw [hent] at hp
      exact hinv.fresh_gt p (hsub p hp)
    · intro p hp
      rw [hent] at hp
      have hppos := hinv.lines_pos p (hsub p hp)
      cases post with
      | nil => rw [(hnil rfl).2 p]; exact hppos
      | cons next rest =>
        obtain ⟨hlast, hline⟩ := hcons next rest rfl
        rcases List.mem_append.mp hp with h1 | h1
        · rw [hpreline p h1]; exact hppos
        · rw [hline p h1]
          have h2 : (a.deref next).line ≤ (a.deref p).line := by
            rcases List.mem_cons.mp h1 with h3 | h3
            · rw [h3]
            · exact le_of_lt ((List.pairwise_cons.mp hs5).1 _ (List.mem_map_of_mem _ h3))
          show 1 ≤ (a.deref p).line - _
          omega
    · cases post with
      | nil => rw [(hnil rfl).1]; exact hinv.lastLine_nonneg
      | cons next rest =>
        obtain ⟨hlast, _⟩ := hcons next rest rfl
        have hnext := hinv.lines_le next (hsub next (List.mem_append.mpr (Or.inr (List.mem_cons_self _ _))))
        rw [hlast]
        omega

/-- Every archive a caller can hold satisfies the invariant. -/
theorem reachable_inv (a : archive) (h : a.Reachable) : a.Inv := by
  induction h with
  | new filename comment => exact inv_withBoundary _ _ (inv_newArchive _ _)
  | parseData filename data a h => exact parseData_inv _ _ _ h
  | parseReader filename lines a h => exact parseReader_inv _ _ _ h
  | parseHRX e a h => exact parseHRX_inv _ _ h
  | setBoundary a b size e _ h ih => exact inv_SetBoundary _ _ _ _ h ih
  | set a b pathname body comment e _ h ih => exact inv_Set _ _ _ _ _ _ h ih
  | delete a path _ ih => exact inv_Delete _ _ ih
  | setComment a comment _ ih =>
    exact inv_congr a _ ih rfl rfl (le_refl _) (le_refl _) (fun _ => rfl) (fun _ => rfl)
  | deleteComment a _ ih =>
    exact inv_congr a _ ih rfl rfl (le_refl _) (le_refl _) (fun _ => rfl) (fun _ => rfl)

/-- The archive after `Set` on an archive a caller can hold is one. -/
theorem reachable_after_Set (a : archive) (pathname body comment : GoString)
    (h : a.Reachable) : (a.after (a.Set pathname body comment)).Reachable := by
  unfold archive.after
  split
  · rename_i e b heq
    exact archive.Reachable.set a b pathname body comment e h heq
  · exact h

/-- The archive of the test is one a caller can hold. -/
theorem twoFiles_reachable : twoFiles.Reachable :=
  reachable_after_Set
    ((New (ascii "entries.hrx") []).after
      ((New (ascii "entries.hrx") []).Set (ascii "file") (ascii "contents") (ascii "comment")))
    (ascii "dir/file") (ascii "subdir file") []
    (reachable_after_Set (New (ascii "entries.hrx") []) (ascii "file") (ascii "contents")
      (ascii "comment") (archive.Reachable.new _ _))

/-! ### `SetBoundary` and `Set` come back -/

/-- The lines of a text have the length of the text in total. -/
theorem splitLines_length_sum (s : GoString) :
    ((splitLines s).map List.length).sum = s.length := by
  induction s with
  | nil => rfl
  | cons c cs ih =>
    rw [splitLines]
    split
    · simp [ih]; omega
    · split
      · rename_i h
        rw [h] at ih
        simp at ih
        simp [← ih]
      · rename_i l ls h
        rw [h] at ih
        simp at ih
        simp [← ih]; omega

/-- No line of a text is empty. -/
theorem splitLines_ne_nil (s : GoString) : ∀ l ∈ splitLines s, l ≠ [] := by
  induction s with
  | nil => intro l hl; simp [splitLines] at hl
  | cons c cs ih =>
    intro l hl
    rw [splitLines] at hl
    split at hl
    · rcases List.mem_cons.mp hl with h | h
      · rw [h]; simp
      · exact ih l h
    · split at hl
      · rw [List.mem_singleton.mp hl]; simp
      · rename_i l1 ls h
        rcases List.mem_cons.mp hl with h1 | h1
        · rw [h1]; simp
        · exact ih l (by rw [h]; exact List.mem_cons_of_mem _ h1)

/-- `TrimSuffix` does not lengthen a string. -/
theorem TrimSuffix_length_le (s suffix : GoString) : (TrimSuffix s suffix).length ≤ s.length := by
  unfold TrimSuffix
  split
  · rw [List.length_take]; omega
  · exact le_refl _

/-- `AppendBody` adds the length of the content to the body. -/
theorem appendBody_length (e : entry) (content : GoString) :
    (e.AppendBody content).GetBody.length = e.GetBody.length + content.length := by
  unfold entry.AppendBody entry.GetBody
  split
  · rename_i h; simp [h]
  · rename_i b h; simp [h]

/-- The bodies of two lists in a row. -/
theorem bodySum_append (l1 l2 : List entry) : bodySum (l1 ++ l2) = bodySum l1 + bodySum l2 := by
  simp [bodySum]

/-- The bodies of a list of one record. -/
theorem bodySum_singleton (e : entry) : bodySum [e] = e.GetBody.length := by
  simp [bodySum]

/-- The body of the loop after the boundary check adds at most the length of
the line to the bodies, and nothing when there is no current record. -/
theorem parseLine_bodySum (filename : GoString) (line : Int) (sl : scannedLine)
    (content : GoString) (peek : Option GoString) (st st1 : parseState)
    (h : parseLine filename line sl content peek st = .ok st1) :
    bodySum st1.records ≤ bodySum st.records + content.length ∧
      (st.this = none → bodySum st1.records = bodySum st.records) := by
  unfold parseLine at h
  split at h
  · rename_i hnone
    split at h
    · exact absurd h (by simp)
    · split at h
      · exact absurd h (by simp)
      · simp only [Except.ok.injEq] at h
        subst h
        have : bodySum (parseState.records { st with
            this := some (newEntry line sl.boundary sl.pathname [] sl.err) })
            = bodySum st.records := by
          simp [parseState.records, hnone, bodySum, newEntry, entry.GetBody]
        exact ⟨by omega, fun _ => this⟩
  · rename_i this hsome
    refine ⟨?_, fun h1 => absurd (hsome ▸ h1) (by simp)⟩
    split at h
    · simp only [Except.ok.injEq] at h
      subst h
      have h0 : ∀ e : entry, e.GetBody = [] →
          (if (e.IsFile || e.IsComment) = true then { e with body := some [] } else e).GetBody
            = [] := by
        intro e he
        split
        · rfl
        · exact he
      have h1 := h0 (newEntry line sl.boundary sl.pathname [] sl.err)
        (by simp [newEntry, entry.GetBody])
      simp only [parseState.records, hsome, Option.toList, bodySum_append, bodySum_singleton,
        List.append_assoc]
      simp only [bodySum, List.map_cons, List.map_nil, List.sum_cons, List.sum_nil, h1,
        List.length_nil]
      omega
    · simp only [Except.ok.injEq] at h
      subst h
      simp only [parseState.records, hsome, Option.toList, bodySum_append, bodySum_singleton]
      have h2 := appendBody_length this content
      have h3 : ∀ e : entry, ({ e with body := e.body.map (fun b => TrimSuffix b [10]) }
          : entry).GetBody.length ≤ e.GetBody.length := by
        intro e
        unfold entry.GetBody
        cases e.body with
        | none => simp
        | some b => simpa using TrimSuffix_length_le b [10]
      split
      · omega
      · split
        · have := h3 (this.AppendBody content)
          omega
        · omega

/-- The body of the loop adds at most the length of the line to the bodies,
and nothing when there is no current record; it keeps a current record. -/
theorem parseStep_bodySum (filename : GoString) (line : Int) (content : GoString)
    (peek : Option GoString) (st st1 : parseState)
    (h : parseStep filename line content peek st = .ok st1) :
    bodySum st1.records ≤ bodySum st.records + content.length ∧
      (st.this = none → bodySum st1.records = bodySum st.records) := by
  unfold parseStep at h
  simp only at h
  split at h
  · have := parseLine_bodySum _ _ _ _ _ _ _ h
    exact this
  · have := parseLine_bodySum _ _ _ _ _ _ _ h
    exact this

/-- The loop of `parseReader` adds at most the length of the lines to the
bodies. -/
theorem parseLoop_bodySum (filename : GoString) :
    ∀ (lines : List GoString) (line : Int) (st st1 : parseState),
      parseLoop filename line lines st = .ok st1 →
      bodySum st1.records ≤ bodySum st.records + (lines.map List.length).sum := by
  intro lines
  induction lines with
  | nil =>
    intro line st st1 h
    simp only [parseLoop, Except.ok.injEq] at h
    subst h
    simp
  | cons content rest ih =>
    intro line st st1 h
    rw [parseLoop] at h
    split at h
    · exact absurd h (by simp)
    · rename_i st2 hstep
      have h1 := (parseStep_bodySum _ _ _ _ _ _ hstep).1
      have h2 := ih _ _ _ h
      simp only [List.map_cons, List.sum_cons]
      omega

/-- The records of an archive after a record is appended. -/
theorem push_items (a : archive) (key : GoString) (this : entry)
    (hfresh : ∀ p ∈ a.entries, p < a.fresh) : (a.push key this).items = a.items ++ [this] := by
  unfold archive.items
  show List.map _ (a.entries ++ [a.fresh]) = _
  rw [List.map_append, List.map_singleton, push_deref_fresh]
  congr 1
  exact List.map_congr_left (fun q hq =>
    push_deref_old a key this q (Nat.ne_of_lt (hfresh q hq)))

/-- The bodies `finalize` keeps are bodies of the raw records. -/
theorem finalizeLoop_bodySum : ∀ (rest : List entry) (item : entry) (a b : archive),
    finalizeLoop item rest a = .ok b → (∀ p ∈ a.entries, p < a.fresh) →
    bodySum b.items ≤ bodySum a.items + bodySum (item :: rest) := by
  intro rest
  induction rest with
  | nil =>
    intro item a b h hfresh
    rw [finalizeLoop.eq_def] at h
    simp only at h
    split at h
    · exact absurd h (by simp)
    · split at h
      · exact absurd h (by simp)
      · split at h
        · simp only [Except.ok.injEq] at h
          subst h
          show bodySum a.items ≤ _
          omega
        · split at h
          · exact absurd h (by simp)
          · split at h
            · exact absurd h (by simp)
            · split at h
              · exact absurd h (by simp)
              · simp only [Except.ok.injEq] at h
                subst h
                rw [push_items a _ item hfresh, bodySum_append]
  | cons next rest1 ih =>
    intro item a b h hfresh
    have hcons : ∀ (e : entry) (l : List entry), bodySum (e :: l) = e.GetBody.length + bodySum l := by
      intro e l; simp [bodySum]
    rw [finalizeLoop.eq_def] at h
    simp only at h
    split at h
    · exact absurd h (by simp)
    · split at h
      · exact absurd h (by simp)
      · split at h
        · split at h
          · exact absurd h (by simp)
          · have := ih _ a b h hfresh
            rw [hcons] at this
            rw [hcons item, hcons next]
            have h1 : ({ next with comment := item.body } : entry).GetBody = next.GetBody := rfl
            rw [h1] at this
            omega
        · split at h
          · exact absurd h (by simp)
          · split at h
            · exact absurd h (by simp)
            · split at h
              · exact absurd h (by simp)
              · have := ih next _ b h (by
                  intro p hp
                  rcases List.mem_append.mp (show p ∈ a.entries ++ [a.fresh] from hp) with h1 | h1
                  · exact Nat.lt_succ_of_lt (hfresh p h1)
                  · rw [List.mem_singleton.mp h1]; exact Nat.lt_succ_self _)
                rw [push_items a _ item hfresh, bodySum_append, bodySum_singleton] at this
                rw [hcons item]
                omega

/-- The bodies of a parsed archive are shorter in total than the text it was
parsed from. -/
theorem parseData_bodySum (filename data : GoString) (a : archive)
    (h : parseData filename data = .ok a) : bodySum a.items + 1 ≤ data.length := by
  unfold parseData archive.parseString at h
  split at h
  · exact absurd h (by simp)
  · unfold archive.parseReader at h
    split at h
    · exact absurd h (by simp)
    · rename_i st hloop
      have hrec : (match st.this with
          | some this => st.raw ++ [this]
          | none => st.raw) = st.records := by
        unfold parseState.records
        cases st.this <;> simp
      rw [hrec] at h
      have hsum := splitLines_length_sum data
      have hne := splitLines_ne_nil data
      cases hlines : splitLines data with
      | nil =>
        rw [hlines] at hloop
        simp only [parseLoop, Except.ok.injEq] at hloop
        subst hloop
        simp [parseState.records, archive.finalize] at h
      | cons content rest =>
        rw [hlines] at hloop hsum hne
        rw [parseLoop] at hloop
        split at hloop
        · exact absurd hloop (by simp)
        · rename_i st2 hstep
          have h1 := (parseStep_bodySum _ _ _ _ _ _ hstep).2 rfl
          have h2 := parseLoop_bodySum _ _ _ _ _ hloop
          have h3 : 1 ≤ content.length := by
            have := hne content (List.mem_cons_self _ _)
            exact List.length_pos.mpr this
          simp only [List.map_cons, List.sum_cons] at hsum
          have h4 : bodySum a.items ≤ bodySum st.records := by
            cases hrecs : st.records with
            | nil =>
              rw [hrecs] at h
              simp [archive.finalize] at h
            | cons item rest1 =>
              rw [hrecs] at h
              simp only [archive.finalize] at h
              have := finalizeLoop_bodySum rest1 item _ a h (by
                intro p hp; simp [newArchive] at hp)
              simp only [archive.items, newArchive, bodySum, List.map_nil, List.sum_nil,
                zero_add] at this
              simpa [bodySum, archive.items] using this
          have h6 : bodySum (parseState.records
              { boundary := (newArchive filename []).boundary,
                lastLine := (newArchive filename []).lastLine, raw := [], this := none }) = 0 := by
            simp [parseState.records, bodySum]
          omega

/-- `parseHRX` returns an archive with no entry, or one whose bodies are
shorter in total than the body it was parsed from. -/
theorem parseHRX_bodySum (e : entry) (a : archive) (h : e.parseHRX = .ok a) :
    a.entries = [] ∨ bodySum a.items + 1 ≤ e.GetBody.length := by
  unfold entry.parseHRX at h
  split at h
  · split at h
    · split at h
      · rename_i c cs hbody
        right
        have := parseData_bodySum _ _ _ h
        simpa [entry.GetBody, hbody] using this
      · simp only [Except.ok.injEq] at h
        left
        rw [← h]
        rfl
    · exact absurd h (by simp)
  · exact absurd h (by simp)

/-- The body of a record of a list is at most as long as the bodies of the
list in total. -/
theorem length_le_bodySum (l : List entry) (e : entry) (he : e ∈ l) :
    e.GetBody.length ≤ bodySum l := by
  induction l with
  | nil => exact absurd he (List.not_mem_nil _)
  | cons x xs ih =>
    have hcons : bodySum (x :: xs) = x.GetBody.length + bodySum xs := by simp [bodySum]
    rw [hcons]
    rcases List.mem_cons.mp he with h | h
    · rw [h]; omega
    · have := ih h; omega

/-- The loop of `SetBoundary` comes back when the nested calls do. -/
theorem setBoundaryLoop_total (n : Nat) (size : Int)
    (recur : archive → Int → Option (Option GoError × archive))
    (hrec : ∀ (a : archive) (s : Int), a.entries.Nodup →
      ((a.entries = [] ∧ 1 ≤ n) ∨ bodySum a.items + 2 ≤ n) → recur a s ≠ none) :
    ∀ (l : List Nat) (a : archive), l.Nodup →
      (∀ p ∈ l, (a.deref p).GetBody.length + 1 ≤ n) → setBoundaryLoop recur size l a ≠ none := by
  intro l
  induction l with
  | nil => intro a _ _; simp [setBoundaryLoop]
  | cons item rest ih =>
    intro a hnd hlen
    obtain ⟨hnotin, hnd1⟩ := List.nodup_cons.mp hnd
    have hitem := hlen item (List.mem_cons_self _ _)
    rw [setBoundaryLoop]
    simp only
    split
    · simp
    · rename_i ia hparse
      have hbody : ((a.assign item { a.deref item with boundary := size }).deref item).GetBody
          = (a.deref item).GetBody := by
        simp [archive.assign, archive.deref, entry.GetBody]
      have hia := parseHRX_bodySum _ _ hparse
      rw [hbody] at hia
      have hnodup : ia.entries.Nodup := (parseHRX_inv _ _ hparse).nodup
      have hne : recur ia (wrapInt (size + 1)) ≠ none := by
        apply hrec ia (wrapInt (size + 1)) hnodup
        rcases hia with h | h
        · exact Or.inl ⟨h, by omega⟩
        · exact Or.inr (by omega)
      split
      · rename_i hnone; exact absurd hnone hne
      · simp
      · apply ih _ hnd1
        intro p hp
        have hpi : p ≠ item := fun h => hnotin (h ▸ hp)
        have := hlen p (List.mem_cons_of_mem _ hp)
        simpa [archive.assign, archive.deref, hpi] using this

/-- `SetBoundary` comes back at every depth that is above the total length of
the bodies of the archive by two (by one when the archive has no entry). -/
theorem setBoundaryDepth_total : ∀ (n : Nat) (a : archive) (size : Int), a.entries.Nodup →
    ((a.entries = [] ∧ 1 ≤ n) ∨ bodySum a.items + 2 ≤ n) →
    archive.SetBoundaryDepth n a size ≠ none := by
  intro n
  induction n with
  | zero =>
    intro a size _ h
    rcases h with h | h
    · exact absurd h.2 (by omega)
    · exact absurd h (by omega)
  | succ n ih =>
    intro a size hnd h
    rw [archive.SetBoundaryDepth]
    split
    · simp
    · have hloop : setBoundaryLoop (archive.SetBoundaryDepth n) size a.entries a ≠ none := by
        apply setBoundaryLoop_total n size _ (fun b s hb hbs => ih b s hb hbs) _ _ hnd
        intro p hp
        rcases h with h | h
        · rw [h.1] at hp; exact absurd hp (List.not_mem_nil _)
        · have := length_le_bodySum a.items (a.deref p) (List.mem_map_of_mem _ hp)
          omega
      split
      · rename_i hnone; exact absurd hnone hloop
      · simp
      · simp

/-- `SetBoundary` comes back on every archive whose entry list has no address
twice. -/
theorem setBoundary_total (a : archive) (size : Int) (hnd : a.entries.Nodup) :
    a.SetBoundary size ≠ none :=
  setBoundaryDepth_total _ a size hnd (Or.inr (le_refl _))

/-- `Set` comes back on every archive. -/
theorem set_total (a : archive) (pathname body comment : GoString) :
    a.Set pathname body comment ≠ none := by
  unfold archive.Set
  split
  · simp
  · split
    · simp
    · split
      · simp only
        split
        · rename_i ia hparse
          have := setBoundary_total ia (wrapInt (a.boundary + 1)) (parseHRX_inv _ _ hparse).nodup
          split
          · rename_i hnone; exact absurd hnone this
          · simp
          · simp
        · simp
      · simp

/-! ### A successful `SetBoundary` -/

/-- A successful `SetBoundary` leaves the archive with the size given as its
boundary. -/
theorem setBoundaryDepth_boundary (n : Nat) (a b : archive) (size : Int)
    (h : archive.SetBoundaryDepth n a size = some (none, b)) : b.boundary = size := by
  cases n with
  | zero => simp [archive.SetBoundaryDepth] at h
  | succ d =>
    rw [archive.SetBoundaryDepth] at h
    split at h
    · simp at h
    · split at h
      · exact absurd h (by simp)
      · simp at h
      · simp only [Option.some.injEq, Prod.mk.injEq, true_and] at h
        rw [← h]

/-- A successful loop of `SetBoundary` leaves every entry visited with the
width given and with the text of an archive of the next width as its body, and
leaves the other records alone. -/
theorem setBoundaryLoop_success (recur : archive → Int → Option (Option GoError × archive))
    (size : Int)
    (hrec : ∀ (ia ib : archive) (s : Int), recur ia s = some (none, ib) → ib.boundary = s) :
    ∀ (l : List Nat) (a b : archive), l.Nodup →
      setBoundaryLoop recur size l a = some (none, b) →
      (∀ p ∈ l, (b.deref p).boundary = size ∧
        ∃ ib : archive, (b.deref p).body = some ib.String ∧
          ib.boundary = wrapInt (size + 1)) ∧
      (∀ q, q ∉ l → b.deref q = a.deref q) := by
  intro l
  induction l with
  | nil =>
    intro a b _ h
    simp only [setBoundaryLoop, Option.some.injEq, Prod.mk.injEq, true_and] at h
    subst h
    exact ⟨fun p hp => absurd hp (List.not_mem_nil _), fun _ _ => rfl⟩
  | cons item rest ih =>
    intro a b hnd h
    obtain ⟨hnotin, hnd1⟩ := List.nodup_cons.mp hnd
    rw [setBoundaryLoop] at h
    simp only at h
    split at h
    · simp at h
    · split at h
      · exact absurd h (by simp)
      · simp at h
      · rename_i ia _ ib hsb
        obtain ⟨h1, h2⟩ := ih _ b hnd1 h
        have hb : ib.boundary = wrapInt (size + 1) := hrec _ _ _ hsb
        have hitem := h2 item hnotin
        refine ⟨?_, ?_⟩
        · intro p hp
          rcases List.mem_cons.mp hp with hpi | hpr
          · subst hpi
            rw [hitem]
            exact ⟨by simp [archive.assign, archive.deref],
              ib, by simp [archive.assign, archive.deref], hb⟩
          · exact h1 p hpr
        · intro q hq
          have hqi : q ≠ item := fun h3 => hq (h3 ▸ List.mem_cons_self _ _)
          have hqr : q ∉ rest := fun h3 => hq (List.mem_cons_of_mem _ h3)
          rw [h2 q hqr]
          simp [archive.assign, archive.deref, hqi]

/-- After a successful `SetBoundary(size)` the boundary of the archive is
`size`, every entry has the width `size`, and the body of every entry is the
text of an archive whose boundary is `size + 1`, the sum of Go. -/
theorem setBoundary_success (a b : archive) (size : Int) (hnd : a.entries.Nodup)
    (h : a.SetBoundary size = some (none, b)) :
    b.boundary = size ∧ b.entries = a.entries ∧
      ∀ p ∈ b.entries, (b.deref p).boundary = size ∧
        ∃ ib : archive, (b.deref p).body = some ib.String ∧
          ib.boundary = wrapInt (size + 1) := by
  have hkeys := setBoundaryDepth_sameKeys _ _ _ _ _ h
  refine ⟨setBoundaryDepth_boundary _ _ _ _ h, hkeys.entries, ?_⟩
  unfold archive.SetBoundary archive.depthBound at h
  rw [archive.SetBoundaryDepth] at h
  split at h
  · simp at h
  · split at h
    · exact absurd h (by simp)
    · simp at h
    · rename_i c hloop
      simp only [Option.some.injEq, Prod.mk.injEq, true_and] at h
      have := (setBoundaryLoop_success _ size
        (fun ia ib s hs => setBoundaryDepth_boundary _ ia ib s hs) _ _ _ hnd hloop).1
      intro p hp
      rw [hkeys.entries] at hp
      have hp1 := this p hp
      rw [← h]
      exact hp1

/-! ### The loop of `finalize`, one record at a time -/

/-- `archive.error` only reads the file name of the archive. -/
theorem error_congr (a b : archive) (h : b.filename = a.filename) (line : Int)
    (wrap base : Option Sentinel) : b.error line wrap base = a.error line wrap base := by
  unfold archive.error
  rw [h]

/-- The loop of `finalize` on a comment record that is the last record. -/
theorem finalizeLoop_comment_nil (item : entry) (a : archive)
    (herr : item.err = none) (hb : item.boundary ≠ 0) (hc : item.IsComment = true) :
    finalizeLoop item [] a = .ok { a with comment := item.body } := by
  rw [finalizeLoop.eq_def]
  simp only [herr, hb, hc, ne_eq, not_true_eq_false, if_false, if_true]

/-- The loop of `finalize` on a comment record followed by a record. -/
theorem finalizeLoop_comment_cons (item next : entry) (rest1 : List entry) (a : archive)
    (herr : item.err = none) (hb : item.boundary ≠ 0) (hc : item.IsComment = true) :
    finalizeLoop item (next :: rest1) a =
      if next.IsComment then .error (a.error next.line none (some .ErrSequentialComments))
      else finalizeLoop { next with comment := item.body } rest1 a := by
  rw [finalizeLoop.eq_def]
  simp only [herr, hb, hc, ne_eq, not_true_eq_false, if_false, if_true]

/-- The loop of `finalize` on a record that is kept and is the last record. -/
theorem finalizeLoop_keep_nil (item : entry) (a : archive)
    (herr : item.err = none) (hb : item.boundary ≠ 0) (hc : item.IsComment = false)
    (hdir : item.dirHasContents = false) (hdup : a.lookup item.GetPathname = none)
    (hanc : ancestorLoop a (splitSlash item.GetPathname) [] = false) :
    finalizeLoop item [] a = .ok (a.push item.GetPathname item) := by
  rw [finalizeLoop.eq_def]
  unfold entry.dirHasContents at hdir
  simp only [herr, hb, hc, hdir, hdup, hanc, ne_eq, not_true_eq_false, if_false,
    Option.isSome_none, Bool.false_eq_true]

/-- The loop of `finalize` on a record that is kept and is followed by a
record. -/
theorem finalizeLoop_keep_cons (item next : entry) (rest1 : List entry) (a : archive)
    (herr : item.err = none) (hb : item.boundary ≠ 0) (hc : item.IsComment = false)
    (hdir : item.dirHasContents = false) (hdup : a.lookup item.GetPathname = none)
    (hanc : ancestorLoop a (splitSlash item.GetPathname) [] = false) :
    finalizeLoop item (next :: rest1) a = finalizeLoop next rest1 (a.push item.GetPathname item) := by
  rw [finalizeLoop.eq_def]
  unfold entry.dirHasContents at hdir
  simp only [herr, hb, hc, hdir, hdup, hanc, ne_eq, not_true_eq_false, if_false,
    Option.isSome_none, Bool.false_eq_true]

/-- The loop of `finalize` on a record that is not a comment and passes the
first two tests: the error of the first of the three tests that follow. -/
theorem finalizeLoop_reject (item : entry) (rest : List entry) (a : archive)
    (herr : item.err = none) (hb : item.boundary ≠ 0) (hc : item.IsComment = false) :
    (item.dirHasContents = true →
      finalizeLoop item rest a
        = .error (a.error item.line none (some .ErrDirectoryHasContents))) ∧
    (item.dirHasContents = false → (a.lookup item.GetPathname).isSome = true →
      finalizeLoop item rest a = .error (a.error item.line none (some .ErrDuplicatePath))) ∧
    (item.dirHasContents = false → a.lookup item.GetPathname = none →
      ancestorLoop a (splitSlash item.GetPathname) [] = true →
      finalizeLoop item rest a = .error (a.error item.line none (some .ErrFileAsParentDir))) := by
  refine ⟨?_, ?_, ?_⟩
  · intro hdir
    rw [finalizeLoop.eq_def]
    unfold entry.dirHasContents at hdir
    simp only [herr, hb, hc, hdir, ne_eq, not_true_eq_false, if_false, if_true,
      Bool.false_eq_true]
  · intro hdir hdup
    rw [finalizeLoop.eq_def]
    unfold entry.dirHasContents at hdir
    simp only [herr, hb, hc, hdir, hdup, ne_eq, not_true_eq_false, if_false, if_true,
      Bool.false_eq_true]
  · intro hdir hdup hanc
    rw [finalizeLoop.eq_def]
    unfold entry.dirHasContents at hdir
    simp only [herr, hb, hc, hdir, hdup, hanc, ne_eq, not_true_eq_false, if_false, if_true,
      Bool.false_eq_true, Option.isSome_none]

/-- The checks a record has passed when the loop of `finalize` succeeds. -/
theorem finalizeLoop_ok_checks (item : entry) (rest : List entry) (a b : archive)
    (h : finalizeLoop item rest a = .ok b) :
    item.err = none ∧ item.boundary ≠ 0 ∧
      (item.IsComment = true ∨
        (item.IsComment = false ∧ item.dirHasContents = false ∧
          a.lookup item.GetPathname = none ∧
          ancestorLoop a (splitSlash item.GetPathname) [] = false)) := by
  rw [finalizeLoop.eq_def] at h
  simp only at h
  split at h
  · exact absurd h (by simp)
  · rename_i herr
    split at h
    · exact absurd h (by simp)
    · rename_i hb
      refine ⟨by simpa using herr, hb, ?_⟩
      split at h
      · rename_i hc; exact Or.inl hc
      · rename_i hc
        split at h
        · exact absurd h (by simp)
        · rename_i hdir
          split at h
          · exact absurd h (by simp)
          · rename_i hdup
            split at h
            · exact absurd h (by simp)
            · rename_i hanc
              exact Or.inr ⟨by simpa using hc, by simpa [entry.dirHasContents] using hdir,
                by simpa using hdup, by simpa using hanc⟩

/-- The comment attached to a record does not make it a comment record. -/
theorem isComment_withComment (n : entry) (c : Option GoString) :
    ({ n with comment := c } : entry).IsComment = n.IsComment := rfl

/-- Whether the last record is a comment does not depend on the comment
attached to the first. -/
theorem lastIsComment_withComment (n : entry) (c : Option GoString) (rest : List entry) :
    lastIsComment { n with comment := c } rest = lastIsComment n rest := by
  cases rest <;> rfl

/-- The loop of `finalize` on records that pass it, followed by more records:
the loop reaches the record `d` that follows with the archive the records
before it give, the archive comment apart; a last comment is attached to `d`,
and a comment after it is reported. -/
theorem finalizeLoop_append (d : entry) (post : List entry) :
    ∀ (rest : List entry) (item : entry) (a b0 : archive),
      finalizeLoop item rest a = .ok b0 →
      finalizeLoop item (rest ++ d :: post) a =
        if lastIsComment item rest then
          (if d.IsComment then .error (a.error d.line none (some .ErrSequentialComments))
            else finalizeLoop { d with comment := b0.comment } post
              { b0 with comment := a.comment })
        else finalizeLoop d post { b0 with comment := a.comment } := by
  intro rest
  induction rest with
  | nil =>
    intro item a b0 h
    obtain ⟨herr, hb, hcase⟩ := finalizeLoop_ok_checks _ _ _ _ h
    rcases hcase with hc | ⟨hc, hdir, hdup, hanc⟩
    · rw [finalizeLoop_comment_nil _ _ herr hb hc] at h
      simp only [Except.ok.injEq] at h
      subst h
      rw [List.nil_append, finalizeLoop_comment_cons _ _ _ _ herr hb hc]
      simp only [lastIsComment, hc, if_true]
    · rw [finalizeLoop_keep_nil _ _ herr hb hc hdir hdup hanc] at h
      simp only [Except.ok.injEq] at h
      subst h
      rw [List.nil_append, finalizeLoop_keep_cons _ _ _ _ herr hb hc hdir hdup hanc]
      simp only [lastIsComment, hc, Bool.false_eq_true, if_false]
      rfl
  | cons n rest1 ih =>
    intro item a b0 h
    obtain ⟨herr, hb, hcase⟩ := finalizeLoop_ok_checks _ _ _ _ h
    rcases hcase with hc | ⟨hc, hdir, hdup, hanc⟩
    · rw [finalizeLoop_comment_cons _ _ _ _ herr hb hc] at h
      split at h
      · exact absurd h (by simp)
      · rename_i hn
        rw [List.cons_append, finalizeLoop_comment_cons _ _ _ _ herr hb hc]
        simp only [hn, if_false]
        rw [ih _ _ _ h, lastIsComment_withComment]
        rfl
    · rw [finalizeLoop_keep_cons _ _ _ _ herr hb hc hdir hdup hanc] at h
      rw [List.cons_append, finalizeLoop_keep_cons _ _ _ _ herr hb hc hdir hdup hanc]
      rw [ih _ _ _ h]
      rfl

/-- The loop of `finalize` succeeds on the records before a record when it
succeeds on all of them. -/
theorem finalizeLoop_append_ok (d : entry) (post : List entry) :
    ∀ (rest : List entry) (item : entry) (a b : archive),
      finalizeLoop item (rest ++ d :: post) a = .ok b →
      ∃ b0, finalizeLoop item rest a = .ok b0 := by
  intro rest
  induction rest with
  | nil =>
    intro item a b h
    obtain ⟨herr, hb, hcase⟩ := finalizeLoop_ok_checks _ _ _ _ h
    rcases hcase with hc | ⟨hc, hdir, hdup, hanc⟩
    · exact ⟨_, finalizeLoop_comment_nil _ _ herr hb hc⟩
    · exact ⟨_, finalizeLoop_keep_nil _ _ herr hb hc hdir hdup hanc⟩
  | cons n rest1 ih =>
    intro item a b h
    obtain ⟨herr, hb, hcase⟩ := finalizeLoop_ok_checks _ _ _ _ h
    rcases hcase with hc | ⟨hc, hdir, hdup, hanc⟩
    · rw [List.cons_append, finalizeLoop_comment_cons _ _ _ _ herr hb hc] at h
      rw [finalizeLoop_comment_cons _ _ _ _ herr hb hc]
      split at h
      · exact absurd h (by simp)
      · rename_i hn
        rw [if_neg hn]
        exact ih _ _ _ h
    · rw [List.cons_append, finalizeLoop_keep_cons _ _ _ _ herr hb hc hdir hdup hanc] at h
      rw [finalizeLoop_keep_cons _ _ _ _ herr hb hc hdir hdup hanc]
      exact ih _ _ _ h

/-! ### Pathnames and the ancestor loop -/

/-- A string that begins with `sub` is `sub` followed by a string. -/
theorem startsWith_append : ∀ (sub s : GoString), startsWith s sub = true → ∃ t, s = sub ++ t := by
  intro sub
  induction sub with
  | nil => intro s _; exact ⟨s, rfl⟩
  | cons d ds ih =>
    intro s h
    cases s with
    | nil => simp [startsWith] at h
    | cons c cs =>
      simp only [startsWith, Bool.and_eq_true, beq_iff_eq] at h
      obtain ⟨t, ht⟩ := ih cs h.2
      exact ⟨t, by rw [h.1, ht]; rfl⟩

/-- A string begins with each of the strings it is made of. -/
theorem startsWith_of_append : ∀ (sub t : GoString), startsWith (sub ++ t) sub = true := by
  intro sub
  induction sub with
  | nil => intro t; cases t <;> rfl
  | cons d ds ih =>
    intro t
    simp only [List.cons_append, startsWith, beq_self_eq_true, Bool.true_and]
    exact ih t

/-- `strings.Split` returns at least one segment. -/
theorem splitSlash_ne_nil : ∀ s : GoString, splitSlash s ≠ [] := by
  intro s
  induction s with
  | nil => simp [splitSlash]
  | cons c cs ih =>
    unfold splitSlash
    split
    · simp
    · split <;> simp

/-- The segments of `p/t` are those of `p`, then those of `t`. -/
theorem splitSlash_append (t : GoString) :
    ∀ p : GoString, splitSlash (p ++ 47 :: t) = splitSlash p ++ splitSlash t := by
  intro p
  induction p with
  | nil => simp [splitSlash]
  | cons c cs ih =>
    rw [List.cons_append, splitSlash, splitSlash]
    by_cases hc : c = 47
    · rw [if_pos hc, if_pos hc, ih]; rfl
    · rw [if_neg hc, if_neg hc, ih]
      cases hs : splitSlash cs with
      | nil => exact absurd hs (splitSlash_ne_nil cs)
      | cons seg segs => rfl

/-- Joining after a byte is put before the first segment. -/
theorem joinSlash_cons_cons (c : Nat) (seg : GoString) (segs : List GoString) :
    joinSlash ((c :: seg) :: segs) = c :: joinSlash (seg :: segs) := by
  cases segs <;> rfl

/-- Joining the segments of a pathname gives the pathname back. -/
theorem joinSlash_splitSlash : ∀ s : GoString, joinSlash (splitSlash s) = s := by
  intro s
  induction s with
  | nil => rfl
  | cons c cs ih =>
    rw [splitSlash]
    by_cases hc : c = 47
    · rw [if_pos hc]
      cases hs : splitSlash cs with
      | nil => exact absurd hs (splitSlash_ne_nil cs)
      | cons seg segs =>
        rw [hs] at ih
        show [] ++ 47 :: joinSlash (seg :: segs) = c :: cs
        rw [ih, hc]; rfl
    · rw [if_neg hc]
      cases hs : splitSlash cs with
      | nil => exact absurd hs (splitSlash_ne_nil cs)
      | cons seg segs =>
        rw [hs] at ih
        show joinSlash ((c :: seg) :: segs) = c :: cs
        rw [joinSlash_cons_cons, ih]

/-- The first segment of a pathname that does not begin with `'/'` and is not
empty is not empty. -/
theorem splitSlash_head (p : GoString) (hp : p ≠ []) (hhead : p.head? ≠ some 47) :
    (splitSlash p).head? ≠ some [] := by
  cases p with
  | nil => exact absurd rfl hp
  | cons c cs =>
    have hc : c ≠ 47 := fun h => hhead (by rw [h]; rfl)
    rw [splitSlash, if_neg hc]
    cases splitSlash cs <;> simp

/-- The ancestor loop finds the file whose pathname the names `ns` join to,
when the names built are not empty. -/
theorem ancestorLoop_of_file (a : archive) (vi : Nat) (more : List GoString)
    (hfile : (a.deref vi).IsFile = true) :
    ∀ (ns : List GoString) (build : GoString), ns ≠ [] →
      (build ≠ [] ∨ ns.head? ≠ some []) →
      a.lookup ((if build ≠ [] then build ++ [47] else build) ++ joinSlash ns) = some vi →
      ancestorLoop a (ns ++ more) build = true := by
  intro ns
  induction ns with
  | nil => intro build h; exact absurd rfl h
  | cons n rest ih =>
    intro build _ hne hl
    cases rest with
    | nil =>
      rw [List.cons_append, ancestorLoop]
      simp only [joinSlash] at hl
      simp only [hl, hfile, if_true]
    | cons m rest1 =>
      rw [List.cons_append, ancestorLoop]
      have hb : (if build ≠ [] then build ++ [47] else build) ++ n ≠ [] := by
        rcases hne with h | h
        · rw [if_pos h]; simp
        · intro h0
          have h1 := (List.append_eq_nil.mp h0).2
          exact h (by rw [h1]; rfl)
      have hrec := ih ((if build ≠ [] then build ++ [47] else build) ++ n)
        (by simp) (Or.inl hb) (by
          rw [if_pos hb]
          simp only [joinSlash, List.append_assoc, List.singleton_append] at hl ⊢
          exact hl)
      split
      · split
        · rfl
        · exact hrec
      · exact hrec

/-- The ancestor loop on `p/tail` finds the file `p`, for a pathname `p` that
does not begin with `'/'`. -/
theorem ancestorLoop_above (a : archive) (p tail : GoString) (vi : Nat) (hp : p ≠ [])
    (hhead : p.head? ≠ some 47) (hl : a.lookup p = some vi)
    (hfile : (a.deref vi).IsFile = true) :
    ancestorLoop a (splitSlash (p ++ 47 :: tail)) [] = true := by
  rw [splitSlash_append]
  apply ancestorLoop_of_file a vi _ hfile _ _ (splitSlash_ne_nil p)
    (Or.inr (splitSlash_head p hp hhead))
  rw [joinSlash_splitSlash]
  simpa using hl

/-- The pathname of a file is not empty. -/
theorem isFile_pathname (r : entry) (h : r.IsFile = true) :
    r.GetPathname ≠ [] ∧ r.IsComment = false := by
  unfold entry.IsFile at h
  unfold entry.GetPathname entry.IsComment
  cases hp : r.pathname with
  | none => rw [hp] at h; simp at h
  | some p =>
    rw [hp] at h
    by_cases hne : p = []
    · simp [hne] at h
    · simp [hne]

/-- The ancestor loop finds a file of the archive that is above a record whose
pathname does not begin with `'/'`. -/
theorem ancestorLoop_isAbove (a : archive) (vi : Nat) (d : entry)
    (hl : a.lookup (a.deref vi).GetPathname = some vi)
    (habove : (a.deref vi).isAbove d = true) (hhead : d.GetPathname.head? ≠ some 47) :
    ancestorLoop a (splitSlash d.GetPathname) [] = true := by
  unfold entry.isAbove at habove
  simp only [Bool.and_eq_true] at habove
  obtain ⟨hfile, hstart⟩ := habove
  obtain ⟨t, ht⟩ := startsWith_append _ _ hstart
  have hp := (isFile_pathname _ hfile).1
  have ht1 : d.GetPathname = (a.deref vi).GetPathname ++ 47 :: t := by
    rw [ht]; simp
  rw [ht1]
  apply ancestorLoop_above a _ t vi hp _ hl hfile
  intro h
  apply hhead
  rw [ht1]
  cases hq : (a.deref vi).GetPathname with
  | nil => exact absurd hq hp
  | cons c cs => rw [hq] at h; exact h

/-! ### What the loop of `finalize` builds -/

/-- The archive of `newArchive` is keyed. -/
theorem keyed_newArchive (filename comment : GoString) : (newArchive filename comment).Keyed where
  lookup_iff := by intro k p; simp [newArchive]
  fresh_gt := by intro p hp; simp [newArchive] at hp

/-- An archive with the entries, `lookup`, the records and the fresh address
of a keyed archive is keyed. -/
theorem keyed_congr (a b : archive) (hk : a.Keyed) (he : b.entries = a.entries)
    (hl : b.lookup = a.lookup) (hs : b.store = a.store) (hf : b.fresh = a.fresh) : b.Keyed where
  lookup_iff := by
    intro k p
    rw [hl, he]
    have : b.deref p = a.deref p := by unfold archive.deref; rw [hs]
    rw [this]
    exact hk.lookup_iff k p
  fresh_gt := by
    intro p hp
    rw [hf]
    rw [he] at hp
    exact hk.fresh_gt p hp

/-- An archive that satisfies the state invariant is keyed. -/
theorem keyed_of_inv (a : archive) (h : a.Inv) : a.Keyed := ⟨h.lookup_iff, h.fresh_gt⟩

/-- Appending a record under its pathname, when that is not in `lookup`, keeps
the archive keyed. -/
theorem keyed_push (a : archive) (this : entry) (hk : a.Keyed)
    (hnone : a.lookup this.GetPathname = none) : (a.push this.GetPathname this).Keyed := by
  have hold : ∀ p ∈ a.entries, (a.push this.GetPathname this).deref p = a.deref p :=
    fun p hp => push_deref_old a _ _ p (Nat.ne_of_lt (hk.fresh_gt p hp))
  have hnew := push_deref_fresh a this.GetPathname this
  constructor
  · intro k p
    show (if k = this.GetPathname then some a.fresh else a.lookup k) = some p
      ↔ p ∈ a.entries ++ [a.fresh] ∧ ((a.push this.GetPathname this).deref p).GetPathname = k
    by_cases hkk : k = this.GetPathname
    · subst hkk
      rw [if_pos rfl]
      constructor
      · intro h
        have hp : p = a.fresh := (Option.some.inj h).symm
        subst hp
        exact ⟨by simp, by rw [hnew]⟩
      · rintro ⟨hmem, hpath⟩
        rcases List.mem_append.mp hmem with h | h
        · rw [hold p h] at hpath
          have := (hk.lookup_iff _ p).mpr ⟨h, hpath⟩
          rw [hnone] at this
          exact absurd this (by simp)
        · rw [List.mem_singleton.mp h]
    · rw [if_neg hkk]
      constructor
      · intro h
        obtain ⟨hmem, hpath⟩ := (hk.lookup_iff k p).mp h
        exact ⟨List.mem_append.mpr (Or.inl hmem), by rw [hold p hmem]; exact hpath⟩
      · rintro ⟨hmem, hpath⟩
        rcases List.mem_append.mp hmem with h | h
        · rw [hold p h] at hpath
          exact (hk.lookup_iff k p).mpr ⟨h, hpath⟩
        · rw [List.mem_singleton.mp h, hnew] at hpath
          exact absurd hpath.symm hkk
  · intro p hp
    rcases List.mem_append.mp (show p ∈ a.entries ++ [a.fresh] from hp) with h | h
    · exact Nat.lt_succ_of_lt (hk.fresh_gt p h)
    · rw [List.mem_singleton.mp h]; exact Nat.lt_succ_self _

/-- A record that is not a comment is kept by comment attachment. -/
theorem attachComments_cons (r : entry) (l : List entry) (h : r.IsComment = false) :
    attachComments (r :: l) = r :: attachComments l := by
  cases l with
  | nil => simp [attachComments, h]
  | cons n rest => simp [attachComments, h]

/-- The archive comment does not depend on the comment attached to the first
record. -/
theorem lastComment_withComment (n : entry) (c : Option GoString) (rest : List entry) :
    lastComment ({ n with comment := c } :: rest) = lastComment (n :: rest) := by
  cases rest <;> rfl

/-- No file of a keyed archive is above a record that passes the ancestor
loop and whose pathname does not begin with `'/'`. -/
theorem not_isAbove_of_ancestorLoop (a : archive) (item : entry) (hk : a.Keyed)
    (hanc : ancestorLoop a (splitSlash item.GetPathname) [] = false) :
    ∀ r ∈ a.items, item.GetPathname.head? ≠ some 47 → r.isAbove item = false := by
  intro r hr hhead
  obtain ⟨q, hq, rfl⟩ := List.mem_map.mp hr
  by_contra hab
  have hab1 : (a.deref q).isAbove item = true := by simpa using hab
  have := ancestorLoop_isAbove a q item ((hk.lookup_iff _ q).mpr ⟨hq, rfl⟩) hab1 hhead
  rw [hanc] at this
  exact absurd this (by simp)

/-- What the loop of `finalize` builds: the archive stays keyed, the records
kept are appended as comment attachment gives them, the archive comment is the
body of a last comment record, the file name, the boundary and the line
counter are left alone, and no file comes to precede an entry below it. -/
theorem finalizeLoop_keyed : ∀ (rest : List entry) (item : entry) (a b : archive),
    finalizeLoop item rest a = .ok b → a.Keyed →
    b.Keyed ∧ b.items = a.items ++ attachComments (item :: rest) ∧
      b.comment = (if lastIsComment item rest then lastComment (item :: rest) else a.comment) ∧
      b.filename = a.filename ∧ b.boundary = a.boundary ∧ b.lastLine = a.lastLine ∧
      (noFileBefore a.items → noFileBefore b.items) := by
  intro rest
  induction rest with
  | nil =>
    intro item a b h hk
    obtain ⟨herr, hb, hcase⟩ := finalizeLoop_ok_checks _ _ _ _ h
    rcases hcase with hc | ⟨hc, hdir, hdup, hanc⟩
    · rw [finalizeLoop_comment_nil _ _ herr hb hc] at h
      simp only [Except.ok.injEq] at h
      subst h
      refine ⟨keyed_congr a _ hk rfl rfl rfl rfl, ?_, ?_, rfl, rfl, rfl, fun h => h⟩
      · simp [attachComments, hc, archive.items, archive.deref]
      · simp [lastIsComment, lastComment, hc]
    · rw [finalizeLoop_keep_nil _ _ herr hb hc hdir hdup hanc] at h
      simp only [Except.ok.injEq] at h
      subst h
      refine ⟨keyed_push a item hk hdup, ?_, ?_, rfl, rfl, rfl, ?_⟩
      · rw [push_items a _ _ hk.fresh_gt, attachComments_cons _ _ hc]; rfl
      · simp [lastIsComment, hc, archive.push]
      · intro hnf
        rw [push_items a _ _ hk.fresh_gt]
        exact List.pairwise_append.mpr ⟨hnf, List.pairwise_singleton _ _, fun r hr d hd => by
          rw [List.mem_singleton.mp hd]
          exact not_isAbove_of_ancestorLoop a item hk hanc r hr⟩
  | cons n rest1 ih =>
    intro item a b h hk
    obtain ⟨herr, hb, hcase⟩ := finalizeLoop_ok_checks _ _ _ _ h
    rcases hcase with hc | ⟨hc, hdir, hdup, hanc⟩
    · rw [finalizeLoop_comment_cons _ _ _ _ herr hb hc] at h
      split at h
      · exact absurd h (by simp)
      · rename_i hn
        have hn1 : n.IsComment = false := by simpa using hn
        obtain ⟨h1, h2, h3, h4⟩ := ih _ _ _ h hk
        refine ⟨h1, ?_, ?_, h4⟩
        · rw [h2, attachComments_cons _ _ (by rw [isComment_withComment]; exact hn1)]
          simp [attachComments, hc, hn1]
        · rw [h3, lastIsComment_withComment, lastComment_withComment]
          rfl
    · rw [finalizeLoop_keep_cons _ _ _ _ herr hb hc hdir hdup hanc] at h
      obtain ⟨h1, h2, h3, h4, h5, h6, h7⟩ := ih _ _ _ h (keyed_push a item hk hdup)
      refine ⟨h1, ?_, ?_, h4, h5, h6, ?_⟩
      · rw [h2, push_items a _ _ hk.fresh_gt, attachComments_cons _ _ hc, List.append_assoc]
        rfl
      · rw [h3]
        cases rest1 <;> simp [lastIsComment, lastComment, archive.push]
      · intro hnf
        apply h7
        rw [push_items a _ _ hk.fresh_gt]
        exact List.pairwise_append.mpr ⟨hnf, List.pairwise_singleton _ _, fun r hr d hd => by
          rw [List.mem_singleton.mp hd]
          exact not_isAbove_of_ancestorLoop a item hk hanc r hr⟩

/-! ### `ParseData` through the records of the input -/

/-- `ParseData` calls `finalize` on the records of the state `scanRecords`
gives. -/
theorem parseData_of_scan (filename x : GoString) (st : parseState)
    (h : scanRecords filename x = some st) :
    parseData filename x = (st.archive filename).finalize st.records := by
  unfold scanRecords at h
  split at h
  · exact absurd h (by simp)
  · rename_i hblank
    split at h
    · rename_i st1 hloop
      simp only [Option.some.injEq] at h
      subst h
      unfold parseData archive.parseString
      rw [if_neg hblank]
      unfold archive.parseReader
      have hloop1 : parseLoop (newArchive filename []).filename 1 (splitLines x)
          { boundary := (newArchive filename []).boundary,
            lastLine := (newArchive filename []).lastLine, raw := [], this := none }
          = .ok st1 := hloop
      rw [hloop1]
      simp only [parseState.archive, parseState.records]
      cases st1.this <;> simp
    · exact absurd h (by simp)

/-- `ParseData` returns an error when `scanRecords` gives no state. -/
theorem parseData_of_scan_none (filename x : GoString) (h : scanRecords filename x = none) :
    ∃ e, parseData filename x = .error e := by
  unfold scanRecords at h
  unfold parseData archive.parseString
  split at h
  · rename_i hblank
    rw [if_pos hblank]
    exact ⟨_, rfl⟩
  · rename_i hblank
    rw [if_neg hblank]
    split at h
    · exact absurd h (by simp)
    · rename_i e hloop
      unfold archive.parseReader
      have hloop1 : parseLoop (newArchive filename []).filename 1 (splitLines x)
          { boundary := (newArchive filename []).boundary,
            lastLine := (newArchive filename []).lastLine, raw := [], this := none }
          = .error e := hloop
      rw [hloop1]
      exact ⟨_, rfl⟩

/-- A successful `ParseData` went through `finalize`. -/
theorem scan_of_parseData (filename x : GoString) (b : archive)
    (h : parseData filename x = .ok b) :
    ∃ st, scanRecords filename x = some st ∧
      (st.archive filename).finalize st.records = .ok b := by
  cases hs : scanRecords filename x with
  | none =>
    obtain ⟨e, he⟩ := parseData_of_scan_none filename x hs
    rw [he] at h
    exact absurd h (by simp)
  | some st => exact ⟨st, rfl, by rw [← parseData_of_scan filename x st hs]; exact h⟩

/-- A call that returns no error returns an archive. -/
theorem ok_of_errorOf_none (r : Except GoError archive) (h : errorOf r = none) :
    ∃ b, r = .ok b := by
  cases r with
  | error e => simp [errorOf] at h
  | ok b => exact ⟨b, rfl⟩

/-- The archive the parse starts from is keyed and has no entry. -/
theorem keyed_scanArchive (st : parseState) (filename : GoString) :
    (st.archive filename).Keyed ∧ (st.archive filename).items = [] ∧
      (st.archive filename).filename = filepathBase filename ∧
      (st.archive filename).comment = none :=
  ⟨keyed_congr _ _ (keyed_newArchive filename []) rfl rfl rfl rfl, rfl, rfl, rfl⟩

/-- What `finalize` builds on an archive without entries. -/
theorem finalize_keyed (a b : archive) (raw : List entry) (h : a.finalize raw = .ok b)
    (hk : a.Keyed) (hempty : a.items = []) :
    b.Keyed ∧ b.items = attachComments raw ∧
      b.comment = (if lastRecordIsComment raw then lastComment raw else a.comment) ∧
      b.filename = a.filename ∧ b.lastLine = a.lastLine ∧ noFileBefore b.items := by
  cases raw with
  | nil => simp [archive.finalize] at h
  | cons item rest =>
    have h1 : finalizeLoop item rest { a with boundary := item.boundary } = .ok b := h
    obtain ⟨k1, k2, k3, k4, _, k6, k7⟩ := finalizeLoop_keyed _ _ _ _ h1
      (keyed_congr a _ hk rfl rfl rfl rfl)
    have hempty1 : ({ a with boundary := item.boundary } : archive).items = [] := hempty
    rw [hempty1] at k2 k7
    exact ⟨k1, by simpa using k2, k3, k4, k6, k7 List.Pairwise.nil⟩

/-- `finalize` on valid records followed by the record `d`: the loop reaches
`d` with a keyed archive whose entries are the valid records after comment
attachment; a last comment is attached to `d`, and a comment after it is
reported. -/
theorem finalize_at_record (a : archive) (pre : List entry) (d : entry) (post : List entry)
    (hk : a.Keyed) (hempty : a.items = []) (hpre : prefixValid a pre) :
    ∃ (a1 : archive) (c : Option GoString), a1.filename = a.filename ∧ a1.Keyed ∧
      a1.items = attachComments pre ∧ a1.lastLine = a.lastLine ∧ a1.comment = a.comment ∧
      (lastRecordIsComment pre = true → c = lastComment pre) ∧
      a.finalize (pre ++ d :: post) =
        if lastRecordIsComment pre then
          (if d.IsComment then .error (a.error d.line none (some .ErrSequentialComments))
            else finalizeLoop { d with comment := c } post a1)
        else finalizeLoop d post a1 := by
  rcases hpre with hnil | hok
  · subst hnil
    refine ⟨{ a with boundary := d.boundary }, none, rfl, keyed_congr a _ hk rfl rfl rfl rfl,
      hempty, rfl, rfl, ?_, ?_⟩
    · intro h; simp [lastRecordIsComment] at h
    · simp [archive.finalize, lastRecordIsComment]
  · obtain ⟨b0, hb0⟩ := ok_of_errorOf_none _ hok
    obtain ⟨k1, k2, k3, k4, k5, _⟩ := finalize_keyed a b0 pre hb0 hk hempty
    cases pre with
    | nil => simp [archive.finalize] at hb0
    | cons item rest =>
      have h1 : finalizeLoop item rest { a with boundary := item.boundary } = .ok b0 := hb0
      refine ⟨{ b0 with comment := a.comment }, b0.comment, k4,
        keyed_congr b0 _ k1 rfl rfl rfl rfl, k2, k5, rfl, ?_, ?_⟩
      · intro hl
        rw [k3, if_pos hl]
      · show finalizeLoop item (rest ++ d :: post) { a with boundary := item.boundary } = _
        rw [finalizeLoop_append d post rest item _ b0 h1]
        rfl

/-- `finalize` succeeds on the records before a record when it succeeds on
all of them. -/
theorem prefixValid_of_ok (a b : archive) (pre : List entry) (d : entry) (post : List entry)
    (h : a.finalize (pre ++ d :: post) = .ok b) : prefixValid a pre := by
  cases pre with
  | nil => exact Or.inl rfl
  | cons item rest =>
    have h1 : finalizeLoop item (rest ++ d :: post) { a with boundary := item.boundary }
        = .ok b := h
    obtain ⟨b0, hb0⟩ := finalizeLoop_append_ok d post rest item _ b h1
    refine Or.inr ?_
    show errorOf (finalizeLoop item rest { a with boundary := item.boundary }) = none
    rw [hb0]; rfl

/-! ### The records kept by comment attachment -/

/-- A record kept by comment attachment is a record of the list that is not a
comment, with a comment attached or not. -/
theorem mem_attachComments : ∀ (n : Nat) (l : List entry), l.length ≤ n →
    ∀ r1 ∈ attachComments l,
      ∃ r ∈ l, r.IsComment = false ∧ ∃ c, r1 = { r with comment := c } := by
  intro n
  induction n with
  | zero =>
    intro l hl r1 hr1
    have : l = [] := List.length_eq_zero.mp (Nat.le_zero.mp hl)
    subst this
    simp [attachComments] at hr1
  | succ n ih =>
    intro l hl r1 hr1
    match l, hl, hr1 with
    | [], _, hr1 => simp [attachComments] at hr1
    | [r], _, hr1 =>
      by_cases hc : r.IsComment = true
      · simp [attachComments, hc] at hr1
      · simp only [attachComments, hc, if_false, List.mem_singleton, Bool.false_eq_true] at hr1
        exact ⟨r, by simp, by simpa using hc, r.comment, by rw [hr1]⟩
    | c :: m :: rest, hl, hr1 =>
      simp only [List.length_cons] at hl
      by_cases hc : c.IsComment = true
      · by_cases hm : m.IsComment = true
        · simp only [attachComments, hc, hm, if_true] at hr1
          obtain ⟨r, hr, h1, h2⟩ := ih (m :: rest) (by simp; omega) r1 hr1
          exact ⟨r, List.mem_cons_of_mem _ hr, h1, h2⟩
        · simp only [attachComments, hc, hm, if_true, if_false, List.mem_cons,
            Bool.false_eq_true] at hr1
          rcases hr1 with h | h
          · exact ⟨m, by simp, by simpa using hm, c.body, h⟩
          · obtain ⟨r, hr, h1, h2⟩ := ih rest (by omega) r1 h
            exact ⟨r, by simp [hr], h1, h2⟩
      · simp only [attachComments, hc, if_false, List.mem_cons, Bool.false_eq_true] at hr1
        rcases hr1 with h | h
        · exact ⟨c, by simp, by simpa using hc, c.comment, by rw [h]⟩
        · obtain ⟨r, hr, h1, h2⟩ := ih (m :: rest) (by simp; omega) r1 h
          exact ⟨r, List.mem_cons_of_mem _ hr, h1, h2⟩

/-- A record of the list that is not a comment is kept by comment attachment,
with a comment attached or not. -/
theorem attachComments_mem : ∀ (n : Nat) (l : List entry), l.length ≤ n →
    ∀ r ∈ l, r.IsComment = false → ∃ c, ({ r with comment := c } : entry) ∈ attachComments l := by
  intro n
  induction n with
  | zero =>
    intro l hl r hr
    have : l = [] := List.length_eq_zero.mp (Nat.le_zero.mp hl)
    subst this
    simp at hr
  | succ n ih =>
    intro l hl r hr hrc
    match l, hl, hr with
    | [], _, hr => simp at hr
    | [r0], _, hr =>
      have : r = r0 := by simpa using hr
      subst this
      exact ⟨r.comment, by simp [attachComments, hrc]⟩
    | c :: m :: rest, hl, hr =>
      simp only [List.length_cons] at hl
      by_cases hc : c.IsComment = true
      · have hr1 : r ∈ m :: rest := by
          rcases List.mem_cons.mp hr with h | h
          · rw [h, hc] at hrc; exact absurd hrc (by simp)
          · exact h
        by_cases hm : m.IsComment = true
        · simp only [attachComments, hc, hm, if_true]
          exact ih (m :: rest) (by simp; omega) r hr1 hrc
        · simp only [attachComments, hc, hm, if_true, if_false, List.mem_cons,
            Bool.false_eq_true]
          rcases List.mem_cons.mp hr1 with h | h
          · exact ⟨c.body, Or.inl (by rw [h])⟩
          · obtain ⟨c1, h1⟩ := ih rest (by omega) r h hrc
            exact ⟨c1, Or.inr h1⟩
      · simp only [attachComments, hc, if_false, List.mem_cons, Bool.false_eq_true]
        rcases List.mem_cons.mp hr with h | h
        · exact ⟨c.comment, Or.inl (by rw [h])⟩
        · obtain ⟨c1, h1⟩ := ih (m :: rest) (by simp; omega) r h hrc
          exact ⟨c1, Or.inr h1⟩

/-- The pathnames kept by comment attachment are, in order, those of the
records that are not comments. -/
theorem attachComments_pathnames : ∀ (n : Nat) (l : List entry), l.length ≤ n →
    (attachComments l).map entry.GetPathname
      = (l.filter (fun r => !r.IsComment)).map entry.GetPathname := by
  intro n
  induction n with
  | zero =>
    intro l hl
    have : l = [] := List.length_eq_zero.mp (Nat.le_zero.mp hl)
    subst this
    rfl
  | succ n ih =>
    intro l hl
    match l, hl with
    | [], _ => rfl
    | [r], _ =>
      by_cases hc : r.IsComment = true
      · simp [attachComments, hc]
      · simp [attachComments, hc]
    | c :: m :: rest, hl =>
      simp only [List.length_cons] at hl
      by_cases hc : c.IsComment = true
      · by_cases hm : m.IsComment = true
        · have := ih (m :: rest) (by simp; omega)
          simp only [attachComments, hc, hm, if_true]
          rw [this]
          simp [List.filter, hc, hm]
        · have := ih rest (by omega)
          simp only [attachComments, hc, hm, if_true, if_false, List.map_cons,
            Bool.false_eq_true]
          rw [this]
          simp [List.filter, hc, hm, entry.GetPathname]
      · have := ih (m :: rest) (by simp; omega)
        simp only [attachComments, hc, if_false, List.map_cons, Bool.false_eq_true]
        rw [this]
        simp [List.filter, hc]

/-- In a keyed archive whose entries are the records `pre` after comment
attachment, the pathname of a record of `pre` that is not a comment is in
`lookup`, for a record with the same pathname. -/
theorem lookup_of_record (a1 : archive) (pre : List entry) (r : entry) (hk : a1.Keyed)
    (hitems : a1.items = attachComments pre) (hr : r ∈ pre) (hrc : r.IsComment = false) :
    ∃ q, a1.lookup r.GetPathname = some q ∧ (a1.deref q).pathname = r.pathname := by
  obtain ⟨c, hc⟩ := attachComments_mem pre.length pre (le_refl _) r hr hrc
  rw [← hitems] at hc
  obtain ⟨q, hq, hqe⟩ := List.mem_map.mp hc
  refine ⟨q, (hk.lookup_iff _ q).mpr ⟨hq, ?_⟩, ?_⟩
  · rw [hqe]; rfl
  · rw [hqe]

/-- In a keyed archive whose entries are the records `pre` after comment
attachment, a pathname that no record of `pre` has is not in `lookup`. -/
theorem lookup_none_of_records (a1 : archive) (pre : List entry) (k : GoString)
    (hk : a1.Keyed) (hitems : a1.items = attachComments pre)
    (hnew : ∀ r ∈ pre, r.GetPathname ≠ k) : a1.lookup k = none := by
  cases hl : a1.lookup k with
  | none => rfl
  | some q =>
    obtain ⟨hq, hpath⟩ := (hk.lookup_iff k q).mp hl
    have hmem : a1.deref q ∈ attachComments pre := by
      rw [← hitems]
      exact List.mem_map.mpr ⟨q, hq, rfl⟩
    obtain ⟨r, hr, _, c, hrc⟩ := mem_attachComments pre.length pre (le_refl _) _ hmem
    have : r.GetPathname = k := by
      rw [← hpath, hrc]; rfl
    exact absurd this (hnew r hr)

/-! ### Errors of `ParseData` at a record -/

/-- Whether the last record is a comment, for records followed by one more. -/
theorem lastRecordIsComment_snoc (c : entry) :
    ∀ l : List entry, lastRecordIsComment (l ++ [c]) = c.IsComment := by
  intro l
  induction l with
  | nil => rfl
  | cons r rest ih =>
    cases rest with
    | nil => rfl
    | cons n rest1 => exact ih

/-- There is no archive comment when the last record is not a comment. -/
theorem lastComment_of_not_comment : ∀ l : List entry, lastRecordIsComment l = false →
    lastComment l = none := by
  intro l
  induction l with
  | nil => intro _; rfl
  | cons r rest ih =>
    intro h
    cases rest with
    | nil =>
      have h1 : r.IsComment = false := h
      simp [lastComment, h1]
    | cons n rest1 => exact ih h

/-- A record with a pathname is not a comment. -/
theorem isComment_of_pathname (d : entry) (h : d.GetPathname ≠ []) : d.IsComment = false := by
  unfold entry.GetPathname at h
  unfold entry.IsComment
  cases hp : d.pathname with
  | none => rw [hp] at h; exact absurd rfl h
  | some p =>
    rw [hp] at h
    cases p with
    | nil => exact absurd rfl h
    | cons c cs => rfl

/-- A record that is not a comment has a pathname. -/
theorem pathname_of_not_comment (d : entry) (h : d.IsComment = false) : d.GetPathname ≠ [] := by
  unfold entry.IsComment at h
  unfold entry.GetPathname
  cases hp : d.pathname with
  | none => rw [hp] at h; exact absurd h (by simp)
  | some p =>
    rw [hp] at h
    cases p with
    | nil => exact absurd h (by simp)
    | cons c cs => simp

/-- The error of `ParseData` at a record that is not a comment, has no scan
error and a boundary, and follows valid records: the loop of `finalize`
reaches it with a keyed archive whose entries are the valid records after
comment attachment, and the first of the three tests that fails gives the
error. -/
theorem parseData_reject (filename x : GoString) (st : parseState) (pre post : List entry)
    (d : entry) (hscan : scanRecords filename x = some st)
    (hrec : st.records = pre ++ d :: post) (hpre : prefixValid (st.archive filename) pre)
    (herr : d.err = none) (hb : d.boundary ≠ 0) (hc : d.IsComment = false) :
    ∃ a1 : archive, a1.Keyed ∧ a1.items = attachComments pre ∧
      (d.dirHasContents = true →
        parseData filename x = .error (.Error (filepathBase filename)
          (some .ErrDirectoryHasContents) none d.line)) ∧
      (d.dirHasContents = false → (a1.lookup d.GetPathname).isSome = true →
        parseData filename x = .error (.Error (filepathBase filename)
          (some .ErrDuplicatePath) none d.line)) ∧
      (d.dirHasContents = false → a1.lookup d.GetPathname = none →
        ancestorLoop a1 (splitSlash d.GetPathname) [] = true →
        parseData filename x = .error (.Error (filepathBase filename)
          (some .ErrFileAsParentDir) none d.line)) := by
  obtain ⟨hk, hempty, hfile, _⟩ := keyed_scanArchive st filename
  obtain ⟨a1, c, h1, h2, h3, _, _, _, h7⟩ :=
    finalize_at_record (st.archive filename) pre d post hk hempty hpre
  rw [← hrec, ← parseData_of_scan filename x st hscan] at h7
  have hname : a1.filename = filepathBase filename := by rw [h1, hfile]
  refine ⟨a1, h2, h3, ?_⟩
  by_cases hlast : lastRecordIsComment pre = true
  · rw [if_pos hlast, hc, if_neg (by simp)] at h7
    obtain ⟨r1, r2, r3⟩ := finalizeLoop_reject { d with comment := c } post a1 herr hb hc
    rw [h7]
    refine ⟨fun h => ?_, fun h h1 => ?_, fun h h1 h2 => ?_⟩
    · rw [r1 h]; unfold archive.error newError; rw [hname]
    · rw [r2 h h1]; unfold archive.error newError; rw [hname]
    · rw [r3 h h1 h2]; unfold archive.error newError; rw [hname]
  · rw [if_neg hlast] at h7
    obtain ⟨r1, r2, r3⟩ := finalizeLoop_reject d post a1 herr hb hc
    rw [h7]
    refine ⟨fun h => ?_, fun h h1 => ?_, fun h h1 h2 => ?_⟩
    · rw [r1 h]; unfold archive.error newError; rw [hname]
    · rw [r2 h h1]; unfold archive.error newError; rw [hname]
    · rw [r3 h h1 h2]; unfold archive.error newError; rw [hname]

/-- The loop of `finalize` reports `ErrDirectoryHasContents` only at the line
of a directory record with a body of more than one byte. -/
theorem finalizeLoop_dirError (f : GoString) (w : Option Sentinel) (L : Int) :
    ∀ (rest : List entry) (item : entry) (a : archive),
      finalizeLoop item rest a = .error (.Error f (some .ErrDirectoryHasContents) w L) →
      ∃ r ∈ item :: rest, r.line = L ∧ r.dirHasContents = true := by
  intro rest
  induction rest with
  | nil =>
    intro item a h
    rw [finalizeLoop.eq_def] at h
    simp only [archive.error, newError] at h
    split at h
    · simp at h
    · split at h
      · simp at h
      · split at h
        · simp at h
        · split at h
          · rename_i hdir
            simp only [Except.error.injEq, GoError.Error.injEq] at h
            exact ⟨item, by simp, h.2.2.2, hdir⟩
          · split at h
            · simp at h
            · split at h
              · simp at h
              · simp at h
  | cons n rest1 ih =>
    intro item a h
    rw [finalizeLoop.eq_def] at h
    simp only [archive.error, newError] at h
    split at h
    · simp at h
    · split at h
      · simp at h
      · split at h
        · split at h
          · simp at h
          · obtain ⟨r, hr, h1, h2⟩ := ih _ _ h
            rcases List.mem_cons.mp hr with hrn | hrn
            · exact ⟨n, by simp, by rw [← h1, hrn], by rw [← h2, hrn]; rfl⟩
            · exact ⟨r, by simp [hrn], h1, h2⟩
        · split at h
          · rename_i hdir
            simp only [Except.error.injEq, GoError.Error.injEq] at h
            exact ⟨item, by simp, h.2.2.2, hdir⟩
          · split at h
            · simp at h
            · split at h
              · simp at h
              · obtain ⟨r, hr, h1, h2⟩ := ih _ _ h
                exact ⟨r, List.mem_cons_of_mem _ hr, h1, h2⟩

/-- The records of a parse are ordered. -/
theorem scan_ordered (filename x : GoString) (st : parseState)
    (h : scanRecords filename x = some st) : st.Ordered := by
  unfold scanRecords at h
  split at h
  · exact absurd h (by simp)
  · split at h
    · rename_i st1 hloop
      simp only [Option.some.injEq] at h
      subst h
      refine parseLoop_ordered _ _ _ _ _ hloop ?_ (by decide)
      exact ⟨by simp [parseState.records, parseState.init],
        by simp [parseState.records, parseState.init], by simp [parseState.init]⟩
    · exact absurd h (by simp)

/-- Two records of a parse at the same line are the same record. -/
theorem record_eq_of_line (l : List entry) (hs : (l.map entry.line).Pairwise (fun x y => x < y))
    (r d : entry) (hr : r ∈ l) (hd : d ∈ l) (h : r.line = d.line) : r = d := by
  induction l with
  | nil => simp at hr
  | cons e rest ih =>
    simp only [List.map_cons, List.pairwise_cons] at hs
    rcases List.mem_cons.mp hr with h1 | h1 <;> rcases List.mem_cons.mp hd with h2 | h2
    · rw [h1, h2]
    · have := hs.1 d.line (List.mem_map.mpr ⟨d, h2, rfl⟩)
      rw [h1] at h; omega
    · have := hs.1 r.line (List.mem_map.mpr ⟨r, h1, rfl⟩)
      rw [h2] at h; omega
    · exact ih hs.2 h1 h2

/-! ### The header lines of the input and the records -/

/-- `AppendBody` keeps the pathname. -/
theorem appendBody_pathname (e : entry) (content : GoString) :
    (e.AppendBody content).pathname = e.pathname := by
  unfold entry.AppendBody
  split <;> rfl

/-- One line of the loop of `parseReader`: every record stays, with its line
number and its pathname; the boundary of the archive stays; there is a current
record afterwards; a header line opens a record at its line when there was no
record yet or the line has the width of the archive; and the first record is
opened by a header line. -/
theorem parseLine_keys (filename : GoString) (line : Int) (sl : scannedLine)
    (content : GoString) (peek : Option GoString) (st st1 : parseState)
    (h : parseLine filename line sl content peek st = .ok st1) :
    (∀ r ∈ st.records, ∃ r1 ∈ st1.records,
      r1.line = r.line ∧ r1.GetPathname = r.GetPathname) ∧
    st1.boundary = st.boundary ∧ st1.this ≠ none ∧
    (sl.header = true → (st.this = none ∨ sl.boundary = st.boundary) →
      ∃ r1 ∈ st1.records, r1.line = line ∧ r1.GetPathname = sl.pathname) ∧
    (st.this = none → sl.header = true) := by
  unfold parseLine at h
  split at h
  · rename_i hnone
    split at h
    · exact absurd h (by simp)
    · rename_i hheader
      split at h
      · exact absurd h (by simp)
      · simp only [Except.ok.injEq] at h
        subst h
        refine ⟨?_, rfl, by simp, ?_, fun _ => by simpa using hheader⟩
        · intro r hr
          refine ⟨r, ?_, rfl, rfl⟩
          simp only [parseState.records, hnone, Option.toList, List.append_nil] at hr
          simp [parseState.records, hr]
        · intro _ _
          exact ⟨newEntry line sl.boundary sl.pathname [] sl.err, by simp [parseState.records],
            rfl, newEntry_GetPathname _ _ _ _ _⟩
  · rename_i this hsome
    split at h
    · simp only [Except.ok.injEq] at h
      subst h
      refine ⟨?_, rfl, by simp, ?_, fun h0 => by rw [h0] at hsome; exact absurd hsome (by simp)⟩
      · intro r hr
        refine ⟨r, ?_, rfl, rfl⟩
        simp only [parseState.records, hsome, Option.toList] at hr
        simp only [parseState.records, Option.toList]
        exact List.mem_append_left _ hr
      · intro _ _
        refine ⟨_, List.mem_append_right _ (List.mem_singleton_self _), ?_, ?_⟩
        · split <;> rfl
        · have := newEntry_GetPathname line sl.boundary sl.pathname [] sl.err
          split
          · exact this
          · exact this
    · rename_i hcond
      simp only [Except.ok.injEq] at h
      subst h
      refine ⟨?_, rfl, by simp, ?_, fun h0 => by rw [h0] at hsome; exact absurd hsome (by simp)⟩
      · intro r hr
        simp only [parseState.records, hsome, Option.toList, List.mem_append,
          List.mem_singleton] at hr
        rcases hr with hr | hr
        · exact ⟨r, by simp [parseState.records, hr], rfl, rfl⟩
        · subst hr
          refine ⟨_, List.mem_append_right _ (List.mem_singleton_self _), ?_, ?_⟩
          · split
            · exact appendBody_line _ _
            · split
              · exact appendBody_line _ _
              · exact appendBody_line _ _
          · unfold entry.GetPathname
            congr 1
            split
            · exact appendBody_pathname _ _
            · split
              · exact appendBody_pathname _ _
              · exact appendBody_pathname _ _
      · intro hh hb
        rcases hb with hb | hb
        · rw [hb] at hsome; exact absurd hsome (by simp)
        · exact absurd (by simp [hh, hb]) hcond

/-- One pass of the loop of `parseReader`, as `parseLine_keys`; the boundary
of the archive is set by the first line. -/
theorem parseStep_keys (filename : GoString) (line : Int) (content : GoString)
    (peek : Option GoString) (st st1 : parseState)
    (h : parseStep filename line content peek st = .ok st1) :
    (∀ r ∈ st.records, ∃ r1 ∈ st1.records,
      r1.line = r.line ∧ r1.GetPathname = r.GetPathname) ∧
    st1.this ≠ none ∧ (st.this ≠ none → st1.boundary = st.boundary) ∧
    ((scanLine content).header = true → st.this ≠ none →
      (scanLine content).boundary = st.boundary →
      ∃ r1 ∈ st1.records, r1.line = line ∧ r1.GetPathname = (scanLine content).pathname) ∧
    (st.this = none → st.boundary = 0 → line = 1 →
      st1.boundary = (scanLine content).boundary ∧
      ∃ r1 ∈ st1.records, r1.line = line ∧ r1.GetPathname = (scanLine content).pathname) := by
  unfold parseStep at h
  simp only at h
  split at h
  · rename_i hcheck
    obtain ⟨k1, k2, k3, k4, k5⟩ := parseLine_keys _ _ _ _ _ _ _ h
    simp only [parseReaderGetBoundaryCheck, Bool.and_eq_true, Option.isNone_iff_eq_none,
      beq_iff_eq] at hcheck
    obtain ⟨⟨⟨_, hnone⟩, _⟩, hheader⟩ := hcheck
    refine ⟨k1, k3, fun h0 => absurd hnone h0, fun _ h0 => absurd hnone h0, ?_⟩
    intro _ _ _
    exact ⟨k2, k4 hheader (Or.inl hnone)⟩
  · rename_i hcheck
    obtain ⟨k1, k2, k3, k4, k5⟩ := parseLine_keys _ _ _ _ _ _ _ h
    refine ⟨k1, k3, fun _ => k2, fun hh _ hb => k4 hh (Or.inr hb), ?_⟩
    intro hnone hb0 hline
    have hheader := k5 hnone
    exact absurd (by simp [parseReaderGetBoundaryCheck, hnone, hb0, hline, hheader]) hcheck

/-- The loop of `parseReader` from a state with a current record: every
record stays, with its line number and its pathname, the boundary of the
archive stays, and every header line with the width of the archive opens a
record at its line. -/
theorem parseLoop_keys (filename : GoString) :
    ∀ (lines : List GoString) (line : Int) (st st1 : parseState),
      parseLoop filename line lines st = .ok st1 → st.this ≠ none →
      (∀ r ∈ st.records, ∃ r1 ∈ st1.records,
        r1.line = r.line ∧ r1.GetPathname = r.GetPathname) ∧
      ∀ (i : Nat) (li : GoString), lines[i]? = some li → (scanLine li).header = true →
        (scanLine li).boundary = st.boundary →
        ∃ r1 ∈ st1.records, r1.line = line + i ∧ r1.GetPathname = (scanLine li).pathname := by
  intro lines
  induction lines with
  | nil =>
    intro line st st1 h _
    simp only [parseLoop, Except.ok.injEq] at h
    subst h
    exact ⟨fun r hr => ⟨r, hr, rfl, rfl⟩, fun i li hi => by simp at hi⟩
  | cons content rest ih =>
    intro line st st1 h hthis
    rw [parseLoop] at h
    split at h
    · exact absurd h (by simp)
    · rename_i st2 hstep
      obtain ⟨k1, k2, k3, k4, _⟩ := parseStep_keys _ _ _ _ _ _ hstep
      obtain ⟨j1, j2⟩ := ih (line + 1) st2 st1 h k2
      constructor
      · intro r hr
        obtain ⟨r1, hr1, e1, e2⟩ := k1 r hr
        obtain ⟨r2, hr2, f1, f2⟩ := j1 r1 hr1
        exact ⟨r2, hr2, by rw [f1, e1], by rw [f2, e2]⟩
      · intro i li hi hh hb
        cases i with
        | zero =>
          simp only [List.getElem?_cons_zero, Option.some.injEq] at hi
          subst hi
          obtain ⟨r1, hr1, e1, e2⟩ := k4 hh hthis hb
          obtain ⟨r2, hr2, f1, f2⟩ := j1 r1 hr1
          exact ⟨r2, hr2, by rw [f1, e1]; simp, by rw [f2, e2]⟩
        | succ i =>
          simp only [List.getElem?_cons_succ] at hi
          obtain ⟨r2, hr2, f1, f2⟩ := j2 i li hi hh (by rw [hb, k3 hthis])
          exact ⟨r2, hr2, by rw [f1]; push_cast; ring, f2⟩

/-- Every header line of the input with the width of the archive has a record
at its line, with its pathname. -/
theorem scan_header (filename x : GoString) (st : parseState)
    (hscan : scanRecords filename x = some st) (i : Nat) (li : GoString)
    (hi : (splitLines x)[i]? = some li) (hh : (scanLine li).header = true)
    (hb : (scanLine li).boundary = archiveWidth x) :
    ∃ r ∈ st.records, r.line = (i : Int) + 1 ∧ r.GetPathname = (scanLine li).pathname := by
  unfold scanRecords at hscan
  split at hscan
  · exact absurd hscan (by simp)
  · split at hscan
    · rename_i st0 hloop
      simp only [Option.some.injEq] at hscan
      subst hscan
      unfold archiveWidth at hb
      cases hlines : splitLines x with
      | nil => rw [hlines] at hi; simp at hi
      | cons l0 rest =>
        rw [hlines] at hloop hi
        simp only [hlines] at hb
        rw [parseLoop] at hloop
        split at hloop
        · exact absurd hloop (by simp)
        · rename_i st2 hstep
          obtain ⟨_, k2, _, _, k5⟩ := parseStep_keys _ _ _ _ _ _ hstep
          obtain ⟨hb2, r1, hr1, e1, e2⟩ := k5 rfl rfl rfl
          obtain ⟨j1, j2⟩ := parseLoop_keys _ _ _ _ _ hloop k2
          cases i with
          | zero =>
            simp only [List.getElem?_cons_zero, Option.some.injEq] at hi
            subst hi
            obtain ⟨r2, hr2, f1, f2⟩ := j1 r1 hr1
            exact ⟨r2, hr2, by rw [f1, e1]; simp, by rw [f2, e2]⟩
          | succ i =>
            simp only [List.getElem?_cons_succ] at hi
            obtain ⟨r2, hr2, f1, f2⟩ := j2 i li hi hh (by rw [hb, hb2])
            exact ⟨r2, hr2, by rw [f1]; push_cast; ring, f2⟩
    · exact absurd hscan (by simp)

/-- A directory record is not a comment. -/
theorem isComment_of_isDir (d : entry) (h : d.IsDir = true) : d.IsComment = false := by
  unfold entry.IsDir at h
  unfold entry.IsComment
  cases hp : d.pathname with
  | none => rw [hp] at h; exact absurd h (by simp)
  | some p =>
    rw [hp] at h
    cases p with
    | nil => simp at h
    | cons c cs => rfl

/-- The record a comment is attached to is kept with that comment. -/
theorem attachComments_split (c n : entry) (post : List entry) (hc : c.IsComment = true)
    (hn : n.IsComment = false) :
    ∀ (k : Nat) (pre : List entry), pre.length ≤ k →
      ({ n with comment := c.body } : entry) ∈ attachComments (pre ++ c :: n :: post) := by
  intro k
  induction k with
  | zero =>
    intro pre hl
    have : pre = [] := List.length_eq_zero.mp (Nat.le_zero.mp hl)
    subst this
    simp [attachComments, hc, hn]
  | succ k ih =>
    intro pre hl
    match pre, hl with
    | [], _ => simp [attachComments, hc, hn]
    | [p], _ =>
      by_cases hp : p.IsComment = true
      · simp [attachComments, hp, hc, hn]
      · simp [attachComments, hp, hc, hn]
    | p :: m :: pre2, hl =>
      simp only [List.length_cons] at hl
      by_cases hp : p.IsComment = true
      · by_cases hm : m.IsComment = true
        · have := ih (m :: pre2) (by simp; omega)
          simpa [attachComments, hp, hm] using this
        · have := ih pre2 (by omega)
          simp only [List.cons_append, attachComments, hp, hm, if_true, if_false,
            List.mem_cons, Bool.false_eq_true]
          exact Or.inr this
      · have := ih (m :: pre2) (by simp; omega)
        simp only [List.cons_append, attachComments, hp, if_false, List.mem_cons,
          Bool.false_eq_true]
        exact Or.inr this

/-- `finalize` reports `ErrDirectoryHasContents` only at the line of a
directory record with a body of more than one byte. -/
theorem finalize_dirError (a : archive) (raw : List entry) (f : GoString)
    (w : Option Sentinel) (L : Int)
    (h : a.finalize raw = .error (.Error f (some .ErrDirectoryHasContents) w L)) :
    ∃ r ∈ raw, r.line = L ∧ r.dirHasContents = true := by
  cases raw with
  | nil => simp [archive.finalize] at h
  | cons item rest => exact finalizeLoop_dirError f w L rest item _ h

/-- The pathnames of the entries of an archive that satisfies the invariant
are distinct. -/
theorem inv_pathnames_nodup (a : archive) (h : a.Inv) :
    (a.items.map entry.GetPathname).Nodup := by
  unfold archive.items
  rw [List.map_map]
  refine List.Nodup.map_on ?_ h.nodup
  intro p hp q hq hpq
  have h1 := (h.lookup_iff ((a.deref p).GetPathname) p).mpr ⟨hp, rfl⟩
  have h2 := (h.lookup_iff ((a.deref p).GetPathname) q).mpr ⟨hq, hpq.symm⟩
  rw [h1] at h2
  exact Option.some.inj h2

/-- Whether a record is above another depends on the two pathnames only. -/
theorem isAbove_congr (r r1 d d1 : entry) (hr : r1.pathname = r.pathname)
    (hd : d1.pathname = d.pathname) :
    r1.isAbove d1 = r.isAbove d ∧ d1.GetPathname = d.GetPathname := by
  unfold entry.isAbove entry.IsFile entry.GetPathname
  rw [hr, hd]
  exact ⟨rfl, rfl⟩

/-- `Delete` leaves the pathname of every record. -/
theorem delete_pathname (a : archive) (path : GoString) (hinv : a.Inv) (q : Nat) :
    ((a.Delete path).deref q).pathname = (a.deref q).pathname := by
  obtain ⟨habsent, hpresent⟩ := delete_of_inv a path hinv
  cases hl : a.lookup path with
  | none => rw [habsent hl]
  | some this =>
    obtain ⟨hmem, _⟩ := (hinv.lookup_iff path this).mp hl
    obtain ⟨pre, post, hs⟩ := List.append_of_mem hmem
    obtain ⟨_, _, _, _, h5, h6, h7, _⟩ := hpresent this pre post hl hs
    by_cases hq : q ∈ post
    · cases post with
      | nil => exact absurd hq (List.not_mem_nil _)
      | cons next rest => rw [(h7 next rest rfl).2 q hq]
    · rw [h5 q hq]

/-- `Delete` keeps the part of the path-prefix invariant that `finalize`
checks. -/
theorem noFileBefore_Delete (a : archive) (path : GoString) (hinv : a.Inv)
    (h : noFileBefore a.items) : noFileBefore (a.Delete path).items := by
  obtain ⟨habsent, hpresent⟩ := delete_of_inv a path hinv
  cases hl : a.lookup path with
  | none => rw [habsent hl]; exact h
  | some this =>
    obtain ⟨hmem, _⟩ := (hinv.lookup_iff path this).mp hl
    obtain ⟨pre, post, hs⟩ := List.append_of_mem hmem
    obtain ⟨h1, _⟩ := hpresent this pre post hl hs
    unfold noFileBefore archive.items at h ⊢
    rw [List.pairwise_map] at h ⊢
    rw [h1]
    rw [hs] at h
    have hsub : (pre ++ post).Sublist (pre ++ this :: post) :=
      List.Sublist.append_left (List.sublist_cons_self this post) pre
    refine (h.sublist hsub).imp ?_
    intro p q hpq hhead
    obtain ⟨e1, e2⟩ := isAbove_congr (a.deref p) ((a.Delete path).deref p) (a.deref q)
      ((a.Delete path).deref q) (delete_pathname a path hinv p) (delete_pathname a path hinv q)
    rw [e1]
    rw [e2] at hhead
    exact hpq hhead

/-- Every sequence of `Delete` keeps the invariant and the part of the
path-prefix invariant that `finalize` checks. -/
theorem noFileBefore_foldl_Delete : ∀ (paths : List GoString) (a : archive), a.Inv →
    noFileBefore a.items → noFileBefore (paths.foldl archive.Delete a).items := by
  intro paths
  induction paths with
  | nil => intro a _ h; exact h
  | cons path rest ih =>
    intro a hinv h
    exact ih (a.Delete path) (inv_Delete a path hinv) (noFileBefore_Delete a path hinv h)

/-! ### `SetBoundary` at the width the entries have, and a cascade that fails -/

/-- The loop of `String()` reads the archive comment and the records given
only. -/
theorem stringLoop_congr (a b : archive) (last : Int) (hc : b.comment = a.comment) :
    ∀ (items : List entry) (idx : Int) (data : GoString),
      stringLoop b last idx items data = stringLoop a last idx items data := by
  intro items
  induction items with
  | nil => intro idx data; rfl
  | cons item rest ih =>
    intro idx data
    rw [stringLoop, stringLoop, hc]
    exact ih _ _

/-- `String()` depends only on the entry list, the records, the comment and the
boundary of the archive. -/
theorem string_congr (a b : archive) (he : b.entries = a.entries)
    (hd : ∀ q, b.deref q = a.deref q) (hc : b.comment = a.comment)
    (hb : b.boundary = a.boundary) : b.String = a.String := by
  have hitems : b.items = a.items := by
    unfold archive.items
    rw [he]
    exact List.map_congr_left (fun q _ => hd q)
  unfold archive.String
  rw [he, hitems, hc, hb]
  simp only [stringLoop_congr a b _ hc]

/-- `Get` depends only on `lookup` and the records. -/
theorem get_congr (a b : archive) (hl : b.lookup = a.lookup) (hd : ∀ q, b.deref q = a.deref q)
    (p : GoString) : b.Get p = a.Get p := by
  unfold archive.Get
  rw [hl]
  cases a.lookup p with
  | none => rfl
  | some q => simp only [hd q]

/-- The loop of `SetBoundary` leaves the boundary of the archive. -/
theorem setBoundaryLoop_boundary (recur : archive → Int → Option (Option GoError × archive))
    (size : Int) :
    ∀ (l : List Nat) (a b : archive) (e : Option GoError),
      setBoundaryLoop recur size l a = some (e, b) → b.boundary = a.boundary := by
  intro l
  induction l with
  | nil =>
    intro a b e h
    simp only [setBoundaryLoop, Option.some.injEq, Prod.mk.injEq] at h
    rw [← h.2]
  | cons item rest ih =>
    intro a b e h
    rw [setBoundaryLoop] at h
    simp only at h
    split at h
    · simp only [Option.some.injEq, Prod.mk.injEq] at h
      rw [← h.2]; rfl
    · split at h
      · exact absurd h (by simp)
      · simp only [Option.some.injEq, Prod.mk.injEq] at h
        rw [← h.2]; rfl
      · rw [ih _ b e h]; rfl

/-- `SetBoundary` leaves the boundary of the archive when it returns an error,
and sets it to the size given when it returns nil. -/
theorem setBoundaryDepth_boundary_cases (n : Nat) (a b : archive) (size : Int)
    (e : Option GoError) (h : archive.SetBoundaryDepth n a size = some (e, b)) :
    (e = none → b.boundary = size) ∧ (e ≠ none → b.boundary = a.boundary) := by
  cases n with
  | zero => simp [archive.SetBoundaryDepth] at h
  | succ d =>
    rw [archive.SetBoundaryDepth] at h
    split at h
    · simp only [Option.some.injEq, Prod.mk.injEq] at h
      exact ⟨fun h0 => by rw [h0] at h; simp at h, fun _ => by rw [← h.2]⟩
    · split at h
      · exact absurd h (by simp)
      · rename_i err c hloop
        simp only [Option.some.injEq, Prod.mk.injEq] at h
        refine ⟨fun h0 => by rw [h0] at h; simp at h, fun _ => ?_⟩
        rw [← h.2]
        exact setBoundaryLoop_boundary _ _ _ _ _ _ hloop
      · rename_i c hloop
        simp only [Option.some.injEq, Prod.mk.injEq] at h
        exact ⟨fun _ => by rw [← h.2], fun h0 => absurd h.1.symm h0⟩

/-- The loop of `SetBoundary` over entries that are not nested archives and
have the width given already leaves every record as it is. -/
theorem setBoundaryLoop_plain (recur : archive → Int → Option (Option GoError × archive))
    (size : Int) (l : List Nat) (a : archive)
    (hplain : ∀ p ∈ l, (a.deref p).hrx = false ∧ (a.deref p).boundary = size) :
    ∃ e b, setBoundaryLoop recur size l a = some (e, b) ∧ (∀ q, b.deref q = a.deref q) ∧
      b.entries = a.entries ∧ b.lookup = a.lookup ∧ b.comment = a.comment := by
  cases l with
  | nil => exact ⟨none, a, rfl, fun _ => rfl, rfl, rfl, rfl⟩
  | cons item rest =>
    obtain ⟨hhrx, hwidth⟩ := hplain item (List.mem_cons_self _ _)
    have hsame : ({ a.deref item with boundary := size } : entry) = a.deref item := by
      rw [← hwidth]
    have hderef : ∀ q, (a.assign item { a.deref item with boundary := size }).deref q
        = a.deref q := by
      intro q
      by_cases hq : q = item
      · subst hq; simp [archive.assign, archive.deref, ← hwidth]
      · simp [archive.assign, archive.deref, hq]
    have hparse : ((a.assign item { a.deref item with boundary := size }).deref item).parseHRX
        = .error (.plain .ErrNotAnArchive) := by
      rw [hderef]
      unfold entry.parseHRX
      rw [hhrx]
      cases (a.deref item).pathname <;> simp
    refine ⟨some (.plain .ErrNotAnArchive), a.assign item { a.deref item with boundary := size },
      ?_, hderef, rfl, rfl, rfl⟩
    rw [setBoundaryLoop]
    simp only [hparse]

/-- The loop of `SetBoundary` gives the same result when the nested calls do. -/
theorem setBoundaryLoop_mono (recur1 recur2 : archive → Int → Option (Option GoError × archive))
    (size : Int) (hmono : ∀ ia s r, recur1 ia s = some r → recur2 ia s = some r) :
    ∀ (l : List Nat) (a : archive) (r : Option GoError × archive),
      setBoundaryLoop recur1 size l a = some r → setBoundaryLoop recur2 size l a = some r := by
  intro l
  induction l with
  | nil => intro a r h; exact h
  | cons item rest ih =>
    intro a r h
    rw [setBoundaryLoop] at h ⊢
    simp only at h ⊢
    split at h
    · exact h
    · split at h
      · exact absurd h (by simp)
      · rename_i err c hrec
        rw [hmono _ _ _ hrec]
        exact h
      · rename_i ib hrec
        rw [hmono _ _ _ hrec]
        exact ih _ _ h

/-- A result of `SetBoundary` within a depth is its result within every
larger depth. -/
theorem setBoundaryDepth_mono : ∀ (n m : Nat) (a : archive) (size : Int)
    (r : Option GoError × archive), n ≤ m →
    archive.SetBoundaryDepth n a size = some r → archive.SetBoundaryDepth m a size = some r := by
  intro n
  induction n with
  | zero => intro m a size r _ h; simp [archive.SetBoundaryDepth] at h
  | succ n ih =>
    intro m a size r hle h
    cases m with
    | zero => omega
    | succ m =>
      rw [archive.SetBoundaryDepth] at h ⊢
      split at h
      · rename_i hsize
        rw [if_pos hsize]
        exact h
      · rename_i hsize
        rw [if_neg hsize]
        split at h
        · exact absurd h (by simp)
        · rename_i err c hloop
          rw [setBoundaryLoop_mono _ _ size (fun ia s r1 h1 => ih m ia s r1 (by omega) h1)
            _ _ _ hloop]
          exact h
        · rename_i c hloop
          rw [setBoundaryLoop_mono _ _ size (fun ia s r1 h1 => ih m ia s r1 (by omega) h1)
            _ _ _ hloop]
          exact h

/-- A result of `SetBoundary` within some depth is the result of
`SetBoundary`. -/
theorem setBoundary_of_depth (n : Nat) (a : archive) (size : Int)
    (r : Option GoError × archive) (hnd : a.entries.Nodup)
    (h : archive.SetBoundaryDepth n a size = some r) : a.SetBoundary size = some r := by
  unfold archive.SetBoundary
  rcases Nat.le_total n a.depthBound with hle | hle
  · exact setBoundaryDepth_mono n _ a size r hle h
  · cases hsb : archive.SetBoundaryDepth a.depthBound a size with
    | none => exact absurd hsb (setBoundary_total a size hnd)
    | some r1 =>
      have := setBoundaryDepth_mono _ n a size r1 hle hsb
      rw [h] at this
      rw [this]

/-- The loop of `SetBoundary` that returns an error: the entry `k` at which it
was raised has the width given and is otherwise as before, the entries after
it are as before, and every entry before it has the width given and the text
of its nested archive, renumbered, as its body. -/
theorem setBoundaryLoop_failure (recur : archive → Int → Option (Option GoError × archive))
    (size : Int) :
    ∀ (l : List Nat) (a b : archive) (err : GoError), l.Nodup →
      setBoundaryLoop recur size l a = some (some err, b) →
      ∃ pre k post, l = pre ++ k :: post ∧
        (∀ q, q ∉ pre → q ≠ k → b.deref q = a.deref q) ∧
        b.deref k = { a.deref k with boundary := size } ∧
        ((({ a.deref k with boundary := size } : entry).parseHRX = .error err) ∨
          ∃ ia ib, ({ a.deref k with boundary := size } : entry).parseHRX = .ok ia ∧
            recur ia (wrapInt (size + 1)) = some (some err, ib)) ∧
        ∀ p ∈ pre, ∃ ia ib, ({ a.deref p with boundary := size } : entry).parseHRX = .ok ia ∧
          recur ia (wrapInt (size + 1)) = some (none, ib) ∧
          b.deref p = { a.deref p with boundary := size, body := some ib.String } := by
  intro l
  induction l with
  | nil => intro a b err _ h; simp [setBoundaryLoop] at h
  | cons item rest ih =>
    intro a b err hnd h
    obtain ⟨hnotin, hnd1⟩ := List.nodup_cons.mp hnd
    have hitem : (a.assign item { a.deref item with boundary := size }).deref item
        = { a.deref item with boundary := size } := by
      simp [archive.assign, archive.deref]
    have hother : ∀ q, q ≠ item →
        (a.assign item { a.deref item with boundary := size }).deref q = a.deref q := by
      intro q hq
      simp [archive.assign, archive.deref, hq]
    rw [setBoundaryLoop] at h
    simp only at h
    split at h
    · rename_i err1 hparse
      simp only [Option.some.injEq, Prod.mk.injEq] at h
      obtain ⟨h1, h2⟩ := h
      subst h1 h2
      rw [hitem] at hparse
      exact ⟨[], item, rest, rfl, fun q _ hq => hother q hq, hitem, Or.inl hparse,
        fun p hp => absurd hp (List.not_mem_nil _)⟩
    · rename_i ia hparse
      rw [hitem] at hparse
      split at h
      · exact absurd h (by simp)
      · rename_i err1 c hrec
        simp only [Option.some.injEq, Prod.mk.injEq] at h
        obtain ⟨h1, h2⟩ := h
        subst h1 h2
        exact ⟨[], item, rest, rfl, fun q _ hq => hother q hq, hitem,
          Or.inr ⟨ia, c, hparse, hrec⟩, fun p hp => absurd hp (List.not_mem_nil _)⟩
      · rename_i ib hrec
        obtain ⟨pre, k, post, hsplit, hframe, hk, hraise, hpre⟩ := ih _ b err hnd1 h
        have hkrest : k ∈ rest := by rw [hsplit]; simp
        have hkitem : k ≠ item := fun h0 => hnotin (h0 ▸ hkrest)
        have hitempre : item ∉ pre := fun h0 => hnotin (by rw [hsplit]; simp [h0])
        have hold : ∀ q, q ≠ item →
            ((a.assign item { a.deref item with boundary := size }).assign item
              { (a.assign item { a.deref item with boundary := size }).deref item with
                body := some ib.String }).deref q = a.deref q := by
          intro q hq
          simp [archive.assign, archive.deref, hq]
        refine ⟨item :: pre, k, post, by rw [hsplit]; rfl, ?_, ?_, ?_, ?_⟩
        · intro q hq hqk
          have hqi : q ≠ item := fun h0 => hq (h0 ▸ List.mem_cons_self _ _)
          have hqp : q ∉ pre := fun h0 => hq (List.mem_cons_of_mem _ h0)
          rw [hframe q hqp hqk, hold q hqi]
        · rw [hk, hold k hkitem]
        · rw [hold k hkitem] at hraise
          exact hraise
        · intro p hp
          rcases List.mem_cons.mp hp with hpi | hpp
          · subst hpi
            refine ⟨ia, ib, hparse, hrec, ?_⟩
            rw [hframe p hitempre (fun h0 => hkitem h0.symm)]
            simp [archive.assign, archive.deref]
          · have hpi : p ≠ item := fun h0 => hnotin (by rw [hsplit]; simp [← h0, hpp])
            obtain ⟨ia1, ib1, e1, e2, e3⟩ := hpre p hpp
            rw [hold p hpi] at e1 e3
            exact ⟨ia1, ib1, e1, e2, e3⟩

/-! ### Suffixes, and the text of an entry -/

/-- `strings.HasSuffix`: the string is some string followed by the suffix. -/
theorem hasSuffix_iff (s suffix : GoString) :
    HasSuffix s suffix = true ↔ ∃ t, s = t ++ suffix := by
  unfold HasSuffix
  constructor
  · intro h
    simp only [Bool.and_eq_true, decide_eq_true_eq, beq_iff_eq] at h
    refine ⟨s.take (s.length - suffix.length), ?_⟩
    have := List.take_append_drop (s.length - suffix.length) s
    rw [h.2] at this
    exact this.symm
  · rintro ⟨t, rfl⟩
    simp

/-- A string that is not empty ends with a newline exactly when its last byte
is one. -/
theorem hasSuffix_newline (s : GoString) : HasSuffix s [10] = true ↔ s.getLast? = some 10 := by
  rw [hasSuffix_iff]
  constructor
  · rintro ⟨t, rfl⟩
    simp
  · intro h
    obtain ⟨t, ht⟩ : ∃ t, s = t ++ [10] := by
      rcases List.eq_nil_or_concat s with h0 | ⟨t, b, hb⟩
      · rw [h0] at h; simp at h
      · rw [hb] at h
        simp at h
        exact ⟨t, by rw [hb, h]; simp⟩
    exact ⟨t, ht⟩

/-- Whether a text ends with a newline is decided by its last part, when that
is not empty. -/
theorem hasSuffix_newline_append (x c : GoString) (hc : c ≠ []) :
    HasSuffix (x ++ c) [10] = HasSuffix c [10] := by
  have h1 := hasSuffix_newline (x ++ c)
  have h2 := hasSuffix_newline c
  rw [List.getLast?_append_of_ne_nil x hc] at h1
  cases h : HasSuffix c [10] with
  | true => exact h1.mpr (h2.mp h)
  | false =>
    cases h3 : HasSuffix (x ++ c) [10] with
    | false => rfl
    | true => rw [h2.mpr (h1.mp h3)] at h; exact absurd h (by simp)

/-- `newBoundary` of a positive width, without and with a pathname. -/
theorem newBoundary_pos (w : Int) (hw : 1 ≤ w) (p : GoString) :
    newBoundary w [] = boundaryLine w ∧ (p ≠ [] → newBoundary w p = headerLine w p) := by
  unfold newBoundary boundaryLine headerLine
  have hpos : w > 0 := by omega
  rw [if_pos hpos]
  refine ⟨by simp, fun hp => ?_⟩
  simp [hp, hpos]

/-- A string that ends in `.hrx` does not end in `'/'`. -/
theorem not_slash_of_hrx (t : GoString) : HasSuffix (t ++ ascii ".hrx") [47] = false := by
  cases h : HasSuffix (t ++ ascii ".hrx") [47] with
  | false => rfl
  | true =>
    obtain ⟨u, hu⟩ := (hasSuffix_iff _ _).mp h
    have h1 : (t ++ ascii ".hrx").getLast? = some 120 := by
      rw [List.getLast?_append_of_ne_nil t (by decide)]; rfl
    rw [hu] at h1
    simp at h1

/-- The loop of `String()` appends, for each entry, its text and the newline
that separates a file with a body from what follows. -/
theorem stringLoop_pieces (a : archive) (n : Nat) :
    ∀ (items : List entry) (k : Nat) (data : GoString),
      stringLoop a ((n : Int) - 1) (k : Int) items data =
        data ++ ((items.enumFrom k).map (fun ie =>
          ie.2.String ++
            (if ie.2.IsFile && decide (ie.2.GetBody ≠ []) &&
                (decide (ie.1 + 1 < n) || a.comment.isSome)
              then [10] else []))).flatten := by
  intro items
  induction items with
  | nil => intro k data; simp [stringLoop]
  | cons item rest ih =>
    intro k data
    rw [stringLoop]
    have hk : ((k : Int) + 1) = ((k + 1 : Nat) : Int) := by push_cast; rfl
    simp only [hk, ih, List.enumFrom_cons, List.map_cons, List.flatten_cons]
    rw [← List.append_assoc, ← List.append_assoc]
    congr 1
    have hidx : ((k : Int) < (n : Int) - 1) ↔ k + 1 < n := by omega
    by_cases hfile : item.IsFile = true
    · by_cases hbody : item.GetBody = []
      · simp [hfile, hbody]
      · by_cases hlt : k + 1 < n
        · rw [if_pos (by simp [hfile, hbody]), if_pos (hidx.mpr hlt)]
          simp [hfile, hbody, hlt]
        · rw [if_pos (by simp [hfile, hbody]), if_neg (fun h => hlt (hidx.mp h))]
          cases hc : a.comment with
          | none => simp [hfile, hbody, hlt]
          | some c => simp [hfile, hbody, hlt]
    · simp [hfile]

/-! ### The boundary widths are positive -/

/-- The loop of `parseHeaderLine` at the end of the runes. -/
theorem headerLoop_nil (size i : Nat) (b : Int) (pn : GoString) (h : Bool) :
    headerLoop size i [] b pn h = (b, pn, h, none) := rfl

/-- One pass of the loop of `parseHeaderLine`. -/
theorem headerLoop_cons (size i r : Nat) (rest : List Nat) (b : Int) (pn : GoString)
    (h : Bool) :
    headerLoop size i (r :: rest) b pn h =
      if h then
        match checkPathCharacter r with
        | some e => (b, pn, h, some e)
        | none => headerLoop size (i + 1) rest b (pn ++ encodeRune r) h
      else if r = 61 then
        headerLoop size (i + 1) rest (b + 1) pn h
      else if r = 62 then
        if i + 1 < size then
          match rest with
          | [] => (b, pn, true, some Sentinel.indexOutOfRange)
          | r1 :: rest1 =>
            if r1 = 32 then headerLoop size (i + 2) rest1 b pn true
            else (b, pn, true, some Sentinel.ErrNoSpaceBeforePath)
        else headerLoop size (i + 1) rest b pn true
      else (b, pn, h, none) := by
  cases rest <;> rfl

/-- The loop of `parseHeaderLine` only counts the boundary up. -/
theorem headerLoop_boundary_nonneg (size : Nat) :
    ∀ (n : Nat) (rs : List Nat), rs.length ≤ n →
      ∀ (i : Nat) (b : Int) (pn : GoString) (h : Bool), 0 ≤ b →
        0 ≤ (headerLoop size i rs b pn h).1 := by
  intro n
  induction n with
  | zero =>
    intro rs hl i b pn h hb
    have : rs = [] := List.length_eq_zero.mp (Nat.le_zero.mp hl)
    subst this
    exact hb
  | succ n ih =>
    intro rs hl i b pn h hb
    cases rs with
    | nil => exact hb
    | cons r rest =>
      simp only [List.length_cons] at hl
      rw [headerLoop_cons]
      split
      · split
        · exact hb
        · exact ih rest (by omega) _ _ _ _ hb
      · split
        · exact ih rest (by omega) _ _ _ _ (by omega)
        · split
          · split
            · split
              · exact hb
              · rename_i r1 rest1
                split
                · exact ih rest1 (by simp at hl; omega) _ _ _ _ hb
                · exact hb
            · exact ih rest (by omega) _ _ _ _ hb
          · exact hb

/-- The width the scanner reports for a line is not negative. -/
theorem scanLine_boundary_nonneg (content : GoString) : 0 ≤ (scanLine content).boundary := by
  unfold scanLine parseHeaderLine
  simp only
  generalize (if HasSuffix content [10] = true then TrimSuffix content [10] else content) = c
  cases runes c with
  | nil => exact le_refl _
  | cons r0 rest =>
    simp only
    split
    · exact headerLoop_boundary_nonneg _ _ _ (le_refl _) _ _ _ _ (le_refl _)
    · exact le_refl _

/-- `AppendBody` keeps the boundary. -/
theorem appendBody_boundary (e : entry) (content : GoString) :
    (e.AppendBody content).boundary = e.boundary := by
  unfold entry.AppendBody
  split <;> rfl

/-- One line of the loop of `parseReader` keeps the widths of the records
non-negative, when the width of the line is. -/
theorem parseLine_boundary (filename : GoString) (line : Int) (sl : scannedLine)
    (content : GoString) (peek : Option GoString) (st st1 : parseState)
    (h : parseLine filename line sl content peek st = .ok st1) (hsl : 0 ≤ sl.boundary)
    (hst : ∀ r ∈ st.records, 0 ≤ r.boundary) : ∀ r ∈ st1.records, 0 ≤ r.boundary := by
  unfold parseLine at h
  split at h
  · rename_i hnone
    split at h
    · exact absurd h (by simp)
    · split at h
      · exact absurd h (by simp)
      · simp only [Except.ok.injEq] at h
        subst h
        intro r hr
        simp only [parseState.records, Option.toList, List.mem_append, List.mem_singleton] at hr
        rcases hr with hr | hr
        · exact hst r (by simp [parseState.records, hr])
        · rw [hr]; exact hsl
  · rename_i this hsome
    split at h
    · simp only [Except.ok.injEq] at h
      subst h
      intro r hr
      simp only [parseState.records, Option.toList, List.mem_append, List.mem_singleton] at hr
      rcases hr with hr | hr
      · exact hst r (by simp only [parseState.records, hsome, Option.toList, List.mem_append,
          List.mem_singleton]; exact hr)
      · rw [hr]
        split
        · exact hsl
        · exact hsl
    · simp only [Except.ok.injEq] at h
      subst h
      intro r hr
      simp only [parseState.records, Option.toList, List.mem_append, List.mem_singleton] at hr
      rcases hr with hr | hr
      · exact hst r (by simp [parseState.records, hr])
      · have hthis : 0 ≤ this.boundary := hst this (by simp [parseState.records, hsome])
        rw [hr]
        split
        · rw [appendBody_boundary]; exact hthis
        · split
          · show 0 ≤ (this.AppendBody content).boundary
            rw [appendBody_boundary]; exact hthis
          · rw [appendBody_boundary]; exact hthis

/-- The loop of `parseReader` keeps the widths of the records non-negative. -/
theorem parseLoop_boundary (filename : GoString) :
    ∀ (lines : List GoString) (line : Int) (st st1 : parseState),
      parseLoop filename line lines st = .ok st1 → (∀ r ∈ st.records, 0 ≤ r.boundary) →
      ∀ r ∈ st1.records, 0 ≤ r.boundary := by
  intro lines
  induction lines with
  | nil =>
    intro line st st1 h hst
    simp only [parseLoop, Except.ok.injEq] at h
    exact h ▸ hst
  | cons content rest ih =>
    intro line st st1 h hst
    rw [parseLoop] at h
    split at h
    · exact absurd h (by simp)
    · rename_i st2 hstep
      unfold parseStep at hstep
      simp only at hstep
      have h2 : ∀ r ∈ st2.records, 0 ≤ r.boundary := by
        split at hstep
        · exact parseLine_boundary _ _ _ _ _ _ _ hstep (scanLine_boundary_nonneg content) hst
        · exact parseLine_boundary _ _ _ _ _ _ _ hstep (scanLine_boundary_nonneg content) hst
      exact ih (line + 1) st2 st1 h h2

/-- The records the loop of `finalize` accepts have a boundary. -/
theorem finalizeLoop_boundaries : ∀ (rest : List entry) (item : entry) (a b : archive),
    finalizeLoop item rest a = .ok b → ∀ r ∈ item :: rest, r.boundary ≠ 0 := by
  intro rest
  induction rest with
  | nil =>
    intro item a b h r hr
    obtain ⟨_, hb, _⟩ := finalizeLoop_ok_checks _ _ _ _ h
    rw [List.mem_singleton.mp hr]
    exact hb
  | cons n rest1 ih =>
    intro item a b h r hr
    obtain ⟨herr, hb, hcase⟩ := finalizeLoop_ok_checks _ _ _ _ h
    rcases List.mem_cons.mp hr with hr1 | hr1
    · rw [hr1]; exact hb
    · rcases hcase with hc | ⟨hc, hdir, hdup, hanc⟩
      · rw [finalizeLoop_comment_cons _ _ _ _ herr hb hc] at h
        split at h
        · exact absurd h (by simp)
        · have := ih _ _ _ h
          rcases List.mem_cons.mp hr1 with hr2 | hr2
          · rw [hr2]
            exact this { n with comment := item.body } (List.mem_cons_self _ _)
          · exact this r (List.mem_cons_of_mem _ hr2)
      · rw [finalizeLoop_keep_cons _ _ _ _ herr hb hc hdir hdup hanc] at h
        exact ih _ _ _ h r hr1

/-- An archive is wide when its boundary and the widths of its records are
positive. -/
theorem wide_of_items (a : archive) (hb : 1 ≤ a.boundary)
    (hitems : ∀ e ∈ a.items, 1 ≤ e.boundary) : a.Wide :=
  ⟨hb, fun p hp => hitems _ (List.mem_map.mpr ⟨p, hp, rfl⟩)⟩

/-- `finalize` on records of non-negative width, from an archive without
entries, gives a wide archive. -/
theorem finalize_wide (a b : archive) (raw : List entry) (h : a.finalize raw = .ok b)
    (hk : a.Keyed) (hempty : a.items = []) (hraw : ∀ r ∈ raw, 0 ≤ r.boundary) : b.Wide := by
  obtain ⟨_, hitems, _⟩ := finalize_keyed a b raw h hk hempty
  cases raw with
  | nil => simp [archive.finalize] at h
  | cons item rest =>
    have h1 : finalizeLoop item rest { a with boundary := item.boundary } = .ok b := h
    have hne := finalizeLoop_boundaries _ _ _ _ h1
    have hpos : ∀ r ∈ item :: rest, 1 ≤ r.boundary := by
      intro r hr
      have := hne r hr
      have := hraw r hr
      omega
    obtain ⟨_, _, _, _, hbd, _⟩ := finalizeLoop_keyed _ _ _ _ h1
      (keyed_congr a _ hk rfl rfl rfl rfl)
    apply wide_of_items
    · rw [hbd]
      exact hpos item (List.mem_cons_self _ _)
    · intro e he
      rw [hitems] at he
      obtain ⟨r, hr, _, c, hc⟩ := mem_attachComments _ _ (le_refl _) e he
      rw [hc]
      exact hpos r hr

/-- Every archive `parseReader` returns is wide. -/
theorem parseReader_wide (filename : GoString) (lines : List GoString) (a : archive)
    (h : (newArchive filename []).parseReader lines = .ok a) : a.Wide := by
  unfold archive.parseReader at h
  split at h
  · exact absurd h (by simp)
  · rename_i st hloop
    have hfin : ({ newArchive filename [] with
        boundary := st.boundary, lastLine := st.lastLine } : archive).finalize st.records
        = .ok a := by
      unfold parseState.records
      cases hthis : st.this with
      | none => rw [hthis] at h; simpa using h
      | some t => rw [hthis] at h; simpa using h
    refine finalize_wide _ a st.records hfin
      (keyed_congr _ _ (keyed_newArchive filename []) rfl rfl rfl rfl) rfl ?_
    exact parseLoop_boundary _ _ _ _ _ hloop (by simp [parseState.records])

/-- Every archive `parseData` returns is wide. -/
theorem parseData_wide (filename data : GoString) (a : archive)
    (h : parseData filename data = .ok a) : a.Wide := by
  unfold parseData archive.parseString at h
  split at h
  · exact absurd h (by simp)
  · exact parseReader_wide _ _ _ h

/-- An `int` operation of Go gives the mathematical result when that is an
`int`. -/
theorem wrapInt_of_range (x : Int) (h1 : -2 ^ 63 ≤ x) (h2 : x < 2 ^ 63) : wrapInt x = x := by
  unfold wrapInt
  omega

/-- The archive `parseHRX` returns for an entry of non-negative width is wide,
when the width is below the largest `int` or the body is not empty. -/
theorem parseHRX_wide (e : entry) (a : archive) (h : e.parseHRX = .ok a)
    (he : 0 ≤ e.boundary) (hmax : e.GetBody = [] → e.boundary < 2 ^ 63 - 1) : a.Wide := by
  unfold entry.parseHRX at h
  split at h
  · split at h
    · cases hbody : e.body with
      | none =>
        rw [hbody] at h
        simp only [Except.ok.injEq] at h
        have hm := hmax (by simp [entry.GetBody, hbody])
        rw [← h]
        exact ⟨by
          show 1 ≤ wrapInt (e.boundary + 1)
          rw [wrapInt_of_range _ (by omega) (by omega)]
          omega, fun p hp => by simp [newArchive] at hp⟩
      | some b =>
        cases b with
        | nil =>
          rw [hbody] at h
          simp only [Except.ok.injEq] at h
          have hm := hmax (by simp [entry.GetBody, hbody])
          rw [← h]
          exact ⟨by
            show 1 ≤ wrapInt (e.boundary + 1)
            rw [wrapInt_of_range _ (by omega) (by omega)]
            omega, fun p hp => by simp [newArchive] at hp⟩
        | cons c cs =>
          rw [hbody] at h
          exact parseData_wide _ _ _ h
    · exact absurd h (by simp)
  · exact absurd h (by simp)

/-- The loop of `SetBoundary` with a positive size keeps the widths of the
records of a list positive. -/
theorem setBoundaryLoop_wide (recur : archive → Int → Option (Option GoError × archive))
    (size : Int) (hsize : 1 ≤ size) (addrs : List Nat) :
    ∀ (l : List Nat) (a b : archive) (e : Option GoError),
      setBoundaryLoop recur size l a = some (e, b) →
      (∀ p ∈ addrs, 1 ≤ (a.deref p).boundary) → ∀ p ∈ addrs, 1 ≤ (b.deref p).boundary := by
  intro l
  induction l with
  | nil =>
    intro a b e h ha
    simp only [setBoundaryLoop, Option.some.injEq, Prod.mk.injEq] at h
    rw [← h.2]; exact ha
  | cons item rest ih =>
    intro a b e h ha
    have h1 : ∀ p ∈ addrs,
        1 ≤ ((a.assign item { a.deref item with boundary := size }).deref p).boundary := by
      intro p hp
      by_cases hpi : p = item
      · subst hpi; simpa [archive.assign, archive.deref] using hsize
      · simpa [archive.assign, archive.deref, hpi] using ha p hp
    rw [setBoundaryLoop] at h
    simp only at h
    split at h
    · simp only [Option.some.injEq, Prod.mk.injEq] at h
      rw [← h.2]; exact h1
    · split at h
      · exact absurd h (by simp)
      · simp only [Option.some.injEq, Prod.mk.injEq] at h
        rw [← h.2]; exact h1
      · refine ih _ b e h ?_
        intro p hp
        by_cases hpi : p = item
        · subst hpi; simpa [archive.assign, archive.deref] using hsize
        · simpa [archive.assign, archive.deref, hpi] using ha p hp

/-- `SetBoundary` keeps an archive wide, whether it returns an error or
nil. -/
theorem setBoundary_wide (a b : archive) (size : Int) (e : Option GoError)
    (h : a.SetBoundary size = some (e, b)) (hw : a.Wide) : b.Wide := by
  have hkeys := setBoundaryDepth_sameKeys _ _ _ _ _ h
  have hbd := setBoundaryDepth_boundary_cases _ a b size e h
  unfold archive.SetBoundary archive.depthBound at h
  rw [archive.SetBoundaryDepth] at h
  split at h
  · simp only [Option.some.injEq, Prod.mk.injEq] at h
    rw [← h.2]; exact hw
  · rename_i hsize
    have hsize1 : 1 ≤ size := by omega
    constructor
    · cases e with
      | none => rw [hbd.1 rfl]; exact hsize1
      | some err => rw [hbd.2 (by simp)]; exact hw.boundary
    · rw [hkeys.entries]
      split at h
      · exact absurd h (by simp)
      · rename_i err c hloop
        simp only [Option.some.injEq, Prod.mk.injEq] at h
        rw [← h.2]
        exact setBoundaryLoop_wide _ size hsize1 a.entries _ _ _ _ hloop hw.entries
      · rename_i c hloop
        simp only [Option.some.injEq, Prod.mk.injEq] at h
        rw [← h.2]
        intro p hp
        exact setBoundaryLoop_wide _ size hsize1 a.entries _ _ _ _ hloop hw.entries p hp

/-- The end of `Set` keeps the widths of the records. -/
theorem setEntryComment_boundary (a : archive) (this : Nat) (comment : GoString) (q : Nat) :
    ((a.setEntryComment this comment).deref q).boundary = (a.deref q).boundary ∧
      (a.setEntryComment this comment).entries = a.entries ∧
      (a.setEntryComment this comment).boundary = a.boundary := by
  unfold archive.setEntryComment
  split
  · refine ⟨?_, rfl, rfl⟩
    by_cases hq : q = this
    · subst hq; simp [archive.assign, archive.deref]
    · simp [archive.assign, archive.deref, hq]
  · refine ⟨?_, rfl, rfl⟩
    by_cases hq : q = this
    · subst hq; simp [archive.assign, archive.deref]
    · simp [archive.assign, archive.deref, hq]

/-- The step of `Set` that appends the new record keeps the archive wide. -/
theorem set_push_wide (a : archive) (pathname body comment : GoString) (n : Int)
    (hw : a.Wide) (hfresh : ∀ p ∈ a.entries, p < a.fresh) :
    ((({ a with lastLine := n } : archive).push pathname
        (newEntry (a.lastLine + 1) a.boundary pathname body none)).setEntryComment
      a.fresh comment).Wide := by
  constructor
  · rw [(setEntryComment_boundary _ _ _ 0).2.2]
    exact hw.boundary
  · intro p hp
    rw [(setEntryComment_boundary _ _ _ p).2.1] at hp
    rw [(setEntryComment_boundary _ _ _ p).1]
    rcases List.mem_append.mp (show p ∈ a.entries ++ [a.fresh] from hp) with h1 | h1
    · have hne : p ≠ a.fresh := Nat.ne_of_lt (hfresh p h1)
      have : (({ a with lastLine := n } : archive).push pathname
          (newEntry (a.lastLine + 1) a.boundary pathname body none)).deref p = a.deref p := by
        simp [archive.push, archive.deref, hne]
      rw [this]
      exact hw.entries p h1
    · rw [List.mem_singleton.mp h1]
      have : (({ a with lastLine := n } : archive).push pathname
          (newEntry (a.lastLine + 1) a.boundary pathname body none)).deref a.fresh
          = newEntry (a.lastLine + 1) a.boundary pathname body none := by
        simp [archive.push, archive.deref]
      rw [this]
      exact hw.boundary

/-- `Set` keeps an archive wide. -/
theorem set_wide (a b : archive) (pathname body comment : GoString) (e : Option GoError)
    (h : a.Set pathname body comment = some (e, b)) (hw : a.Wide)
    (hfresh : ∀ p ∈ a.entries, p < a.fresh) : b.Wide := by
  unfold archive.Set at h
  split at h
  · simp only [Option.some.injEq, Prod.mk.injEq] at h
    exact h.2 ▸ hw
  · split at h
    · simp only [Option.some.injEq, Prod.mk.injEq] at h
      exact h.2 ▸ hw
    · split at h
      · simp only at h
        split at h
        · split at h
          · exact absurd h (by simp)
          · simp only [Option.some.injEq, Prod.mk.injEq] at h
            rw [← h.2]
            exact ⟨hw.boundary, hw.entries⟩
          · simp only [Option.some.injEq, Prod.mk.injEq] at h
            rw [← h.2]
            exact set_push_wide a pathname body comment _ hw hfresh
        · simp only [Option.some.injEq, Prod.mk.injEq] at h
          rw [← h.2]
          exact set_push_wide a pathname body comment _ hw hfresh
      · rename_i this hthis
        simp only [Option.some.injEq, Prod.mk.injEq] at h
        rw [← h.2]
        constructor
        · rw [(setEntryComment_boundary _ _ _ 0).2.2]
          exact hw.boundary
        · intro p hp
          rw [(setEntryComment_boundary _ _ _ p).2.1] at hp
          rw [(setEntryComment_boundary _ _ _ p).1]
          have : ((a.assign this { a.deref this with body := some body }).deref p).boundary
              = (a.deref p).boundary := by
            by_cases hq : p = this
            · subst hq; simp [archive.assign, archive.deref]
            · simp [archive.assign, archive.deref, hq]
          rw [this]
          exact hw.entries p hp

/-- `Delete` keeps an archive wide. -/
theorem delete_wide (a : archive) (path : GoString) (hinv : a.Inv) (hw : a.Wide) :
    (a.Delete path).Wide := by
  obtain ⟨habsent, hpresent⟩ := delete_of_inv a path hinv
  cases hl : a.lookup path with
  | none => rw [habsent hl]; exact hw
  | some this =>
    obtain ⟨hmem, _⟩ := (hinv.lookup_iff path this).mp hl
    obtain ⟨pre, post, hs⟩ := List.append_of_mem hmem
    obtain ⟨h1, _, _, _, h5, _, h7, h8, _⟩ := hpresent this pre post hl hs
    constructor
    · rw [h8]; exact hw.boundary
    · intro p hp
      rw [h1] at hp
      have hpa : p ∈ a.entries := by
        rw [hs]
        rcases List.mem_append.mp hp with h | h
        · exact List.mem_append_left _ h
        · exact List.mem_append_right _ (List.mem_cons_of_mem _ h)
      by_cases hq : p ∈ post
      · cases post with
        | nil => exact absurd hq (List.not_mem_nil _)
        | cons next rest =>
          rw [(h7 next rest rfl).2 p hq]
          exact hw.entries p hpa
      · rw [h5 p hq]
        exact hw.entries p hpa

/-- An archive obtained through the package is one a caller can hold. -/
theorem built_reachable (a : archive) (h : a.Built) : a.Reachable := by
  induction h with
  | new filename comment => exact .new _ _
  | parseData filename data a h => exact .parseData _ _ _ h
  | parseReader filename lines a h => exact .parseReader _ _ _ h
  | parseHRX a b path _ h _ _ =>
    unfold archive.ParseHRX at h
    split at h
    · exact .parseHRX _ _ h
    · exact absurd h (by simp)
  | entryParseHRX a b pathname e _ _ h _ _ => exact .parseHRX _ _ h
  | setBoundary a b size e _ h ih => exact .setBoundary _ _ _ _ ih h
  | set a b pathname body comment e _ h ih => exact .set _ _ _ _ _ _ ih h
  | delete a path _ ih => exact .delete _ _ ih
  | setComment a comment _ ih => exact .setComment _ _ ih
  | deleteComment a _ ih => exact .deleteComment _ ih

/-- Every archive obtained through the package is wide. -/
theorem built_wide (a : archive) (h : a.Built) : a.Wide := by
  induction h with
  | new filename comment =>
    exact ⟨by show (1 : Int) ≤ 5; decide, fun p hp => by simp [New, newArchive] at hp⟩
  | parseData filename data a h => exact parseData_wide _ _ _ h
  | parseReader filename lines a h => exact parseReader_wide _ _ _ h
  | parseHRX a b path hb h hmax ih =>
    have hinv := reachable_inv a (built_reachable a hb)
    unfold archive.ParseHRX at h
    split at h
    · rename_i item hl
      have := ih.entries item ((hinv.lookup_iff path item).mp hl).1
      exact parseHRX_wide _ _ h (by omega) (hmax _ (by simp [archive.Entry, hl]))
    · exact absurd h (by simp)
  | entryParseHRX a b pathname e hb he h hmax ih =>
    have hinv := reachable_inv a (built_reachable a hb)
    have hpos : 1 ≤ e.boundary := by
      unfold archive.Entry at he
      split at he
      · rename_i p hl
        simp only [Option.some.injEq] at he
        rw [← he]
        exact ih.entries p ((hinv.lookup_iff _ p).mp hl).1
      · split at he
        · rename_i p hl
          simp only [Option.some.injEq] at he
          rw [← he]
          exact ih.entries p ((hinv.lookup_iff _ p).mp hl).1
        · exact absurd he (by simp)
    exact parseHRX_wide _ _ h (by omega) hmax
  | setBoundary a b size e _ h ih => exact setBoundary_wide _ _ _ _ h ih
  | set a b pathname body comment e hb h ih =>
    exact set_wide _ _ _ _ _ _ h ih (reachable_inv a (built_reachable a hb)).fresh_gt
  | delete a path hb ih => exact delete_wide _ _ (reachable_inv a (built_reachable a hb)) ih
  | setComment a comment _ ih => exact ⟨ih.boundary, ih.entries⟩
  | deleteComment a _ ih => exact ⟨ih.boundary, ih.entries⟩

/-! ### UTF-8: decoding and encoding -/

/-- The cases of `utf8.DecodeRuneInString` on a string that is not empty: an
invalid encoding, or a valid encoding of one, two, three or four bytes. -/
theorem decodeRune_cases (b0 : Nat) (rest : GoString) :
    decodeRune (b0 :: rest) = (0xFFFD, 1) ∨
    (b0 < 128 ∧ decodeRune (b0 :: rest) = (b0, 1)) ∨
    (∃ b1 t, rest = b1 :: t ∧ 194 ≤ b0 ∧ b0 ≤ 223 ∧ 128 ≤ b1 ∧ b1 ≤ 191 ∧
      decodeRune (b0 :: rest) = ((b0 - 192) * 64 + (b1 - 128), 2)) ∨
    (∃ b1 b2 t, rest = b1 :: b2 :: t ∧ 224 ≤ b0 ∧ b0 ≤ 239 ∧ 128 ≤ b1 ∧ b1 ≤ 191 ∧
      (b0 ≠ 224 ∨ 160 ≤ b1) ∧ (b0 ≠ 237 ∨ b1 ≤ 159) ∧ 128 ≤ b2 ∧ b2 ≤ 191 ∧
      decodeRune (b0 :: rest) = ((b0 - 224) * 4096 + (b1 - 128) * 64 + (b2 - 128), 3)) ∨
    (∃ b1 b2 b3 t, rest = b1 :: b2 :: b3 :: t ∧ 240 ≤ b0 ∧ b0 ≤ 244 ∧ 128 ≤ b1 ∧ b1 ≤ 191 ∧
      (b0 ≠ 240 ∨ 144 ≤ b1) ∧ (b0 ≠ 244 ∨ b1 ≤ 143) ∧ 128 ≤ b2 ∧ b2 ≤ 191 ∧
      128 ≤ b3 ∧ b3 ≤ 191 ∧
      decodeRune (b0 :: rest)
        = ((b0 - 240) * 262144 + (b1 - 128) * 4096 + (b2 - 128) * 64 + (b3 - 128), 4)) := by
  unfold decodeRune
  by_cases h1 : b0 < 0x80
  · exact Or.inr (Or.inl ⟨h1, by simp only [h1, if_true]⟩)
  · simp only [h1, if_false]
    by_cases h2 : inRange 0xC2 0xDF b0 = true
    · simp only [h2, if_true]
      rcases rest with _ | ⟨b1, rest1⟩
      · exact Or.inl rfl
      · by_cases h3 : inRange 0x80 0xBF b1 = true
        · simp only [h3, if_true]
          simp only [inRange, Bool.and_eq_true, decide_eq_true_eq] at h2 h3
          exact Or.inr (Or.inr (Or.inl ⟨b1, rest1, rfl, h2.1, h2.2, h3.1, h3.2, rfl⟩))
        · simp only [h3, Bool.false_eq_true, if_false]
          exact Or.inl trivial
    · simp only [h2, Bool.false_eq_true, if_false]
      by_cases h3 : inRange 0xE0 0xEF b0 = true
      · simp only [h3, if_true]
        rcases rest with _ | ⟨b1, _ | ⟨b2, rest2⟩⟩
        · exact Or.inl rfl
        · exact Or.inl rfl
        · by_cases h4 : (inRange (if b0 = 0xE0 then 0xA0 else 0x80)
              (if b0 = 0xED then 0x9F else 0xBF) b1 && inRange 0x80 0xBF b2) = true
          · simp only [h4, if_true]
            simp only [inRange, Bool.and_eq_true, decide_eq_true_eq] at h3 h4
            obtain ⟨⟨h5, h6⟩, h7, h8⟩ := h4
            refine Or.inr (Or.inr (Or.inr (Or.inl
              ⟨b1, b2, rest2, rfl, h3.1, h3.2, ?_, ?_, ?_, ?_, h7, h8, rfl⟩)))
            · by_cases hb : b0 = 224
              · rw [if_pos hb] at h5; omega
              · rw [if_neg hb] at h5; exact h5
            · by_cases hb : b0 = 237
              · rw [if_pos hb] at h6; omega
              · rw [if_neg hb] at h6; exact h6
            · by_cases hb : b0 = 224
              · rw [if_pos hb] at h5; exact Or.inr h5
              · exact Or.inl hb
            · by_cases hb : b0 = 237
              · rw [if_pos hb] at h6; exact Or.inr h6
              · exact Or.inl hb
          · simp only [h4, Bool.false_eq_true, if_false]
            exact Or.inl trivial
      · simp only [h3, Bool.false_eq_true, if_false]
        by_cases h4 : inRange 0xF0 0xF4 b0 = true
        · simp only [h4, if_true]
          rcases rest with _ | ⟨b1, _ | ⟨b2, _ | ⟨b3, rest3⟩⟩⟩
          · exact Or.inl rfl
          · exact Or.inl rfl
          · exact Or.inl rfl
          · by_cases h5 : (inRange (if b0 = 0xF0 then 0x90 else 0x80)
                (if b0 = 0xF4 then 0x8F else 0xBF) b1 && inRange 0x80 0xBF b2 &&
                inRange 0x80 0xBF b3) = true
            · simp only [h5, if_true]
              simp only [inRange, Bool.and_eq_true, decide_eq_true_eq] at h4 h5
              obtain ⟨⟨⟨h6, h7⟩, h8, h9⟩, h10, h11⟩ := h5
              refine Or.inr (Or.inr (Or.inr (Or.inr
                ⟨b1, b2, b3, rest3, rfl, h4.1, h4.2, ?_, ?_, ?_, ?_, h8, h9, h10, h11, rfl⟩)))
              · by_cases hb : b0 = 240
                · rw [if_pos hb] at h6; omega
                · rw [if_neg hb] at h6; exact h6
              · by_cases hb : b0 = 244
                · rw [if_pos hb] at h7; omega
                · rw [if_neg hb] at h7; exact h7
              · by_cases hb : b0 = 240
                · rw [if_pos hb] at h6; exact Or.inr h6
                · exact Or.inl hb
              · by_cases hb : b0 = 244
                · rw [if_pos hb] at h7; exact Or.inr h7
                · exact Or.inl hb
            · simp only [h5, Bool.false_eq_true, if_false]
              exact Or.inl trivial
        · simp only [h4, Bool.false_eq_true, if_false]
          exact Or.inl trivial

/-- A rune decoded from a valid encoding encodes to the bytes it was decoded
from, and takes at least one byte. -/
theorem encodeRune_decodeRune (b0 : Nat) (rest : GoString)
    (h : decodeRune (b0 :: rest) ≠ (0xFFFD, 1)) :
    encodeRune (decodeRune (b0 :: rest)).1 = (b0 :: rest).take (decodeRune (b0 :: rest)).2 ∧
      1 ≤ (decodeRune (b0 :: rest)).2 := by
  rcases decodeRune_cases b0 rest with h0 | ⟨h1, hd⟩ | ⟨b1, t, hr, h1, h2, h3, h4, hd⟩ |
    ⟨b1, b2, t, hr, h1, h2, h3, h4, h5, h6, h7, h8, hd⟩ |
    ⟨b1, b2, b3, t, hr, h1, h2, h3, h4, h5, h6, h7, h8, h9, h10, hd⟩
  · exact absurd h0 h
  · rw [hd]
    simp [encodeRune, h1]
  · rw [hd, hr]
    have e1 : ¬ (b0 - 192) * 64 + (b1 - 128) < 128 := by omega
    have e2 : (b0 - 192) * 64 + (b1 - 128) < 2048 := by omega
    have e3 : 192 + ((b0 - 192) * 64 + (b1 - 128)) / 64 = b0 := by omega
    have e4 : 128 + ((b0 - 192) * 64 + (b1 - 128)) % 64 = b1 := by omega
    simp only [encodeRune, e1, e2, e3, e4, if_false, if_true]
    exact ⟨rfl, by omega⟩
  · rw [hd, hr]
    have e1 : ¬ (b0 - 224) * 4096 + (b1 - 128) * 64 + (b2 - 128) < 128 := by omega
    have e2 : ¬ (b0 - 224) * 4096 + (b1 - 128) * 64 + (b2 - 128) < 2048 := by omega
    have e3 : (b0 - 224) * 4096 + (b1 - 128) * 64 + (b2 - 128) < 65536 := by omega
    have e4 : inRange 55296 57343 ((b0 - 224) * 4096 + (b1 - 128) * 64 + (b2 - 128))
        = false := by
      simp only [inRange, Bool.and_eq_false_iff, decide_eq_false_iff_not]
      omega
    have e5 : decide (1114111 < (b0 - 224) * 4096 + (b1 - 128) * 64 + (b2 - 128)) = false := by
      simp only [decide_eq_false_iff_not]
      omega
    have f1 : 224 + ((b0 - 224) * 4096 + (b1 - 128) * 64 + (b2 - 128)) / 4096 = b0 := by omega
    have f2 : 128 + ((b0 - 224) * 4096 + (b1 - 128) * 64 + (b2 - 128)) / 64 % 64 = b1 := by
      omega
    have f3 : 128 + ((b0 - 224) * 4096 + (b1 - 128) * 64 + (b2 - 128)) % 64 = b2 := by omega
    simp only [encodeRune, e1, e2, e3, e4, e5, f1, f2, f3, if_false, if_true,
      Bool.or_self, Bool.false_eq_true]
    exact ⟨rfl, by omega⟩
  · rw [hd, hr]
    have e1 : ¬ (b0 - 240) * 262144 + (b1 - 128) * 4096 + (b2 - 128) * 64 + (b3 - 128)
        < 128 := by omega
    have e2 : ¬ (b0 - 240) * 262144 + (b1 - 128) * 4096 + (b2 - 128) * 64 + (b3 - 128)
        < 2048 := by omega
    have e3 : ¬ (b0 - 240) * 262144 + (b1 - 128) * 4096 + (b2 - 128) * 64 + (b3 - 128)
        < 65536 := by omega
    have e4 : inRange 55296 57343
        ((b0 - 240) * 262144 + (b1 - 128) * 4096 + (b2 - 128) * 64 + (b3 - 128)) = false := by
      simp only [inRange, Bool.and_eq_false_iff, decide_eq_false_iff_not]
      omega
    have e5 : decide (1114111 <
        (b0 - 240) * 262144 + (b1 - 128) * 4096 + (b2 - 128) * 64 + (b3 - 128)) = false := by
      simp only [decide_eq_false_iff_not]
      omega
    have f1 : 240 + ((b0 - 240) * 262144 + (b1 - 128) * 4096 + (b2 - 128) * 64
        + (b3 - 128)) / 262144 = b0 := by omega
    have f2 : 128 + ((b0 - 240) * 262144 + (b1 - 128) * 4096 + (b2 - 128) * 64
        + (b3 - 128)) / 4096 % 64 = b1 := by omega
    have f3 : 128 + ((b0 - 240) * 262144 + (b1 - 128) * 4096 + (b2 - 128) * 64
        + (b3 - 128)) / 64 % 64 = b2 := by omega
    have f4 : 128 + ((b0 - 240) * 262144 + (b1 - 128) * 4096 + (b2 - 128) * 64
        + (b3 - 128)) % 64 = b3 := by omega
    simp only [encodeRune, e1, e2, e3, e4, e5, f1, f2, f3, f4, if_false,
      Bool.or_self, Bool.false_eq_true]
    exact ⟨rfl, by omega⟩

/-- A rune below `0x80` is decoded from one byte, the byte of that value. -/
theorem decodeRune_ascii (b0 : Nat) (rest : GoString) (h : (decodeRune (b0 :: rest)).1 < 128) :
    decodeRune (b0 :: rest) = (b0, 1) := by
  rcases decodeRune_cases b0 rest with h0 | ⟨h1, hd⟩ | ⟨b1, t, hr, h1, h2, h3, h4, hd⟩ |
    ⟨b1, b2, t, hr, h1, h2, h3, h4, h5, h6, h7, h8, hd⟩ |
    ⟨b1, b2, b3, t, hr, h1, h2, h3, h4, h5, h6, h7, h8, h9, h10, hd⟩
  · rw [h0] at h; exact absurd h (by decide)
  · exact hd
  · rw [hd] at h; simp only at h; omega
  · rw [hd] at h; simp only at h; omega
  · rw [hd] at h; simp only at h; omega

/-! ### The runes of a string and the header loop -/

/-- The runes of a string that starts with an ASCII byte: that byte, then the
runes of the rest. -/
theorem runes_cons_of_lt (b : Nat) (s : GoString) (h : b < 128) :
    runes (b :: s) = b :: runes s := by
  have hd : decodeRune (b :: s) = (b, 1) := by
    unfold decodeRune
    simp only [h, if_true]
  show runesAux (s.length + 1) (b :: s) = b :: runesAux s.length s
  simp only [runesAux, hd, List.drop_succ_cons, List.drop_zero]

/-- The runes of the bytes `'='` repeated, followed by a string. -/
theorem runes_replicate_append (k : Nat) (s : GoString) :
    runes (List.replicate k 61 ++ s) = List.replicate k 61 ++ runes s := by
  induction k with
  | zero => rfl
  | succ k ih =>
    rw [List.replicate_succ, List.cons_append, runes_cons_of_lt _ _ (by decide), ih,
      List.cons_append]

/-- When the first rune of a string is below `0x80`, it is the first byte and
the other runes are the runes of the other bytes. -/
theorem runes_cons_ascii (b0 r : Nat) (t : GoString) (rs : List Nat)
    (h : runes (b0 :: t) = r :: rs) (hr : r < 128) : b0 = r ∧ runes t = rs := by
  have h1 : runesAux (t.length + 1) (b0 :: t) = r :: rs := h
  simp only [runesAux, List.cons.injEq] at h1
  have hd : decodeRune (b0 :: t) = (b0, 1) := decodeRune_ascii b0 t (by rw [h1.1]; exact hr)
  rw [hd] at h1
  simp only [List.drop_succ_cons, List.drop_zero] at h1
  exact ⟨h1.1, h1.2⟩

/-- The encodings of the runes of a valid UTF-8 string make up the string. -/
theorem flatten_encodeRune_runesAux (fuel : Nat) :
    ∀ s : GoString, validAux fuel s = true →
      ((runesAux fuel s).map encodeRune).flatten = s := by
  induction fuel with
  | zero =>
    intro s h
    cases s with
    | nil => rfl
    | cons b t => exact absurd h (by simp [validAux])
  | succ n ih =>
    intro s h
    cases s with
    | nil => rfl
    | cons b0 t =>
      simp only [validAux] at h
      by_cases hd : decodeRune (b0 :: t) = (0xFFFD, 1)
      · rw [if_pos hd] at h
        exact absurd h (by decide)
      · rw [if_neg hd] at h
        simp only [runesAux, List.map_cons, List.flatten_cons]
        rw [ih _ h, (encodeRune_decodeRune b0 t hd).1]
        exact List.take_append_drop _ _

/-- The encodings of the runes of a valid UTF-8 string make up the string. -/
theorem flatten_encodeRune_runes (s : GoString) (h : ValidString s = true) :
    ((runes s).map encodeRune).flatten = s :=
  flatten_encodeRune_runesAux s.length s h

/-- The header loop over the runes `'='` of the boundary: each one adds one to
the boundary width. -/
theorem headerLoop_replicate (size k : Nat) :
    ∀ (i : Nat) (rest : List Nat) (b : Int) (pn : GoString),
      headerLoop size i (List.replicate k 61 ++ rest) b pn false
        = headerLoop size (i + k) rest (b + k) pn false := by
  induction k with
  | zero =>
    intro i rest b pn
    simp
  | succ k ih =>
    intro i rest b pn
    rw [List.replicate_succ, List.cons_append, headerLoop_cons]
    simp only [Bool.false_eq_true, if_false, if_true]
    rw [ih]
    congr 1
    · omega
    · push_cast; ring

/-- The header loop over the runes of a pathname, none of which is refused:
each rune is appended, encoded, to the pathname. -/
theorem headerLoop_pathname (size : Nat) :
    ∀ (rs : List Nat) (i : Nat) (b : Int) (pn : GoString),
      (∀ r ∈ rs, checkPathCharacter r = none) →
      headerLoop size i rs b pn true = (b, pn ++ (rs.map encodeRune).flatten, true, none) := by
  intro rs
  induction rs with
  | nil =>
    intro i b pn _
    rw [headerLoop_nil]
    simp
  | cons r rest ih =>
    intro i b pn h
    rw [headerLoop_cons]
    simp only [if_true, h r (List.mem_cons_self _ _)]
    rw [ih _ _ _ (fun x hx => h x (List.mem_cons_of_mem _ hx))]
    simp

/-- The header loop before the end of the boundary reports a header only on
bytes `'='` repeated and then a byte `'>'`. -/
theorem headerLoop_header_shape (size : Nat) :
    ∀ (s : GoString) (i : Nat) (b : Int) (pn : GoString),
      (headerLoop size i (runes s) b pn false).2.2.1 = true →
      ∃ k rest, s = List.replicate k 61 ++ 62 :: rest := by
  intro s
  induction s with
  | nil =>
    intro i b pn h
    rw [show runes [] = [] from rfl, headerLoop_nil] at h
    exact absurd h Bool.false_ne_true
  | cons b0 t ih =>
    intro i b pn h
    cases hrs : runes (b0 :: t) with
    | nil =>
      rw [hrs, headerLoop_nil] at h
      exact absurd h Bool.false_ne_true
    | cons r rs =>
      rw [hrs, headerLoop_cons] at h
      simp only [Bool.false_eq_true, if_false] at h
      by_cases h61 : r = 61
      · obtain ⟨hb, ht⟩ := runes_cons_ascii b0 r t rs hrs (by omega)
        rw [if_pos h61, ← ht] at h
        obtain ⟨k, rest, hk⟩ := ih _ _ _ h
        exact ⟨k + 1, rest, by rw [hb, h61, hk, List.replicate_succ, List.cons_append]⟩
      · rw [if_neg h61] at h
        by_cases h62 : r = 62
        · obtain ⟨hb, _⟩ := runes_cons_ascii b0 r t rs hrs (by omega)
          exact ⟨0, t, by rw [hb, h62]; rfl⟩
        · rw [if_neg h62] at h
          exact absurd h Bool.false_ne_true

/-- A string that ends with a newline, without it. -/
theorem trimSuffix_append_newline (x : GoString) :
    HasSuffix (x ++ [10]) [10] = true ∧ TrimSuffix (x ++ [10]) [10] = x := by
  have h : HasSuffix (x ++ [10]) [10] = true := by
    simp [HasSuffix]
  refine ⟨h, ?_⟩
  unfold TrimSuffix
  rw [if_pos h]
  simp

/-- The widths of an archive with positive boundary widths, read through
`GetBoundary` and the list of the entries. -/
theorem wide_positive (a : archive) (h : a.Wide) :
    1 ≤ a.GetBoundary ∧ ∀ x ∈ a.items, 1 ≤ x.boundary := by
  refine ⟨h.boundary, ?_⟩
  intro x hx
  obtain ⟨p, hp, rfl⟩ := List.mem_map.mp hx
  exact h.entries p hp

/-- The header loop on a boundary line: the line `<`, `k` times `=`, `>` and a
tail, with its newline, reaches the rune `>` with the boundary width `k`. -/
theorem parseHeaderLine_boundary_line (k : Nat) (t : GoString) :
    parseHeaderLine (([60] ++ List.replicate k 61 ++ [62] ++ t) ++ [10])
      = headerLoop (k + 2 + t.length) (1 + k) (62 :: runes t) (k : Int) [] false := by
  have hx := trimSuffix_append_newline ([60] ++ List.replicate k 61 ++ [62] ++ t)
  have hr : runes ([60] ++ List.replicate k 61 ++ [62] ++ t)
      = 60 :: (List.replicate k 61 ++ 62 :: runes t) := by
    rw [show [60] ++ List.replicate k 61 ++ [62] ++ t
        = 60 :: (List.replicate k 61 ++ 62 :: t) by simp,
      runes_cons_of_lt _ _ (by decide), runes_replicate_append,
      runes_cons_of_lt _ _ (by decide)]
  have hl : ([60] ++ List.replicate k 61 ++ [62] ++ t).length = k + 2 + t.length := by
    simp only [List.length_append, List.length_singleton, List.length_replicate]
    omega
  unfold parseHeaderLine
  simp only [hx.1, hx.2, if_true, hr, hl]
  rw [if_pos (by simp), headerLoop_replicate]
  simp

/-! ### The header loop: what it reports on a line that is not a header, and the look-ahead -/

/-- The line `parseHeaderLine` works on is the line without one trailing
newline. -/
theorem trimmed_line (line : GoString) :
    (if HasSuffix line [10] then TrimSuffix line [10] else line) = TrimSuffix line [10] := by
  unfold TrimSuffix
  split <;> rfl

/-- The runes of a string that is not empty are not empty. -/
theorem runes_cons_ne_nil (b : Nat) (s : GoString) : runes (b :: s) ≠ [] := by
  show runesAux (s.length + 1) (b :: s) ≠ []
  simp [runesAux]

/-- An error of `checkPathCharacter` is not the panic on a slice index. -/
theorem checkPathCharacter_ne_panic (r : Nat) :
    checkPathCharacter r ≠ some Sentinel.indexOutOfRange := by
  unfold checkPathCharacter
  split
  · simp
  · split
    · simp
    · split
      · simp
      · simp

/-- The header loop after the end of the boundary reports a header, and no
panic on a slice index. -/
theorem headerLoop_after_boundary (size : Nat) :
    ∀ (rs : List Nat) (i : Nat) (b : Int) (pn : GoString),
      (headerLoop size i rs b pn true).2.2.1 = true ∧
      (headerLoop size i rs b pn true).2.2.2 ≠ some Sentinel.indexOutOfRange := by
  intro rs
  induction rs with
  | nil =>
    intro i b pn
    rw [headerLoop_nil]
    exact ⟨rfl, by simp⟩
  | cons r rest ih =>
    intro i b pn
    rw [headerLoop_cons]
    simp only [if_true]
    cases hc : checkPathCharacter r with
    | none => exact ih _ _ _
    | some e =>
      refine ⟨rfl, ?_⟩
      show some e ≠ some Sentinel.indexOutOfRange
      rw [← hc]
      exact checkPathCharacter_ne_panic r

/-- The header loop before the end of the boundary, on the runes of the bytes
`s` that are left of a line of `size` bytes: the index `next` it reads after
the rune `'>'` is an index of the runes. -/
theorem headerLoop_no_panic (size : Nat) :
    ∀ (s : GoString) (i : Nat) (b : Int) (pn : GoString), i + s.length = size →
      (headerLoop size i (runes s) b pn false).2.2.2 ≠ some Sentinel.indexOutOfRange := by
  intro s
  induction s with
  | nil =>
    intro i b pn _
    rw [show runes [] = [] from rfl, headerLoop_nil]
    simp
  | cons b0 t ih =>
    intro i b pn hsize
    cases hrs : runes (b0 :: t) with
    | nil => exact absurd hrs (runes_cons_ne_nil b0 t)
    | cons r rs =>
      rw [headerLoop_cons]
      simp only [Bool.false_eq_true, if_false]
      have hlen : i + 1 + t.length = size := by
        simp only [List.length_cons] at hsize; omega
      by_cases h61 : r = 61
      · obtain ⟨_, ht⟩ := runes_cons_ascii b0 r t rs hrs (by omega)
        rw [if_pos h61, ← ht]
        exact ih _ _ _ hlen
      · rw [if_neg h61]
        by_cases h62 : r = 62
        · obtain ⟨_, ht⟩ := runes_cons_ascii b0 r t rs hrs (by omega)
          rw [if_pos h62]
          by_cases hnext : i + 1 < size
          · rw [if_pos hnext]
            cases t with
            | nil => simp only [List.length_nil] at hlen; omega
            | cons c t1 =>
              cases hrt : runes (c :: t1) with
              | nil => exact absurd hrt (runes_cons_ne_nil c t1)
              | cons r1 rest1 =>
                rw [← ht, hrt]
                simp only
                by_cases h32 : r1 = 32
                · rw [if_pos h32]
                  exact (headerLoop_after_boundary size rest1 _ _ _).2
                · rw [if_neg h32]
                  simp
          · rw [if_neg hnext]
            exact (headerLoop_after_boundary size rs _ _ _).2
        · rw [if_neg h62]
          simp

/-- The header loop before the end of the boundary, when it reports no header:
the boundary is the one it started from plus the number of bytes `'='` at the
head of the bytes left, the pathname is the one it started from, and there is
no error. -/
theorem headerLoop_not_header (size : Nat) :
    ∀ (s : GoString) (i : Nat) (b : Int) (pn : GoString),
      (headerLoop size i (runes s) b pn false).2.2.1 = false →
      headerLoop size i (runes s) b pn false
        = (b + ((s.takeWhile (fun c => c == 61)).length : Nat), pn, false, none) := by
  intro s
  induction s with
  | nil =>
    intro i b pn _
    rw [show runes [] = [] from rfl, headerLoop_nil]
    simp
  | cons b0 t ih =>
    intro i b pn h
    cases hrs : runes (b0 :: t) with
    | nil => exact absurd hrs (runes_cons_ne_nil b0 t)
    | cons r rs =>
      rw [hrs, headerLoop_cons] at h
      rw [headerLoop_cons]
      simp only [Bool.false_eq_true, if_false] at h ⊢
      by_cases h61 : r = 61
      · obtain ⟨hb, ht⟩ := runes_cons_ascii b0 r t rs hrs (by omega)
        rw [if_pos h61, ← ht] at h
        rw [if_pos h61, ← ht, ih _ _ _ h, hb, h61]
        simp only [List.takeWhile_cons, beq_self_eq_true, if_true, List.length_cons]
        congr 1
        push_cast
        ring
      · rw [if_neg h61] at h
        rw [if_neg h61]
        by_cases h62 : r = 62
        · rw [if_pos h62] at h
          exfalso
          by_cases hnext : i + 1 < size
          · rw [if_pos hnext] at h
            cases rs with
            | nil => exact absurd h.symm Bool.false_ne_true
            | cons r1 rest1 =>
              simp only at h
              by_cases h32 : r1 = 32
              · rw [if_pos h32, (headerLoop_after_boundary size rest1 _ _ _).1] at h
                exact absurd h.symm Bool.false_ne_true
              · rw [if_neg h32] at h
                exact absurd h.symm Bool.false_ne_true
          · rw [if_neg hnext, (headerLoop_after_boundary size rs _ _ _).1] at h
            exact absurd h.symm Bool.false_ne_true
        · rw [if_neg h62]
          have hb0 : ¬ b0 = 61 := by
            intro hb0
            rw [hb0, runes_cons_of_lt 61 t (by decide)] at hrs
            simp only [List.cons.injEq] at hrs
            exact h61 hrs.1.symm
          simp [List.takeWhile_cons, hb0]

/-- `parseHeaderLine` through the header loop: on a line whose first byte,
one trailing newline removed, is `'<'`. -/
theorem parseHeaderLine_open (line t : GoString) (h : TrimSuffix line [10] = 60 :: t) :
    parseHeaderLine line = headerLoop (t.length + 1) 1 (runes t) 0 [] false := by
  unfold parseHeaderLine
  simp only [trimmed_line]
  simp only [h, runes_cons_of_lt 60 t (by decide)]
  simp

/-- `parseHeaderLine` on a line whose first byte, one trailing newline
removed, is not `'<'`, or that is empty then. -/
theorem parseHeaderLine_not_open (line : GoString)
    (h : ∀ t, TrimSuffix line [10] ≠ 60 :: t) :
    parseHeaderLine line = (0, [], false, none) := by
  unfold parseHeaderLine
  simp only [trimmed_line]
  cases hs : TrimSuffix line [10] with
  | nil => rfl
  | cons b0 t =>
    cases hrs : runes (b0 :: t) with
    | nil => rfl
    | cons r0 rs =>
      simp only
      by_cases h60 : r0 = 60
      · obtain ⟨hb, _⟩ := runes_cons_ascii b0 r0 t rs hrs (by omega)
        exact absurd (by rw [hs, hb, h60]) (h t)
      · rw [if_neg (by simp [h60])]

/-- No line makes `parseHeaderLine` report the panic on a slice index. -/
theorem parseHeaderLine_no_panic (line : GoString) :
    (parseHeaderLine line).2.2.2 ≠ some Sentinel.indexOutOfRange := by
  cases hs : TrimSuffix line [10] with
  | nil =>
    rw [parseHeaderLine_not_open line (by rw [hs]; simp)]
    simp
  | cons b0 t =>
    by_cases h60 : b0 = 60
    · rw [h60] at hs
      rw [parseHeaderLine_open line t hs]
      exact headerLoop_no_panic _ t 1 0 [] (by omega)
    · rw [parseHeaderLine_not_open line (by rw [hs]; simp [h60])]
      simp

/-! ### One pass of the loop of `parseReader`, case by case -/

/-- The body of the loop on the first record: the line is a header, its
pathname passes `checkPathComponents`, and the record is opened. -/
theorem parseLine_first (filename : GoString) (line : Int) (sl : scannedLine)
    (content : GoString) (peek : Option GoString) (st st1 : parseState)
    (h : parseLine filename line sl content peek st = .ok st1) (hnone : st.this = none) :
    sl.header = true ∧ checkPathComponents sl.pathname = none ∧
      st1 = { st with this := some (newEntry line sl.boundary sl.pathname [] sl.err) } := by
  unfold parseLine at h
  simp only [hnone] at h
  by_cases hh : sl.header = true
  · simp only [hh, Bool.not_true, Bool.false_eq_true, if_false] at h
    cases hc : checkPathComponents sl.pathname with
    | some e => simp [hc] at h
    | none =>
      simp only [hc, Except.ok.injEq] at h
      exact ⟨hh, rfl, h.symm⟩
  · simp [hh] at h

/-- The body of the loop when there is a current record: a header line after a
record that is not flagged `hrx`, or at the width of the archive, opens a
record; any other line is appended to the current record. -/
theorem parseLine_next (filename : GoString) (line : Int) (sl : scannedLine)
    (content : GoString) (peek : Option GoString) (st : parseState) (t : entry)
    (hsome : st.this = some t) :
    parseLine filename line sl content peek st
      = if (sl.header && (!t.hrx || sl.boundary == st.boundary)) = true then
          .ok { st with raw := st.raw ++ [t], this := some (openEntry line sl) }
        else .ok { st with this := some (appendLine st t content peek) } := by
  unfold parseLine
  simp only [hsome]
  rfl

/-- One pass of the loop of `parseReader` that returns no error is one of
three: the first line, a header, opens the first record and sets the width of
the archive; a header line opens a record after a record that is not flagged
`hrx`, or at the width of the archive, and the current record is put on the
list; any other line is appended to the current record. -/
theorem parseStep_cases (filename : GoString) (line : Int) (content : GoString)
    (peek : Option GoString) (st st1 : parseState)
    (h : parseStep filename line content peek st = .ok st1) :
    (st.this = none ∧ (scanLine content).header = true ∧
      checkPathComponents (scanLine content).pathname = none ∧
      st1 = { boundary := if (st.boundary == 0 && line == 1) = true
                then (scanLine content).boundary else st.boundary,
              lastLine := line, raw := st.raw,
              this := some (newEntry line (scanLine content).boundary
                (scanLine content).pathname [] (scanLine content).err) }) ∨
    (∃ t, st.this = some t ∧ (scanLine content).header = true ∧
      (t.hrx = false ∨ (scanLine content).boundary = st.boundary) ∧
      st1 = { boundary := st.boundary, lastLine := line, raw := st.raw ++ [t],
              this := some (openEntry line (scanLine content)) }) ∨
    (∃ t, st.this = some t ∧
      ¬ ((scanLine content).header = true ∧
        (t.hrx = false ∨ (scanLine content).boundary = st.boundary)) ∧
      st1 = { boundary := st.boundary, lastLine := line, raw := st.raw,
              this := some (appendLine st t content peek) }) := by
  unfold parseStep at h
  simp only at h
  cases hthis : st.this with
  | none =>
    left
    by_cases hb : (st.boundary == 0 && line == 1) = true
    · by_cases hh : (scanLine content).header = true
      · have hcheck : parseReaderGetBoundaryCheck { st with lastLine := line } line
            (scanLine content).header = true := by
          simp only [parseReaderGetBoundaryCheck, hthis, Option.isNone_none, Bool.and_true, hh]
          exact hb
        rw [if_pos hcheck] at h
        obtain ⟨h1, h2, h3⟩ := parseLine_first _ _ _ _ _ _ _ h hthis
        refine ⟨rfl, h1, h2, ?_⟩
        rw [h3, if_pos hb]
      · have hcheck : ¬ parseReaderGetBoundaryCheck { st with lastLine := line } line
            (scanLine content).header = true := by
          simp [parseReaderGetBoundaryCheck, hh]
        rw [if_neg hcheck] at h
        exact absurd (parseLine_first _ _ _ _ _ _ _ h hthis).1 hh
    · have hcheck : ¬ parseReaderGetBoundaryCheck { st with lastLine := line } line
          (scanLine content).header = true := by
        simp only [parseReaderGetBoundaryCheck, hthis, Option.isNone_none, Bool.and_true]
        intro hc
        simp only [Bool.and_eq_true] at hc
        exact hb (by simp only [Bool.and_eq_true]; exact hc.1)
      rw [if_neg hcheck] at h
      obtain ⟨h1, h2, h3⟩ := parseLine_first _ _ _ _ _ _ _ h hthis
      refine ⟨rfl, h1, h2, ?_⟩
      rw [h3, if_neg hb]
  | some t =>
    right
    have hcheck : ¬ parseReaderGetBoundaryCheck { st with lastLine := line } line
        (scanLine content).header = true := by
      simp [parseReaderGetBoundaryCheck, hthis]
    rw [if_neg hcheck] at h
    rw [parseLine_next filename line (scanLine content) content peek
      { st with lastLine := line } t hthis] at h
    by_cases hopen : ((scanLine content).header && (!t.hrx ||
        (scanLine content).boundary == st.boundary)) = true
    · left
      have hopen1 := hopen
      simp only [Bool.and_eq_true, Bool.or_eq_true, Bool.not_eq_true', beq_iff_eq] at hopen1
      rw [if_pos hopen] at h
      simp only [Except.ok.injEq] at h
      exact ⟨t, rfl, hopen1.1, hopen1.2, h.symm⟩
    · right
      have hopen1 := hopen
      simp only [Bool.and_eq_true, Bool.or_eq_true, Bool.not_eq_true', beq_iff_eq] at hopen1
      rw [if_neg hopen] at h
      simp only [Except.ok.injEq] at h
      exact ⟨t, rfl, hopen1, h.symm⟩

/-- The record `newEntry` makes: its fields. -/
theorem newEntry_fields (line boundary : Int) (pathname : GoString) (err : Option Sentinel) :
    (newEntry line boundary pathname [] err).line = line ∧
    (newEntry line boundary pathname [] err).boundary = boundary ∧
    (newEntry line boundary pathname [] err).err = err ∧
    (newEntry line boundary pathname [] err).GetPathname = pathname ∧
    (newEntry line boundary pathname [] err).GetBody = [] ∧
    (newEntry line boundary pathname [] err).flagged :=
  ⟨rfl, rfl, rfl, newEntry_GetPathname _ _ _ _ _, rfl, by
    unfold entry.flagged
    rw [newEntry_GetPathname]
    rfl⟩

/-- The record a header line opens: its fields. -/
theorem openEntry_fields (line : Int) (sl : scannedLine) :
    (openEntry line sl).line = line ∧ (openEntry line sl).boundary = sl.boundary ∧
    (openEntry line sl).err = sl.err ∧ (openEntry line sl).GetPathname = sl.pathname ∧
    (openEntry line sl).GetBody = [] ∧ (openEntry line sl).flagged := by
  obtain ⟨h1, h2, h3, h4, h5, h6⟩ := newEntry_fields line sl.boundary sl.pathname sl.err
  unfold openEntry
  simp only
  split
  · exact ⟨h1, h2, h3, h4, rfl, h6⟩
  · exact ⟨h1, h2, h3, h4, h5, h6⟩

/-- The current record after a line is appended: its body is the body before
followed by the line, with one trailing newline removed when the record is a
file and the line `s.Peek()` returns is a header of the width of the archive;
its other fields are as before. -/
theorem appendLine_fields (st : parseState) (t : entry) (content : GoString)
    (peek : Option GoString) :
    (appendLine st t content peek).line = t.line ∧
    (appendLine st t content peek).boundary = t.boundary ∧
    (appendLine st t content peek).err = t.err ∧
    (appendLine st t content peek).pathname = t.pathname ∧
    (appendLine st t content peek).hrx = t.hrx ∧
    (appendLine st t content peek).GetBody
      = trimNewlineIf (t.IsFile && peekIsHeaderOf st.boundary peek) (t.GetBody ++ content) := by
  have hA : (t.AppendBody content).line = t.line ∧ (t.AppendBody content).boundary = t.boundary ∧
      (t.AppendBody content).err = t.err ∧ (t.AppendBody content).pathname = t.pathname ∧
      (t.AppendBody content).hrx = t.hrx ∧
      (t.AppendBody content).body = some (t.GetBody ++ content) := by
    unfold entry.AppendBody entry.GetBody
    cases t.body with
    | none => exact ⟨rfl, rfl, rfl, rfl, rfl, rfl⟩
    | some b => exact ⟨rfl, rfl, rfl, rfl, rfl, rfl⟩
  obtain ⟨a1, a2, a3, a4, a5, a6⟩ := hA
  have hfile : (t.AppendBody content).IsFile = t.IsFile := by
    unfold entry.IsFile
    rw [a4]
  unfold appendLine
  simp only
  cases peek with
  | none =>
    refine ⟨a1, a2, a3, a4, a5, ?_⟩
    simp [entry.GetBody, a6, trimNewlineIf, peekIsHeaderOf]
  | some p =>
    simp only
    by_cases hc : parseReaderPeekTrimNLCheck st (t.AppendBody content) (scanLine p).boundary
        (scanLine p).header = true
    · rw [if_pos hc]
      refine ⟨a1, a2, a3, a4, a5, ?_⟩
      have hc1 : (t.IsFile && peekIsHeaderOf st.boundary (some p)) = true := by
        unfold parseReaderPeekTrimNLCheck at hc
        rw [hfile] at hc
        simpa [peekIsHeaderOf, Bool.and_assoc] using hc
      simp [entry.GetBody, a6, trimNewlineIf, hc1]
    · rw [if_neg hc]
      refine ⟨a1, a2, a3, a4, a5, ?_⟩
      have hc1 : (t.IsFile && peekIsHeaderOf st.boundary (some p)) = false := by
        unfold parseReaderPeekTrimNLCheck at hc
        rw [hfile] at hc
        simpa [peekIsHeaderOf, Bool.and_assoc] using hc
      simp [entry.GetBody, a6, trimNewlineIf, hc1]

/-- The current record after a line is appended is flagged as before, is a
file as before, and has the pathname it had. -/
theorem appendLine_kind (st : parseState) (t : entry) (content : GoString)
    (peek : Option GoString) :
    (appendLine st t content peek).GetPathname = t.GetPathname ∧
    (appendLine st t content peek).IsFile = t.IsFile ∧
    ((appendLine st t content peek).flagged ↔ t.flagged) := by
  obtain ⟨_, _, _, h4, h5, _⟩ := appendLine_fields st t content peek
  refine ⟨by unfold entry.GetPathname; rw [h4], by unfold entry.IsFile; rw [h4], ?_⟩
  unfold entry.flagged entry.GetPathname
  rw [h4, h5]

/-! ### The records of the loop of `parseReader`: flags, scan errors, and no panic -/

/-- The scan error of a record is not the panic on a slice index, and its
`hrx` flag is the one of its pathname. -/
theorem parseStep_sound (filename : GoString) (line : Int) (content : GoString)
    (peek : Option GoString) (st st1 : parseState)
    (h : parseStep filename line content peek st = .ok st1)
    (hst : ∀ r ∈ st.records, r.err ≠ some Sentinel.indexOutOfRange ∧ r.flagged) :
    ∀ r ∈ st1.records, r.err ≠ some Sentinel.indexOutOfRange ∧ r.flagged := by
  have hsl : (scanLine content).err ≠ some Sentinel.indexOutOfRange :=
    parseHeaderLine_no_panic content
  rcases parseStep_cases filename line content peek st st1 h with
    ⟨hnone, _, _, h1⟩ | ⟨t, hsome, _, _, h1⟩ | ⟨t, hsome, _, h1⟩
  · intro r hr
    rw [h1] at hr
    simp only [parseState.records, Option.toList, List.mem_append, List.mem_singleton] at hr
    rcases hr with hr | hr
    · exact hst r (by simp [parseState.records, hr])
    · obtain ⟨_, _, f3, _, _, f6⟩ := newEntry_fields line (scanLine content).boundary
        (scanLine content).pathname (scanLine content).err
      rw [hr]
      exact ⟨by rw [f3]; exact hsl, f6⟩
  · intro r hr
    rw [h1] at hr
    simp only [parseState.records, Option.toList, List.mem_append, List.mem_singleton] at hr
    rcases hr with hr | hr
    · exact hst r (by
        simp only [parseState.records, hsome, Option.toList, List.mem_append,
          List.mem_singleton]
        exact hr)
    · obtain ⟨_, _, f3, _, _, f6⟩ := openEntry_fields line (scanLine content)
      rw [hr]
      exact ⟨by rw [f3]; exact hsl, f6⟩
  · intro r hr
    rw [h1] at hr
    simp only [parseState.records, Option.toList, List.mem_append, List.mem_singleton] at hr
    rcases hr with hr | hr
    · exact hst r (by simp [parseState.records, hr])
    · have ht := hst t (by simp [parseState.records, hsome])
      obtain ⟨_, _, f3, _, _, _⟩ := appendLine_fields st t content peek
      rw [hr]
      exact ⟨by rw [f3]; exact ht.1, (appendLine_kind st t content peek).2.2.mpr ht.2⟩

/-- An error of one pass of the loop of `parseReader` is not the panic on a
slice index. -/
theorem parseStep_error (filename : GoString) (line : Int) (content : GoString)
    (peek : Option GoString) (st : parseState) (e : GoError)
    (h : parseStep filename line content peek st = .error e) : e.isPanic = false := by
  unfold parseStep at h
  simp only at h
  have key : ∀ st0 : parseState,
      parseLine filename line (scanLine content) content peek st0 = .error e →
      e.isPanic = false := by
    intro st0 h0
    cases hthis : st0.this with
    | some t =>
      rw [parseLine_next _ _ _ _ _ _ t hthis] at h0
      split at h0 <;> exact absurd h0 (by simp)
    | none =>
      unfold parseLine at h0
      simp only [hthis] at h0
      split at h0
      · simp only [Except.error.injEq] at h0
        rw [← h0]
        rfl
      · cases hc : checkPathComponents (scanLine content).pathname with
        | none => simp [hc] at h0
        | some eee =>
          simp only [hc, Except.error.injEq] at h0
          rw [← h0]
          have : eee ≠ Sentinel.indexOutOfRange := by
            intro he
            rw [he] at hc
            unfold checkPathComponents at hc
            split at hc
            · simp at hc
            · split at hc
              · simp at hc
              · split at hc
                · simp at hc
                · split at hc <;> simp at hc
          simp [GoError.isPanic, newError, this]
  split at h
  · exact key _ h
  · exact key _ h

/-- The loop of `parseReader`: the records it leaves have sound flags and scan
errors, there is one when there is a line, and an error it returns is not the
panic on a slice index. -/
theorem parseLoop_sound (filename : GoString) :
    ∀ (lines : List GoString) (line : Int) (st : parseState),
      (∀ r ∈ st.records, r.err ≠ some Sentinel.indexOutOfRange ∧ r.flagged) →
      (∀ st1, parseLoop filename line lines st = .ok st1 →
        (∀ r ∈ st1.records, r.err ≠ some Sentinel.indexOutOfRange ∧ r.flagged) ∧
        (lines ≠ [] ∨ st.this ≠ none → st1.this ≠ none)) ∧
      (∀ e, parseLoop filename line lines st = .error e → e.isPanic = false) := by
  intro lines
  induction lines with
  | nil =>
    intro line st hst
    refine ⟨?_, ?_⟩
    · intro st1 h
      simp only [parseLoop, Except.ok.injEq] at h
      subst h
      exact ⟨hst, fun hh => hh.resolve_left (by simp)⟩
    · intro e h
      simp [parseLoop] at h
  | cons content rest ih =>
    intro line st hst
    cases hstep : parseStep filename line content rest.head? st with
    | error e0 =>
      refine ⟨?_, ?_⟩
      · intro st1 h
        rw [parseLoop, hstep] at h
        exact absurd h (by simp)
      · intro e h
        rw [parseLoop, hstep] at h
        simp only [Except.error.injEq] at h
        rw [← h]
        exact parseStep_error _ _ _ _ _ _ hstep
    | ok st2 =>
      have h2 := parseStep_sound _ _ _ _ _ _ hstep hst
      have hthis2 : st2.this ≠ none := by
        rcases parseStep_cases _ _ _ _ _ _ hstep with
          ⟨_, _, _, h1⟩ | ⟨t, _, _, _, h1⟩ | ⟨t, _, _, h1⟩ <;> rw [h1] <;> simp
      obtain ⟨i1, i2⟩ := ih (line + 1) st2 h2
      refine ⟨?_, ?_⟩
      · intro st1 h
        rw [parseLoop, hstep] at h
        obtain ⟨j1, j2⟩ := i1 st1 h
        exact ⟨j1, fun _ => j2 (Or.inr hthis2)⟩
      · intro e h
        rw [parseLoop, hstep] at h
        exact i2 e h

/-- An error of the loop of `finalize` is not the panic on a slice index, when
no scan error of the records is. -/
theorem finalizeLoop_error : ∀ (rest : List entry) (item : entry) (a : archive) (e : GoError),
    (∀ r ∈ item :: rest, r.err ≠ some Sentinel.indexOutOfRange) →
    finalizeLoop item rest a = .error e → e.isPanic = false := by
  intro rest
  induction rest with
  | nil =>
    intro item a e hrec h
    have herr := hrec item (List.mem_cons_self _ _)
    rw [finalizeLoop.eq_def] at h
    simp only at h
    split at h
    · simp only [Except.error.injEq] at h
      rw [← h]
      simp [GoError.isPanic, archive.error, newError, herr]
    · split at h
      · simp only [Except.error.injEq] at h
        rw [← h]
        rfl
      · split at h
        · exact absurd h (by simp)
        · split at h
          · simp only [Except.error.injEq] at h
            rw [← h]
            rfl
          · split at h
            · simp only [Except.error.injEq] at h
              rw [← h]
              rfl
            · split at h
              · simp only [Except.error.injEq] at h
                rw [← h]
                rfl
              · exact absurd h (by simp)
  | cons next rest1 ih =>
    intro item a e hrec h
    have herr := hrec item (List.mem_cons_self _ _)
    have hrest : ∀ r ∈ next :: rest1, r.err ≠ some Sentinel.indexOutOfRange :=
      fun r hr => hrec r (List.mem_cons_of_mem _ hr)
    rw [finalizeLoop.eq_def] at h
    simp only at h
    split at h
    · simp only [Except.error.injEq] at h
      rw [← h]
      simp [GoError.isPanic, archive.error, newError, herr]
    · split at h
      · simp only [Except.error.injEq] at h
        rw [← h]
        rfl
      · split at h
        · split at h
          · simp only [Except.error.injEq] at h
            rw [← h]
            rfl
          · refine ih _ a e ?_ h
            intro r hr
            rcases List.mem_cons.mp hr with h1 | h1
            · rw [h1]
              exact hrest next (List.mem_cons_self _ _)
            · exact hrest r (List.mem_cons_of_mem _ h1)
        · split at h
          · simp only [Except.error.injEq] at h
            rw [← h]
            rfl
          · split at h
            · simp only [Except.error.injEq] at h
              rw [← h]
              rfl
            · split at h
              · simp only [Except.error.injEq] at h
                rw [← h]
                rfl
              · exact ih next _ e hrest h

/-- A text that is not empty has a line. -/
theorem splitLines_cons_ne_nil (c : Nat) (cs : GoString) : splitLines (c :: cs) ≠ [] := by
  rw [splitLines]
  split
  · simp
  · split <;> simp

/-- `parseReader` on lines, one at least: the loop leaves a record for
`finalize` or returns an error, and no error returned is the panic on a slice
index. -/
theorem parseReader_no_panic (a : archive) (lines : List GoString) (hl : lines ≠ []) :
    (∀ st, parseLoop a.filename 1 lines
        { boundary := a.boundary, lastLine := a.lastLine, raw := [], this := none } = .ok st →
      st.records ≠ []) ∧
    ∀ e, a.parseReader lines = .error e → e.isPanic = false := by
  have hinit : ∀ r ∈ parseState.records
      { boundary := a.boundary, lastLine := a.lastLine, raw := [], this := none },
      r.err ≠ some Sentinel.indexOutOfRange ∧ r.flagged := by
    intro r hr
    simp [parseState.records] at hr
  obtain ⟨i1, i2⟩ := parseLoop_sound a.filename lines 1 _ hinit
  have hne : ∀ st, parseLoop a.filename 1 lines
      { boundary := a.boundary, lastLine := a.lastLine, raw := [], this := none } = .ok st →
      st.records ≠ [] := by
    intro st hst
    have := (i1 st hst).2 (Or.inl hl)
    cases hthis : st.this with
    | none => exact absurd hthis this
    | some t => simp [parseState.records, hthis]
  refine ⟨hne, ?_⟩
  intro e h
  unfold archive.parseReader at h
  cases hloop : parseLoop a.filename 1 lines
      { boundary := a.boundary, lastLine := a.lastLine, raw := [], this := none } with
  | error e0 =>
    rw [hloop] at h
    simp only [Except.error.injEq] at h
    rw [← h]
    exact i2 e0 hloop
  | ok st =>
    rw [hloop] at h
    simp only at h
    have hfin : archive.finalize { a with boundary := st.boundary, lastLine := st.lastLine }
        st.records = .error e := by
      unfold parseState.records
      cases hthis : st.this with
      | none => rw [hthis] at h; simpa using h
      | some t => rw [hthis] at h; simpa using h
    have hgood := (i1 st hloop).1
    cases hr : st.records with
    | nil => exact absurd hr (hne st hloop)
    | cons item rest =>
      rw [hr] at hfin hgood
      exact finalizeLoop_error rest item _ e (fun r hr1 => (hgood r hr1).1) hfin

/-! ### The bodies of the records and the raw lines between the headers -/

/-- The raw lines after a line up to that line: none. -/
theorem linesBetween_self (lines : List GoString) (k : Int) : linesBetween lines k k = [] := by
  simp [linesBetween]

/-- The raw lines up to one more line. -/
theorem linesBetween_succ (lines : List GoString) (k : Int) (n : Nat) (l : GoString)
    (hk0 : 0 ≤ k) (hk : k ≤ n) (hl : lines[n]? = some l) :
    linesBetween lines k ((n + 1 : Nat) : Int) = linesBetween lines k n ++ l := by
  unfold linesBetween
  have e1 : (((n + 1 : Nat) : Int) - k).toNat = ((n : Int) - k).toNat + 1 := by omega
  have e2 : (lines.drop k.toNat)[((n : Int) - k).toNat]? = some l := by
    rw [List.getElem?_drop, ← hl]
    congr 1
    omega
  rw [e1, List.take_succ, e2]
  simp

/-- The raw lines up to the last line, counted beyond it. -/
theorem linesBetween_end (lines : List GoString) (k : Int) (n : Nat) (hn : lines.length ≤ n) :
    linesBetween lines k n = linesBetween lines k lines.length := by
  unfold linesBetween
  rw [List.take_of_length_le, List.take_of_length_le]
  · simp only [List.length_drop]; omega
  · simp only [List.length_drop]; omega

/-- The text is left as it is when the condition of the trimming fails. -/
theorem trimNewlineIf_false (s : GoString) : trimNewlineIf false s = s := rfl

/-- Nothing is trimmed from the empty text. -/
theorem trimNewlineIf_nil (c : Bool) : trimNewlineIf c [] = [] := by
  cases c <;> rfl

/-- One pass of the loop of `parseReader` on the line `n + 1`, when there is a
current record: the records on the list have the bodies the specification
words, and the current record has the raw lines after its header up to the
line, with the newline trimmed when the line `s.Peek()` returns calls for
it. -/
theorem parseStep_bodies (filename : GoString) (lines : List GoString) (w : Int) (n : Nat)
    (l : GoString) (st st1 : parseState) (hl : lines[n]? = some l)
    (h : parseStep filename ((n : Int) + 1) l lines[n + 1]? st = .ok st1)
    (hw : st.boundary = w) (hthis : st.this ≠ none)
    (hchain : st.records.Chain' (bodyBetween lines w))
    (hlast : ∀ t, st.this = some t → 0 ≤ t.line ∧ t.line ≤ n ∧
      t.GetBody = trimNewlineIf (t.IsFile && peekIsHeaderOf w lines[n]?)
        (linesBetween lines t.line n)) :
    st1.boundary = w ∧ st1.this ≠ none ∧ st1.records.Chain' (bodyBetween lines w) ∧
    ∀ t, st1.this = some t → 0 ≤ t.line ∧ t.line ≤ ((n + 1 : Nat) : Int) ∧
      t.GetBody = trimNewlineIf (t.IsFile && peekIsHeaderOf w lines[n + 1]?)
        (linesBetween lines t.line ((n + 1 : Nat) : Int)) := by
  rcases parseStep_cases filename _ l _ st st1 h with
    ⟨hnone, _, _, _⟩ | ⟨t, hsome, hh, hopen, h1⟩ | ⟨t, hsome, hnot, h1⟩
  · exact absurd hnone hthis
  · obtain ⟨f1, f2, _, _, f5, _⟩ := openEntry_fields ((n : Int) + 1) (scanLine l)
    obtain ⟨t0, t1, t2⟩ := hlast t hsome
    have hrec : st.records = st.raw ++ [t] := by simp [parseState.records, hsome]
    have hrec1 : st1.records = st.records ++ [openEntry ((n : Int) + 1) (scanLine l)] := by
      rw [h1, hrec]
      simp [parseState.records]
    refine ⟨by rw [h1]; exact hw, by rw [h1]; simp, ?_, ?_⟩
    · rw [hrec1, List.chain'_append]
      refine ⟨hchain, List.chain'_singleton _, ?_⟩
      intro x hx y hy
      rw [hrec, List.getLast?_concat] at hx
      simp only [Option.mem_def, Option.some.injEq] at hx
      simp only [List.head?_cons, Option.mem_def, Option.some.injEq] at hy
      subst hx hy
      unfold bodyBetween
      rw [f1, f2, t2, hl]
      have e : (n : Int) + 1 - 1 = n := by omega
      rw [e]
      simp [peekIsHeaderOf, hh]
    · intro t' ht'
      rw [h1] at ht'
      simp only [Option.some.injEq] at ht'
      subst ht'
      rw [f1, f5]
      refine ⟨by omega, by push_cast; omega, ?_⟩
      have e : ((n + 1 : Nat) : Int) = (n : Int) + 1 := by push_cast; ring
      rw [e, linesBetween_self, trimNewlineIf_nil]
  · obtain ⟨g1, g2, _, _, _, g6⟩ := appendLine_fields st t l lines[n + 1]?
    obtain ⟨_, gfile, _⟩ := appendLine_kind st t l lines[n + 1]?
    obtain ⟨t0, t1, t2⟩ := hlast t hsome
    have hpeek : peekIsHeaderOf w lines[n]? = false := by
      rw [hl]
      unfold peekIsHeaderOf
      simp only
      rw [← hw]
      by_cases hh : (scanLine l).header = true
      · by_cases hb : (scanLine l).boundary = st.boundary
        · exact absurd ⟨hh, Or.inr hb⟩ hnot
        · simp [hh, hb]
      · simp [hh]
    rw [hpeek, Bool.and_false, trimNewlineIf_false] at t2
    have hrec : st.records = st.raw ++ [t] := by simp [parseState.records, hsome]
    have hrec1 : st1.records = st.raw ++ [appendLine st t l lines[n + 1]?] := by
      rw [h1]
      simp [parseState.records]
    refine ⟨by rw [h1]; exact hw, by rw [h1]; simp, ?_, ?_⟩
    · rw [hrec, List.chain'_append] at hchain
      rw [hrec1, List.chain'_append]
      refine ⟨hchain.1, List.chain'_singleton _, ?_⟩
      intro x hx y hy
      simp only [List.head?_cons, Option.mem_def, Option.some.injEq] at hy
      subst hy
      have := hchain.2.2 x hx t (by simp)
      unfold bodyBetween at this ⊢
      rw [g1, g2]
      exact this
    · intro t' ht'
      rw [h1] at ht'
      simp only [Option.some.injEq] at ht'
      subst ht'
      rw [g1, g6, gfile, hw, t2, linesBetween_succ lines t.line n l t0 t1 hl]
      exact ⟨t0, by push_cast; omega, rfl⟩

/-- One pass of the loop of `parseReader`, when there is a current record: the
first record keeps its width. -/
theorem parseStep_head (filename : GoString) (line : Int) (w : Int) (l : GoString)
    (peek : Option GoString) (st st1 : parseState)
    (h : parseStep filename line l peek st = .ok st1) (hthis : st.this ≠ none)
    (hhead : ∀ r ∈ st.records.head?, r.boundary = w) :
    ∀ r ∈ st1.records.head?, r.boundary = w := by
  rcases parseStep_cases filename _ l peek st st1 h with
    ⟨hnone, _, _, _⟩ | ⟨t, hsome, _, _, h1⟩ | ⟨t, hsome, _, h1⟩
  · exact absurd hnone hthis
  · have hrec : st.records = st.raw ++ [t] := by simp [parseState.records, hsome]
    have hrec1 : st1.records = st.records ++ [openEntry line (scanLine l)] := by
      rw [h1, hrec]
      simp [parseState.records]
    rw [hrec1, List.head?_append_of_ne_nil _ (by rw [hrec]; simp)]
    exact hhead
  · obtain ⟨_, g2, _, _, _, _⟩ := appendLine_fields st t l peek
    have hrec : st.records = st.raw ++ [t] := by simp [parseState.records, hsome]
    have hrec1 : st1.records = st.raw ++ [appendLine st t l peek] := by
      rw [h1]
      simp [parseState.records]
    rw [hrec] at hhead
    rw [hrec1]
    cases hraw : st.raw with
    | nil =>
      rw [hraw] at hhead
      intro r hr
      simp only [List.nil_append, List.head?_cons, Option.mem_def, Option.some.injEq] at hr
      rw [← hr, g2]
      exact hhead t (by simp)
    | cons r0 raw1 =>
      rw [hraw] at hhead
      intro r hr
      exact hhead r (by simpa using hr)

/-- One pass of the loop of `parseReader` on the line `n + 1`: every record
was opened by a header line, which is the line of its line number and has its
pathname and its width. -/
theorem parseStep_headers (filename : GoString) (lines : List GoString) (n : Nat)
    (l : GoString) (peek : Option GoString) (st st1 : parseState) (hl : lines[n]? = some l)
    (h : parseStep filename ((n : Int) + 1) l peek st = .ok st1)
    (hst : ∀ r ∈ st.records, 1 ≤ r.line ∧ ∃ hd, lines[(r.line - 1).toNat]? = some hd ∧
      (scanLine hd).header = true ∧ (scanLine hd).pathname = r.GetPathname ∧
      (scanLine hd).boundary = r.boundary) :
    ∀ r ∈ st1.records, 1 ≤ r.line ∧ ∃ hd, lines[(r.line - 1).toNat]? = some hd ∧
      (scanLine hd).header = true ∧ (scanLine hd).pathname = r.GetPathname ∧
      (scanLine hd).boundary = r.boundary := by
  have hidx : ((n : Int) + 1 - 1).toNat = n := by omega
  rcases parseStep_cases filename _ l peek st st1 h with
    ⟨hnone, hh, _, h1⟩ | ⟨t, hsome, hh, _, h1⟩ | ⟨t, hsome, _, h1⟩
  · intro r hr
    rw [h1] at hr
    simp only [parseState.records, Option.toList, List.mem_append, List.mem_singleton] at hr
    rcases hr with hr | hr
    · exact hst r (by simp [parseState.records, hr])
    · obtain ⟨f1, f2, _, f4, _, _⟩ := newEntry_fields ((n : Int) + 1) (scanLine l).boundary
        (scanLine l).pathname (scanLine l).err
      rw [hr, f1, f2, f4, hidx]
      exact ⟨by omega, l, hl, hh, rfl, rfl⟩
  · intro r hr
    rw [h1] at hr
    simp only [parseState.records, Option.toList, List.mem_append, List.mem_singleton] at hr
    rcases hr with hr | hr
    · exact hst r (by
        simp only [parseState.records, hsome, Option.toList, List.mem_append,
          List.mem_singleton]
        exact hr)
    · obtain ⟨f1, f2, _, f4, _, _⟩ := openEntry_fields ((n : Int) + 1) (scanLine l)
      rw [hr, f1, f2, f4, hidx]
      exact ⟨by omega, l, hl, hh, rfl, rfl⟩
  · intro r hr
    rw [h1] at hr
    simp only [parseState.records, Option.toList, List.mem_append, List.mem_singleton] at hr
    rcases hr with hr | hr
    · exact hst r (by simp [parseState.records, hr])
    · have ht := hst t (by simp [parseState.records, hsome])
      obtain ⟨g1, g2, _, _, _, _⟩ := appendLine_fields st t l peek
      obtain ⟨g7, _, _⟩ := appendLine_kind st t l peek
      rw [hr, g1, g2, g7]
      exact ht

/-- The loop of `parseReader` from the line `n + 1` on, when there is a current
record: at its end the records have the bodies the specification words, the
last record has the raw lines after its header, and every record was opened by
the header line of its line number. -/
theorem parseLoop_bodies (filename : GoString) (lines : List GoString) (w : Int) :
    ∀ (todo : List GoString) (n : Nat) (st st1 : parseState), lines.drop n = todo →
      parseLoop filename ((n : Int) + 1) todo st = .ok st1 →
      st.boundary = w → st.this ≠ none → st.records.Chain' (bodyBetween lines w) →
      (∀ t, st.this = some t → 0 ≤ t.line ∧ t.line ≤ n ∧
        t.GetBody = trimNewlineIf (t.IsFile && peekIsHeaderOf w lines[n]?)
          (linesBetween lines t.line n)) →
      (∀ r ∈ st.records, 1 ≤ r.line ∧ ∃ hd, lines[(r.line - 1).toNat]? = some hd ∧
        (scanLine hd).header = true ∧ (scanLine hd).pathname = r.GetPathname ∧
        (scanLine hd).boundary = r.boundary) →
      (∀ r ∈ st.records.head?, r.boundary = w) →
      st1.boundary = w ∧ st1.this ≠ none ∧ st1.records.Chain' (bodyBetween lines w) ∧
      (∀ r ∈ st1.records.head?, r.boundary = w) ∧
      (∀ t, st1.this = some t → t.GetBody = linesBetween lines t.line lines.length) ∧
      (∀ r ∈ st1.records, 1 ≤ r.line ∧ ∃ hd, lines[(r.line - 1).toNat]? = some hd ∧
        (scanLine hd).header = true ∧ (scanLine hd).pathname = r.GetPathname ∧
        (scanLine hd).boundary = r.boundary) := by
  intro todo
  induction todo with
  | nil =>
    intro n st st1 hdrop h hw hthis hchain hlast hhead hfirst
    simp only [parseLoop, Except.ok.injEq] at h
    subst h
    have hlen : lines.length ≤ n := List.drop_eq_nil_iff.mp hdrop
    have hnone : lines[n]? = none := List.getElem?_eq_none hlen
    refine ⟨hw, hthis, hchain, hfirst, ?_, hhead⟩
    intro t ht
    obtain ⟨_, _, t2⟩ := hlast t ht
    rw [t2, hnone, linesBetween_end lines t.line n hlen]
    simp [peekIsHeaderOf, trimNewlineIf]
  | cons l rest ih =>
    intro n st st1 hdrop h hw hthis hchain hlast hhead hfirst
    have hl : lines[n]? = some l := by
      rw [← List.head?_drop, hdrop]
      rfl
    have hrest : lines.drop (n + 1) = rest := by
      rw [← List.tail_drop, hdrop]
      rfl
    have hpeek : rest.head? = lines[n + 1]? := by
      rw [← hrest, List.head?_drop]
    rw [parseLoop, hpeek] at h
    cases hstep : parseStep filename ((n : Int) + 1) l lines[n + 1]? st with
    | error e =>
      rw [hstep] at h
      exact absurd h (by simp)
    | ok st2 =>
      rw [hstep] at h
      simp only at h
      obtain ⟨k1, k2, k3, k4⟩ :=
        parseStep_bodies filename lines w n l st st2 hl hstep hw hthis hchain hlast
      have k5 := parseStep_headers filename lines n l _ st st2 hl hstep hhead
      have k6 := parseStep_head filename _ w l _ st st2 hstep hthis hfirst
      have hcast : (n : Int) + 1 + 1 = ((n + 1 : Nat) : Int) + 1 := by push_cast; ring
      rw [hcast] at h
      exact ih (n + 1) st2 st1 hrest h k1 k2 k3 k4 k5 k6

/-- The records of a parse: the state has the width of the first line; every
record but the last has, for its body, the raw lines between its header and the
header of the next record, with one trailing newline removed when it is a file
and the next header has the width of the archive; the last record has the raw
lines after its header; and every record was opened by the header line of its
line number. -/
theorem scan_bodies (filename x : GoString) (st : parseState)
    (h : scanRecords filename x = some st) :
    st.boundary = archiveWidth x ∧
    st.records.Chain' (bodyBetween (splitLines x) (archiveWidth x)) ∧
    (∀ r ∈ st.records.head?, r.boundary = archiveWidth x) ∧
    (∀ t ∈ st.records.getLast?,
      t.GetBody = linesBetween (splitLines x) t.line (splitLines x).length) ∧
    (∀ r ∈ st.records, 1 ≤ r.line ∧ ∃ hd, (splitLines x)[(r.line - 1).toNat]? = some hd ∧
      (scanLine hd).header = true ∧ (scanLine hd).pathname = r.GetPathname ∧
      (scanLine hd).boundary = r.boundary) := by
  unfold scanRecords at h
  split at h
  · exact absurd h (by simp)
  · split at h
    · rename_i st0 hloop
      simp only [Option.some.injEq] at h
      subst h
      unfold archiveWidth
      cases hlines : splitLines x with
      | nil =>
        rw [hlines] at hloop
        simp only [parseLoop, Except.ok.injEq] at hloop
        subst hloop
        simp [parseState.records, parseState.init]
      | cons l0 rest =>
        rw [hlines, parseLoop] at hloop
        simp only
        cases hstep : parseStep (filepathBase filename) 1 l0 rest.head? parseState.init with
        | error e =>
          rw [hstep] at hloop
          exact absurd hloop (by simp)
        | ok st2 =>
          rw [hstep] at hloop
          simp only at hloop
          have hl0 : (l0 :: rest)[0]? = some l0 := by simp
          have hstep0 : parseStep (filepathBase filename) (((0 : Nat) : Int) + 1) l0 rest.head?
              parseState.init = .ok st2 := hstep
          have k5 := parseStep_headers (filepathBase filename) (l0 :: rest) 0 l0 _ _ st2 hl0
            hstep0 (by simp [parseState.records, parseState.init])
          rcases parseStep_cases _ _ _ _ _ _ hstep with
            ⟨_, hh, _, h1⟩ | ⟨t, hsome, _, _, _⟩ | ⟨t, hsome, _, _⟩
          · obtain ⟨f1, f2, _, _, f5, _⟩ := newEntry_fields 1 (scanLine l0).boundary
              (scanLine l0).pathname (scanLine l0).err
            have hb2 : st2.boundary = (scanLine l0).boundary := by
              rw [h1]
              rfl
            have hrec2 : st2.records
                = [newEntry 1 (scanLine l0).boundary (scanLine l0).pathname []
                    (scanLine l0).err] := by
              rw [h1]
              rfl
            have hloop1 : parseLoop (filepathBase filename) (((1 : Nat) : Int) + 1) rest st2
                = .ok st0 := hloop
            obtain ⟨j1, j2, j3, j6, j4, j5⟩ := parseLoop_bodies (filepathBase filename) (l0 :: rest)
              (scanLine l0).boundary rest 1 st2 st0 rfl hloop1 hb2 (by rw [h1]; simp)
              (by rw [hrec2]; exact List.chain'_singleton _)
              (by
                intro t ht
                rw [h1] at ht
                simp only [Option.some.injEq] at ht
                subst ht
                rw [f1, f5]
                refine ⟨by omega, by simp, ?_⟩
                rw [show ((1 : Nat) : Int) = 1 from rfl, linesBetween_self, trimNewlineIf_nil])
              k5
              (by
                intro r hr
                rw [hrec2] at hr
                simp only [List.head?_cons, Option.mem_def, Option.some.injEq] at hr
                rw [← hr, f2])
            refine ⟨j1, j3, j6, ?_, j5⟩
            intro t ht
            cases hthis : st0.this with
            | none => exact absurd hthis j2
            | some t0 =>
              have : st0.records.getLast? = some t0 := by
                simp [parseState.records, hthis]
              rw [this] at ht
              simp only [Option.mem_def, Option.some.injEq] at ht
              subst ht
              exact j4 t0 hthis
          · exact absurd hsome (by simp [parseState.init])
          · exact absurd hsome (by simp [parseState.init])
    · exact absurd h (by simp)

/-- Every line of a text that is followed by another line ends with a
newline. -/
theorem splitLines_newline (s : GoString) :
    ∀ (i : Nat) (l : GoString), (splitLines s)[i]? = some l →
      i + 1 < (splitLines s).length → HasSuffix l [10] = true := by
  induction s with
  | nil =>
    intro i l hl
    simp [splitLines] at hl
  | cons c cs ih =>
    intro i l hl hlen
    rw [splitLines] at hl hlen
    by_cases hc : c = 10
    · rw [if_pos hc] at hl hlen
      cases i with
      | zero =>
        simp only [List.getElem?_cons_zero, Option.some.injEq] at hl
        rw [← hl]
        rfl
      | succ j =>
        simp only [List.getElem?_cons_succ] at hl
        simp only [List.length_cons] at hlen
        exact ih j l hl (by omega)
    · rw [if_neg hc] at hl hlen
      cases hs : splitLines cs with
      | nil =>
        rw [hs] at hlen
        simp at hlen
      | cons l0 ls =>
        rw [hs] at hl hlen
        simp only at hl hlen
        cases i with
        | zero =>
          simp only [List.getElem?_cons_zero, Option.some.injEq] at hl
          have h0 := ih 0 l0 (by rw [hs]; simp) (by
            rw [hs]
            simpa using hlen)
          obtain ⟨t, ht⟩ := (hasSuffix_iff l0 [10]).mp h0
          rw [← hl, ht]
          exact (hasSuffix_iff _ _).mpr ⟨c :: t, rfl⟩
        | succ j =>
          simp only [List.getElem?_cons_succ] at hl
          exact ih (j + 1) l (by rw [hs]; simpa using hl) (by
            rw [hs]
            simpa using hlen)

/-- The boundary of a parsed archive is the width of the first line of the
text. -/
theorem parseData_boundary (filename x : GoString) (a : archive)
    (h : parseData filename x = .ok a) : a.GetBoundary = archiveWidth x := by
  obtain ⟨st, hscan, hfin⟩ := scan_of_parseData filename x a h
  obtain ⟨_, _, hhead, _⟩ := scan_bodies filename x st hscan
  obtain ⟨hk, _⟩ := keyed_scanArchive st filename
  cases hrec : st.records with
  | nil =>
    rw [hrec] at hfin
    simp [archive.finalize] at hfin
  | cons item rest =>
    rw [hrec] at hfin hhead
    have h1 : finalizeLoop item rest { st.archive filename with boundary := item.boundary }
        = .ok a := hfin
    obtain ⟨_, _, _, _, k5, _⟩ := finalizeLoop_keyed _ _ _ _ h1
      (keyed_congr (st.archive filename) _ hk rfl rfl rfl rfl)
    show a.boundary = _
    rw [k5]
    exact hhead item (by simp)

/-! ### The loop of `parseReader`, pass by pass -/

/-- The loop of `parseReader` is its passes over all the lines. -/
theorem parseLoopUpTo_all (filename : GoString) :
    ∀ (lines : List GoString) (line : Int) (st : parseState),
      parseLoopUpTo filename lines.length line lines st = parseLoop filename line lines st := by
  intro lines
  induction lines with
  | nil => intro line st; rfl
  | cons l rest ih =>
    intro line st
    simp only [List.length_cons, parseLoopUpTo, parseLoop]
    cases parseStep filename line l rest.head? st with
    | error e => rfl
    | ok st2 => exact ih (line + 1) st2

/-- The pass `n + 1` of the loop of `parseReader`, after the first `n`
passes. -/
theorem parseLoopUpTo_step (filename : GoString) :
    ∀ (n : Nat) (line : Int) (lines : List GoString) (st st1 : parseState) (l : GoString),
      parseLoopUpTo filename n line lines st = .ok st1 → lines[n]? = some l →
      parseLoopUpTo filename (n + 1) line lines st
        = parseStep filename (line + n) l lines[n + 1]? st1 := by
  intro n
  induction n with
  | zero =>
    intro line lines st st1 l h hl
    cases lines with
    | nil => simp at hl
    | cons c rest =>
      simp only [List.getElem?_cons_zero, Option.some.injEq] at hl
      subst hl
      simp only [parseLoopUpTo, Except.ok.injEq] at h
      subst h
      simp only [parseLoopUpTo, Nat.cast_zero, add_zero, zero_add, List.getElem?_cons_succ]
      rw [show rest.head? = rest[0]? by cases rest <;> simp]
      cases parseStep filename line c rest[0]? st <;> rfl
  | succ n ih =>
    intro line lines st st1 l h hl
    cases lines with
    | nil => simp at hl
    | cons c rest =>
      simp only [List.getElem?_cons_succ] at hl
      rw [parseLoopUpTo] at h
      rw [parseLoopUpTo]
      cases hstep : parseStep filename line c rest.head? st with
      | error e =>
        rw [hstep] at h
        exact absurd h (by simp)
      | ok st2 =>
        rw [hstep] at h
        simp only at h ⊢
        rw [ih (line + 1) rest st2 st1 l h hl]
        simp only [List.getElem?_cons_succ]
        congr 1
        push_cast
        ring

/-- The passes of the loop of `parseReader` from a state with a current
record: there is a current record afterwards, the width of the archive stays,
and the `hrx` flags of the records are those of their pathnames. -/
theorem parseLoopUpTo_sound (filename : GoString) :
    ∀ (n : Nat) (line : Int) (lines : List GoString) (st st1 : parseState),
      parseLoopUpTo filename n line lines st = .ok st1 → st.this ≠ none →
      (∀ r ∈ st.records, r.err ≠ some Sentinel.indexOutOfRange ∧ r.flagged) →
      st1.this ≠ none ∧ st1.boundary = st.boundary ∧
      ∀ r ∈ st1.records, r.err ≠ some Sentinel.indexOutOfRange ∧ r.flagged := by
  intro n
  induction n with
  | zero =>
    intro line lines st st1 h hthis hst
    simp only [parseLoopUpTo, Except.ok.injEq] at h
    subst h
    exact ⟨hthis, rfl, hst⟩
  | succ n ih =>
    intro line lines st st1 h hthis hst
    cases lines with
    | nil =>
      simp only [parseLoopUpTo, Except.ok.injEq] at h
      subst h
      exact ⟨hthis, rfl, hst⟩
    | cons c rest =>
      rw [parseLoopUpTo] at h
      cases hstep : parseStep filename line c rest.head? st with
      | error e =>
        rw [hstep] at h
        exact absurd h (by simp)
      | ok st2 =>
        rw [hstep] at h
        simp only at h
        have h2 := parseStep_sound _ _ _ _ _ _ hstep hst
        have hb : st2.this ≠ none ∧ st2.boundary = st.boundary := by
          rcases parseStep_cases _ _ _ _ _ _ hstep with
            ⟨hnone, _, _, _⟩ | ⟨t, _, _, _, h1⟩ | ⟨t, _, _, h1⟩
          · exact absurd hnone hthis
          · rw [h1]; exact ⟨by simp, rfl⟩
          · rw [h1]; exact ⟨by simp, rfl⟩
        obtain ⟨i1, i2, i3⟩ := ih (line + 1) rest st2 st1 h hb.1 h2
        exact ⟨i1, by rw [i2, hb.2], i3⟩

/-- The state of the loop of `parseReader` after one pass at least, from the
start: there is a current record, flagged as its pathname says, and the width
of the archive is the width of the first line. -/
theorem parseLoopUpTo_state (filename : GoString) (n : Nat) (l0 : GoString)
    (rest : List GoString) (st : parseState)
    (h : parseLoopUpTo filename (n + 1) 1 (l0 :: rest) parseState.init = .ok st) :
    st.boundary = (scanLine l0).boundary ∧ ∃ t, st.this = some t ∧ t.flagged := by
  rw [parseLoopUpTo] at h
  cases hstep : parseStep filename 1 l0 rest.head? parseState.init with
  | error e =>
    rw [hstep] at h
    exact absurd h (by simp)
  | ok st2 =>
    rw [hstep] at h
    simp only at h
    have h2 := parseStep_sound _ _ _ _ _ _ hstep (by simp [parseState.records, parseState.init])
    rcases parseStep_cases _ _ _ _ _ _ hstep with
      ⟨_, _, _, h1⟩ | ⟨t, hsome, _, _, _⟩ | ⟨t, hsome, _, _⟩
    · have hb2 : st2.boundary = (scanLine l0).boundary := by rw [h1]; rfl
      obtain ⟨i1, i2, i3⟩ := parseLoopUpTo_sound filename n _ rest st2 st h
        (by rw [h1]; simp) h2
      refine ⟨by rw [i2, hb2], ?_⟩
      cases hthis : st.this with
      | none => exact absurd hthis i1
      | some t => exact ⟨t, rfl, (i3 t (by simp [parseState.records, hthis])).2⟩
    · exact absurd hsome (by simp [parseState.init])
    · exact absurd hsome (by simp [parseState.init])

/-- A result whose value is known is that value. -/
theorem ok_of_toOption (r : Except GoError parseState) (st : parseState)
    (h : r.toOption = some st) : r = .ok st := by
  cases r with
  | error e => simp [Except.toOption] at h
  | ok b =>
    simp only [Except.toOption, Option.some.injEq] at h
    rw [h]

/-- Writing back the record an address holds leaves the archive as it is. -/
theorem assign_deref_self (a : archive) (p : Nat) (e : entry) (h : e = a.deref p) :
    a.assign p e = a := by
  subst h
  cases a
  simp only [archive.assign, archive.deref, archive.mk.injEq, true_and]
  refine ⟨?_, trivial⟩
  funext q
  split
  · rename_i hq; rw [hq]
  · rfl

/-- The loop of `SetBoundary` leaves the archive as it is when every entry it
visits has the width given and the text written back is the body held. -/
theorem setBoundaryLoop_stable (recur : archive → Int → Option (Option GoError × archive))
    (size : Int)
    (hrec : ∀ ia s r, ia.entries.Nodup → recur ia s = some r → ia.SetBoundary s = some r) :
    ∀ (l : List Nat) (a b : archive) (e : Option GoError),
      setBoundaryLoop recur size l a = some (e, b) → a.cascadeStable size l = true → b = a := by
  intro l
  induction l with
  | nil =>
    intro a b e h _
    simp only [setBoundaryLoop, Option.some.injEq, Prod.mk.injEq] at h
    exact h.2.symm
  | cons item rest ih =>
    intro a b e h hst
    rw [archive.cascadeStable] at hst
    simp only [Bool.and_eq_true, decide_eq_true_eq] at hst
    obtain ⟨hwidth, hst⟩ := hst
    have h1 : a.assign item { a.deref item with boundary := size } = a :=
      assign_deref_self a item _ (by rw [← hwidth])
    rw [setBoundaryLoop] at h
    simp only [h1] at h
    cases hp : (a.deref item).parseHRX with
    | error err =>
      simp only [hp, Option.some.injEq, Prod.mk.injEq] at h
      exact h.2.symm
    | ok ia =>
      simp only [hp] at h hst
      cases hr : recur ia (wrapInt (size + 1)) with
      | none => simp [hr] at h
      | some r =>
        obtain ⟨e1, ib⟩ := r
        have hfull := hrec ia _ _ (parseHRX_inv _ _ hp).nodup hr
        cases e1 with
        | some err =>
          simp only [hr, Option.some.injEq, Prod.mk.injEq] at h
          exact h.2.symm
        | none =>
          simp only [hr] at h
          simp only [hfull, Bool.and_eq_true, decide_eq_true_eq] at hst
          have h2 : a.assign item { a.deref item with body := some ib.String } = a :=
            assign_deref_self a item _ (by rw [← hst.1])
          rw [h2] at h
          exact ih a b e h hst.2

/-- `SetBoundary` with the width of the archive returns the archive as it is
when every entry it visits has that width and the text written back is the
body held. -/
theorem setBoundary_stable (a b : archive) (e : Option GoError)
    (h : a.SetBoundary a.boundary = some (e, b))
    (hst : a.cascadeStable a.boundary a.entries = true) : b = a := by
  unfold archive.SetBoundary archive.depthBound at h
  rw [archive.SetBoundaryDepth] at h
  split at h
  · simp only [Option.some.injEq, Prod.mk.injEq] at h
    exact h.2.symm
  · have hloop := setBoundaryLoop_stable (archive.SetBoundaryDepth (bodySum a.items + 1))
      a.boundary (fun ia s r hnd hr => setBoundary_of_depth _ ia s r hnd hr) a.entries a
    split at h
    · exact absurd h (by simp)
    · rename_i err c hl
      simp only [Option.some.injEq, Prod.mk.injEq] at h
      rw [← h.2]
      exact hloop _ _ hl hst
    · rename_i c hl
      simp only [Option.some.injEq, Prod.mk.injEq] at h
      rw [← h.2, hloop _ _ hl hst]

/-- `ParseHRX` on the entry `Set` builds for a pathname ending in `.hrx` and a
body that is not empty parses the body. -/
theorem newEntry_parseHRX (line boundary : Int) (pathname body : GoString)
    (hhrx : HasSuffix pathname (ascii ".hrx") = true) (hbody : body ≠ []) :
    (newEntry line boundary pathname body none).parseHRX = parseData pathname body := by
  obtain ⟨t, ht⟩ := (hasSuffix_iff _ _).mp hhrx
  have hne : pathname ≠ [] := by
    intro h0
    rw [h0] at ht
    have := congrArg List.length ht
    simp [ascii] at this
  cases body with
  | nil => exact absurd rfl hbody
  | cons c cs =>
    unfold entry.parseHRX newEntry
    simp only [hhrx, if_pos hne, ne_eq, reduceCtorEq, not_false_eq_true, if_true]

/-! ## Properties of the operations

### Serialisation after parsing -/

/-- C1 (round trip), evaluated on the archive `"<==> f\n\n<==> g\ny"`, in which
the body of `f` is one empty line: `ParseData` succeeds, the body of `f` is
trimmed to the empty string, and `String()` of the result is
`"<==> f\n<==> g\ny"`, which is not the input. -/
theorem roundTrip_drops_blank_body :
    (parseData (ascii "t.hrx") (ascii "<==> f\n\n<==> g\ny")).toOption.map archive.String
        = some (ascii "<==> f\n<==> g\ny") ∧
      ascii "<==> f\n<==> g\ny" ≠ ascii "<==> f\n\n<==> g\ny" := by
  decide!

/-! ### `SetBoundary` -/

/-- C2 (SetBoundary changes the boundary), evaluated on the archive parsed from
`"<==> f\nx"`, which holds one plain file: `SetBoundary(3)` returns
`ErrNotAnArchive`, `GetBoundary()` is still 2, and the entry already has width
3, so that `String()` is `"<===> f\nx"`. -/
theorem setBoundary_fails_on_plain_file :
    (parseData (ascii "t.hrx") (ascii "<==> f\nx")).toOption.bind
        (fun a => (a.SetBoundary 3).map (fun r => (r.1, r.2.GetBoundary, r.2.String)))
      = some (some (.plain .ErrNotAnArchive), 2, ascii "<===> f\nx") := by
  decide!

/-- C3 (boundary cascade), evaluated on the archive parsed from
`"<=> one.hrx\n<==>\n<==> /x.hrx\n"`: `SetBoundary(1)` returns no error, the
body of `one.hrx` returned by `Get` is then `"<==> /x.hrx\n"`, and parsing that
body fails with `ErrStartsWithDirSep` at line 1. -/
theorem cascade_body_does_not_parse_again :
    (parseData (ascii "t.hrx") (ascii "<=> one.hrx\n<==>\n<==> /x.hrx\n")).toOption.bind
        (fun a => (a.SetBoundary 1).map (fun r =>
          (r.1, r.2.Get (ascii "one.hrx"), errorOf (r.2.ParseHRX (ascii "one.hrx")))))
      = some (none, (ascii "<==> /x.hrx\n", [], true),
          some (.Error (ascii "one.hrx") (some .ErrBadFileEntry) (some .ErrStartsWithDirSep) 1)) := by
  decide!

/-- C4: for every archive and every size `≤ 0`, `SetBoundary(size)` returns
`ErrBadBoundary` and the archive after the call is the archive before it, so
that `GetBoundary()`, every entry and `String()` are as before. -/
theorem setBoundary_nonpositive (a : archive) (size : Int) (h : size ≤ 0) :
    a.SetBoundary size = some (some (.plain .ErrBadBoundary), a) := by
  unfold archive.SetBoundary archive.depthBound
  rw [archive.SetBoundaryDepth, if_pos h]

/-- C4 (witness) at the archive of the test with its two entries and the size
`-1` of the tests: the call returns `ErrBadBoundary`, and the boundary and
`String()` are as before. -/
theorem setBoundary_nonpositive_witness :
    ((-1 : Int) ≤ 0) ∧
      twoFiles.SetBoundary (-1) = some (some (.plain .ErrBadBoundary), twoFiles) ∧
      (twoFiles.SetBoundary (-1)).map (fun r => (r.2.GetBoundary, r.2.String))
        = some (5, ascii "<=====>\ncomment\n<=====> file\ncontents\n<=====> dir/file\nsubdir file") :=
  ⟨by decide, setBoundary_nonpositive _ _ (by decide),
    by rw [setBoundary_nonpositive _ _ (by decide)]; decide!⟩

/-! ### `Set` and `Get` -/

/-- C5 (Set adds a new pathname), evaluated on `New("e.hrx", "")` and the new
pathname `x.hrx` with the body `"<==> f\nx"`: `Set` returns nil, and after it
`Len()` is still 0, `Entry("x.hrx")` is nil and `List()` is empty. -/
theorem set_new_hrx_returns_nil_without_adding :
    ((New (ascii "e.hrx") []).Set (ascii "x.hrx") (ascii "<==> f\nx") []).map
        (fun r => (r.1, r.2.Len, r.2.Entry (ascii "x.hrx"), r.2.ListPathnames))
      = some (none, 0, none, []) := by
  decide!

/-- C6 (Set reports nested-archive failures; counterexample), evaluated on
`New("e.hrx", "")`, of width 5.  For the new pathname `x.hrx` with the body
`"<==> f\nx"`: the body parses as an archive, `SetBoundary(6)` on that archive
fails with `ErrNotAnArchive`, and `Set` returns nil with the line counter moved
from 0 to 1.  For the pathname and the body of the test "recurse invalid
nested archive", on which the test expects nil: the body parses, the nested
`SetBoundary(6)` fails, and `Set` returns nil. -/
theorem set_swallows_nested_failure :
    errorOf (parseData (ascii "x.hrx") (ascii "<==> f\nx")) = none ∧
      (parseData (ascii "x.hrx") (ascii "<==> f\nx")).toOption.bind
          (fun ia => (ia.SetBoundary (wrapInt ((New (ascii "e.hrx") []).boundary + 1))).map Prod.fst)
        = some (some (.plain .ErrNotAnArchive)) ∧
      (New (ascii "e.hrx") []).lastLine = 0 ∧
      ((New (ascii "e.hrx") []).Set (ascii "x.hrx") (ascii "<==> f\nx") []).map
          (fun r => (r.1, r.2.lastLine, r.2.entries))
        = some (none, 1, []) ∧
      ((parseData (ascii "recurse-parser-error.hrx")
          (ascii "<==> good.hrx\n<====> bad.hrx\n<==!==> not/a/thing\n")).toOption.bind
          (fun ia => (ia.SetBoundary (wrapInt ((New (ascii "e.hrx") []).boundary + 1))).map
            (fun r => r.1.isSome)))
        = some true ∧
      ((New (ascii "e.hrx") []).Set (ascii "recurse-parser-error.hrx")
          (ascii "<==> good.hrx\n<====> bad.hrx\n<==!==> not/a/thing\n") []).map Prod.fst
        = some none := by
  refine ⟨?_, ?_, ?_, ?_, ?_, ?_⟩ <;> decide!

/-- C6 (amended): for every archive, every pathname ending in `.hrx` that is
not in the archive yet, every body that is valid UTF-8 and parses as an
archive and every comment that is empty or valid UTF-8, when `SetBoundary` on
the nested archive with the width of this archive plus one (the sum of Go)
returns an error, `Set` returns nil. -/
theorem set_nested_failure_returns_nil (a : archive) (pathname body comment : GoString)
    (ia ib : archive) (err : GoError)
    (hbody : ValidString body = true) (hcomment : comment = [] ∨ ValidString comment = true)
    (hnew : a.lookup pathname = none)
    (hhrx : HasSuffix pathname (ascii ".hrx") = true)
    (hparse : parseData pathname body = .ok ia)
    (hfail : ia.SetBoundary (wrapInt (a.boundary + 1)) = some (some err, ib)) :
    ∃ b, a.Set pathname body comment = some (none, b) := by
  have hne : body ≠ [] := by
    intro h0
    rw [h0] at hparse
    unfold parseData archive.parseString at hparse
    rw [if_pos (by decide)] at hparse
    exact absurd hparse (by simp)
  have hp := newEntry_parseHRX (a.lastLine + 1) a.boundary pathname body hhrx hne
  have hc : (comment ≠ [] && !ValidString comment) = false := by
    rcases hcomment with h | h
    · simp [h]
    · simp [h]
  unfold archive.Set
  simp only [hbody, hc, hnew, hp, hparse, hfail, Bool.not_true, Bool.and_false,
    Bool.false_eq_true, if_false]
  exact ⟨_, rfl⟩

/-- C6 (witness) on `New("e.hrx", "")`, the new pathname `x.hrx` and the body
`"<==> f\nx"`, on whose archive `SetBoundary(6)` fails: `Set` returns nil. -/
theorem set_nested_failure_returns_nil_witness :
    ∃ b, (New (ascii "e.hrx") []).Set (ascii "x.hrx") (ascii "<==> f\nx") [] = some (none, b) := by
  obtain ⟨ia, hia⟩ := ok_of_errorOf_none
    (parseData (ascii "x.hrx") (ascii "<==> f\nx")) (by decide!)
  have h1 : (parseData (ascii "x.hrx") (ascii "<==> f\nx")).toOption.bind
      (fun ia => (ia.SetBoundary (wrapInt ((New (ascii "e.hrx") []).boundary + 1))).map Prod.fst)
      = some (some (.plain .ErrNotAnArchive)) := by decide!
  rw [hia] at h1
  cases hsb : ia.SetBoundary (wrapInt ((New (ascii "e.hrx") []).boundary + 1)) with
  | none => simp [Except.toOption, hsb] at h1
  | some r =>
    obtain ⟨e, ib⟩ := r
    have he : e = some (.plain .ErrNotAnArchive) := by
      simpa [Except.toOption, hsb] using h1
    subst he
    exact set_nested_failure_returns_nil (New (ascii "e.hrx") []) (ascii "x.hrx")
      (ascii "<==> f\nx") [] ia ib (.plain .ErrNotAnArchive) (by decide!) (Or.inl rfl)
      (by decide!) (by decide!) hia hsb

/-- C7 (Set then Get), evaluated on `New("e.hrx", "")`, the new file pathname
`f` and the empty body: `Set` returns nil and `Get("f")` then returns
`("", "", false)`, the body of the entry being absent. -/
theorem get_after_set_new_empty_file :
    ValidString [] = true ∧
      ((New (ascii "e.hrx") []).Set (ascii "f") [] []).map
          (fun r => (r.1, r.2.Get (ascii "f"), (r.2.Entry (ascii "f")).map entry.body))
        = some (none, ([], [], false), some none) := by
  decide!

/-- C8: for every archive and pathname, when the body is non-empty and not
valid UTF-8, or the comment is non-empty and not valid UTF-8, `Set` returns an
`Error` whose `Wrap` is `ErrInvalidUnicode`, whose `Base` is
`ErrMalformedInput` and whose `Line` is the line counter plus one, and the
archive after the call is the archive before it. -/
theorem set_invalid_unicode (a : archive) (pathname body comment : GoString)
    (h : (body ≠ [] ∧ ValidString body = false) ∨ (comment ≠ [] ∧ ValidString comment = false)) :
    a.Set pathname body comment
      = some (some (.Error a.filename (some .ErrMalformedInput) (some .ErrInvalidUnicode)
          (a.lastLine + 1)), a) := by
  unfold archive.Set
  by_cases hb : (decide (body ≠ []) && !ValidString body) = true
  · rw [if_pos hb]; rfl
  · rw [if_neg hb]
    have hc : (decide (comment ≠ []) && !ValidString comment) = true := by
      rcases h with ⟨h1, h2⟩ | ⟨h1, h2⟩
      · exact absurd (by simp [h1, h2]) hb
      · simp [h1, h2]
    rw [if_pos hc]; rfl

/-- C8 (witness) at the archive of the test, once with the body
`0xff 0xfe 0xfd` of the tests and once with that comment: the error is at line
3, the line counter being 2. -/
theorem set_invalid_unicode_witness :
    ([0xff, 0xfe, 0xfd] ≠ ([] : GoString) ∧ ValidString [0xff, 0xfe, 0xfd] = false) ∧
      twoFiles.Set (ascii "invalid.utf8") [0xff, 0xfe, 0xfd] []
        = some (some (.Error twoFiles.filename (some .ErrMalformedInput)
            (some .ErrInvalidUnicode) (twoFiles.lastLine + 1)), twoFiles) ∧
      twoFiles.Set (ascii "invalid.utf8") (ascii "valid content") [0xff, 0xfe, 0xfd]
        = some (some (.Error twoFiles.filename (some .ErrMalformedInput)
            (some .ErrInvalidUnicode) (twoFiles.lastLine + 1)), twoFiles) ∧
      twoFiles.filename = ascii "entries.hrx" ∧ twoFiles.lastLine + 1 = 3 :=
  ⟨by decide, set_invalid_unicode _ _ _ _ (Or.inl (by decide)),
    set_invalid_unicode _ _ _ _ (Or.inr (by decide)), by decide!, by decide!⟩

/-- C9: for every archive in which the pathname is present (`lookup` gives the
address `this`), `Set` with valid UTF-8 arguments returns nil; afterwards the
record of the pathname has the body given (present, also when empty) and the
comment given (absent when the comment is empty) and is otherwise as before,
with its line number; every other record, the entry list, `Len()`, `List()`,
the line counter, `lookup`, the boundary and the archive comment are as
before, and `Get` returns the body and the comment. -/
theorem set_existing_replaces_in_place (a : archive) (pathname body comment : GoString)
    (this : Nat) (hbody : ValidString body = true) (hcomment : ValidString comment = true)
    (hthis : a.lookup pathname = some this) :
    ∃ b, a.Set pathname body comment = some (none, b) ∧
      b.deref this = { a.deref this with
        body := some body, comment := if comment = [] then none else some comment } ∧
      (∀ q, q ≠ this → b.deref q = a.deref q) ∧
      b.entries = a.entries ∧ b.Len = a.Len ∧ b.ListPathnames = a.ListPathnames ∧
      b.lastLine = a.lastLine ∧ (∀ k, b.lookup k = a.lookup k) ∧
      b.boundary = a.boundary ∧ b.comment = a.comment ∧
      b.Get pathname = (body, comment, true) := by
  have hb : ¬ ((decide (body ≠ []) && !ValidString body) = true) := by simp [hbody]
  have hc : ¬ ((decide (comment ≠ []) && !ValidString comment) = true) := by simp [hcomment]
  have hset : a.Set pathname body comment
      = some (none, (a.assign this { a.deref this with body := some body }).setEntryComment
          this comment) := by
    unfold archive.Set
    rw [if_neg hb, if_neg hc, hthis]
  have hderef : ((a.assign this { a.deref this with body := some body }).setEntryComment
      this comment).deref this = { a.deref this with
        body := some body, comment := if comment = [] then none else some comment } := by
    by_cases hcm : comment = []
    · simp [archive.setEntryComment, archive.assign, archive.deref, hcm]
    · simp [archive.setEntryComment, archive.assign, archive.deref, hcm]
  have hother : ∀ q, q ≠ this →
      ((a.assign this { a.deref this with body := some body }).setEntryComment
        this comment).deref q = a.deref q := by
    intro q hq
    by_cases hcm : comment = []
    · simp [archive.setEntryComment, archive.assign, archive.deref, hcm, hq]
    · simp [archive.setEntryComment, archive.assign, archive.deref, hcm, hq]
  have hframe : ((a.assign this { a.deref this with body := some body }).setEntryComment
        this comment).entries = a.entries ∧
      ((a.assign this { a.deref this with body := some body }).setEntryComment
        this comment).lastLine = a.lastLine ∧
      ((a.assign this { a.deref this with body := some body }).setEntryComment
        this comment).lookup = a.lookup ∧
      ((a.assign this { a.deref this with body := some body }).setEntryComment
        this comment).boundary = a.boundary ∧
      ((a.assign this { a.deref this with body := some body }).setEntryComment
        this comment).comment = a.comment := by
    unfold archive.setEntryComment
    split <;> exact ⟨rfl, rfl, rfl, rfl, rfl⟩
  obtain ⟨he, hl, hlk, hbd, hcmt⟩ := hframe
  refine ⟨_, hset, hderef, hother, he, ?_, ?_, hl, ?_, hbd, hcmt, ?_⟩
  · unfold archive.Len; rw [he]
  · apply listPathnames_congr _ _ he
    intro q
    by_cases hq : q = this
    · subst hq; rw [hderef]; rfl
    · rw [hother q hq]
  · intro k; rw [hlk]
  · unfold archive.Get
    rw [hlk, hthis]
    simp only [hderef]
    by_cases hcm : comment = []
    · simp [entry.GetComment, hcm]
    · simp [entry.GetComment, hcm]

/-- C9 (witness) at the archive of the test, whose pathname `file` is present:
`Set("file", "new", "")` returns nil and `Get("file")` is then
`("new", "", true)`. -/
theorem set_existing_replaces_in_place_witness :
    ValidString (ascii "new") = true ∧ ValidString [] = true ∧
      twoFiles.lookup (ascii "file") = some 0 ∧
      (twoFiles.Set (ascii "file") (ascii "new") []).map
          (fun r => (r.1, r.2.Get (ascii "file"), r.2.Len, r.2.lastLine))
        = some (none, (ascii "new", [], true), twoFiles.Len, twoFiles.lastLine) := by
  refine ⟨by decide!, by decide!, by decide!, ?_⟩
  obtain ⟨b, hb, _, _, _, hlen, _, hlast, _, _, _, hget⟩ :=
    set_existing_replaces_in_place twoFiles (ascii "file") (ascii "new") [] 0
      (by decide!) (by decide!) (by decide!)
  rw [hb, Option.map_some', hget, hlen, hlast]

/-! ### `Delete` -/

/-- C10: for every archive a caller can hold, `Delete` of a pathname that is
not present changes nothing; a present pathname is the pathname of one entry
of the list, and `Delete` of it, its entry having the address `this` and
standing between the entries `pre` and `post`, leaves the entry list
`pre ++ post` (the previous list without the entry, in the same order),
removes the pathname from `lookup` and no other, leaves the records of `pre`
unchanged, and, when an entry `next` followed, decreases the line number of
every entry of `post` and the line counter by `line(next) - line(this)`; when
none followed no record and no line number changes. -/
theorem delete_removes_one_entry (a : archive) (path : GoString) (hreach : a.Reachable) :
    (a.lookup path = none → a.Delete path = a) ∧
    (∀ this : Nat, a.lookup path = some this →
      (a.deref this).GetPathname = path ∧ ∃ pre post, a.entries = pre ++ this :: post) ∧
    ∀ (this : Nat) (pre post : List Nat),
      a.lookup path = some this → a.entries = pre ++ this :: post →
      (a.Delete path).entries = pre ++ post ∧
      this ∉ pre ++ post ∧
      (a.Delete path).lookup path = none ∧
      (∀ k, k ≠ path → (a.Delete path).lookup k = a.lookup k) ∧
      (∀ q ∈ pre, (a.Delete path).deref q = a.deref q) ∧
      (post = [] →
        (a.Delete path).lastLine = a.lastLine ∧ ∀ q, (a.Delete path).deref q = a.deref q) ∧
      (∀ next rest, post = next :: rest →
        (a.Delete path).lastLine
          = a.lastLine - ((a.deref next).line - (a.deref this).line) ∧
        ∀ q ∈ post, (a.Delete path).deref q
          = { a.deref q with
              line := (a.deref q).line - ((a.deref next).line - (a.deref this).line) }) := by
  have hinv := reachable_inv a hreach
  obtain ⟨habsent, hpresent⟩ := delete_of_inv a path hinv
  refine ⟨habsent, ?_, ?_⟩
  · intro this hl
    obtain ⟨hmem, hpn⟩ := (hinv.lookup_iff path this).mp hl
    exact ⟨hpn, List.append_of_mem hmem⟩
  intro this pre post hl hs
  obtain ⟨h1, h2, h3, h4, h5, h6, h7, _⟩ := hpresent this pre post hl hs
  refine ⟨h1, h2, h3, h4, ?_, h6, h7⟩
  intro q hq
  apply h5
  intro hqpost
  have hnd := hinv.nodup
  rw [hs] at hnd
  exact (List.nodup_append.mp hnd).2.2 hq (List.mem_cons_of_mem _ hqpost)

/-- C10 (witness) at the archive of the test, as in the test: `Delete("file")`
removes the first of the two entries, and the line counter goes from 2 to 1. -/
theorem delete_removes_one_entry_witness :
    twoFiles.Reachable ∧ twoFiles.lookup (ascii "file") = some 0 ∧
      twoFiles.entries = [] ++ 0 :: [1] ∧
      (twoFiles.Delete (ascii "file")).entries = [] ++ [1] ∧
      (twoFiles.Delete (ascii "file")).lookup (ascii "file") = none ∧
      (twoFiles.Delete (ascii "file")).lastLine
        = twoFiles.lastLine - ((twoFiles.deref 1).line - (twoFiles.deref 0).line) ∧
      twoFiles.lastLine = 2 ∧ (twoFiles.Delete (ascii "file")).lastLine = 1 ∧
      (twoFiles.Delete (ascii "file")).String = ascii "<=====> dir/file\nsubdir file" :=
  have h := (delete_removes_one_entry twoFiles (ascii "file") twoFiles_reachable).2.2 0 [] [1]
    (by decide!) (by decide!)
  ⟨twoFiles_reachable, by decide!, by decide!, h.1, h.2.2.1, (h.2.2.2.2.2.2 1 [] rfl).1,
    by decide!, by decide!, by decide!⟩

/-! ### Parsing: the checks of `finalize` -/

/-- C11 (duplicate rejection): for every input with two header lines, at the
indices `i < j` of its lines, that have the width of the archive (the width of
its first line) and the same non-empty pathname, `ParseData` returns an error
and no archive; and when `finalize` returns no error on the records before the
record `d` of the second header, and `d` itself was scanned without error and
with a boundary and is not a directory with contents, the error is the `Error`
with `Base` `ErrDuplicatePath` and the line `j + 1` of the second header. -/
theorem duplicate_pathname_rejected (filename x : GoString) (i j : Nat) (li lj p : GoString)
    (hij : i < j)
    (hi : (splitLines x)[i]? = some li) (hj : (splitLines x)[j]? = some lj)
    (hhi : (scanLine li).header = true) (hhj : (scanLine lj).header = true)
    (hbi : (scanLine li).boundary = archiveWidth x)
    (hbj : (scanLine lj).boundary = archiveWidth x)
    (hpi : (scanLine li).pathname = p) (hpj : (scanLine lj).pathname = p) (hp : p ≠ []) :
    (∃ e, parseData filename x = .error e) ∧
    ∀ (st : parseState) (pre post : List entry) (d : entry),
      scanRecords filename x = some st → st.records = pre ++ d :: post →
      d.line = (j : Int) + 1 → prefixValid (st.archive filename) pre →
      d.err = none → d.boundary ≠ 0 → d.dirHasContents = false →
      parseData filename x
        = .error (.Error (filepathBase filename) (some .ErrDuplicatePath) none ((j : Int) + 1)) := by
  constructor
  · cases hparse : parseData filename x with
    | error e => exact ⟨e, rfl⟩
    | ok b =>
      exfalso
      obtain ⟨st, hscan, hfin⟩ := scan_of_parseData filename x b hparse
      obtain ⟨hk, hempty, _, _⟩ := keyed_scanArchive st filename
      obtain ⟨_, hitems, _⟩ := finalize_keyed _ b _ hfin hk hempty
      obtain ⟨ri, hri, hril, hrip⟩ := scan_header filename x st hscan i li hi hhi hbi
      obtain ⟨rj, hrj, hrjl, hrjp⟩ := scan_header filename x st hscan j lj hj hhj hbj
      have hnd := inv_pathnames_nodup b (parseData_inv filename x b hparse)
      rw [hitems, attachComments_pathnames _ _ (le_refl _)] at hnd
      have hmem : ∀ r ∈ st.records, r.GetPathname = p →
          r ∈ st.records.filter (fun r => !r.IsComment) := by
        intro r hr hrp
        refine List.mem_filter.mpr ⟨hr, ?_⟩
        simp [isComment_of_pathname r (by rw [hrp]; exact hp)]
      have heq := List.inj_on_of_nodup_map hnd (hmem ri hri (by rw [hrip, hpi]))
        (hmem rj hrj (by rw [hrjp, hpj])) (by rw [hrip, hrjp, hpi, hpj])
      rw [heq, hrjl] at hril
      omega
  · intro st pre post d hscan hrec hline hpre herr hb hdir
    obtain ⟨ri, hri, hril, hrip⟩ := scan_header filename x st hscan i li hi hhi hbi
    obtain ⟨rj, hrj, hrjl, hrjp⟩ := scan_header filename x st hscan j lj hj hhj hbj
    have hsorted := (scan_ordered filename x st hscan).sorted
    have hd : d ∈ st.records := by rw [hrec]; simp
    have hdj : rj = d := record_eq_of_line _ hsorted rj d hrj hd (by rw [hrjl, hline])
    have hdp : d.GetPathname = p := by rw [← hdj, hrjp, hpj]
    have hipre : ri ∈ pre := by
      rw [hrec] at hri hsorted
      rcases List.mem_append.mp hri with h | h
      · exact h
      · exfalso
        rw [List.map_append, List.pairwise_append] at hsorted
        have h2 := hsorted.2.1
        simp only [List.map_cons, List.pairwise_cons] at h2
        rcases List.mem_cons.mp h with h3 | h3
        · rw [h3, hline] at hril; omega
        · have := h2.1 ri.line (List.mem_map.mpr ⟨ri, h3, rfl⟩)
          rw [hril, hline] at this
          omega
    obtain ⟨a1, hk, hitems, _, h2, _⟩ := parseData_reject filename x st pre post d hscan hrec
      hpre herr hb (isComment_of_pathname d (by rw [hdp]; exact hp))
    obtain ⟨q, hq, _⟩ := lookup_of_record a1 pre ri hk hitems hipre
      (isComment_of_pathname ri (by rw [hrip, hpi]; exact hp))
    rw [← hline]
    apply h2 hdir
    rw [hdp, ← hpi, ← hrip, hq]
    rfl

/-- C11 (witness) on the input of the scenario, `"<==> a\n1\n<==> a\n2\n"`, whose
lines 1 and 3 are headers of width 2 with the pathname `a`: the error is
`ErrDuplicatePath` at line 3. -/
theorem duplicate_pathname_rejected_witness :
    (splitLines (ascii "<==> a\n1\n<==> a\n2\n"))[0]? = some (ascii "<==> a\n") ∧
      (splitLines (ascii "<==> a\n1\n<==> a\n2\n"))[2]? = some (ascii "<==> a\n") ∧
      archiveWidth (ascii "<==> a\n1\n<==> a\n2\n") = 2 ∧
      (scanLine (ascii "<==> a\n")).pathname = ascii "a" ∧
      parseData (ascii "t.hrx") (ascii "<==> a\n1\n<==> a\n2\n")
        = .error (.Error (ascii "t.hrx") (some .ErrDuplicatePath) none 3) :=
  ⟨by decide!, by decide!, by decide!, by decide!,
    (duplicate_pathname_rejected (ascii "t.hrx") (ascii "<==> a\n1\n<==> a\n2\n") 0 2
      (ascii "<==> a\n") (ascii "<==> a\n") (ascii "a") (by decide) (by decide!) (by decide!)
      (by decide!) (by decide!) (by decide!) (by decide!) (by decide!) (by decide!)
      (by decide!)).2
      { boundary := 2, lastLine := 4,
        raw := [⟨false, 1, 2, some (ascii "a"), some (ascii "1"), none, none⟩],
        this := some ⟨false, 3, 2, some (ascii "a"), some (ascii "2\n"), none, none⟩ }
      [⟨false, 1, 2, some (ascii "a"), some (ascii "1"), none, none⟩] []
      ⟨false, 3, 2, some (ascii "a"), some (ascii "2\n"), none, none⟩
      (by decide!) (by decide!) (by decide!) (by decide!) (by decide!) (by decide!)
      (by decide!)⟩

/-- C12 (comment attachment): for every input `ParseData` parses, with the
records `st.records` its lines give, the entry list is the record list after
comment attachment as the specification words it (`attachComments`): a comment
record followed by a record that is not a comment is dropped and its body is
the comment of the entry kept for that record, no entry is a comment record,
and the archive comment, which `GetComment()` returns, is the body of a comment
record that is the last record (there is none otherwise); `Len()` is the
number of records that are not comments and `List()` their pathnames in
order. -/
theorem comment_attachment (filename x : GoString) (b : archive)
    (h : parseData filename x = .ok b) :
    ∃ st, scanRecords filename x = some st ∧
      b.items = attachComments st.records ∧
      (∀ pre c n post, st.records = pre ++ c :: n :: post → c.IsComment = true →
        n.IsComment = false → ({ n with comment := c.body } : entry) ∈ b.items) ∧
      (∀ e ∈ b.items, e.IsComment = false) ∧
      b.comment = lastComment st.records ∧
      (∀ pre c, st.records = pre ++ [c] → c.IsComment = true →
        b.comment = c.body ∧ b.GetComment = (c.body.getD [], c.body.isSome)) ∧
      (lastRecordIsComment st.records = false → b.GetComment = ([], false)) ∧
      b.Len = ((st.records.filter (fun r => !r.IsComment)).length : Int) ∧
      b.ListPathnames = (st.records.filter (fun r => !r.IsComment)).map entry.GetPathname := by
  obtain ⟨st, hscan, hfin⟩ := scan_of_parseData filename x b h
  obtain ⟨hk, hempty, _, hcomment⟩ := keyed_scanArchive st filename
  obtain ⟨_, hitems, hcom, _⟩ := finalize_keyed _ b _ hfin hk hempty
  have hnc : ∀ e ∈ b.items, e.IsComment = false := by
    intro e he
    rw [hitems] at he
    obtain ⟨r, _, hr, c, hc⟩ := mem_attachComments _ _ (le_refl _) e he
    rw [hc]; exact hr
  have hlast : b.comment = lastComment st.records := by
    rw [hcom]
    by_cases hl : lastRecordIsComment st.records = true
    · rw [if_pos hl]
    · rw [if_neg hl, hcomment, lastComment_of_not_comment _ (by simpa using hl)]
  have hpaths := attachComments_pathnames _ st.records (le_refl _)
  refine ⟨st, hscan, hitems, ?_, hnc, hlast, ?_, ?_, ?_, ?_⟩
  · intro pre c n post hrec hc hn
    rw [hitems, hrec]
    exact attachComments_split c n post hc hn _ pre (le_refl _)
  · intro pre c hrec hc
    have hb : b.comment = c.body := by
      rw [hlast, hrec]
      clear hrec
      induction pre with
      | nil => simp [lastComment, hc]
      | cons p rest ih =>
        cases rest with
        | nil => simp [lastComment, hc]
        | cons q rest1 => exact ih
    refine ⟨hb, ?_⟩
    unfold archive.GetComment
    rw [hb]
    cases c.body <;> rfl
  · intro hl
    unfold archive.GetComment
    rw [hlast, lastComment_of_not_comment _ hl]
  · have : b.Len = (b.items.length : Int) := by simp [archive.Len, archive.items]
    rw [this, hitems, ← List.length_map (attachComments st.records) entry.GetPathname, hpaths,
      List.length_map]
  · unfold archive.ListPathnames
    rw [← hpaths, ← hitems]
    congr 1
    apply List.filter_eq_self.mpr
    intro e he
    simpa using pathname_of_not_comment e (hnc e he)

/-- C12 (witness) on the input `"<==>\nc1\n<==> f\nx\n<==>\nlast"`: the comment
`c1` is attached to the entry `f`, the one entry of the archive, and `last` is
the archive comment. -/
theorem comment_attachment_witness :
    ∃ b, parseData (ascii "t.hrx") (ascii "<==>\nc1\n<==> f\nx\n<==>\nlast") = .ok b ∧
      b.items = [⟨false, 3, 2, some (ascii "f"), some (ascii "x"), some (ascii "c1\n"), none⟩] ∧
      b.GetComment = (ascii "last", true) ∧ b.Len = 1 ∧ b.ListPathnames = [ascii "f"] := by
  obtain ⟨b, hb⟩ := ok_of_errorOf_none
    (parseData (ascii "t.hrx") (ascii "<==>\nc1\n<==> f\nx\n<==>\nlast")) (by decide!)
  obtain ⟨st, hscan, hitems, _, _, _, hcom, _, hlen, hlist⟩ :=
    comment_attachment _ _ b hb
  have hst : scanRecords (ascii "t.hrx") (ascii "<==>\nc1\n<==> f\nx\n<==>\nlast")
      = some { boundary := 2, lastLine := 6,
               raw := [⟨false, 1, 2, none, some (ascii "c1\n"), none, none⟩,
                 ⟨false, 3, 2, some (ascii "f"), some (ascii "x"), none, none⟩],
               this := some ⟨false, 5, 2, none, some (ascii "last"), none, none⟩ } := by
    decide!
  rw [hst] at hscan
  simp only [Option.some.injEq] at hscan
  subst hscan
  refine ⟨b, hb, ?_, ?_, ?_, ?_⟩
  · rw [hitems]; decide!
  · exact (hcom [⟨false, 1, 2, none, some (ascii "c1\n"), none, none⟩,
        ⟨false, 3, 2, some (ascii "f"), some (ascii "x"), none, none⟩]
      ⟨false, 5, 2, none, some (ascii "last"), none, none⟩ (by decide!) (by decide!)).2
  · rw [hlen]; decide!
  · rw [hlist]; decide!

/-- C13 (sequential comments): for every input whose records are
`pre ++ c1 :: c2 :: post` with the comment record `c1` immediately followed by
the comment record `c2`, when `finalize` returns no error on the records up to
`c1`, `ParseData` returns the `Error` with `Base` `ErrSequentialComments` and
the line of `c2`, and no archive. -/
theorem sequential_comments_rejected (filename x : GoString) (st : parseState)
    (pre post : List entry) (c1 c2 : entry)
    (hscan : scanRecords filename x = some st)
    (hrec : st.records = pre ++ c1 :: c2 :: post)
    (hc1 : c1.IsComment = true) (hc2 : c2.IsComment = true)
    (hvalid : errorOf ((st.archive filename).finalize (pre ++ [c1])) = none) :
    parseData filename x
      = .error (.Error (filepathBase filename) (some .ErrSequentialComments) none c2.line) := by
  obtain ⟨hk, hempty, hfile, _⟩ := keyed_scanArchive st filename
  obtain ⟨a1, c, _, _, _, _, _, _, h7⟩ :=
    finalize_at_record (st.archive filename) (pre ++ [c1]) c2 post hk hempty (Or.inr hvalid)
  have hrec1 : st.records = (pre ++ [c1]) ++ c2 :: post := by rw [hrec]; simp
  rw [← hrec1, ← parseData_of_scan filename x st hscan, lastRecordIsComment_snoc, hc1, hc2] at h7
  rw [h7]
  simp only [if_true]
  unfold archive.error newError
  rw [hfile]

/-- C13 (witness) on the input of the scenario,
`"<==>\nc1\n<==>\nc2\n<==> f\nx\n"`: the error is at line 3, the line of the
second comment header. -/
theorem sequential_comments_rejected_witness :
    scanRecords (ascii "t.hrx") (ascii "<==>\nc1\n<==>\nc2\n<==> f\nx\n")
        = some { boundary := 2, lastLine := 6,
                 raw := [⟨false, 1, 2, none, some (ascii "c1\n"), none, none⟩,
                   ⟨false, 3, 2, none, some (ascii "c2\n"), none, none⟩],
                 this := some ⟨false, 5, 2, some (ascii "f"), some (ascii "x\n"), none, none⟩ } ∧
      parseData (ascii "t.hrx") (ascii "<==>\nc1\n<==>\nc2\n<==> f\nx\n")
        = .error (.Error (ascii "t.hrx") (some .ErrSequentialComments) none 3) :=
  ⟨by decide!,
    sequential_comments_rejected (ascii "t.hrx") (ascii "<==>\nc1\n<==>\nc2\n<==> f\nx\n")
      { boundary := 2, lastLine := 6,
        raw := [⟨false, 1, 2, none, some (ascii "c1\n"), none, none⟩,
          ⟨false, 3, 2, none, some (ascii "c2\n"), none, none⟩],
        this := some ⟨false, 5, 2, some (ascii "f"), some (ascii "x\n"), none, none⟩ }
      [] [⟨false, 5, 2, some (ascii "f"), some (ascii "x\n"), none, none⟩]
      ⟨false, 1, 2, none, some (ascii "c1\n"), none, none⟩
      ⟨false, 3, 2, none, some (ascii "c2\n"), none, none⟩
      (by decide!) (by decide!) (by decide!) (by decide!) (by decide!)⟩

/-- C14 (file as parent directory): for every input whose records are
`pre ++ d :: post`, where a file record `r` of `pre` is above `d` (the
pathname of `r` followed by `'/'` begins the pathname of `d`), `finalize`
returns no error on the records `pre`, and `d` is otherwise valid (its
pathname does not begin with `'/'` and is not the pathname of a record of
`pre`, it was scanned without error and with a boundary, and it is not a
directory with contents): `ParseData` returns the `Error` with `Base`
`ErrFileAsParentDir` and the line of `d`, and no archive. -/
theorem file_as_parent_rejected (filename x : GoString) (st : parseState)
    (pre post : List entry) (r d : entry)
    (hscan : scanRecords filename x = some st)
    (hrec : st.records = pre ++ d :: post) (hpre : prefixValid (st.archive filename) pre)
    (hr : r ∈ pre) (habove : r.isAbove d = true)
    (hhead : d.GetPathname.head? ≠ some 47)
    (hnew : ∀ q ∈ pre, q.GetPathname ≠ d.GetPathname)
    (herr : d.err = none) (hb : d.boundary ≠ 0) (hdir : d.dirHasContents = false) :
    parseData filename x
      = .error (.Error (filepathBase filename) (some .ErrFileAsParentDir) none d.line) := by
  have hrfile : r.IsFile = true := by
    unfold entry.isAbove at habove
    simp only [Bool.and_eq_true] at habove
    exact habove.1
  have hdc : d.IsComment = false := by
    apply isComment_of_pathname
    unfold entry.isAbove at habove
    simp only [Bool.and_eq_true] at habove
    obtain ⟨t, ht⟩ := startsWith_append _ _ habove.2
    rw [ht]; simp
  obtain ⟨a1, hk, hitems, _, _, h3⟩ :=
    parseData_reject filename x st pre post d hscan hrec hpre herr hb hdc
  obtain ⟨q, hq, hqp⟩ := lookup_of_record a1 pre r hk hitems hr (isFile_pathname r hrfile).2
  have hqpath : (a1.deref q).GetPathname = r.GetPathname := by
    unfold entry.GetPathname; rw [hqp]
  apply h3 hdir (lookup_none_of_records a1 pre _ hk hitems hnew)
  apply ancestorLoop_isAbove a1 q d (by rw [hqpath]; exact hq) _ hhead
  unfold entry.isAbove entry.IsFile at habove ⊢
  rw [hqpath, hqp]
  exact habove

/-- C14 (witness) on the input of the scenario, `"<==> a\n1\n<==> a/b\n2\n"`:
the error is `ErrFileAsParentDir` at line 3, the line of `a/b`. -/
theorem file_as_parent_rejected_witness :
    scanRecords (ascii "t.hrx") (ascii "<==> a\n1\n<==> a/b\n2\n")
        = some { boundary := 2, lastLine := 4,
                 raw := [⟨false, 1, 2, some (ascii "a"), some (ascii "1"), none, none⟩],
                 this := some ⟨false, 3, 2, some (ascii "a/b"), some (ascii "2\n"), none, none⟩ } ∧
      parseData (ascii "t.hrx") (ascii "<==> a\n1\n<==> a/b\n2\n")
        = .error (.Error (ascii "t.hrx") (some .ErrFileAsParentDir) none 3) :=
  ⟨by decide!,
    file_as_parent_rejected (ascii "t.hrx") (ascii "<==> a\n1\n<==> a/b\n2\n")
      { boundary := 2, lastLine := 4,
        raw := [⟨false, 1, 2, some (ascii "a"), some (ascii "1"), none, none⟩],
        this := some ⟨false, 3, 2, some (ascii "a/b"), some (ascii "2\n"), none, none⟩ }
      [⟨false, 1, 2, some (ascii "a"), some (ascii "1"), none, none⟩] []
      ⟨false, 1, 2, some (ascii "a"), some (ascii "1"), none, none⟩
      ⟨false, 3, 2, some (ascii "a/b"), some (ascii "2\n"), none, none⟩
      (by decide!) (by decide!) (by decide!) (by decide!) (by decide!) (by decide!)
      (by decide!) (by decide!) (by decide!) (by decide!)⟩

/-- C15 (path-prefix invariant), evaluated on the archive parsed from
`"<==> a\n1"` after `Set("a/b", "2", "")`: `Set` returns nil and adds the entry,
so that the archive holds the file `a` and the entry `a/b` below it; and on
the input `"<==> a/b\n1\n<==> a\n2"`, in which the file `a` comes after the
entry `a/b`: `ParseData` returns an archive that holds both. -/
theorem path_prefix_not_invariant :
    (parseData (ascii "t.hrx") (ascii "<==> a\n1")).toOption.bind
        (fun a => (a.Set (ascii "a/b") (ascii "2") []).map
          (fun r => (r.1, r.2.ListPathnames, r.2.items.map entry.IsFile,
            pathPrefixFree r.2.items)))
      = some (none, [ascii "a", ascii "a/b"], [true, true], false) ∧
    (parseData (ascii "t.hrx") (ascii "<==> a/b\n1\n<==> a\n2")).toOption.map
        (fun a => (a.ListPathnames, a.items.map entry.IsFile, pathPrefixFree a.items))
      = some ([ascii "a/b", ascii "a"], [true, true], false) :=
  ⟨by decide!, by decide!⟩

/-- C15 (amended): in every archive returned by a successful parse, and after
any sequence of `Delete` on it, no entry whose pathname does not begin with
`'/'` has a strict `'/'`-separated prefix that is the pathname of a file entry
preceding it in the entry list. -/
theorem parsed_no_file_before (filename x : GoString) (a : archive) (paths : List GoString)
    (h : parseData filename x = .ok a) :
    noFileBefore (paths.foldl archive.Delete a).items := by
  obtain ⟨st, _, hfin⟩ := scan_of_parseData filename x a h
  obtain ⟨hk, hempty, _, _⟩ := keyed_scanArchive st filename
  obtain ⟨_, _, _, _, _, hnf⟩ := finalize_keyed _ a _ hfin hk hempty
  exact noFileBefore_foldl_Delete paths a (parseData_inv filename x a h) hnf

/-- C15 (witness) on the archive parsed from `"<==> a/b\n1\n<==> c\n2\n<==> d/e\n3"`,
after `Delete("c")`: the entries are `a/b` and `d/e`, and no file precedes an
entry below it. -/
theorem parsed_no_file_before_witness :
    ∃ a, parseData (ascii "t.hrx") (ascii "<==> a/b\n1\n<==> c\n2\n<==> d/e\n3") = .ok a ∧
      noFileBefore ([ascii "c"].foldl archive.Delete a).items ∧
      (parseData (ascii "t.hrx") (ascii "<==> a/b\n1\n<==> c\n2\n<==> d/e\n3")).toOption.map
          (fun a => ([ascii "c"].foldl archive.Delete a).ListPathnames)
        = some [ascii "a/b", ascii "d/e"] := by
  obtain ⟨a, ha⟩ := ok_of_errorOf_none
    (parseData (ascii "t.hrx") (ascii "<==> a/b\n1\n<==> c\n2\n<==> d/e\n3")) (by decide!)
  exact ⟨a, ha, parsed_no_file_before _ _ a [ascii "c"] ha, by decide!⟩

/-- C16 (lookup and entries): for every archive a caller can hold (`New` or a
successful parse, then any sequence of `Set`, `Delete`, `SetBoundary` and the
comment setters), the keys of `lookup` are exactly the pathnames of the entries
of the list, each key maps to the address of an entry of the list with that
pathname, no two entries share a pathname, and no address is twice in the
list. -/
theorem lookup_entries_consistent (a : archive) (h : a.Reachable) :
    (∀ k, (a.lookup k).isSome = true ↔ k ∈ a.items.map entry.GetPathname) ∧
    (∀ k p, a.lookup k = some p → p ∈ a.entries ∧ (a.deref p).GetPathname = k) ∧
    (a.items.map entry.GetPathname).Nodup ∧ a.entries.Nodup := by
  have hinv := reachable_inv a h
  refine ⟨?_, fun k p hl => (hinv.lookup_iff k p).mp hl, inv_pathnames_nodup a hinv, hinv.nodup⟩
  intro k
  constructor
  · intro hs
    obtain ⟨p, hp⟩ := Option.isSome_iff_exists.mp hs
    obtain ⟨hmem, hpath⟩ := (hinv.lookup_iff k p).mp hp
    exact List.mem_map.mpr ⟨a.deref p, List.mem_map.mpr ⟨p, hmem, rfl⟩, hpath⟩
  · intro hk
    obtain ⟨e, he, hpath⟩ := List.mem_map.mp hk
    obtain ⟨p, hp, hpe⟩ := List.mem_map.mp he
    rw [(hinv.lookup_iff k p).mpr ⟨hp, by rw [hpe]; exact hpath⟩]
    rfl

/-- C16 (witness) at the archive of the test "Set, Get, Delete Entries", after
its two calls of `Set`: the pathnames of the entries are `file` and `dir/file`,
both are keys of `lookup`, for the addresses 0 and 1 of the entry list. -/
theorem lookup_entries_consistent_witness :
    twoFiles.Reachable ∧
      twoFiles.items.map entry.GetPathname = [ascii "file", ascii "dir/file"] ∧
      twoFiles.entries = [0, 1] ∧
      twoFiles.lookup (ascii "file") = some 0 ∧ twoFiles.lookup (ascii "dir/file") = some 1 ∧
      ((twoFiles.lookup (ascii "other")).isSome = true
        ↔ ascii "other" ∈ twoFiles.items.map entry.GetPathname) ∧
      (twoFiles.items.map entry.GetPathname).Nodup :=
  ⟨twoFiles_reachable, by decide!, by decide!, by decide!, by decide!,
    (lookup_entries_consistent twoFiles twoFiles_reachable).1 _,
    (lookup_entries_consistent twoFiles twoFiles_reachable).2.2.1⟩

/-- C17 (directory emptiness): for every input whose records are
`pre ++ d :: post`, where `d` is a directory record (its pathname ends in
`'/'`) scanned without error and with a boundary, and `finalize` returns no
error on the records `pre` before it: when the body of `d` is longer than one
byte, `ParseData` returns the `Error` with `Base` `ErrDirectoryHasContents` and
the line of `d`, and no archive; when the body of `d` is absent or of length at
most 1, `ParseData` returns no `ErrDirectoryHasContents` at the line of `d`.
Lengths are Go `len`, in bytes. -/
theorem directory_emptiness (filename x : GoString) (st : parseState) (pre post : List entry)
    (d : entry) (hscan : scanRecords filename x = some st)
    (hrec : st.records = pre ++ d :: post) (hpre : prefixValid (st.archive filename) pre)
    (hdir : d.IsDir = true) (herr : d.err = none) (hb : d.boundary ≠ 0) :
    ((∃ b, d.body = some b ∧ 1 < b.length) →
      parseData filename x = .error (.Error (filepathBase filename)
        (some .ErrDirectoryHasContents) none d.line)) ∧
    ((d.body = none ∨ ∃ b, d.body = some b ∧ b.length ≤ 1) →
      ∀ f w, parseData filename x
        ≠ .error (.Error f (some .ErrDirectoryHasContents) w d.line)) := by
  constructor
  · rintro ⟨b, hbody, hlen⟩
    obtain ⟨a1, _, _, h1, _⟩ := parseData_reject filename x st pre post d hscan hrec hpre herr hb
      (isComment_of_isDir d hdir)
    apply h1
    unfold entry.dirHasContents
    rw [hdir, hbody]
    simpa using hlen
  · intro hshort f w hparse
    rw [parseData_of_scan filename x st hscan] at hparse
    obtain ⟨r, hr, hline, hcontents⟩ := finalize_dirError _ _ f w _ hparse
    have hd : d ∈ st.records := by rw [hrec]; simp
    have := record_eq_of_line st.records (scan_ordered filename x st hscan).sorted r d hr hd hline
    subst this
    unfold entry.dirHasContents at hcontents
    rcases hshort with h | ⟨b, h, hlen⟩
    · rw [h] at hcontents; simp at hcontents
    · rw [h] at hcontents
      simp only [Bool.and_eq_true, decide_eq_true_eq] at hcontents
      omega

/-- C17 (witness) on the input `"<==> f\n1\n<==> d/\nxx\n"`, whose directory
`d/` at line 3 has the body `"xx\n"`: the error is `ErrDirectoryHasContents` at
line 3; and on the input `"<==> d/\n\n<==> f\nx"`, whose directory `d/` at line
1 has the body `"\n"`: `ParseData` returns an archive. -/
theorem directory_emptiness_witness :
    parseData (ascii "t.hrx") (ascii "<==> f\n1\n<==> d/\nxx\n")
        = .error (.Error (ascii "t.hrx") (some .ErrDirectoryHasContents) none 3) ∧
      parseData (ascii "t.hrx") (ascii "<==> d/\n\n<==> f\nx")
        ≠ .error (.Error (ascii "t.hrx") (some .ErrDirectoryHasContents) none 1) ∧
      errorOf (parseData (ascii "t.hrx") (ascii "<==> d/\n\n<==> f\nx")) = none :=
  ⟨(directory_emptiness (ascii "t.hrx") (ascii "<==> f\n1\n<==> d/\nxx\n")
      { boundary := 2, lastLine := 4,
        raw := [⟨false, 1, 2, some (ascii "f"), some (ascii "1"), none, none⟩],
        this := some ⟨false, 3, 2, some (ascii "d/"), some (ascii "xx\n"), none, none⟩ }
      [⟨false, 1, 2, some (ascii "f"), some (ascii "1"), none, none⟩] []
      ⟨false, 3, 2, some (ascii "d/"), some (ascii "xx\n"), none, none⟩
      (by decide!) (by decide!) (by decide!) (by decide!) (by decide!) (by decide!)).1
      ⟨ascii "xx\n", rfl, by decide⟩,
    (directory_emptiness (ascii "t.hrx") (ascii "<==> d/\n\n<==> f\nx")
      { boundary := 2, lastLine := 4,
        raw := [⟨false, 1, 2, some (ascii "d/"), some (ascii "\n"), none, none⟩],
        this := some ⟨false, 3, 2, some (ascii "f"), some (ascii "x"), none, none⟩ }
      [] [⟨false, 3, 2, some (ascii "f"), some (ascii "x"), none, none⟩]
      ⟨false, 1, 2, some (ascii "d/"), some (ascii "\n"), none, none⟩
      (by decide!) (by decide!) (by decide!) (by decide!) (by decide!) (by decide!)).2
      (Or.inr ⟨ascii "\n", rfl, by decide⟩) _ _,
    by decide!⟩

/-! ### Parsing again what `String()` wrote -/

/-- C18 (re-parse stability), evaluated on the input
`"<==> f\nx\n<===> g\ny"`, whose third line has another width than the archive:
`ParseData` succeeds with the entries `f`, of body `"x\n"`, and `g`, of body
`"y"`; `String()` of the result is `"<==> f\nx\n\n<===> g\ny"`; and parsing that
text gives the entry `f` the body `"x\n\n"`.  And on the input
`"<==>\n<==> /x\ny"`: `ParseData` succeeds, `String()` of the result is
`"<==> /x\ny"`, and parsing that text fails with `ErrStartsWithDirSep` at line
1. -/
theorem reparse_changes_body :
    (parseData (ascii "t.hrx") (ascii "<==> f\nx\n<===> g\ny")).toOption.map
        (fun a => a.items.map (fun e => (e.GetPathname, e.body)))
      = some [(ascii "f", some (ascii "x\n")), (ascii "g", some (ascii "y"))] ∧
    (parseData (ascii "t.hrx") (ascii "<==> f\nx\n<===> g\ny")).toOption.map archive.String
      = some (ascii "<==> f\nx\n\n<===> g\ny") ∧
    (parseData (ascii "t.hrx") (ascii "<==> f\nx\n\n<===> g\ny")).toOption.map
        (fun a => a.items.map (fun e => (e.GetPathname, e.body)))
      = some [(ascii "f", some (ascii "x\n\n")), (ascii "g", some (ascii "y"))] ∧
    (parseData (ascii "t.hrx") (ascii "<==>\n<==> /x\ny")).toOption.map archive.String
      = some (ascii "<==> /x\ny") ∧
    errorOf (parseData (ascii "t.hrx") (ascii "<==> /x\ny"))
      = some (.Error (ascii "t.hrx") (some .ErrBadFileEntry) (some .ErrStartsWithDirSep) 1) :=
  ⟨by decide!, by decide!, by decide!, by decide!, by decide!⟩

/-! ### `SetBoundary` at the same width, and a cascade that fails -/

/-- C19 (idempotent boundary; counterexample), evaluated on three archives of
width 2.  On the archive parsed from `"<==> a.hrx\n<====> b.hrx\n"`, whose
entry `a.hrx` holds a nested archive of width 4, `SetBoundary(2)` returns nil,
and `Get("a.hrx")`, which returned the body `"<====> b.hrx\n"` before the call,
returns `"<===> b.hrx\n"` after it, the nested archive being renumbered to the
width 3.  On the archive parsed from `"<==> a.hrx\n"`, whose entry has no
body, `SetBoundary(2)` returns nil and `Get("a.hrx")`, which reported no body
before the call, reports the empty body after it.  On the archive parsed from
`"<==> a.hrx\n<===> b.hrx"`, whose nested archive has the width 3 already,
`SetBoundary(2)` returns nil and `String()` gains a final newline. -/
theorem setBoundary_same_width_renumbers :
    (parseData (ascii "t.hrx") (ascii "<==> a.hrx\n<====> b.hrx\n")).toOption.map
        (fun a => (a.GetBoundary, a.Get (ascii "a.hrx")))
      = some (2, (ascii "<====> b.hrx\n", [], true)) ∧
    (parseData (ascii "t.hrx") (ascii "<==> a.hrx\n<====> b.hrx\n")).toOption.bind
        (fun a => (a.SetBoundary 2).map (fun r => (r.1, r.2.Get (ascii "a.hrx"))))
      = some (none, (ascii "<===> b.hrx\n", [], true)) ∧
    (parseData (ascii "t.hrx") (ascii "<==> a.hrx\n<====> b.hrx\n")).toOption.bind
        (fun a => (a.SetBoundary 2).map (fun r => decide (r.2.String = a.String)))
      = some false ∧
    (parseData (ascii "t.hrx") (ascii "<==> a.hrx\n")).toOption.map
        (fun a => (a.GetBoundary, a.Get (ascii "a.hrx")))
      = some (2, ([], [], false)) ∧
    (parseData (ascii "t.hrx") (ascii "<==> a.hrx\n")).toOption.bind
        (fun a => (a.SetBoundary 2).map (fun r => (r.1, r.2.Get (ascii "a.hrx"))))
      = some (none, ([], [], true)) ∧
    (parseData (ascii "t.hrx") (ascii "<==> a.hrx\n<===> b.hrx")).toOption.map
        (fun a => (a.GetBoundary, a.String))
      = some (2, ascii "<==> a.hrx\n<===> b.hrx") ∧
    (parseData (ascii "t.hrx") (ascii "<==> a.hrx\n<===> b.hrx")).toOption.bind
        (fun a => (a.SetBoundary 2).map (fun r => (r.1, r.2.String)))
      = some (none, ascii "<==> a.hrx\n<===> b.hrx\n") :=
  ⟨by decide!, by decide!, by decide!, by decide!, by decide!, by decide!, by decide!⟩

/-- C19 (amended): for every successfully parsed archive, `SetBoundary` with
the boundary width `w` of the archive comes back and leaves `GetBoundary()` at
`w`; and when every entry the call visits has the width `w` already and, for
each entry whose nested archive the call renumbers to `w + 1`, the text it
writes back is the body the entry holds (`cascadeStable`), `String()` and
`Get(p)` for every pathname `p` return the same values as before the call. -/
theorem setBoundary_same_width (filename x : GoString) (a : archive)
    (h : parseData filename x = .ok a) :
    ∃ e b, a.SetBoundary a.GetBoundary = some (e, b) ∧ b.GetBoundary = a.GetBoundary ∧
      (a.cascadeStable a.GetBoundary a.entries = true →
        b.String = a.String ∧ ∀ p, b.Get p = a.Get p) := by
  have hnd := (parseData_inv filename x a h).nodup
  cases hsb : a.SetBoundary a.GetBoundary with
  | none => exact absurd hsb (setBoundary_total a _ hnd)
  | some r =>
    obtain ⟨e, b⟩ := r
    have hbd := setBoundaryDepth_boundary_cases _ a b _ e hsb
    have hb : b.GetBoundary = a.GetBoundary := by
      unfold archive.GetBoundary at hbd ⊢
      cases e with
      | none => exact hbd.1 rfl
      | some err => exact hbd.2 (by simp)
    refine ⟨e, b, rfl, hb, ?_⟩
    intro hst
    have := setBoundary_stable a b e hsb hst
    rw [this]
    exact ⟨rfl, fun _ => rfl⟩

/-- C19 (witness) on the archive parsed from `"<==> a.hrx\n<===> b.hrx\n"`, of
width 2, whose entry `a.hrx` holds a nested archive of width 3: `SetBoundary(2)`
returns nil, the boundary is 2 after it, and `String()` and `Get` return what
they did. -/
theorem setBoundary_same_width_witness :
    ∃ a b, parseData (ascii "t.hrx") (ascii "<==> a.hrx\n<===> b.hrx\n") = .ok a ∧
      a.SetBoundary a.GetBoundary = some (none, b) ∧ b.GetBoundary = a.GetBoundary ∧
      b.String = a.String ∧ (∀ p, b.Get p = a.Get p) ∧
      (parseData (ascii "t.hrx") (ascii "<==> a.hrx\n<===> b.hrx\n")).toOption.map
          (fun a => (a.GetBoundary, a.String, a.Get (ascii "a.hrx")))
        = some (2, ascii "<==> a.hrx\n<===> b.hrx\n", (ascii "<===> b.hrx\n", [], true)) := by
  obtain ⟨a, ha⟩ := ok_of_errorOf_none
    (parseData (ascii "t.hrx") (ascii "<==> a.hrx\n<===> b.hrx\n")) (by decide!)
  obtain ⟨e, b, h1, h2, h3⟩ := setBoundary_same_width _ _ a ha
  have hst : (parseData (ascii "t.hrx") (ascii "<==> a.hrx\n<===> b.hrx\n")).toOption.map
      (fun a => a.cascadeStable a.GetBoundary a.entries) = some true := by decide!
  have hnil : (parseData (ascii "t.hrx") (ascii "<==> a.hrx\n<===> b.hrx\n")).toOption.bind
      (fun a => (a.SetBoundary a.GetBoundary).map Prod.fst) = some none := by decide!
  rw [ha] at hst hnil
  have hst1 : a.cascadeStable a.GetBoundary a.entries = true := by
    simpa [Except.toOption] using hst
  have he : e = none := by
    simpa [Except.toOption, h1] using hnil
  subst he
  exact ⟨a, b, ha, h1, h2, (h3 hst1).1, (h3 hst1).2, by decide!⟩

/-- C20 (failed cascade): for every archive a caller can hold and every size
`≥ 1`, when `SetBoundary(size)` returns an error, there is an entry `k` of the
list at which it was raised (`ParseHRX` on the entry fails with it, or
`SetBoundary(size + 1)` on its nested archive returns it, `size + 1` being the
sum of Go), and `GetBoundary()` and the entry list are as before the call,
every entry after `k` is as before, the entry `k` has the width `size` and is
otherwise as before, and every entry before `k` has the width `size` and as
its body `String()` of its nested archive after `SetBoundary(size + 1)`. -/
theorem failed_cascade (a b : archive) (size : Int) (err : GoError) (hreach : a.Reachable)
    (hsize : 1 ≤ size) (h : a.SetBoundary size = some (some err, b)) :
    b.GetBoundary = a.GetBoundary ∧ b.entries = a.entries ∧
    ∃ pre k post, a.entries = pre ++ k :: post ∧
      (∀ q ∈ post, b.deref q = a.deref q) ∧
      b.deref k = { a.deref k with boundary := size } ∧
      ((({ a.deref k with boundary := size } : entry).parseHRX = .error err) ∨
        ∃ ia ib, ({ a.deref k with boundary := size } : entry).parseHRX = .ok ia ∧
          ia.SetBoundary (wrapInt (size + 1)) = some (some err, ib)) ∧
      ∀ p ∈ pre, ∃ ia ib, ({ a.deref p with boundary := size } : entry).parseHRX = .ok ia ∧
        ia.SetBoundary (wrapInt (size + 1)) = some (none, ib) ∧
        b.deref p = { a.deref p with boundary := size, body := some ib.String } := by
  have hnd := (reachable_inv a hreach).nodup
  have hkeys := setBoundaryDepth_sameKeys _ _ _ _ _ h
  have hbd := (setBoundaryDepth_boundary_cases _ a b size (some err) h).2 (by simp)
  refine ⟨hbd, hkeys.entries, ?_⟩
  unfold archive.SetBoundary archive.depthBound at h
  rw [archive.SetBoundaryDepth, if_neg (by omega)] at h
  split at h
  · exact absurd h (by simp)
  · rename_i err1 c hloop
    simp only [Option.some.injEq, Prod.mk.injEq] at h
    obtain ⟨h1, h2⟩ := h
    subst h1 h2
    obtain ⟨pre, k, post, hsplit, hframe, hk, hraise, hpre⟩ :=
      setBoundaryLoop_failure _ size a.entries a c err1 hnd hloop
    rw [hsplit] at hnd
    refine ⟨pre, k, post, hsplit, ?_, hk, ?_, ?_⟩
    · intro q hq
      have hnd1 := List.nodup_append.mp hnd
      refine hframe q (fun h0 => hnd1.2.2 h0 (List.mem_cons_of_mem _ hq)) ?_
      intro h0
      have := (List.nodup_cons.mp hnd1.2.1).1
      exact this (h0 ▸ hq)
    · rcases hraise with h0 | ⟨ia, ib, e1, e2⟩
      · exact Or.inl h0
      · exact Or.inr ⟨ia, ib, e1,
          setBoundary_of_depth _ ia _ _ (parseHRX_inv _ _ e1).nodup e2⟩
    · intro p hp
      obtain ⟨ia, ib, e1, e2, e3⟩ := hpre p hp
      exact ⟨ia, ib, e1, setBoundary_of_depth _ ia _ _ (parseHRX_inv _ _ e1).nodup e2, e3⟩
  · simp at h

/-- C20 (witness) on the archive parsed from
`"<==> a.hrx\n<==> f\nx\n<==> g\ny"`: `SetBoundary(3)` returns
`ErrNotAnArchive`, raised at the plain file `f`; the boundary is still 2, the
entry `a.hrx` before `f` has the width 3 and the body `""` of its empty nested
archive, `f` has the width 3, and `g` after it still has the width 2. -/
theorem failed_cascade_witness :
    ∃ a b, parseData (ascii "t.hrx") (ascii "<==> a.hrx\n<==> f\nx\n<==> g\ny") = .ok a ∧
      a.SetBoundary 3 = some (some (.plain .ErrNotAnArchive), b) ∧
      b.GetBoundary = a.GetBoundary ∧ b.entries = a.entries ∧
      (parseData (ascii "t.hrx") (ascii "<==> a.hrx\n<==> f\nx\n<==> g\ny")).toOption.bind
          (fun a => (a.SetBoundary 3).map (fun r => (r.2.GetBoundary,
            r.2.items.map (fun e => (e.GetPathname, e.boundary, e.body)))))
        = some (2, [(ascii "a.hrx", 3, some []), (ascii "f", 3, some (ascii "x")),
            (ascii "g", 2, some (ascii "y"))]) := by
  obtain ⟨a, ha⟩ := ok_of_errorOf_none
    (parseData (ascii "t.hrx") (ascii "<==> a.hrx\n<==> f\nx\n<==> g\ny")) (by decide!)
  have herr : (parseData (ascii "t.hrx") (ascii "<==> a.hrx\n<==> f\nx\n<==> g\ny")).toOption.bind
      (fun a => (a.SetBoundary 3).map Prod.fst) = some (some (.plain .ErrNotAnArchive)) := by
    decide!
  rw [ha] at herr
  have herr1 : (a.SetBoundary 3).map Prod.fst = some (some (.plain .ErrNotAnArchive)) := by
    simpa [Except.toOption] using herr
  obtain ⟨r, hr, hr1⟩ := Option.map_eq_some'.mp herr1
  obtain ⟨e, b⟩ := r
  have he : e = some (.plain .ErrNotAnArchive) := hr1
  subst he
  have h := failed_cascade a b 3 _ (archive.Reachable.parseData _ _ a ha) (by decide) hr
  exact ⟨a, b, ha, hr, h.1, h.2.1, by decide!⟩

/-! ### Serialisation: `String()` and `WriteFile` -/

/-- C21 (archive serialization): for every archive with a boundary width
`≥ 1`, `String()` is the text the specification words (`archiveTextSpec`): the
`String()` of every entry in entry order, with one newline after each file
entry whose body is not empty when another entry follows or the archive has a
comment, followed, when the archive has a comment, by the boundary line of the
width of the archive and the comment. -/
theorem archive_string_text (a : archive) (hw : 1 ≤ a.boundary) :
    a.String = archiveTextSpec a := by
  unfold archive.String archiveTextSpec
  have hlen : a.items.length = a.entries.length := by simp [archive.items]
  have h := stringLoop_pieces a a.items.length a.items 0 []
  rw [hlen] at h
  simp only [Nat.cast_zero] at h
  simp only [h, List.nil_append, List.enum, hlen, (newBoundary_pos a.boundary hw []).1]
  cases a.comment <;> simp

/-- C21 (witness) on the archive of the test "Set, Get, Delete Entries" after
its two calls of `Set`: the text is that of the test, with the newline between
the two files. -/
theorem archive_string_text_witness :
    1 ≤ twoFiles.boundary ∧ twoFiles.String = archiveTextSpec twoFiles ∧
      archiveTextSpec twoFiles
        = ascii "<=====>\ncomment\n<=====> file\ncontents\n<=====> dir/file\nsubdir file" :=
  ⟨by decide!, archive_string_text twoFiles (by decide!), by decide!⟩

/-- C22 (entry serialization), evaluated on the entry `g` of the archive parsed
from `"<==> f\nx\n<==>\n<==> g\ny"`, whose attached comment is present and
empty: `String()` is `"<==>\n<==> g\ny"`, with no newline after the empty
comment, where the text as the claim words it is `"<==>\n\n<==> g\ny"`. -/
theorem entry_string_empty_comment :
    (parseData (ascii "t.hrx") (ascii "<==> f\nx\n<==>\n<==> g\ny")).toOption.map
        (fun a => (a.Entry (ascii "g")).map
          (fun e => (e.boundary, e.comment, e.String, entryTextSpec e)))
      = some (some (2, some [], ascii "<==>\n<==> g\ny", ascii "<==>\n\n<==> g\ny")) := by
  decide!

/-- C22 (amended): for every entry with a boundary width `w ≥ 1` whose pathname,
when present, is not empty (as `newEntry` makes it), `String()` is, in order:
when a comment `c` is attached, the boundary line of width `w` followed by `c`
and by one newline exactly when `c` is not empty and does not end with a
newline; then, when a pathname `p` is present, the header line of width `w`
for `p`; then the body. -/
theorem entry_string_text (e : entry) (hw : 1 ≤ e.boundary) (hp : e.pathname ≠ some []) :
    e.String =
      (match e.comment with
        | some c => boundaryLine e.boundary ++ c ++
            (if c ≠ [] ∧ HasSuffix c [10] = false then [10] else [])
        | none => []) ++
      (match e.pathname with
        | some p => headerLine e.boundary p
        | none => []) ++
      (match e.body with
        | some b => b
        | none => []) := by
  obtain ⟨hb, hh⟩ := newBoundary_pos e.boundary hw []
  unfold entry.String
  have hcomment : ∀ c : GoString,
      (if (!HasSuffix ([] ++ newBoundary e.boundary [] ++ c) [10]) = true then
          [] ++ newBoundary e.boundary [] ++ c ++ [10]
        else [] ++ newBoundary e.boundary [] ++ c)
      = boundaryLine e.boundary ++ c ++
          (if c ≠ [] ∧ HasSuffix c [10] = false then [10] else []) := by
    intro c
    rw [hb, List.nil_append]
    by_cases hc : c = []
    · subst hc
      have : HasSuffix (boundaryLine e.boundary) [10] = true := by
        rw [hasSuffix_iff]
        exact ⟨[60] ++ List.replicate e.boundary.toNat 61 ++ [62], by simp [boundaryLine]⟩
      simp [this]
    · rw [hasSuffix_newline_append _ c hc]
      cases hs : HasSuffix c [10] <;> simp [hc]
  cases hc : e.comment with
  | none =>
    cases hpn : e.pathname with
    | none => cases e.body <;> simp
    | some p =>
      have hpne : p ≠ [] := fun h0 => hp (by rw [hpn, h0])
      have := (newBoundary_pos e.boundary hw p).2 hpne
      cases e.body <;> simp [this]
  | some c =>
    have h1 := hcomment c
    cases hpn : e.pathname with
    | none => cases e.body <;> (simp only [h1]; simp)
    | some p =>
      have hpne : p ≠ [] := fun h0 => hp (by rw [hpn, h0])
      have := (newBoundary_pos e.boundary hw p).2 hpne
      cases e.body with
      | none => simp only [h1, this, List.append_nil]
      | some b => simp only [h1, this]

/-- C22 (witness) on the entry of the test "Set, Get, Delete Entries", the file
`file` of width 5 with the body `contents` and the comment `comment`:
`String()` is `"<=====>\ncomment\n<=====> file\ncontents"`. -/
theorem entry_string_text_witness :
    (⟨false, 1, 5, some (ascii "file"), some (ascii "contents"), some (ascii "comment"),
        none⟩ : entry).String
      = ascii "<=====>\ncomment\n<=====> file\ncontents" :=
  (entry_string_text ⟨false, 1, 5, some (ascii "file"), some (ascii "contents"),
    some (ascii "comment"), none⟩ (by decide) (by decide)).trans (by decide!)

/-! ### The kinds of an entry, and `ParseHRX` on an entry -/

/-- C23 (entry classification): for every entry exactly one of `IsComment()`,
`IsFile()` and `IsDir()` is true; `IsComment()` holds exactly when the pathname
is absent or empty, `IsDir()` exactly when the pathname ends in `'/'`, and
`IsFile()` exactly when the pathname is present, not empty and does not end in
`'/'`; `IsHRX()` holds exactly when the pathname ends in `.hrx` (it is then
not empty), and it implies `IsFile()`. -/
theorem entry_classification (e : entry) :
    ((e.IsComment = true ∧ e.IsFile = false ∧ e.IsDir = false) ∨
      (e.IsComment = false ∧ e.IsFile = true ∧ e.IsDir = false) ∨
      (e.IsComment = false ∧ e.IsFile = false ∧ e.IsDir = true)) ∧
    (e.IsComment = true ↔ e.pathname = none ∨ e.pathname = some []) ∧
    (e.IsDir = true ↔ ∃ t, e.pathname = some (t ++ [47])) ∧
    (e.IsFile = true ↔ ∃ p, e.pathname = some p ∧ p ≠ [] ∧ ¬ ∃ t, p = t ++ [47]) ∧
    (e.IsHRX = true ↔ ∃ t, e.pathname = some (t ++ ascii ".hrx")) ∧
    (e.IsHRX = true → e.IsFile = true) := by
  have hhrx : e.IsHRX = true ↔ ∃ t, e.pathname = some (t ++ ascii ".hrx") := by
    unfold entry.IsHRX entry.IsComment
    cases hp : e.pathname with
    | none => simp
    | some p =>
      cases p with
      | nil =>
        simp only [List.isEmpty_nil, Bool.not_true, Bool.false_eq_true, if_false,
          Option.some.injEq, false_iff, not_exists]
        intro t ht
        have := congrArg List.length ht
        simp [ascii] at this
      | cons c cs =>
        simp only [List.isEmpty_cons, Bool.not_false, if_true, Option.some.injEq]
        exact hasSuffix_iff _ _
  have hfile : e.IsFile = true ↔ ∃ p, e.pathname = some p ∧ p ≠ [] ∧ ¬ ∃ t, p = t ++ [47] := by
    unfold entry.IsFile
    cases hp : e.pathname with
    | none => simp
    | some p =>
      by_cases hne : p = []
      · simp [hne]
      · simp only [ne_eq, hne, not_false_eq_true, if_true, Bool.not_eq_true',
          Option.some.injEq, exists_eq_left', true_and]
        rw [← hasSuffix_iff p [47]]
        cases HasSuffix p [47] <;> simp
  have hdir : e.IsDir = true ↔ ∃ t, e.pathname = some (t ++ [47]) := by
    unfold entry.IsDir
    cases hp : e.pathname with
    | none => simp
    | some p =>
      by_cases hne : p = []
      · simp [hne]
      · simp only [ne_eq, hne, not_false_eq_true, if_true, Option.some.injEq]
        exact hasSuffix_iff p [47]
  have hcomment : e.IsComment = true ↔ e.pathname = none ∨ e.pathname = some [] := by
    unfold entry.IsComment
    cases hp : e.pathname with
    | none => simp
    | some p => cases p <;> simp
  refine ⟨?_, hcomment, hdir, hfile, hhrx, ?_⟩
  · unfold entry.IsComment entry.IsFile entry.IsDir
    cases hp : e.pathname with
    | none => simp
    | some p =>
      cases p with
      | nil => simp
      | cons c cs => cases HasSuffix (c :: cs) [47] <;> simp
  · intro h
    obtain ⟨t, ht⟩ := hhrx.mp h
    unfold entry.IsFile
    rw [ht]
    have hne : t ++ ascii ".hrx" ≠ [] := by
      intro h0
      have := congrArg List.length h0
      simp [ascii] at this
    simp [hne, not_slash_of_hrx]

/-- C24 (counterexample), evaluated on `New("e.hrx", "")`, of width 5, after
`Set("a.hrx", "", "")` and `SetBoundary(9223372036854775807)`, the largest
`int`: `SetBoundary` returns `ErrBadBoundary` and leaves the entry `a.hrx`,
which has no body, at that width; `ParseHRX` on this entry returns an archive
without entries whose boundary is `-9223372036854775808`, the sum of Go, and
not the boundary of the entry plus one. -/
theorem parseHRX_at_largest_width :
    (((New (ascii "e.hrx") []).Set (ascii "a.hrx") [] []).bind
        (fun r => r.2.SetBoundary 9223372036854775807)).map
        (fun r => (r.1, r.2.Entry (ascii "a.hrx")))
      = some (some (.plain .ErrBadBoundary),
          some ⟨true, 1, 9223372036854775807, some (ascii "a.hrx"), none, none, none⟩) ∧
    (⟨true, 1, 9223372036854775807, some (ascii "a.hrx"), none, none, none⟩ : entry).parseHRX.toOption.map
        (fun b => (b.GetBoundary, b.Len))
      = some (-9223372036854775808, 0) ∧
    (⟨true, 1, 9223372036854775807, some (ascii "a.hrx"), none, none, none⟩ : entry).parseHRX.toOption.map
        (fun b => decide (b.GetBoundary = 9223372036854775807 + 1))
      = some false := by
  refine ⟨?_, ?_, ?_⟩ <;> decide!

/-- C24 (amended; empty nested archive): for every entry whose `hrx` flag is as
`newEntry` sets it (`strings.HasSuffix(pathname, ".hrx")`): when the pathname
ends in `.hrx` and the body is absent or empty, `ParseHRX` returns an archive
without entries, whose boundary is the boundary of the entry plus one when the
boundary of the entry is an `int` below the largest, and whose comment is the
comment `GetComment()` of the entry, absent when that is empty; and when the
pathname does not end in `.hrx`, `ParseHRX` returns `ErrNotAnArchive`. -/
theorem parseHRX_empty_or_not_archive (e : entry)
    (hflag : e.hrx = HasSuffix e.GetPathname (ascii ".hrx")) :
    ((∃ t, e.pathname = some (t ++ ascii ".hrx")) → (e.body = none ∨ e.body = some []) →
      ∃ b, e.parseHRX = .ok b ∧ b.entries = [] ∧ b.Len = 0 ∧
        (-2 ^ 63 ≤ e.boundary → e.boundary < 2 ^ 63 - 1 → b.GetBoundary = e.boundary + 1) ∧
        b.comment = (if e.GetComment = [] then none else some e.GetComment) ∧
        b.GetComment = (e.GetComment, decide (e.GetComment ≠ [])) ∧
        (e.comment = none → b.GetComment = ([], false))) ∧
    ((¬ ∃ t, e.GetPathname = t ++ ascii ".hrx") →
      e.parseHRX = .error (.plain .ErrNotAnArchive)) := by
  constructor
  · rintro ⟨t, ht⟩ hbody
    have hh : e.hrx = true := by
      rw [hflag, hasSuffix_iff]
      exact ⟨t, by unfold entry.GetPathname; rw [ht]; rfl⟩
    have hparse : e.parseHRX
        = .ok { newArchive (t ++ ascii ".hrx") e.GetComment with
            boundary := wrapInt (e.boundary + 1) } := by
      unfold entry.parseHRX
      rw [ht, hh]
      rcases hbody with h | h <;> rw [h] <;> rfl
    refine ⟨_, hparse, rfl, rfl, ?_, ?_, ?_, ?_⟩
    · intro hlow hhigh
      show wrapInt (e.boundary + 1) = e.boundary + 1
      exact wrapInt_of_range _ (by omega) (by omega)
    · show (if e.GetComment ≠ [] then some e.GetComment else none) = _
      by_cases hc : e.GetComment = [] <;> simp [hc]
    · unfold archive.GetComment
      show (match (if e.GetComment ≠ [] then some e.GetComment else none) with
        | some c => (c, true)
        | none => ([], false)) = _
      by_cases hc : e.GetComment = [] <;> simp [hc]
    · intro hnone
      unfold archive.GetComment
      show (match (if e.GetComment ≠ [] then some e.GetComment else none) with
        | some c => (c, true)
        | none => ([], false)) = _
      have : e.GetComment = [] := by unfold entry.GetComment; rw [hnone]; rfl
      simp [this]
  · intro hnot
    have hh : e.hrx = false := by
      rw [hflag]
      cases h : HasSuffix e.GetPathname (ascii ".hrx") with
      | false => rfl
      | true => exact absurd ((hasSuffix_iff _ _).mp h) hnot
    unfold entry.parseHRX
    rw [hh]
    cases e.pathname <;> simp

/-- C24 (witness) on the entries of the test "boundary change errors":
`empty.hrx` of width 5 with the comment `commentary` and no body gives an
archive of boundary 6 without entries and with that comment, and `not-an-hrx`
gives `ErrNotAnArchive`. -/
theorem parseHRX_empty_or_not_archive_witness :
    (∃ b, (⟨true, 1, 5, some (ascii "empty.hrx"), none, some (ascii "commentary"),
          none⟩ : entry).parseHRX = .ok b ∧
        b.entries = [] ∧ b.GetBoundary = 6 ∧ b.GetComment = (ascii "commentary", true)) ∧
      (⟨false, 2, 5, some (ascii "not-an-hrx"), some (ascii "nope"), none, none⟩ : entry).parseHRX
        = .error (.plain .ErrNotAnArchive) := by
  obtain ⟨b, h1, h2, _, h4, _, h6, _⟩ :=
    (parseHRX_empty_or_not_archive
      ⟨true, 1, 5, some (ascii "empty.hrx"), none, some (ascii "commentary"), none⟩
      (by decide!)).1 ⟨ascii "empty", by decide!⟩ (Or.inl rfl)
  refine ⟨⟨b, h1, h2, h4 (by decide) (by decide), by rw [h6]; decide!⟩, ?_⟩
  apply (parseHRX_empty_or_not_archive
    ⟨false, 2, 5, some (ascii "not-an-hrx"), some (ascii "nope"), none, none⟩ (by decide!)).2
  rw [← hasSuffix_iff]
  decide!

/-- C25 (WriteFile writes the String), evaluated on the archive of the test
"WriteFile", parsed from `tEntryHRX`: `String()` is the input, and the text
`WriteFile` assembles lacks the newline after the body of `dir/file` and the
newline after the body of `one.hrx`, so that it is neither `String()` nor the
input. -/
theorem writeFile_omits_separators :
    (parseData (ascii "testing.hrx") (ascii ("<====> dir/\n<====> dir/file\n" ++
        "this is the contents of the file in dir\n<====> one.hrx\n<=====> two.hrx\n" ++
        "<==> many.hrx\n<======>\nMany comment\n<==>\nTwo comment<=====>\nOne comment\n" ++
        "<====>\nThis archive contains multiple layers of nested archives.\n"))).toOption.map
        archive.String
      = some (ascii ("<====> dir/\n<====> dir/file\n" ++
        "this is the contents of the file in dir\n<====> one.hrx\n<=====> two.hrx\n" ++
        "<==> many.hrx\n<======>\nMany comment\n<==>\nTwo comment<=====>\nOne comment\n" ++
        "<====>\nThis archive contains multiple layers of nested archives.\n")) ∧
    (parseData (ascii "testing.hrx") (ascii ("<====> dir/\n<====> dir/file\n" ++
        "this is the contents of the file in dir\n<====> one.hrx\n<=====> two.hrx\n" ++
        "<==> many.hrx\n<======>\nMany comment\n<==>\nTwo comment<=====>\nOne comment\n" ++
        "<====>\nThis archive contains multiple layers of nested archives.\n"))).toOption.map
        archive.WriteFile
      = some (ascii ("<====> dir/\n<====> dir/file\n" ++
        "this is the contents of the file in dir<====> one.hrx\n<=====> two.hrx\n" ++
        "<==> many.hrx\n<======>\nMany comment\n<==>\nTwo comment<=====>\nOne comment" ++
        "<====>\nThis archive contains multiple layers of nested archives.\n")) ∧
    twoFiles.String
      = ascii "<=====>\ncomment\n<=====> file\ncontents\n<=====> dir/file\nsubdir file" ∧
    twoFiles.WriteFile
      = ascii "<=====>\ncomment\n<=====> file\ncontents<=====> dir/file\nsubdir file" :=
  ⟨by decide!, by decide!, by decide!, by decide!⟩

/-! ### Parsing: the pathnames of the headers, and the empty archive -/

/-- C26 (invalid path components), evaluated on the input
`"<==> a\n1\n<==> /x\n2"`, whose second header has a pathname that starts with
`'/'`: `checkPathComponents` rejects the pathname, `ParseData` rejects it in
the first header (`"<==> /x\n2"`), and here `ParseData` returns an archive with
the entries `a` and `/x`.  Likewise for the pathnames `b//c`, `d/../e` and
`./f` in later headers. -/
theorem later_header_path_not_checked :
    checkPathComponents (ascii "/x") = some .ErrStartsWithDirSep ∧
    errorOf (parseData (ascii "t.hrx") (ascii "<==> /x\n2"))
      = some (.Error (ascii "t.hrx") (some .ErrBadFileEntry) (some .ErrStartsWithDirSep) 1) ∧
    (parseData (ascii "t.hrx") (ascii "<==> a\n1\n<==> /x\n2")).toOption.map
        archive.ListPathnames
      = some [ascii "a", ascii "/x"] ∧
    [ascii "b//c", ascii "d/../e", ascii "./f"].map checkPathComponents
      = [some .ErrContainsRelPath, some .ErrContainsRelPath, some .ErrContainsRelPath] ∧
    (parseData (ascii "t.hrx")
        (ascii "<==> a\n1\n<==> b//c\n2\n<==> d/../e\n3\n<==> ./f\n4")).toOption.map
        archive.ListPathnames
      = some [ascii "a", ascii "b//c", ascii "d/../e", ascii "./f"] :=
  ⟨by decide!, by decide!, by decide!, by decide!, by decide!⟩

/-- C27 (empty archive): for every input that is empty or consists of white
space only (`strings.TrimSpace(input) == ""`), `ParseData` returns no archive
and the `Error` whose `Wrap` is `ErrEmptyArchive`, whose `Base` is
`ErrMalformedInput` and whose `Line` is 0. -/
theorem empty_archive_rejected (filename x : GoString) (h : isBlank x = true) :
    parseData filename x
      = .error (.Error (filepathBase filename) (some .ErrMalformedInput)
          (some .ErrEmptyArchive) 0) := by
  unfold parseData archive.parseString
  rw [if_pos h]
  rfl

/-- C27 (witness) on the empty input and on the input `" \n\t"`. -/
theorem empty_archive_rejected_witness :
    isBlank [] = true ∧ isBlank (ascii " \n\t") = true ∧
      parseData (ascii "t.hrx") []
        = .error (.Error (ascii "t.hrx") (some .ErrMalformedInput) (some .ErrEmptyArchive) 0) ∧
      parseData (ascii "t.hrx") (ascii " \n\t")
        = .error (.Error (ascii "t.hrx") (some .ErrMalformedInput) (some .ErrEmptyArchive) 0) :=
  ⟨by decide!, by decide!, empty_archive_rejected (ascii "t.hrx") [] (by decide!),
    empty_archive_rejected (ascii "t.hrx") (ascii " \n\t") (by decide!)⟩

/-! ### The boundary widths: positive, and `Set` on a nested archive -/

/-- C28 (counterexample), evaluated on `New("e.hrx", "")`, of width 5, after
`Set("a.hrx", "", "")` and `SetBoundary(9223372036854775807)`, the largest
`int`: both calls come back, `SetBoundary` with `ErrBadBoundary` and the
archive still at width 5, its entry at the width given; `ParseHRX("a.hrx")` on
that archive succeeds, and the archive it returns has the boundary width
`-9223372036854775808`, which is below one. -/
theorem boundary_wraps_at_largest_int :
    (((New (ascii "e.hrx") []).Set (ascii "a.hrx") [] []).bind
        (fun r => r.2.SetBoundary 9223372036854775807)).map
        (fun r => (r.1, r.2.GetBoundary, r.2.items.map (fun x => x.boundary)))
      = some (some (.plain .ErrBadBoundary), 5, [9223372036854775807]) ∧
    (((New (ascii "e.hrx") []).Set (ascii "a.hrx") [] []).bind
        (fun r => r.2.SetBoundary 9223372036854775807)).bind
        (fun r => (r.2.ParseHRX (ascii "a.hrx")).toOption.map
          (fun b => (b.GetBoundary, decide (1 ≤ b.GetBoundary))))
      = some (-9223372036854775808, false) := by
  refine ⟨?_, ?_⟩ <;> decide!

/-- C28 (amended; boundary width is positive): on every archive obtained
through the package (from `New`, from a `ParseData` that succeeds, from
`SetBoundary`, `Set` and `Delete` on such an archive, and from a `ParseHRX`
that succeeds on an entry of such an archive which has a body that is not
empty or a width below the largest `int`) the boundary width of the archive and
of each of its entries is at least one; `SetBoundary` and `Set` come back, and
after `SetBoundary` (with or without an error), `Set` and `Delete`, and on the
archive of such a `ParseHRX`, the widths are at least one again. -/
theorem boundary_positive (a : archive) (h : a.Built) :
    (1 ≤ a.GetBoundary ∧ ∀ x ∈ a.items, 1 ≤ x.boundary) ∧
    (∀ size, ∃ e b, a.SetBoundary size = some (e, b) ∧
      1 ≤ b.GetBoundary ∧ ∀ x ∈ b.items, 1 ≤ x.boundary) ∧
    (∀ pathname body comment, ∃ e b, a.Set pathname body comment = some (e, b) ∧
      1 ≤ b.GetBoundary ∧ ∀ x ∈ b.items, 1 ≤ x.boundary) ∧
    (∀ path,
      1 ≤ (a.Delete path).GetBoundary ∧ ∀ x ∈ (a.Delete path).items, 1 ≤ x.boundary) ∧
    (∀ path b, a.ParseHRX path = .ok b →
      (∀ e, a.Entry path = some e → e.GetBody = [] → e.boundary < 2 ^ 63 - 1) →
      1 ≤ b.GetBoundary ∧ ∀ x ∈ b.items, 1 ≤ x.boundary) := by
  have hinv := reachable_inv a (built_reachable a h)
  refine ⟨wide_positive a (built_wide a h), ?_, ?_, ?_, ?_⟩
  · intro size
    cases hs : a.SetBoundary size with
    | none => exact absurd hs (setBoundary_total a size hinv.nodup)
    | some r =>
      obtain ⟨e, b⟩ := r
      exact ⟨e, b, rfl, wide_positive b (built_wide b (.setBoundary a b size e h hs))⟩
  · intro pathname body comment
    cases hs : a.Set pathname body comment with
    | none => exact absurd hs (set_total a pathname body comment)
    | some r =>
      obtain ⟨e, b⟩ := r
      exact ⟨e, b, rfl,
        wide_positive b (built_wide b (.set a b pathname body comment e h hs))⟩
  · intro path
    exact wide_positive _ (built_wide _ (.delete a path h))
  · intro path b hb hmax
    exact wide_positive b (built_wide b (.parseHRX a b path h hb hmax))

/-- C28 (witness) on the archive parsed from `"<==> a.hrx\n<===> f\nx"`, an
archive file nested in another: its width and the width of its entry are at
least one, and `ParseHRX("a.hrx")`, on the entry of width 2 with the body
`"<===> f\nx"`, succeeds with an archive whose widths are at least one. -/
theorem boundary_positive_witness :
    ∃ a b, parseData (ascii "t.hrx") (ascii "<==> a.hrx\n<===> f\nx") = .ok a ∧
      (1 ≤ a.GetBoundary ∧ ∀ x ∈ a.items, 1 ≤ x.boundary) ∧
      a.ParseHRX (ascii "a.hrx") = .ok b ∧
      (1 ≤ b.GetBoundary ∧ ∀ x ∈ b.items, 1 ≤ x.boundary) := by
  obtain ⟨a, ha⟩ := ok_of_errorOf_none
    (parseData (ascii "t.hrx") (ascii "<==> a.hrx\n<===> f\nx")) (by decide!)
  have h1 : (parseData (ascii "t.hrx") (ascii "<==> a.hrx\n<===> f\nx")).toOption.map
      (fun a => (errorOf (a.ParseHRX (ascii "a.hrx")),
        (a.Entry (ascii "a.hrx")).map (fun e => (e.GetBody, e.boundary))))
      = some (none, some (ascii "<===> f\nx", 2)) := by decide!
  rw [ha] at h1
  simp only [Except.toOption, Option.map_some', Option.some.injEq, Prod.mk.injEq] at h1
  obtain ⟨b, hb⟩ := ok_of_errorOf_none _ h1.1
  have hmax : ∀ e, a.Entry (ascii "a.hrx") = some e → e.GetBody = [] →
      e.boundary < 2 ^ 63 - 1 := by
    intro e he
    have h2 := h1.2
    rw [he] at h2
    simp only [Option.map_some', Option.some.injEq, Prod.mk.injEq] at h2
    intro _
    rw [h2.2]
    decide
  exact ⟨a, b, ha, (boundary_positive a (.parseData _ _ a ha)).1, hb,
    (boundary_positive a (.parseData _ _ a ha)).2.2.2.2 _ b hb hmax⟩

/-- C29 (Set cascades a new nested archive), evaluated on `New("e.hrx", "")`,
of width 5, and the new pathname `x.hrx` with the body `"<==> inner.hrx\n"`:
the body parses as an archive, `SetBoundary(6)` on that archive returns nil
and renumbers it to `"<======> inner.hrx\n"`, `Set` returns nil and adds the
entry, and the body stored for `x.hrx` is the body given, so that
`ParseHRX("x.hrx")` returns an archive whose `GetBoundary()` is 2. -/
theorem set_stores_body_as_given :
    (parseData (ascii "x.hrx") (ascii "<==> inner.hrx\n")).toOption.bind
        (fun ia => (ia.SetBoundary 6).map (fun r => (r.1, r.2.String)))
      = some (none, ascii "<======> inner.hrx\n") ∧
    ((New (ascii "e.hrx") []).Set (ascii "x.hrx") (ascii "<==> inner.hrx\n") []).map
        (fun r => (r.1, r.2.GetBoundary, r.2.Len))
      = some (none, 5, 1) ∧
    ((New (ascii "e.hrx") []).Set (ascii "x.hrx") (ascii "<==> inner.hrx\n") []).map
        (fun r => r.2.Get (ascii "x.hrx"))
      = some (ascii "<==> inner.hrx\n", [], true) ∧
    ((New (ascii "e.hrx") []).Set (ascii "x.hrx") (ascii "<==> inner.hrx\n") []).map
        (fun r => (r.2.ParseHRX (ascii "x.hrx")).toOption.map archive.GetBoundary)
      = some (some 2) :=
  ⟨by decide!, by decide!, by decide!, by decide!⟩

/-! ### Header recognition and header construction -/

/-- C30 (header recognition inverts header construction), as stated, fails on
a pathname that is not valid UTF-8: the pathname of the one byte `0xff` holds
no control character, colon or backslash, and the header line built from it
with the width one is recognised with the pathname of the three bytes that
encode `U+FFFD`. -/
theorem header_of_invalid_utf8 :
    (∀ r ∈ runes [0xff], ¬ r ≤ 0x1F ∧ r ≠ 0x7F ∧ r ≠ 58 ∧ r ≠ 92) ∧
    ValidString [0xff] = false ∧
    newBoundary 1 [0xff] = [60, 61, 62, 32, 0xff, 10] ∧
    parseHeaderLine (newBoundary 1 [0xff]) = (1, [239, 191, 189], true, none) ∧
    parseHeaderLine (newBoundary 1 [0xff]) ≠ (1, [0xff], true, none) := by
  refine ⟨by decide!, by decide!, by decide!, by decide!, by decide!⟩

/-- C30 (amended): for every width `n` of at least one and every pathname `p`
(possibly empty) that is valid UTF-8 and holds no control character
(`U+0000` to `U+001F`, `U+007F`), colon or backslash, `parseHeaderLine` on
`newBoundary(n, p)` returns the boundary `n`, the pathname `p`, header true and
no error; and a line is reported as a header only if, one trailing newline
removed, it starts with `<`, then zero or more `=`, then `>`. -/
theorem parseHeaderLine_newBoundary (n : Int) (p : GoString) (hn : 1 ≤ n)
    (hv : ValidString p = true)
    (hc : ∀ r ∈ runes p, ¬ r ≤ 0x1F ∧ r ≠ 0x7F ∧ r ≠ 58 ∧ r ≠ 92) :
    parseHeaderLine (newBoundary n p) = (n, p, true, none) ∧
    ∀ line, (parseHeaderLine line).2.2.1 = true →
      ∃ k rest, TrimSuffix line [10] = [60] ++ List.replicate k 61 ++ [62] ++ rest := by
  constructor
  · have hpos : n > 0 := by omega
    have hk : ((n.toNat : Nat) : Int) = n := Int.toNat_of_nonneg (by omega)
    have hchk : ∀ r ∈ runes p, checkPathCharacter r = none := by
      intro r hr
      obtain ⟨h1, h2, h3, h4⟩ := hc r hr
      simp [checkPathCharacter, h1, h2, h3, h4]
    unfold newBoundary
    rw [if_pos hpos]
    by_cases hp : p = []
    · subst hp
      have := parseHeaderLine_boundary_line n.toNat []
      simp only [List.append_nil] at this
      simp only [ne_eq, not_true_eq_false, if_false]
      rw [this, headerLoop_cons]
      simp only [Bool.false_eq_true, if_false, List.length_nil]
      rw [if_neg (show ¬ (62 : Nat) = 61 by decide), if_pos trivial,
        if_neg (show ¬ 1 + n.toNat + 1 < n.toNat + 2 + 0 by omega)]
      show headerLoop _ _ [] _ _ _ = _
      rw [headerLoop_nil, hk]
    · have := parseHeaderLine_boundary_line n.toNat ([32] ++ p)
      simp only [ne_eq, hp, not_false_eq_true, if_true]
      rw [this, List.singleton_append, runes_cons_of_lt _ _ (by decide), headerLoop_cons]
      simp only [Bool.false_eq_true, if_false]
      rw [if_neg (show ¬ (62 : Nat) = 61 by decide), if_pos trivial,
        if_pos (show 1 + n.toNat + 1 < n.toNat + 2 + (32 :: p).length by
          simp only [List.length_cons]; omega),
        if_pos trivial]
      rw [headerLoop_pathname _ _ _ _ _ hchk, flatten_encodeRune_runes p hv, hk]
      rfl
  · intro line h
    have htrim : (if HasSuffix line [10] then TrimSuffix line [10] else line)
        = TrimSuffix line [10] := by
      unfold TrimSuffix
      split <;> rfl
    unfold parseHeaderLine at h
    simp only [htrim] at h
    cases hs : TrimSuffix line [10] with
    | nil =>
      rw [hs] at h
      exact absurd h Bool.false_ne_true
    | cons b0 t =>
      rw [hs] at h
      cases hrs : runes (b0 :: t) with
      | nil =>
        rw [hrs] at h
        exact absurd h Bool.false_ne_true
      | cons r0 rs =>
        rw [hrs] at h
        simp only at h
        by_cases h60 : r0 = 60
        · obtain ⟨hb, ht⟩ := runes_cons_ascii b0 r0 t rs hrs (by omega)
          rw [if_pos (by simp [h60]), ← ht] at h
          obtain ⟨k, rest, hk⟩ := headerLoop_header_shape _ t _ _ _ h
          exact ⟨k, rest, by rw [hb, h60, hk]; simp⟩
        · rw [if_neg (by simp [h60])] at h
          exact absurd h Bool.false_ne_true

/-- C30 (witness) on the width three and the pathname `dé/x`, with a character
of two bytes: the header line built from them is recognised with that width
and that pathname. -/
theorem parseHeaderLine_newBoundary_witness :
    ValidString [100, 195, 169, 47, 120] = true ∧
    parseHeaderLine (newBoundary 3 [100, 195, 169, 47, 120])
      = (3, [100, 195, 169, 47, 120], true, none) :=
  ⟨by decide!,
    (parseHeaderLine_newBoundary 3 [100, 195, 169, 47, 120] (by decide) (by decide!)
      (by decide!)).1⟩

/-! ### The scanner on a line that is not a header -/

/-- C31 (a line that is not a header has boundary width 0), evaluated on the
line of the claim, `<==!==>`, and on the first line of the test "ParseReader",
`<==!==> error`: the scanner reports no header, an empty pathname and no
error, and the boundary 2, the number of `'='` read before the `'!'`; on `<=`
it reports the boundary 1. -/
theorem not_header_keeps_count :
    scanLine (ascii "<==!==>") = ⟨false, 2, [], ascii "<==!==>", none⟩ ∧
    scanLine (ascii "<==!==> error\n") = ⟨false, 2, [], ascii "<==!==> error\n", none⟩ ∧
    scanLine (ascii "<=\n") = ⟨false, 1, [], ascii "<=\n", none⟩ := by
  refine ⟨by decide!, by decide!, by decide!⟩

/-- C31 (amended): for every line for which the scanner reports header false,
the pathname is empty, the error is nil, and the boundary is the number of
`'='` that follow the opening `'<'` directly (0 when the line does not start
with `'<'`). -/
theorem not_header_line (line : GoString) (h : (scanLine line).header = false) :
    (scanLine line).pathname = [] ∧ (scanLine line).err = none ∧
      (scanLine line).boundary = (leadingEquals line : Int) := by
  have h1 : (parseHeaderLine line).2.2.1 = false := h
  show (parseHeaderLine line).2.1 = [] ∧ (parseHeaderLine line).2.2.2 = none ∧
    (parseHeaderLine line).1 = (leadingEquals line : Int)
  unfold leadingEquals
  cases hs : TrimSuffix line [10] with
  | nil =>
    rw [parseHeaderLine_not_open line (by rw [hs]; simp)]
    exact ⟨rfl, rfl, rfl⟩
  | cons b0 t =>
    by_cases h60 : b0 = 60
    · rw [h60] at hs
      rw [parseHeaderLine_open line t hs] at h1 ⊢
      rw [headerLoop_not_header _ t 1 0 [] h1]
      simp [h60]
    · rw [parseHeaderLine_not_open line (by rw [hs]; simp [h60])]
      simp [h60]

/-- C31 (witness) on the lines `<==!==>` and `plain text`, each with its
newline: no pathname, no error, and the boundaries 2 and 0. -/
theorem not_header_line_witness :
    ((scanLine (ascii "<==!==>\n")).pathname = [] ∧ (scanLine (ascii "<==!==>\n")).err = none ∧
      (scanLine (ascii "<==!==>\n")).boundary = (leadingEquals (ascii "<==!==>\n") : Int)) ∧
    leadingEquals (ascii "<==!==>\n") = 2 ∧
    (scanLine (ascii "plain text\n")).boundary = 0 :=
  ⟨not_header_line (ascii "<==!==>\n") (by decide!), by decide!, by decide!⟩

/-! ### Parsing: the bodies of the records, and the headers that open an entry -/

/-- C32 (separator newline trimming): for every input `ParseData` parses, with
the records its lines give (the entries are the records that are not comments,
with their bodies) and the width of the archive, which is the width of the
first line: every record was opened by the header line of its line number; the
body of a record that is followed by another is the raw lines between the two
headers, joined, with one trailing newline removed when the record is a file
and the next header has the width of the archive, and as they are otherwise (a
directory, a comment); the body of the last record is the raw lines after its
header as they are; and every raw line that is followed by a line ends with a
newline, the one that is removed. -/
theorem body_between_headers (filename x : GoString) (a : archive)
    (h : parseData filename x = .ok a) :
    ∃ st, scanRecords filename x = some st ∧ a.GetBoundary = archiveWidth x ∧
      (∀ e ∈ a.items, ∃ r ∈ st.records, r.IsComment = false ∧ e.GetBody = r.GetBody ∧
        e.GetPathname = r.GetPathname ∧ e.line = r.line) ∧
      (∀ r ∈ st.records, 1 ≤ r.line ∧
        ∃ hd, (splitLines x)[(r.line - 1).toNat]? = some hd ∧ (scanLine hd).header = true ∧
          (scanLine hd).pathname = r.GetPathname ∧ (scanLine hd).boundary = r.boundary) ∧
      st.records.Chain' (fun r r2 =>
        r.GetBody =
          if (r.IsFile && r2.boundary == archiveWidth x) = true then
            TrimSuffix (linesBetween (splitLines x) r.line (r2.line - 1)) [10]
          else linesBetween (splitLines x) r.line (r2.line - 1)) ∧
      (∀ r ∈ st.records.getLast?,
        r.GetBody = linesBetween (splitLines x) r.line (splitLines x).length) ∧
      (∀ (i : Nat) (l : GoString), (splitLines x)[i]? = some l →
        i + 1 < (splitLines x).length → HasSuffix l [10] = true) := by
  obtain ⟨st, hscan, hfin⟩ := scan_of_parseData filename x a h
  obtain ⟨_, hchain, _, hlast, hheaders⟩ := scan_bodies filename x st hscan
  obtain ⟨hk, hempty, _⟩ := keyed_scanArchive st filename
  obtain ⟨_, hitems, _⟩ := finalize_keyed _ a _ hfin hk hempty
  refine ⟨st, hscan, parseData_boundary filename x a h, ?_, hheaders, ?_, hlast,
    splitLines_newline x⟩
  · intro e he
    rw [hitems] at he
    obtain ⟨r, hr, hrc, c, hc⟩ := mem_attachComments _ _ (le_refl _) e he
    rw [hc]
    exact ⟨r, hr, hrc, rfl, rfl, rfl⟩
  · exact hchain

/-- C32 (witness) on the text of the claim, `"<==> file\nhello\n"`: one file
entry `file` with the body `"hello\n"` in an archive of boundary 2; and on
`"<==> a\nx\n\n<==> d/\n\n<==> b\ny"`: the body of `a` is `"x\n"`, the last
newline before the header of `d/` removed, the body of the directory is
`"\n"` as it is, and the body of `b` is `"y"`. -/
theorem body_between_headers_witness :
    (∃ a st, parseData (ascii "t.hrx") (ascii "<==> file\nhello\n") = .ok a ∧
      scanRecords (ascii "t.hrx") (ascii "<==> file\nhello\n") = some st ∧
      a.GetBoundary = archiveWidth (ascii "<==> file\nhello\n") ∧
      (∀ r ∈ st.records.getLast?, r.GetBody
        = linesBetween (splitLines (ascii "<==> file\nhello\n")) r.line
            (splitLines (ascii "<==> file\nhello\n")).length)) ∧
    (parseData (ascii "t.hrx") (ascii "<==> file\nhello\n")).toOption.map
        (fun a => (a.GetBoundary, a.items.map (fun e => (e.GetPathname, e.GetBody))))
      = some (2, [(ascii "file", ascii "hello\n")]) ∧
    (parseData (ascii "t.hrx") (ascii "<==> a\nx\n\n<==> d/\n\n<==> b\ny")).toOption.map
        (fun a => a.items.map (fun e => (e.GetPathname, e.GetBody)))
      = some [(ascii "a", ascii "x\n"), (ascii "d/", ascii "\n"), (ascii "b", ascii "y")] := by
  refine ⟨?_, by decide!, by decide!⟩
  obtain ⟨a, ha⟩ := ok_of_errorOf_none
    (parseData (ascii "t.hrx") (ascii "<==> file\nhello\n")) (by decide!)
  obtain ⟨st, hscan, hb, _, _, _, hlast, _⟩ :=
    body_between_headers (ascii "t.hrx") (ascii "<==> file\nhello\n") a ha
  exact ⟨a, st, ha, hscan, hb, hlast⟩

/-- C33 (nested-archive disambiguation): in the loop of `parseReader` on the
lines `lines`, after `n ≥ 1` passes without an error, a header line `l` at the
line `n + 1` is passed without an error, there is a current entry `t`, and the
width of the archive is the width of the first line; when the pathname of `t`
ends in `.hrx` and the width of `l` differs from the width of the archive, the
line is appended to the body of `t` (with the newline trimmed when the line
after it calls for it) and no entry is started; in every other case `t` is
closed and the line starts an entry, with its pathname, its width and an empty
body.  The loop itself is the passes over all the lines. -/
theorem header_disambiguation (filename : GoString) (lines : List GoString) (n : Nat)
    (st : parseState) (l : GoString) (hn : 1 ≤ n)
    (hst : parseLoopUpTo filename n 1 lines parseState.init = .ok st)
    (hl : lines[n]? = some l) (hh : (scanLine l).header = true) :
    ∃ t l0 st1, st.this = some t ∧ lines.head? = some l0 ∧
      st.boundary = (scanLine l0).boundary ∧
      parseLoopUpTo filename (n + 1) 1 lines parseState.init = .ok st1 ∧
      st1.boundary = st.boundary ∧
      ((HasSuffix t.GetPathname (ascii ".hrx") = true ∧
          (scanLine l).boundary ≠ (scanLine l0).boundary) →
        st1.raw = st.raw ∧ ∃ t1, st1.this = some t1 ∧ t1.line = t.line ∧
          t1.GetPathname = t.GetPathname ∧ t1.boundary = t.boundary ∧
          t1.GetBody = trimNewlineIf
            (t.IsFile && peekIsHeaderOf (scanLine l0).boundary lines[n + 1]?)
            (t.GetBody ++ l)) ∧
      (¬ (HasSuffix t.GetPathname (ascii ".hrx") = true ∧
          (scanLine l).boundary ≠ (scanLine l0).boundary) →
        st1.raw = st.raw ++ [t] ∧ ∃ t1, st1.this = some t1 ∧ t1.line = (n : Int) + 1 ∧
          t1.GetPathname = (scanLine l).pathname ∧ t1.boundary = (scanLine l).boundary ∧
          t1.GetBody = []) ∧
      parseLoop filename 1 lines parseState.init
        = parseLoopUpTo filename lines.length 1 lines parseState.init := by
  cases lines with
  | nil => simp at hl
  | cons l0 rest =>
    obtain ⟨m, rfl⟩ : ∃ m, n = m + 1 := ⟨n - 1, by omega⟩
    obtain ⟨hb, t, hthis, hflag⟩ := parseLoopUpTo_state filename m l0 rest st hst
    have hstep := parseLoopUpTo_step filename (m + 1) 1 (l0 :: rest) parseState.init st l hst hl
    have hline : (1 : Int) + ((m + 1 : Nat) : Int) = ((m + 1 : Nat) : Int) + 1 := by ring
    rw [hline] at hstep
    unfold entry.flagged at hflag
    by_cases hc : HasSuffix t.GetPathname (ascii ".hrx") = true ∧
        (scanLine l).boundary ≠ (scanLine l0).boundary
    · have hnext := parseLine_next filename (((m + 1 : Nat) : Int) + 1) (scanLine l) l
        (l0 :: rest)[m + 1 + 1]? { st with lastLine := ((m + 1 : Nat) : Int) + 1 } t hthis
      have hs : parseStep filename (((m + 1 : Nat) : Int) + 1) l (l0 :: rest)[m + 1 + 1]? st
          = .ok { boundary := st.boundary, lastLine := ((m + 1 : Nat) : Int) + 1, raw := st.raw,
                  this := some (appendLine st t l (l0 :: rest)[m + 1 + 1]?) } := by
        cases hp : parseStep filename (((m + 1 : Nat) : Int) + 1) l (l0 :: rest)[m + 1 + 1]? st with
        | error e =>
          exfalso
          unfold parseStep at hp
          simp only at hp
          have hcheck : ¬ parseReaderGetBoundaryCheck
              { st with lastLine := ((m + 1 : Nat) : Int) + 1 } (((m + 1 : Nat) : Int) + 1)
              (scanLine l).header = true := by
            simp [parseReaderGetBoundaryCheck, hthis]
          rw [if_neg hcheck, hnext] at hp
          split at hp <;> exact absurd hp (by simp)
        | ok st1 =>
          rcases parseStep_cases _ _ _ _ _ _ hp with
            ⟨hnone, _, _, _⟩ | ⟨t2, hsome, _, hopen, _⟩ | ⟨t2, hsome, _, h1⟩
          · rw [hthis] at hnone
            exact absurd hnone (by simp)
          · rw [hthis] at hsome
            simp only [Option.some.injEq] at hsome
            subst hsome
            exfalso
            rcases hopen with ho | ho
            · rw [hflag, hc.1] at ho
              exact absurd ho (by simp)
            · exact hc.2 (by rw [ho, hb])
          · rw [hthis] at hsome
            simp only [Option.some.injEq] at hsome
            subst hsome
            rw [h1]
      obtain ⟨g1, g2, _, _, _, g6⟩ := appendLine_fields st t l (l0 :: rest)[m + 1 + 1]?
      obtain ⟨g7, _, _⟩ := appendLine_kind st t l (l0 :: rest)[m + 1 + 1]?
      refine ⟨t, l0, _, hthis, rfl, hb, hstep.trans hs, rfl, ?_, fun hnc => absurd hc hnc,
        (parseLoopUpTo_all filename _ 1 _).symm⟩
      intro _
      refine ⟨rfl, _, rfl, g1, g7, g2, ?_⟩
      rw [g6, hb]
    · have hs : parseStep filename (((m + 1 : Nat) : Int) + 1) l (l0 :: rest)[m + 1 + 1]? st
          = .ok { boundary := st.boundary, lastLine := ((m + 1 : Nat) : Int) + 1,
                  raw := st.raw ++ [t],
                  this := some (openEntry (((m + 1 : Nat) : Int) + 1) (scanLine l)) } := by
        have hnext := parseLine_next filename (((m + 1 : Nat) : Int) + 1) (scanLine l) l
          (l0 :: rest)[m + 1 + 1]? { st with lastLine := ((m + 1 : Nat) : Int) + 1 } t hthis
        have hcond : ((scanLine l).header && (!t.hrx || (scanLine l).boundary == st.boundary))
            = true := by
          rw [hflag, hb, hh]
          by_cases h1 : HasSuffix t.GetPathname (ascii ".hrx") = true
          · have : (scanLine l).boundary = (scanLine l0).boundary := by
              by_contra h2
              exact hc ⟨h1, h2⟩
            simp [this]
          · simp [h1]
        unfold parseStep
        simp only
        have hcheck : ¬ parseReaderGetBoundaryCheck
            { st with lastLine := ((m + 1 : Nat) : Int) + 1 } (((m + 1 : Nat) : Int) + 1)
            (scanLine l).header = true := by
          simp [parseReaderGetBoundaryCheck, hthis]
        rw [if_neg hcheck, hnext, if_pos hcond]
      obtain ⟨f1, f2, _, f4, f5, _⟩ := openEntry_fields (((m + 1 : Nat) : Int) + 1) (scanLine l)
      refine ⟨t, l0, _, hthis, rfl, hb, hstep.trans hs, rfl, fun hc1 => absurd hc1 hc, ?_,
        (parseLoopUpTo_all filename _ 1 _).symm⟩
      intro _
      exact ⟨rfl, _, rfl, f1, f4, f2, f5⟩

/-- C33 (witness) on the lines of `"<==> a.hrx\n<===> f\nx\n<==> g\n"`: after
the first pass the current entry is `a.hrx`; the header `<===> f` of the width
3 is appended to its body; after the third pass the header `<==> g` of the
width of the archive closes `a.hrx`, whose body is then `"<===> f\nx"`, and
starts the entry `g`. -/
theorem header_disambiguation_witness :
    (∃ t l0 st1,
      (some ⟨true, 1, 2, some (ascii "a.hrx"), none, none, none⟩ : Option entry) = some t ∧
      (splitLines (ascii "<==> a.hrx\n<===> f\nx\n<==> g\n")).head? = some l0 ∧
      (2 : Int) = (scanLine l0).boundary ∧
      parseLoopUpTo (ascii "t.hrx") 2 1 (splitLines (ascii "<==> a.hrx\n<===> f\nx\n<==> g\n"))
        parseState.init = .ok st1 ∧
      st1.raw = [] ∧ ∃ t1, st1.this = some t1 ∧ t1.line = 1 ∧
        t1.GetPathname = ascii "a.hrx" ∧ t1.GetBody = ascii "<===> f\n") ∧
    (parseLoopUpTo (ascii "t.hrx") 4 1 (splitLines (ascii "<==> a.hrx\n<===> f\nx\n<==> g\n"))
        parseState.init).toOption
      = some
        { boundary := 2, lastLine := 4,
          raw := [⟨true, 1, 2, some (ascii "a.hrx"), some (ascii "<===> f\nx"), none, none⟩],
          this := some ⟨false, 4, 2, some (ascii "g"), some [], none, none⟩ } := by
  refine ⟨?_, by decide!⟩
  obtain ⟨t, l0, st1, h1, h2, h3, h4, _, h6, _, _⟩ :=
    header_disambiguation (ascii "t.hrx")
      (splitLines (ascii "<==> a.hrx\n<===> f\nx\n<==> g\n")) 1
      { boundary := 2, lastLine := 1, raw := [],
        this := some ⟨true, 1, 2, some (ascii "a.hrx"), none, none, none⟩ }
      (ascii "<===> f\n") (by decide) (ok_of_toOption _ _ (by decide!)) (by decide!) (by decide!)
  have hl0 : l0 = ascii "<==> a.hrx\n" := by
    have : (splitLines (ascii "<==> a.hrx\n<===> f\nx\n<==> g\n")).head?
        = some (ascii "<==> a.hrx\n") := by decide!
    rw [this] at h2
    exact (Option.some.inj h2).symm
  have ht : t = ⟨true, 1, 2, some (ascii "a.hrx"), none, none, none⟩ :=
    (Option.some.inj h1).symm
  subst hl0 ht
  obtain ⟨k1, t1, k2, k3, k4, _, k6⟩ := h6 ⟨by decide!, by decide!⟩
  refine ⟨_, _, st1, rfl, h2, h3, h4, k1, t1, k2, k3, k4, ?_⟩
  rw [k6]
  decide!

/-! ### The line numbers, and parsing without a panic -/

/-- C34 (line-number invariant): in every archive a caller can hold (`New` or
a successful parse, followed by any sequence of `Set` and `Delete`, and of the
other operations), the line numbers of the entries are at least 1, increase
strictly in entry order and do not exceed the line counter of the archive. -/
theorem line_numbers (a : archive) (h : a.Reachable) :
    (∀ e ∈ a.items, 1 ≤ e.line) ∧
    (a.items.map entry.line).Pairwise (fun x y => x < y) ∧
    (∀ e ∈ a.items, e.line ≤ a.lastLine) := by
  have hinv := reachable_inv a h
  refine ⟨?_, ?_, ?_⟩
  · intro e he
    obtain ⟨p, hp, rfl⟩ := List.mem_map.mp he
    exact hinv.lines_pos p hp
  · have := hinv.lines_sorted
    simpa [archive.lines, archive.items, List.map_map] using this
  · intro e he
    obtain ⟨p, hp, rfl⟩ := List.mem_map.mp he
    exact hinv.lines_le p hp

/-- C34 (witness) on the archive of the test "Set, Get, Delete Entries" after
its two calls of `Set`, and after `Delete("file")` on it: the entries are at
the lines 1 and 2 with the line counter 2, then the entry left is at the line
1 with the line counter 1. -/
theorem line_numbers_witness :
    ((∀ e ∈ twoFiles.items, 1 ≤ e.line) ∧
      (twoFiles.items.map entry.line).Pairwise (fun x y => x < y) ∧
      (∀ e ∈ twoFiles.items, e.line ≤ twoFiles.lastLine)) ∧
    twoFiles.items.map entry.line = [1, 2] ∧ twoFiles.lastLine = 2 ∧
    (twoFiles.Delete (ascii "file")).items.map entry.line = [1] ∧
    (twoFiles.Delete (ascii "file")).lastLine = 1 :=
  ⟨line_numbers twoFiles twoFiles_reachable, by decide!, by decide!, by decide!, by decide!⟩

/-- C35 (parsing is total on non-blank text): for every input that is not
empty or white space only, `parseString` reaches `finalize` only with a list of
raw records that is not empty, so that the read of `entries[0]` is in bounds,
and `ParseData` returns an archive or an error that is not a panic on a slice
index (the read of `entries[idx+1]` for a comment that is not the last record
is the head of the records that follow). -/
theorem parse_total (filename x : GoString) (h : isBlank x = false) :
    (∀ st, scanRecords filename x = some st → st.records ≠ []) ∧
    ((∃ a, parseData filename x = .ok a) ∨
      ∃ e, parseData filename x = .error e ∧ e.isPanic = false) := by
  have hx : splitLines x ≠ [] := by
    cases x with
    | nil => exact absurd h (by decide)
    | cons c cs => exact splitLines_cons_ne_nil c cs
  obtain ⟨k1, k2⟩ := parseReader_no_panic (newArchive filename []) (splitLines x) hx
  refine ⟨?_, ?_⟩
  · intro st hst
    unfold scanRecords at hst
    rw [if_neg (by simp [h])] at hst
    split at hst
    · rename_i st1 hloop
      simp only [Option.some.injEq] at hst
      subst hst
      exact k1 _ hloop
    · exact absurd hst (by simp)
  · cases hp : parseData filename x with
    | ok a => exact Or.inl ⟨a, rfl⟩
    | error e =>
      refine Or.inr ⟨e, rfl, k2 e ?_⟩
      unfold parseData archive.parseString at hp
      rw [if_neg (by simp [h])] at hp
      exact hp

/-- C35 (witness) on the text `"<==> file\nhello\n"`, which parses, and on the
text `"hello\n<==> file\n"`, which does not start with a header: `ParseData`
returns the error `ErrBadArchiveHeader` at the line 1. -/
theorem parse_total_witness :
    ((∀ st, scanRecords (ascii "t.hrx") (ascii "<==> file\nhello\n") = some st →
        st.records ≠ []) ∧
      ((∃ a, parseData (ascii "t.hrx") (ascii "<==> file\nhello\n") = .ok a) ∨
        ∃ e, parseData (ascii "t.hrx") (ascii "<==> file\nhello\n") = .error e ∧
          e.isPanic = false)) ∧
    errorOf (parseData (ascii "t.hrx") (ascii "<==> file\nhello\n")) = none ∧
    errorOf (parseData (ascii "t.hrx") (ascii "hello\n<==> file\n"))
      = some (.Error (ascii "t.hrx") (some .ErrMalformedInput) (some .ErrBadArchiveHeader) 1) :=
  ⟨parse_total (ascii "t.hrx") (ascii "<==> file\nhello\n") (by decide!), by decide!,
    by decide!⟩

/-! ### `SetBoundary` comes back, and the look-ahead of the scanner -/

/-- C36 (`SetBoundary` terminates): on every archive a caller can hold and for
every size, `SetBoundary` comes back, with a result that no larger bound on the
depth of the nested calls changes; a nested call acts on the archive parsed
from the body of an entry, and in a parsed archive every body, and the bodies
in total, are shorter than the text the archive was parsed from, so that the
depth of the calls is at most the total length of the bodies plus two. -/
theorem setBoundary_terminates (a : archive) (size : Int) (h : a.Reachable) :
    (∃ r, a.SetBoundary size = some r ∧
      ∀ n, bodySum a.items + 2 ≤ n → archive.SetBoundaryDepth n a size = some r) ∧
    (∀ (filename data : GoString) (b : archive), parseData filename data = .ok b →
      bodySum b.items < data.length ∧ ∀ e ∈ b.items, e.GetBody.length < data.length) ∧
    (∀ e ∈ a.items, ∀ ia, e.parseHRX = .ok ia →
      ia.entries = [] ∨ bodySum ia.items < e.GetBody.length) := by
  have hinv := reachable_inv a h
  refine ⟨?_, ?_, ?_⟩
  · cases hs : a.SetBoundary size with
    | none => exact absurd hs (setBoundary_total a size hinv.nodup)
    | some r =>
      refine ⟨r, rfl, ?_⟩
      intro n hn
      exact setBoundaryDepth_mono _ n a size r hn hs
  · intro filename data b hb
    have := parseData_bodySum filename data b hb
    refine ⟨by omega, ?_⟩
    intro e he
    have := length_le_bodySum b.items e he
    omega
  · intro e _ ia hia
    rcases parseHRX_bodySum e ia hia with h1 | h1
    · exact Or.inl h1
    · exact Or.inr (by omega)

/-- C36 (witness) on the archive of the test "Set, Get, Delete Entries" after
its two calls of `Set`: `SetBoundary(3)` comes back. -/
theorem setBoundary_terminates_witness :
    ∃ r, twoFiles.SetBoundary 3 = some r ∧
      ∀ n, bodySum twoFiles.items + 2 ≤ n → archive.SetBoundaryDepth n twoFiles 3 = some r :=
  (setBoundary_terminates twoFiles 3 twoFiles_reachable).1

/-- C37 (look-ahead index safety in the header scanner): for every line, the
index `next` at which `parseHeaderLine` reads `runes[next]` after the closing
`'>'` is an index of the rune slice: the scanner never reports the panic on a
slice index.  The bytes up to the `'>'` are single-byte runes, so that the
byte length `next` is compared with counts the runes that are left. -/
theorem lookahead_in_bounds (line : GoString) :
    (scanLine line).err ≠ some Sentinel.indexOutOfRange ∧
    ∀ (k : Nat) (t : GoString),
      TrimSuffix line [10] = [60] ++ List.replicate k 61 ++ [62] ++ t →
      runes (TrimSuffix line [10]) = [60] ++ List.replicate k 61 ++ [62] ++ runes t ∧
      ((k + 2 < (TrimSuffix line [10]).length) ↔ runes t ≠ []) := by
  refine ⟨parseHeaderLine_no_panic line, ?_⟩
  intro k t h
  constructor
  · rw [h, show [60] ++ List.replicate k 61 ++ [62] ++ t
        = 60 :: (List.replicate k 61 ++ 62 :: t) by simp,
      runes_cons_of_lt _ _ (by decide), runes_replicate_append,
      runes_cons_of_lt _ _ (by decide)]
    simp
  · rw [h]
    simp only [List.length_append, List.length_singleton, List.length_replicate]
    cases t with
    | nil =>
      simp only [List.length_nil, show runes [] = [] from rfl, ne_eq, not_true_eq_false,
        iff_false]
      omega
    | cons c t1 =>
      simp only [List.length_cons]
      exact ⟨fun _ => runes_cons_ne_nil c t1, fun _ => by omega⟩

end Hrx
